import Mathlib

/-!
# Multi-segment motion-blur BVH builder

A shallow embedding of `kernels/builders/bvh_builder_msmblur.h`:
`SharedVector`, `LocalChildListT`, and the `BuilderT` member functions
`find`, `partition`, `findFallback`, `splitFallback`, `deterministic_order`,
`createLargeLeaf`, `recurse`, `operator()` and the entry point `build`.

Conventions of the embedding.

* `size_t` values are natural numbers; arithmetic that can wrap is reduced
  modulo `2^64` with `wrap`.
* A pointer to a backing buffer (`mvector<PrimRefMB>*`) is an index into the
  heap, a list of buffers. `delete` does not erase a buffer, it is logged as
  an event, so that every deallocation stays observable.
* `float` is an abstract carrier `T.F`; its operations and comparisons are
  fields of the environment `Env`, so nothing is assumed about rounding,
  infinities or NaN.
* Everything that lives in headers outside this file (the binning heuristics,
  the cost functions of `PrimInfoMB`, the comparison of `PrimRefMB`,
  `getTimeSegmentRange`, the user callbacks) is a field of `Env`.
* Calls of the user callbacks and deallocations are recorded, in program
  order, in the `trace` of the machine state.
* Recursion is bounded by a fuel argument; running out of fuel is reported as
  `Error.outOfFuel` and never mistaken for a result.
-/

namespace MSMBlur

/-- Wrap-around of unsigned 64-bit `size_t` arithmetic. -/
def wrap (n : Nat) : Nat := n % 18446744073709551616

/-- Carrier types owned by external collaborators: `F` for `float`, `L` for
`LBBox3fa`, `G` for the centroid/geometry bounds cached in `PrimInfoMB`,
`N` for `NodeTy`, `M` for the bin position and bin mapping of a `BinSplit`. -/
structure Sig where
  F : Type
  L : Type
  G : Type
  N : Type
  M : Type

/-- Counterpart of `range<T>`: the half-open interval `[_begin, _end)`. -/
structure range (α : Type) where
  _begin : α
  _end : α

/-- Counterpart of `range<int>::size()`. -/
def range.isize (r : range Int) : Int := r._end - r._begin

/-- Counterpart of `BBox1f`, a time interval. -/
structure BBox1f (T : Sig) where
  lower : T.F
  upper : T.F

/-- Counterpart of `PrimRefMB`, with the fields of the constructor call in
`RecalculatePrimRef::operator()`. -/
structure PrimRefMB (T : Sig) where
  lbounds : T.L
  activeTimeSegments : Nat
  totalTimeSegments : Nat
  geomID : Nat
  primID : Nat

/-- Modelled from the spec: `PrimInfoMB` (declared in a header outside this
file) is the cached aggregate info of a set; `num` is the primitive count
returned by `size()`, `geom` stands for the cached bounds. -/
structure PrimInfoMB (T : Sig) where
  geom : T.G
  num : Nat
  max_num_time_segments : Nat

/-- Counterpart of `SetMB`: aggregate info (base class), pointer to the
backing buffer, object range and time range. -/
structure SetMB (T : Sig) where
  pinfo : PrimInfoMB T
  prims : Nat
  object_range : range Nat
  time_range : BBox1f T

/-- Counterpart of `SetMB::size()`, inherited from `PrimInfoMB`. -/
def SetMB.size {T : Sig} (s : SetMB T) : Nat := s.pinfo.num

/-- Modelled from the spec: tag of an object split in `BinSplit::data`. -/
def SPLIT_OBJECT : Nat := 0

/-- Modelled from the spec: tag of a fallback split in `BinSplit::data`. -/
def SPLIT_FALLBACK : Nat := 1

/-- Modelled from the spec: tag of a temporal split in `BinSplit::data`. -/
def SPLIT_TEMPORAL : Nat := 2

/-- Counterpart of `BinSplit<NUM_OBJECT_BINS>`. -/
structure Split (T : Sig) where
  sah : T.F
  data : Nat
  dim : Int
  fpos : T.F
  mapping : T.M

/-- Counterpart of `BinSplit::splitSAH()`. -/
def Split.splitSAH {T : Sig} (s : Split T) : T.F := s.sah

/-- Counterpart of `BVHMBuilderMSMBlur::Settings`. -/
structure Settings (T : Sig) where
  branchingFactor : Nat
  maxDepth : Nat
  logBlockSize : Nat
  minLeafSize : Nat
  maxLeafSize : Nat
  travCost : T.F
  intCost : T.F
  singleLeafTimeSegment : Bool
  singleThreadThreshold : Nat

/-- Counterpart of `BVHMBuilderMSMBlur::BuildRecord`. -/
structure BuildRecord (T : Sig) where
  depth : Nat
  prims : SetMB T
  split : Split T

/-- Counterpart of `BuildRecord::size()`. -/
def BuildRecord.size {T : Sig} (r : BuildRecord T) : Nat := r.prims.size

/-- The heap: backing buffers indexed by pointer. -/
abbrev Heap (T : Sig) := List (List (PrimRefMB T))

/-- Dereference of a buffer pointer. -/
def Heap.read {T : Sig} (h : Heap T) (p : Nat) : List (PrimRefMB T) := h.getD p []

/-- Overwrite of the buffer behind a pointer. -/
def Heap.write {T : Sig} (h : Heap T) (p : Nat) (buf : List (PrimRefMB T)) : Heap T :=
  h.set p buf

/-- An allocation context; `none` is `nullptr`. -/
abbrev Alloc := Option Nat

/-- Counterpart of `std::tuple<NodeTy,LBBox3fa,BBox1f>`. -/
abbrev Value (T : Sig) := T.N × T.L × BBox1f T

/-- Observable steps of a build, in program order. -/
inductive Event (T : Sig) where
  | objectFind (set : SetMB T)
  | temporalFind (set : SetMB T)
  | progressMonitor (n : Nat)
  | createAlloc (alloc : Nat)
  | createNode (hasTimeSplits : Bool) (alloc : Alloc) (node : T.N)
  | updateNode (node : T.N) (i : Nat) (value : Value T)
  | createLeaf (current : BuildRecord T) (alloc : Alloc) (heap : Heap T)
  | delete (prims : Nat)

/-- Fatal outcomes. The first two are the `throw_RTCError` calls of the file;
`outOfBounds` is a write past a fixed-capacity array of `LocalChildListT`;
`outOfFuel` belongs to the embedding only. -/
inductive Error where
  | branchingFactorTooLarge
  | depthLimitReached
  | outOfBounds
  | outOfFuel
  deriving DecidableEq, Repr

/-- Machine state threaded through the builder. -/
structure State (T : Sig) where
  heap : Heap T
  trace : List (Event T)
  numAllocs : Nat

/-- Append one event to the trace. -/
def State.emit {T : Sig} (st : State T) (e : Event T) : State T :=
  { st with trace := st.trace ++ [e] }

/-- Append several events to the trace. -/
def State.emits {T : Sig} (st : State T) (es : List (Event T)) : State T :=
  { st with trace := st.trace ++ es }

/-- External collaborators of the builder. Comparisons return the truth value
of the C++ expression; `flt a b` is `a < b` and `fle a b` is `a <= b`. -/
structure Env (T : Sig) where
  flt : T.F → T.F → Bool
  fle : T.F → T.F → Bool
  fadd : T.F → T.F → T.F
  fmul : T.F → T.F → T.F
  fdiv : T.F → T.F → T.F
  ofNat : Nat → T.F
  ofInt : Int → T.F
  zero : T.F
  one : T.F
  c1_01 : T.F
  inf : T.F
  neg_inf : T.F
  timeRangeSize : BBox1f T → T.F
  timeRangeNe : BBox1f T → BBox1f T → Bool
  primLess : PrimRefMB T → PrimRefMB T → Bool
  getTimeSegmentRange : BBox1f T → Nat → range Int
  emptyGeom : T.G
  extendGeom : T.G → PrimRefMB T → T.G
  leafSAH : SetMB T → Nat → T.F
  halfArea : SetMB T → T.F
  expectedApproxHalfArea : T.G → T.F
  emptyL : T.L
  extendL : T.L → T.L → T.L
  emptyT : BBox1f T
  linearBounds : Heap T → SetMB T → T.L
  noMapping : T.M
  objectFind : Heap T → SetMB T → Nat → Split T
  temporalFind : Heap T → SetMB T → Nat → Split T
  objectSplit : Heap T → Split T → SetMB T → Heap T × SetMB T × SetMB T
  temporalSplit : Heap T → Split T → SetMB T → Heap T × SetMB T × SetMB T × Option Nat
  createNode : Bool → Alloc → T.N
  createLeaf : Heap T → BuildRecord T → Alloc → Value T

/-- Counterpart of the default constructor `BinSplit()`: an invalid split. -/
def Split.invalid {T : Sig} (env : Env T) : Split T :=
  { sah := env.inf, data := 0, dim := -1, fpos := env.zero, mapping := env.noMapping }

/-- Counterpart of `BinSplit(float sah, unsigned data, int dim = 0, float fpos = 0)`. -/
def Split.ofData {T : Sig} (env : Env T) (sah : T.F) (data : Nat) (dim : Int) (fpos : T.F) :
    Split T :=
  { sah := sah, data := data, dim := dim, fpos := fpos, mapping := env.noMapping }

/-- Counterpart of `BuildRecord(size_t depth)`: the split is default
constructed, the set is filled in by `partition`. -/
def BuildRecord.ofDepth {T : Sig} (env : Env T) (depth : Nat) (prims : SetMB T) :
    BuildRecord T :=
  { depth := depth, prims := prims, split := Split.invalid env }

/-! ## SharedVector -/

/-- Counterpart of `SharedVector<mvector<PrimRefMB>>`. -/
structure SharedVector where
  prims : Nat
  refCount : Nat
  deriving DecidableEq, Repr

/-- Counterpart of `SharedVector::incRef`. -/
def SharedVector.incRef (v : SharedVector) : SharedVector :=
  { v with refCount := wrap (v.refCount + 1) }

/-- Counterpart of `SharedVector::decRef`: the count is pre-decremented; the
second component tells whether `delete prims` was executed. -/
def SharedVector.decRef (v : SharedVector) : SharedVector × Bool :=
  let refCount := wrap (18446744073709551615 + v.refCount)
  ({ v with refCount := refCount }, refCount == 0)

/-! ## LocalChildListT -/

/-- Counterpart of the template argument of `LocalChildList`. -/
def MAX_BRANCHING_FACTOR : Nat := 8

/-- Counterpart of `LocalChildListT<BuildRecord,MAX_BRANCHING_FACTOR>`.
`children` holds the slots `0 .. numChildren-1`, `primvecs` the handle each
slot points to (a pointer into `sharedPrimVecs` is the index of the handle),
`sharedPrimVecs` the handles `0 .. numSharedPrimVecs-1`. -/
structure LocalChildListT (T : Sig) where
  children : List (BuildRecord T)
  primvecs : List Nat
  sharedPrimVecs : List SharedVector
  depth : Nat

/-- Counterpart of the constructor `LocalChildListT(BuildRecord& record)`. -/
def LocalChildListT.new {T : Sig} (record : BuildRecord T) : LocalChildListT T :=
  { children := [record]
    primvecs := [0]
    sharedPrimVecs := [{ prims := record.prims.prims, refCount := 2 }]
    depth := record.depth }

/-- Counterpart of `LocalChildListT::size()`. -/
def LocalChildListT.size {T : Sig} (c : LocalChildListT T) : Nat := c.children.length

/-- Apply `incRef` to the handle with index `k`. -/
def incRefAt (shared : List SharedVector) (k : Nat) : List SharedVector :=
  match shared[k]? with
  | none => shared
  | some v => shared.set k v.incRef

/-- Apply `decRef` to the handle with index `k`; the second component lists
the buffer deleted by the call, if any. -/
def decRefAt (shared : List SharedVector) (k : Nat) : List SharedVector × List Nat :=
  match shared[k]? with
  | none => (shared, [])
  | some v => (shared.set k v.decRef.1, if v.decRef.2 then [v.prims] else [])

/-- One of the two registrations of `LocalChildListT::split`: a child whose
buffer pointer equals the one of the handle `b` reuses that handle and
increments it, any other child gets the next free handle with count 1.
Returns the handle of the child and the new handle table; `none` is a write
past the `2*MAX_BRANCHING_FACTOR` handles. -/
def registerChild (shared : List SharedVector) (b : Nat) (bprims : Nat) (ptr : Nat) :
    Option (Nat × List SharedVector) :=
  if ptr = bprims then
    some (b, incRefAt shared b)
  else if shared.length < 2 * MAX_BRANCHING_FACTOR then
    some (shared.length, shared ++ [{ prims := ptr, refCount := 1 }])
  else
    none

/-- Counterpart of `LocalChildListT::split`. The result carries the buffers
deleted by the final `decRef`. `none` stands for an access outside the
fixed-capacity arrays (undefined behaviour in the source). The `unique_ptr`
argument is only released, ownership stays with the installed handle. -/
def LocalChildListT.split {T : Sig} (c : LocalChildListT T) (bestChild : Nat)
    (lrecord rrecord : BuildRecord T) (_new_vector : Option Nat) :
    Option (LocalChildListT T × List Nat) :=
  if bestChild < c.children.length ∧ c.children.length < MAX_BRANCHING_FACTOR then
    match c.primvecs[bestChild]? with
    | none => none
    | some b =>
      match c.sharedPrimVecs[b]? with
      | none => none
      | some bsharedPrimVec =>
        match registerChild c.sharedPrimVecs b bsharedPrimVec.prims lrecord.prims.prims with
        | none => none
        | some (pl, shared1) =>
          match registerChild shared1 b bsharedPrimVec.prims rrecord.prims.prims with
          | none => none
          | some (pr, shared2) =>
            some ({ children := c.children.set bestChild lrecord ++ [rrecord]
                    primvecs := c.primvecs.set bestChild pl ++ [pr]
                    sharedPrimVecs := (decRefAt shared2 b).1
                    depth := c.depth },
                  (decRefAt shared2 b).2)
  else
    none

/-- The loop of the destructor over a list of slots: one `decRef` per slot. -/
def destroyLoop : List Nat → List SharedVector → List Nat → List SharedVector × List Nat
  | [], shared, deleted => (shared, deleted)
  | k :: ks, shared, deleted =>
    destroyLoop ks (decRefAt shared k).1 (deleted ++ (decRefAt shared k).2)

/-- Counterpart of the destructor of `LocalChildListT`: returns the handle table after
the loop and the buffers deleted, in order. -/
def LocalChildListT.destroy {T : Sig} (c : LocalChildListT T) : List SharedVector × List Nat :=
  destroyLoop c.primvecs c.sharedPrimVecs []

/-! ## BuilderT: construction, split finding, partitioning -/

/-- Counterpart of `BuilderT::MIN_LARGE_LEAF_LEVELS`. -/
def MIN_LARGE_LEAF_LEVELS : Nat := 8

/-- Counterpart of the constructor of `BuilderT`: the settings are copied and the
branching factor is checked. -/
def BuilderT.new {T : Sig} (settings : Settings T) : Except Error (Settings T) :=
  if settings.branchingFactor > MAX_BRANCHING_FACTOR then
    .error .branchingFactorTooLarge
  else
    .ok settings

/-- The test `set.time_range.size() > 1.01f/float(set.max_num_time_segments)`
of `find`. -/
def timeRangeBigEnough {T : Sig} (env : Env T) (set : SetMB T) : Bool :=
  env.flt (env.fdiv env.c1_01 (env.ofNat set.pinfo.max_num_time_segments))
    (env.timeRangeSize set.time_range)

/-- Counterpart of `BuilderT::find(SetMB&, size_t)`. The second component
lists the heuristics that were consulted, in order. -/
def find {T : Sig} (env : Env T) (heap : Heap T) (set : SetMB T) (logBlockSize : Nat) :
    Split T × List (Event T) :=
  let object_split := env.objectFind heap set logBlockSize
  let object_split_sah := object_split.splitSAH
  if timeRangeBigEnough env set then
    let temporal_split := env.temporalFind heap set logBlockSize
    let temporal_split_sah := temporal_split.splitSAH
    if env.flt temporal_split_sah object_split_sah then
      (temporal_split, [.objectFind set, .temporalFind set])
    else
      (object_split, [.objectFind set, .temporalFind set])
  else
    (object_split, [.objectFind set])

/-- The loop of `findFallback` over the indices `i, i+1, .., i+n-1` of the
buffer: the split of the first primitive with more than one local time
segment, if there is one. An index outside the buffer is skipped. -/
def findFallbackScan {T : Sig} (env : Env T) (time_range : BBox1f T)
    (prims : List (PrimRefMB T)) : Nat → Nat → Option (Split T)
  | _, 0 => none
  | i, n + 1 =>
    match prims[i]? with
    | none => findFallbackScan env time_range prims (i + 1) n
    | some prim =>
      let itime_range := env.getTimeSegmentRange time_range prim.totalTimeSegments
      let localTimeSegments := itime_range.isize
      if localTimeSegments > 1 then
        let icenter := (itime_range._begin + itime_range._end).tdiv 2
        let splitTime := env.fdiv (env.ofInt icenter) (env.ofNat prim.totalTimeSegments)
        some (Split.ofData env env.one SPLIT_TEMPORAL 0 splitTime)
      else
        findFallbackScan env time_range prims (i + 1) n

/-- Counterpart of `BuilderT::findFallback`. -/
def findFallback {T : Sig} (env : Env T) (s : Settings T) (heap : Heap T)
    (current : BuildRecord T) : Split T :=
  if s.singleLeafTimeSegment then
    match findFallbackScan env current.prims.time_range (heap.read current.prims.prims)
        current.prims.object_range._begin
        (current.prims.object_range._end - current.prims.object_range._begin) with
    | some split => split
    | none => Split.ofData env env.one SPLIT_FALLBACK 0 env.zero
  else
    Split.ofData env env.one SPLIT_FALLBACK 0 env.zero

/-- Modelled from the spec: the value `empty` of `PrimInfoMB`, the aggregate
info of no primitive. -/
def PrimInfoMB.empty {T : Sig} (env : Env T) : PrimInfoMB T :=
  { geom := env.emptyGeom, num := 0, max_num_time_segments := 0 }

/-- Modelled from the spec: `PrimInfoMB::add_primref` adds the contribution
of one primitive to the aggregate info, so the count grows by one. -/
def PrimInfoMB.add_primref {T : Sig} (env : Env T) (info : PrimInfoMB T) (prim : PrimRefMB T) :
    PrimInfoMB T :=
  { geom := env.extendGeom info.geom prim
    num := wrap (info.num + 1)
    max_num_time_segments := max info.max_num_time_segments prim.totalTimeSegments }

/-- The loops of `splitFallback`: `add_primref` for the indices
`i, i+1, .., i+n-1` of the buffer. -/
def addPrimrefs {T : Sig} (env : Env T) (prims : List (PrimRefMB T)) :
    Nat → Nat → PrimInfoMB T → PrimInfoMB T
  | _, 0, info => info
  | i, n + 1, info =>
    match prims[i]? with
    | none => addPrimrefs env prims (i + 1) n info
    | some prim => addPrimrefs env prims (i + 1) n (info.add_primref env prim)

/-- Counterpart of `BuilderT::splitFallback`: returns `(lset, rset)`. -/
def splitFallback {T : Sig} (env : Env T) (heap : Heap T) (set : SetMB T) : SetMB T × SetMB T :=
  let prims := heap.read set.prims
  let begin := set.object_range._begin
  let end_ := set.object_range._end
  let center := wrap (begin + end_) / 2
  let linfo := addPrimrefs env prims begin (center - begin) (PrimInfoMB.empty env)
  let rinfo := addPrimrefs env prims center (end_ - center) (PrimInfoMB.empty env)
  ({ pinfo := linfo, prims := set.prims, object_range := ⟨begin, center⟩,
     time_range := set.time_range },
   { pinfo := rinfo, prims := set.prims, object_range := ⟨center, end_⟩,
     time_range := set.time_range })

/-- The order `a <= b` derived from `operator<` of `PrimRefMB`: `b < a` is false. -/
def primLe {T : Sig} (env : Env T) (a b : PrimRefMB T) : Prop := env.primLess b a = false

instance {T : Sig} (env : Env T) : DecidableRel (primLe env) :=
  fun a b => inferInstanceAs (Decidable (env.primLess b a = false))

/-- Counterpart of `BuilderT::deterministic_order`: `std::sort` of the object
range of the backing buffer by `operator<`; the rest of the buffer is
untouched. The order `std::sort` leaves among primitives that compare
equivalent is unspecified; the embedding fixes the one of insertion sort. -/
def deterministic_order {T : Sig} (env : Env T) (heap : Heap T) (set : SetMB T) : Heap T :=
  let prims := heap.read set.prims
  let begin := set.object_range._begin
  let end_ := set.object_range._end
  heap.write set.prims
    (prims.take begin ++ ((prims.drop begin).take (end_ - begin)).insertionSort (primLe env)
      ++ prims.drop end_)

/-- Counterpart of `BuilderT::partition`: returns the heap after the
partitioning, `lrecord.prims`, `rrecord.prims` and the new backing buffer
(`none` is `nullptr`). -/
def partition {T : Sig} (env : Env T) (heap : Heap T) (brecord : BuildRecord T) :
    Heap T × SetMB T × SetMB T × Option Nat :=
  if brecord.split.data = SPLIT_FALLBACK then
    let heap1 := deterministic_order env heap brecord.prims
    (heap1, (splitFallback env heap1 brecord.prims).1, (splitFallback env heap1 brecord.prims).2,
      none)
  else if brecord.split.data = SPLIT_TEMPORAL then
    env.temporalSplit heap brecord.split brecord.prims
  else
    ((env.objectSplit heap brecord.split brecord.prims).1,
     (env.objectSplit heap brecord.split brecord.prims).2.1,
     (env.objectSplit heap brecord.split brecord.prims).2.2, none)

/-! ## BuilderT: the two drivers -/

/-- Result of a driver call: the returned tuple or the exception thrown. -/
abbrev Result (T : Sig) := Except Error (Value T)

/-- The leaf test of `createLargeLeaf`, used for the record itself and for
the children that are skipped by the search for the best child. -/
def isLargeLeaf {T : Sig} (s : Settings T) (r : BuildRecord T) : Bool :=
  decide (r.prims.size ≤ s.maxLeafSize) && r.split.data != SPLIT_TEMPORAL

/-- The search loop of `createLargeLeaf` over the children `i, i+1, ..`:
`bestChild` is `none` for the initial value `-1`. -/
def largeLeafBest {T : Sig} (s : Settings T) :
    List (BuildRecord T) → Nat → Option Nat → Nat → Option Nat
  | [], _, bestChild, _ => bestChild
  | c :: cs, i, bestChild, bestSize =>
    if isLargeLeaf s c then
      largeLeafBest s cs (i + 1) bestChild bestSize
    else if c.prims.size > bestSize then
      largeLeafBest s cs (i + 1) (some i) c.prims.size
    else
      largeLeafBest s cs (i + 1) bestChild bestSize

/-- The `do .. while (children.size() < branchingFactor)` loop of
`createLargeLeaf`. The first argument bounds the number of iterations. -/
def largeLeafGrow {T : Sig} (env : Env T) (s : Settings T) (depth : Nat) :
    Nat → LocalChildListT T → State T → Except Error (LocalChildListT T) × State T
  | 0, _, st => (.error .outOfFuel, st)
  | n + 1, children, st =>
    match largeLeafBest s children.children 0 none 0 with
    | none => (.ok children, st)
    | some bestChild =>
      match children.children[bestChild]? with
      | none => (.error .outOfBounds, st)
      | some brecord =>
        let parts := partition env st.heap brecord
        let heap1 := parts.1
        let lrecord0 := BuildRecord.ofDepth env (wrap (depth + 1)) parts.2.1
        let rrecord0 := BuildRecord.ofDepth env (wrap (depth + 1)) parts.2.2.1
        let lrecord := { lrecord0 with split := findFallback env s heap1 lrecord0 }
        let rrecord := { rrecord0 with split := findFallback env s heap1 rrecord0 }
        match children.split bestChild lrecord rrecord parts.2.2.2 with
        | none => (.error .outOfBounds, { st with heap := heap1 })
        | some (children1, deleted) =>
          let st1 := ({ st with heap := heap1 } : State T).emits (deleted.map Event.delete)
          if children1.size < s.branchingFactor then
            largeLeafGrow env s depth n children1 st1
          else
            (.ok children1, st1)

/-- The loop over the children of a node: call the driver `f` on each child
in the given order and pass its result to `updateNode`. Returns the results
in the order of the calls; an exception ends the loop. -/
def visitChildren {T : Sig} (f : BuildRecord T → State T → Result T × State T) (node : T.N) :
    List (Nat × BuildRecord T) → State T → Except Error (List (Value T)) × State T
  | [], st => (.ok [], st)
  | (i, c) :: rest, st =>
    match f c st with
    | (.error e, st1) => (.error e, st1)
    | (.ok v, st1) =>
      match visitChildren f node rest (st1.emit (.updateNode node i v)) with
      | (.error e, st2) => (.error e, st2)
      | (.ok vs, st2) => (.ok (v :: vs), st2)

/-- The check `current.prims.time_range != children[i].prims.time_range` for
some child. -/
def hasTimeSplits {T : Sig} (env : Env T) (current : BuildRecord T)
    (children : LocalChildListT T) : Bool :=
  children.children.any (fun c => env.timeRangeNe current.prims.time_range c.prims.time_range)

/-- The geometry and time bounds returned for an inner node; `values` are the
results of the children in index order. -/
def nodeBounds {T : Sig} (env : Env T) (heap : Heap T) (current : BuildRecord T)
    (timeSplits : Bool) (values : List (Value T)) : T.L × BBox1f T :=
  if !timeSplits then
    (values.foldl (fun gbounds v => env.extendL gbounds v.2.1) env.emptyL,
     match values with
     | v :: _ => v.2.2
     | [] => env.emptyT)
  else
    (env.linearBounds heap current.prims, current.prims.time_range)

/-- The end of both drivers: the bounds of the node are assembled from the
results of the children, then the destructor of the child list runs; it also
runs when an exception passes through. -/
def finishNode {T : Sig} (env : Env T) (current : BuildRecord T) (children : LocalChildListT T)
    (timeSplits : Bool) (node : T.N)
    (r : Except Error (List (Value T)) × State T) : Result T × State T :=
  let st := r.2.emits (children.destroy.2.map Event.delete)
  match r.1 with
  | .error e => (.error e, st)
  | .ok values =>
    (.ok (node, (nodeBounds env r.2.heap current timeSplits values).1,
          (nodeBounds env r.2.heap current timeSplits values).2), st)

/-- Counterpart of `BuilderT::createLargeLeaf`. -/
def createLargeLeaf {T : Sig} (env : Env T) (s : Settings T) :
    Nat → BuildRecord T → Alloc → State T → Result T × State T
  | 0, _, _, st => (.error .outOfFuel, st)
  | fuel + 1, current0, alloc, st =>
    if current0.depth > s.maxDepth then
      (.error .depthLimitReached, st)
    else
      let current := { current0 with split := findFallback env s st.heap current0 }
      if isLargeLeaf s current then
        (.ok (env.createLeaf st.heap current alloc), st.emit (.createLeaf current alloc st.heap))
      else
        match largeLeafGrow env s current.depth (s.branchingFactor + 1)
            (LocalChildListT.new current) st with
        | (.error e, st1) => (.error e, st1)
        | (.ok children, st1) =>
          let timeSplits := hasTimeSplits env current children
          let node := env.createNode timeSplits alloc
          let st2 := st1.emit (.createNode timeSplits alloc node)
          finishNode env current children timeSplits node
            (visitChildren (fun c st => createLargeLeaf env s fuel c alloc st) node
              children.children.enum st2)

/-- The value `leafSAH` computed by `recurse`. -/
def leafCost {T : Sig} (env : Env T) (s : Settings T) (current : BuildRecord T) : T.F :=
  env.fmul s.intCost (env.leafSAH current.prims s.logBlockSize)

/-- The value `splitSAH` computed by `recurse`. -/
def splitCost {T : Sig} (env : Env T) (s : Settings T) (current : BuildRecord T) : T.F :=
  env.fadd (env.fmul s.travCost (env.halfArea current.prims))
    (env.fmul s.intCost current.split.splitSAH)

/-- The condition of `recurse` under which a leaf is created. -/
def recurseLeafCond {T : Sig} (env : Env T) (s : Settings T) (current : BuildRecord T) : Bool :=
  decide (current.prims.size ≤ s.minLeafSize)
    || decide (wrap (current.depth + MIN_LARGE_LEAF_LEVELS) ≥ s.maxDepth)
    || (decide (current.prims.size ≤ s.maxLeafSize)
          && env.fle (leafCost env s current) (splitCost env s current))

/-- The search loop of `recurse` over the children `i, i+1, ..`: `bestChild`
is `none` for the initial value `-1`. -/
def recurseBest {T : Sig} (env : Env T) (s : Settings T) :
    List (BuildRecord T) → Nat → Option Nat → T.F → Option Nat
  | [], _, bestChild, _ => bestChild
  | c :: cs, i, bestChild, bestSAH =>
    if c.prims.size ≤ s.minLeafSize then
      recurseBest env s cs (i + 1) bestChild bestSAH
    else if env.flt bestSAH (env.expectedApproxHalfArea c.prims.pinfo.geom) then
      recurseBest env s cs (i + 1) (some i) (env.expectedApproxHalfArea c.prims.pinfo.geom)
    else
      recurseBest env s cs (i + 1) bestChild bestSAH

/-- The `do .. while (children.size() < branchingFactor)` loop of `recurse`.
The first argument bounds the number of iterations. -/
def recurseGrow {T : Sig} (env : Env T) (s : Settings T) (depth : Nat) :
    Nat → LocalChildListT T → State T → Except Error (LocalChildListT T) × State T
  | 0, _, st => (.error .outOfFuel, st)
  | n + 1, children, st =>
    match recurseBest env s children.children 0 none env.neg_inf with
    | none => (.ok children, st)
    | some bestChild =>
      match children.children[bestChild]? with
      | none => (.error .outOfBounds, st)
      | some brecord =>
        let parts := partition env st.heap brecord
        let heap1 := parts.1
        let lrecord0 := BuildRecord.ofDepth env (wrap (depth + 1)) parts.2.1
        let rrecord0 := BuildRecord.ofDepth env (wrap (depth + 1)) parts.2.2.1
        let lfind := find env heap1 lrecord0.prims s.logBlockSize
        let rfind := find env heap1 rrecord0.prims s.logBlockSize
        let lrecord := { lrecord0 with split := lfind.1 }
        let rrecord := { rrecord0 with split := rfind.1 }
        let st0 := ({ st with heap := heap1 } : State T).emits (lfind.2 ++ rfind.2)
        match children.split bestChild lrecord rrecord parts.2.2.2 with
        | none => (.error .outOfBounds, st0)
        | some (children1, deleted) =>
          let st1 := st0.emits (deleted.map Event.delete)
          if children1.size < s.branchingFactor then
            recurseGrow env s depth n children1 st1
          else
            (.ok children1, st1)

/-- The start of `recurse`: an allocation context is created when none was
passed, and the progress monitor is called for a top-level record that is not
larger than `singleThreadThreshold`. -/
def recurseEnter {T : Sig} (s : Settings T) (current : BuildRecord T) (alloc : Alloc)
    (toplevel : Bool) (st : State T) : Alloc × State T :=
  let r : Alloc × State T :=
    match alloc with
    | none => (some st.numAllocs,
               ({ st with numAllocs := st.numAllocs + 1 } : State T).emit
                 (.createAlloc st.numAllocs))
    | some a => (some a, st)
  if toplevel && decide (current.size ≤ s.singleThreadThreshold) then
    (r.1, r.2.emit (.progressMonitor current.size))
  else
    r

/-- The leaf path of `recurse`: `deterministic_order`, then `createLargeLeaf`. -/
def recurseLeaf {T : Sig} (env : Env T) (s : Settings T) (fuel : Nat) (current : BuildRecord T)
    (alloc : Alloc) (st : State T) : Result T × State T :=
  createLargeLeaf env s fuel current alloc
    { st with heap := deterministic_order env st.heap current.prims }

/-- The splitting path of `recurse`, with `rec_` the driver used for the
children: the growth loop, the creation of the inner node, the recursion into
the children (through `parallel_for` in index order with a fresh allocation
context and `toplevel = true` above `singleThreadThreshold`, otherwise from
the last child to the first with the current context) and the bounds. -/
def recurseSplit {T : Sig} (env : Env T) (s : Settings T)
    (rec_ : BuildRecord T → Alloc → Bool → State T → Result T × State T)
    (current : BuildRecord T) (alloc : Alloc) (st : State T) : Result T × State T :=
  match recurseGrow env s current.depth (s.branchingFactor + 1) (LocalChildListT.new current)
      st with
  | (.error e, st1) => (.error e, st1)
  | (.ok children, st1) =>
    let timeSplits := hasTimeSplits env current children
    let node := env.createNode timeSplits alloc
    let st2 := st1.emit (.createNode timeSplits alloc node)
    if current.size > s.singleThreadThreshold then
      finishNode env current children timeSplits node
        (visitChildren (fun c st => rec_ c none true st) node children.children.enum st2)
    else
      let r := visitChildren (fun c st => rec_ c alloc false st) node
        children.children.enum.reverse st2
      finishNode env current children timeSplits node (r.1.map List.reverse, r.2)

/-- Counterpart of `BuilderT::recurse`. -/
def recurse {T : Sig} (env : Env T) (s : Settings T) :
    Nat → BuildRecord T → Alloc → Bool → State T → Result T × State T
  | 0, _, _, _, st => (.error .outOfFuel, st)
  | fuel + 1, current, alloc0, toplevel, st0 =>
    if recurseLeafCond env s current then
      recurseLeaf env s fuel current (recurseEnter s current alloc0 toplevel st0).1
        (recurseEnter s current alloc0 toplevel st0).2
    else
      recurseSplit env s (fun c a t st => recurse env s fuel c a t st) current
        (recurseEnter s current alloc0 toplevel st0).1
        (recurseEnter s current alloc0 toplevel st0).2

/-- Counterpart of `BuilderT::operator()`: the builder entry function. -/
def BuilderT.run {T : Sig} (env : Env T) (s : Settings T) (fuel : Nat) (record : BuildRecord T)
    (st : State T) : Result T × State T :=
  let f := find env st.heap record.prims s.logBlockSize
  recurse env s fuel { record with split := f.1 } none true (st.emits f.2)

/-- Counterpart of `BVHMBuilderMSMBlur::build`: the builder is constructed,
then run on the record of all primitives at depth 1 over the time range
`[0, 1]`. The buffer `prims` is the only buffer of the initial heap. -/
def build {T : Sig} (env : Env T) (settings : Settings T) (fuel : Nat)
    (prims : List (PrimRefMB T)) (pinfo : PrimInfoMB T) : Result T × State T :=
  let st : State T := { heap := [prims], trace := [], numAllocs := 0 }
  match BuilderT.new settings with
  | .error e => (.error e, st)
  | .ok s =>
    let set : SetMB T :=
      { pinfo := pinfo, prims := 0, object_range := ⟨0, pinfo.num⟩,
        time_range := ⟨env.zero, env.one⟩ }
    BuilderT.run env s fuel (BuildRecord.ofDepth env 1 set) st

/-! ## Sequences of `split` calls on a child list -/

/-- The buffers tracked by a child list: the pointers of its handles. -/
def LocalChildListT.tracked {T : Sig} (c : LocalChildListT T) : List Nat :=
  c.sharedPrimVecs.map SharedVector.prims

/-- The requirement on the children handed to one `split` call: a child
that does not alias the buffer of the split slot brings a buffer that is
distinct from every buffer tracked so far, the one installed for its sibling
included. -/
def freshSplit {T : Sig} (c : LocalChildListT T) (bestChild : Nat)
    (lrecord rrecord : BuildRecord T) : Bool :=
  match c.primvecs[bestChild]? with
  | none => true
  | some b =>
    match c.sharedPrimVecs[b]? with
    | none => true
    | some bsharedPrimVec =>
      (decide (lrecord.prims.prims = bsharedPrimVec.prims)
        || !c.tracked.contains lrecord.prims.prims)
      && (decide (rrecord.prims.prims = bsharedPrimVec.prims)
        || (!c.tracked.contains rrecord.prims.prims
            && (decide (lrecord.prims.prims = bsharedPrimVec.prims)
                || decide (rrecord.prims.prims ≠ lrecord.prims.prims))))

/-- A sequence of `split` calls, each given by the slot and the two new
children; returns the final list and all buffers deleted on the way. -/
def runSplits {T : Sig} :
    LocalChildListT T → List (Nat × BuildRecord T × BuildRecord T) → List Nat →
      Option (LocalChildListT T × List Nat)
  | c, [], deleted => some (c, deleted)
  | c, (bestChild, lrecord, rrecord) :: ops, deleted =>
    match c.split bestChild lrecord rrecord none with
    | none => none
    | some (c1, d) => runSplits c1 ops (deleted ++ d)

/-- The requirement `freshSplit` for every call of a sequence. -/
def freshSplits {T : Sig} :
    LocalChildListT T → List (Nat × BuildRecord T × BuildRecord T) → Bool
  | _, [] => true
  | c, (bestChild, lrecord, rrecord) :: ops =>
    freshSplit c bestChild lrecord rrecord &&
      match c.split bestChild lrecord rrecord none with
      | none => true
      | some (c1, _) => freshSplits c1 ops

/-- Invariant of a child list together with the buffers it has deleted:
slots and handles are consistent and inside the arrays, every count is the
number of slots pointing to the handle (plus one for handle 0), the handles
track distinct buffers, and the deleted buffers are exactly those of the
handles with count zero, each deleted once. Handle 0 tracks the buffer
`root`. -/
structure Balanced {T : Sig} (c : LocalChildListT T) (deleted : List Nat) (root : Nat) :
    Prop where
  slots : c.primvecs.length = c.children.length
  capacity : c.children.length ≤ 8
  handles : ∀ k ∈ c.primvecs, k < c.sharedPrimVecs.length
  handlesCap : c.sharedPrimVecs.length + 1 ≤ 2 * c.children.length
  counts : ∀ (k : Nat) (v : SharedVector), c.sharedPrimVecs[k]? = some v →
    v.refCount = c.primvecs.count k + (if k = 0 then 1 else 0)
  distinct : (c.sharedPrimVecs.map SharedVector.prims).Nodup
  deletedNodup : deleted.Nodup
  rootHandle : ∃ v : SharedVector, c.sharedPrimVecs[0]? = some v ∧ v.prims = root
  deletedIff : ∀ p, p ∈ deleted ↔
    ∃ (k : Nat) (v : SharedVector), c.sharedPrimVecs[k]? = some v ∧ v.prims = p ∧ v.refCount = 0


/-! ## Observations on traces -/

/-- The records handed to the leaf-creation callback, in order. -/
def leafRecords {T : Sig} : List (Event T) → List (BuildRecord T)
  | [] => []
  | .createLeaf r _ _ :: es => r :: leafRecords es
  | _ :: es => leafRecords es

/-- The records handed to the leaf-creation callback together with the heap
at the time of the call. -/
def leafCalls {T : Sig} : List (Event T) → List (BuildRecord T × Heap T)
  | [] => []
  | .createLeaf r _ h :: es => (r, h) :: leafCalls es
  | _ :: es => leafCalls es

/-- The buffers deleted, in order. -/
def deletedBuffers {T : Sig} : List (Event T) → List Nat
  | [] => []
  | .delete p :: es => p :: deletedBuffers es
  | _ :: es => deletedBuffers es

/-- The condition under which `createLargeLeaf` calls the leaf-creation
callback, stated for the record handed over and the heap at the time of the
call: the split of the record is the one computed by `findFallback` on that
heap, and the record passes the leaf test. -/
def GoodLeaf {T : Sig} (env : Env T) (s : Settings T) (x : BuildRecord T × Heap T) : Prop :=
  x.1.split = findFallback env s x.2 x.1 ∧ isLargeLeaf s x.1 = true

/-- Relation between the trace before and after a piece of the build: every
leaf created in between satisfies `GoodLeaf`. -/
def LeafStep {T : Sig} (env : Env T) (s : Settings T) (t t1 : List (Event T)) : Prop :=
  ∀ x ∈ leafCalls t1, x ∈ leafCalls t ∨ GoodLeaf env s x

/-! ## The growth loops, one iteration at a time -/

/-- Structural invariant of a child list: slots and handles are consistent
and inside the arrays of capacity `MAX_BRANCHING_FACTOR` and
`2*MAX_BRANCHING_FACTOR`. -/
structure InBounds {T : Sig} (c : LocalChildListT T) : Prop where
  slots : c.primvecs.length = c.children.length
  nonempty : 1 ≤ c.children.length
  handles : ∀ k ∈ c.primvecs, k < c.sharedPrimVecs.length
  handlesCap : c.sharedPrimVecs.length + 1 ≤ 2 * c.children.length

/-- The record `lrecord` of one iteration of the growth loop of
`createLargeLeaf` that splits the child `brecord`. -/
def largeLeafLeft {T : Sig} (env : Env T) (s : Settings T) (depth : Nat) (heap : Heap T)
    (brecord : BuildRecord T) : BuildRecord T :=
  { BuildRecord.ofDepth env (wrap (depth + 1)) (partition env heap brecord).2.1 with
    split := findFallback env s (partition env heap brecord).1
      (BuildRecord.ofDepth env (wrap (depth + 1)) (partition env heap brecord).2.1) }

/-- The record `rrecord` of one iteration of the growth loop of
`createLargeLeaf` that splits the child `brecord`. -/
def largeLeafRight {T : Sig} (env : Env T) (s : Settings T) (depth : Nat) (heap : Heap T)
    (brecord : BuildRecord T) : BuildRecord T :=
  { BuildRecord.ofDepth env (wrap (depth + 1)) (partition env heap brecord).2.2.1 with
    split := findFallback env s (partition env heap brecord).1
      (BuildRecord.ofDepth env (wrap (depth + 1)) (partition env heap brecord).2.2.1) }

/-- The record `lrecord` of one iteration of the growth loop of `recurse`
that splits the child `brecord`. -/
def recurseLeft {T : Sig} (env : Env T) (s : Settings T) (depth : Nat) (heap : Heap T)
    (brecord : BuildRecord T) : BuildRecord T :=
  { BuildRecord.ofDepth env (wrap (depth + 1)) (partition env heap brecord).2.1 with
    split := (find env (partition env heap brecord).1 (partition env heap brecord).2.1
      s.logBlockSize).1 }

/-- The record `rrecord` of one iteration of the growth loop of `recurse`
that splits the child `brecord`. -/
def recurseRight {T : Sig} (env : Env T) (s : Settings T) (depth : Nat) (heap : Heap T)
    (brecord : BuildRecord T) : BuildRecord T :=
  { BuildRecord.ofDepth env (wrap (depth + 1)) (partition env heap brecord).2.2.1 with
    split := (find env (partition env heap brecord).1 (partition env heap brecord).2.2.1
      s.logBlockSize).1 }

/-- The heuristics consulted by one iteration of the growth loop of `recurse`
that splits the child `brecord`. -/
def recurseFinds {T : Sig} (env : Env T) (s : Settings T) (heap : Heap T)
    (brecord : BuildRecord T) : List (Event T) :=
  (find env (partition env heap brecord).1 (partition env heap brecord).2.1 s.logBlockSize).2
    ++ (find env (partition env heap brecord).1 (partition env heap brecord).2.2.1
      s.logBlockSize).2

/-- A relation between machine states that is kept by every elementary step
of the drivers: emitting events of the kinds `K`, partitioning a record,
sorting an object range, and creating an allocation context. -/
structure DriverRel {T : Sig} (env : Env T) (K : Event T → Prop)
    (R : State T → State T → Prop) : Prop where
  refl : ∀ st, R st st
  trans : ∀ a b c, R a b → R b c → R a c
  emits : ∀ (st : State T) (es : List (Event T)), (∀ e ∈ es, K e) → R st (st.emits es)
  heapPartition : ∀ (st : State T) (brecord : BuildRecord T),
    R st { st with heap := (partition env st.heap brecord).1 }
  heapSort : ∀ (st : State T) (set : SetMB T),
    R st { st with heap := deterministic_order env st.heap set }
  alloc : ∀ (st : State T), R st { st with numAllocs := st.numAllocs + 1 }

/-- The trace of the second state extends the trace of the first. -/
def TraceExt {T : Sig} (st st1 : State T) : Prop := ∃ es, st1.trace = st.trace ++ es

/-- The events emitted by the growth loops and by the end of a driver: the
calls of the split heuristics and the deletions of buffers. -/
structure GrowKinds {T : Sig} (K : Event T → Prop) : Prop where
  objectFind : ∀ set, K (.objectFind set)
  temporalFind : ∀ set, K (.temporalFind set)
  delete : ∀ p, K (.delete p)

/-- The events emitted by the creation of an inner node. -/
structure NodeKinds {T : Sig} (K : Event T → Prop) : Prop where
  createNode : ∀ f a n, K (.createNode f a n)
  updateNode : ∀ n i v, K (.updateNode n i v)

/-- The arguments of the calls of the progress monitor, in order. -/
def progressCalls {T : Sig} : List (Event T) → List Nat
  | [] => []
  | .progressMonitor n :: es => n :: progressCalls es
  | _ :: es => progressCalls es

/-- The time-split flags and allocation contexts handed to the node-creation
callback, in order. -/
def nodeCalls {T : Sig} : List (Event T) → List (Bool × Alloc)
  | [] => []
  | .createNode f a _ :: es => (f, a) :: nodeCalls es
  | _ :: es => nodeCalls es

/-- Counterpart of the default constructor `Settings()`. -/
def Settings.new {T : Sig} (env : Env T) : Settings T :=
  { branchingFactor := 2, maxDepth := 32, logBlockSize := 0, minLeafSize := 1, maxLeafSize := 8,
    travCost := env.one, intCost := env.one, singleLeafTimeSegment := false,
    singleThreadThreshold := 1024 }

/-- The set of all primitives that `build` hands to the builder. -/
def rootSet {T : Sig} (env : Env T) (pinfo : PrimInfoMB T) : SetMB T :=
  { pinfo := pinfo, prims := 0, object_range := ⟨0, pinfo.num⟩,
    time_range := ⟨env.zero, env.one⟩ }

/-- The record that `BuilderT::operator()` hands to `recurse` in a build: all
primitives at depth 1 with the split found by `find`. -/
def rootRecord {T : Sig} (env : Env T) (s : Settings T) (prims : List (PrimRefMB T))
    (pinfo : PrimInfoMB T) : BuildRecord T :=
  { depth := 1, prims := rootSet env pinfo,
    split := (find env [prims] (rootSet env pinfo) s.logBlockSize).1 }

/-- The primitive references of a set, in buffer order: the object range of
its backing buffer. -/
def SetMB.elems {T : Sig} (heap : Heap T) (set : SetMB T) : List (PrimRefMB T) :=
  ((heap.read set.prims).drop set.object_range._begin).take
    (set.object_range._end - set.object_range._begin)

/-- The invariant of `SetMB` that `recurse` asserts,
`size() == object_range.size()`, together with the object range lying inside
the backing buffer and its end staying below `2^63`, so that `begin + end`
does not wrap around. -/
structure SetMB.WF {T : Sig} (heap : Heap T) (set : SetMB T) : Prop where
  size_eq : set.size = set.object_range._end - set.object_range._begin
  le : set.object_range._begin ≤ set.object_range._end
  bound : set.object_range._end ≤ (heap.read set.prims).length
  small : set.object_range._end < 9223372036854775808

/-- No buffer of the first heap is shorter in the second heap. -/
def Heap.le {T : Sig} (h h1 : Heap T) : Prop := ∀ p, (h.read p).length ≤ (h1.read p).length

/-- What the builder relies on from the external temporal partitioner
(`HeuristicMBlurTemporalSplit::split`): it shortens no buffer, and the two
sets it returns for a set that satisfies the invariant satisfy it again. -/
structure TemporalContract {T : Sig} (env : Env T) : Prop where
  heap : ∀ heap split set, Heap.le heap (env.temporalSplit heap split set).1
  left : ∀ heap split set, SetMB.WF heap set →
    SetMB.WF (env.temporalSplit heap split set).1 (env.temporalSplit heap split set).2.1
  right : ∀ heap split set, SetMB.WF heap set →
    SetMB.WF (env.temporalSplit heap split set).1 (env.temporalSplit heap split set).2.2.1

/-- What the builder relies on from the external object partitioner
(`HeuristicArrayBinningMB::split`): it shortens no buffer, the two sets it
returns for a set that satisfies the invariant satisfy it again, and every
primitive of the set goes to exactly one of them. -/
structure ObjectContract {T : Sig} (env : Env T) : Prop where
  heap : ∀ heap split set, Heap.le heap (env.objectSplit heap split set).1
  left : ∀ heap split set, SetMB.WF heap set →
    SetMB.WF (env.objectSplit heap split set).1 (env.objectSplit heap split set).2.1
  right : ∀ heap split set, SetMB.WF heap set →
    SetMB.WF (env.objectSplit heap split set).1 (env.objectSplit heap split set).2.2
  count : ∀ heap split set, SetMB.WF heap set →
    (env.objectSplit heap split set).2.1.size + (env.objectSplit heap split set).2.2.size
      = set.size

/-- The total number of primitives over the leaves created, counted by the
sizes of the records handed to the leaf-creation callback. -/
def leafTotal {T : Sig} (t : List (Event T)) : Nat :=
  ((leafRecords t).map BuildRecord.size).sum

/-! ## The tree of primitive sets that a build produces -/

/-- What a set holds, without the place where it is stored: the cached
aggregate info, the time range and the primitive references of the object
range in buffer order. -/
structure Content (T : Sig) where
  pinfo : PrimInfoMB T
  time_range : BBox1f T
  prims : List (PrimRefMB T)

/-- The content of a set in a heap. -/
def SetMB.content {T : Sig} (heap : Heap T) (set : SetMB T) : Content T :=
  { pinfo := set.pinfo, time_range := set.time_range, prims := set.elems heap }

/-- The primitive partitioning that a call of a driver produces: a leaf with
the content of its set, or an inner node with the contents of the children
after the growth loop, in index order, and the trees built for the children
that were visited; `stop` stands for a call that raised an error before it
produced a node or a leaf. -/
inductive Tree (T : Sig) where
  | leaf (set : Content T)
  | node (childSets : List (Content T)) (children : List (Tree T))
  | stop

/-- The trees of the children visited by `visitChildren`, in the order of the
calls: `g` gives the tree of a call of the driver `f`, the state is passed on
as `visitChildren` does it. -/
def visitTrees {T : Sig} (f : BuildRecord T → State T → Result T × State T)
    (g : BuildRecord T → State T → Tree T) (node : T.N) :
    List (Nat × BuildRecord T) → State T → List (Tree T)
  | [], _ => []
  | (i, c) :: rest, st =>
    match f c st with
    | (.error _, _) => [g c st]
    | (.ok v, st1) => g c st :: visitTrees f g node rest (st1.emit (.updateNode node i v))

/-- The tree produced by a call of `createLargeLeaf`: the function follows the
driver step by step and records the sets instead of the results. -/
def createLargeLeafTree {T : Sig} (env : Env T) (s : Settings T) :
    Nat → BuildRecord T → Alloc → State T → Tree T
  | 0, _, _, _ => .stop
  | fuel + 1, current0, alloc, st =>
    if current0.depth > s.maxDepth then
      .stop
    else
      let current := { current0 with split := findFallback env s st.heap current0 }
      if isLargeLeaf s current then
        .leaf (current.prims.content st.heap)
      else
        match largeLeafGrow env s current.depth (s.branchingFactor + 1)
            (LocalChildListT.new current) st with
        | (.error _, _) => .stop
        | (.ok children, st1) =>
          let timeSplits := hasTimeSplits env current children
          let node := env.createNode timeSplits alloc
          let st2 := st1.emit (.createNode timeSplits alloc node)
          .node (children.children.map (fun c => c.prims.content st1.heap))
            (visitTrees (fun c st => createLargeLeaf env s fuel c alloc st)
              (fun c st => createLargeLeafTree env s fuel c alloc st) node
              children.children.enum st2)

/-- The tree produced by a call of `recurse`: the function follows the driver
step by step; the trees of the children are listed in index order in both
branches. -/
def recurseTree {T : Sig} (env : Env T) (s : Settings T) :
    Nat → BuildRecord T → Alloc → Bool → State T → Tree T
  | 0, _, _, _, _ => .stop
  | fuel + 1, current, alloc0, toplevel, st0 =>
    let alloc := (recurseEnter s current alloc0 toplevel st0).1
    let st := (recurseEnter s current alloc0 toplevel st0).2
    if recurseLeafCond env s current then
      createLargeLeafTree env s fuel current alloc
        { st with heap := deterministic_order env st.heap current.prims }
    else
      match recurseGrow env s current.depth (s.branchingFactor + 1)
          (LocalChildListT.new current) st with
      | (.error _, _) => .stop
      | (.ok children, st1) =>
        let timeSplits := hasTimeSplits env current children
        let node := env.createNode timeSplits alloc
        let st2 := st1.emit (.createNode timeSplits alloc node)
        if current.size > s.singleThreadThreshold then
          .node (children.children.map (fun c => c.prims.content st1.heap))
            (visitTrees (fun c st => recurse env s fuel c none true st)
              (fun c st => recurseTree env s fuel c none true st) node
              children.children.enum st2)
        else
          .node (children.children.map (fun c => c.prims.content st1.heap))
            (visitTrees (fun c st => recurse env s fuel c alloc false st)
              (fun c st => recurseTree env s fuel c alloc false st) node
              children.children.enum.reverse st2).reverse

/-- The tree produced by `build`. -/
def buildTree {T : Sig} (env : Env T) (settings : Settings T) (fuel : Nat)
    (prims : List (PrimRefMB T)) (pinfo : PrimInfoMB T) : Tree T :=
  match BuilderT.new settings with
  | .error _ => .stop
  | .ok s =>
    recurseTree env s fuel (rootRecord env s prims pinfo) none true
      (({ heap := [prims], trace := [], numAllocs := 0 } : State T).emits
        (find env [prims] (rootSet env pinfo) s.logBlockSize).2)

/-! ## Sets that do not overlap -/

/-- Two sets do not overlap: they lie in different buffers or in disjoint
ranges of one buffer. -/
def Sep {T : Sig} (x y : SetMB T) : Prop :=
  x.prims ≠ y.prims ∨ x.object_range._end ≤ y.object_range._begin ∨
    y.object_range._end ≤ x.object_range._begin

/-- The first set lies inside the range of the second. -/
def Within {T : Sig} (x y : SetMB T) : Prop :=
  x.prims = y.prims ∧ y.object_range._begin ≤ x.object_range._begin ∧
    x.object_range._end ≤ y.object_range._end

/-- A set of an allocated buffer that satisfies the invariant. -/
def Live {T : Sig} (heap : Heap T) (x : SetMB T) : Prop :=
  SetMB.WF heap x ∧ x.prims < heap.length

/-- A change of the heap that is confined to the set `y` and to new buffers:
no buffer is removed or shortened and every set of the old heap that does not
overlap `y` keeps its primitives. -/
def Frame {T : Sig} (h h1 : Heap T) (y : SetMB T) : Prop :=
  h.length ≤ h1.length ∧ Heap.le h h1 ∧
    ∀ x : SetMB T, Live h x → Sep x y → x.elems h1 = x.elems h

/-- The children of a node whose set is `y`, in a heap that had `n` buffers
when the node was entered: each is a live set, inside `y` or in a buffer
allocated since, and no two overlap. -/
def GoodList {T : Sig} (n : Nat) (y : SetMB T) (h : Heap T) (l : List (BuildRecord T)) : Prop :=
  (∀ c ∈ l, Live h c.prims ∧ (Within c.prims y ∨ n ≤ c.prims.prims)) ∧
    l.Pairwise (fun a b => Sep a.prims b.prims)

/-- Two sets with the same content, each in its heap. -/
def SimSet {T : Sig} (h : Heap T) (x : SetMB T) (h1 : Heap T) (x1 : SetMB T) : Prop :=
  x.pinfo = x1.pinfo ∧ x.time_range = x1.time_range ∧ x.elems h = x1.elems h1

/-- Two records with the same depth, split and content, each in its heap. -/
def SimRec {T : Sig} (h : Heap T) (r : BuildRecord T) (h1 : Heap T) (r1 : BuildRecord T) :
    Prop :=
  r.depth = r1.depth ∧ r.split = r1.split ∧ SimSet h r.prims h1 r1.prims

/-! ## The locality contract of the collaborators -/

/-- What the independence of sibling subtrees relies on from the external
collaborators. The cost functions of a set depend on its content only. The
split heuristics return the same split for two sets with the same content.
The object and the temporal partitioner, reached through `partition` with a
split that is not the fallback split, change the heap only inside the set they
partition and in new buffers, return two live sets that do not overlap and
lie inside the partitioned set or in a new buffer, and return sets with the
same contents for two sets with the same content. -/
structure LocalEnv {T : Sig} (env : Env T) : Prop where
  cost : ∀ (x x1 : SetMB T) (lbs : Nat), x.pinfo = x1.pinfo → x.time_range = x1.time_range →
    env.leafSAH x lbs = env.leafSAH x1 lbs ∧ env.halfArea x = env.halfArea x1
  objectFind : ∀ (h : Heap T) (x : SetMB T) (h1 : Heap T) (x1 : SetMB T) (lbs : Nat),
    Live h x → Live h1 x1 → SimSet h x h1 x1 →
    env.objectFind h x lbs = env.objectFind h1 x1 lbs
  temporalFind : ∀ (h : Heap T) (x : SetMB T) (h1 : Heap T) (x1 : SetMB T) (lbs : Nat),
    Live h x → Live h1 x1 → SimSet h x h1 x1 →
    env.temporalFind h x lbs = env.temporalFind h1 x1 lbs
  frame : ∀ (h : Heap T) (b : BuildRecord T), b.split.data ≠ SPLIT_FALLBACK → Live h b.prims →
    Frame h (partition env h b).1 b.prims
  live : ∀ (h : Heap T) (b : BuildRecord T), b.split.data ≠ SPLIT_FALLBACK → Live h b.prims →
    Live (partition env h b).1 (partition env h b).2.1 ∧
    Live (partition env h b).1 (partition env h b).2.2.1
  owned : ∀ (h : Heap T) (b : BuildRecord T), b.split.data ≠ SPLIT_FALLBACK → Live h b.prims →
    (Within (partition env h b).2.1 b.prims ∨ h.length ≤ (partition env h b).2.1.prims) ∧
    (Within (partition env h b).2.2.1 b.prims ∨ h.length ≤ (partition env h b).2.2.1.prims)
  sep : ∀ (h : Heap T) (b : BuildRecord T), b.split.data ≠ SPLIT_FALLBACK → Live h b.prims →
    Sep (partition env h b).2.1 (partition env h b).2.2.1
  sim : ∀ (h : Heap T) (b : BuildRecord T) (h1 : Heap T) (b1 : BuildRecord T),
    b.split.data ≠ SPLIT_FALLBACK → Live h b.prims → Live h1 b1.prims → b.split = b1.split →
    SimSet h b.prims h1 b1.prims →
    SimSet (partition env h b).1 (partition env h b).2.1
      (partition env h1 b1).1 (partition env h1 b1).2.1 ∧
    SimSet (partition env h b).1 (partition env h b).2.2.1
      (partition env h1 b1).1 (partition env h1 b1).2.2.1

/-! ## The partitions performed by a build -/

/-- The calls of `partition` made by the growth loop of `createLargeLeaf`, in
order: the heap at the time of the call and the record partitioned. The
function follows `largeLeafGrow` step by step. -/
def largeLeafGrowLog {T : Sig} (env : Env T) (s : Settings T) (depth : Nat) :
    Nat → LocalChildListT T → State T → List (Heap T × BuildRecord T)
  | 0, _, _ => []
  | n + 1, children, st =>
    match largeLeafBest s children.children 0 none 0 with
    | none => []
    | some bestChild =>
      match children.children[bestChild]? with
      | none => []
      | some brecord =>
        (st.heap, brecord) ::
          match children.split bestChild (largeLeafLeft env s depth st.heap brecord)
              (largeLeafRight env s depth st.heap brecord)
              (partition env st.heap brecord).2.2.2 with
          | none => []
          | some (children1, deleted) =>
            if children1.size < s.branchingFactor then
              largeLeafGrowLog env s depth n children1
                (({ st with heap := (partition env st.heap brecord).1 } : State T).emits
                  (deleted.map Event.delete))
            else
              []

/-- The calls of `partition` made by the growth loop of `recurse`, in order:
the heap at the time of the call and the record partitioned. The function
follows `recurseGrow` step by step. -/
def recurseGrowLog {T : Sig} (env : Env T) (s : Settings T) (depth : Nat) :
    Nat → LocalChildListT T → State T → List (Heap T × BuildRecord T)
  | 0, _, _ => []
  | n + 1, children, st =>
    match recurseBest env s children.children 0 none env.neg_inf with
    | none => []
    | some bestChild =>
      match children.children[bestChild]? with
      | none => []
      | some brecord =>
        (st.heap, brecord) ::
          match children.split bestChild (recurseLeft env s depth st.heap brecord)
              (recurseRight env s depth st.heap brecord)
              (partition env st.heap brecord).2.2.2 with
          | none => []
          | some (children1, deleted) =>
            if children1.size < s.branchingFactor then
              recurseGrowLog env s depth n children1
                ((({ st with heap := (partition env st.heap brecord).1 } : State T).emits
                  (recurseFinds env s st.heap brecord)).emits (deleted.map Event.delete))
            else
              []

/-- The calls of `partition` made during the loop over the children of a
node: `g` lists the calls made by one call of the driver `f`, the state is
passed on as `visitChildren` does it, and an exception ends the loop. -/
def visitLog {T : Sig} (f : BuildRecord T → State T → Result T × State T)
    (g : BuildRecord T → State T → List (Heap T × BuildRecord T)) (node : T.N) :
    List (Nat × BuildRecord T) → State T → List (Heap T × BuildRecord T)
  | [], _ => []
  | (i, c) :: rest, st =>
    g c st ++
      match f c st with
      | (.error _, _) => []
      | (.ok v, st1) => visitLog f g node rest (st1.emit (.updateNode node i v))

/-- The calls of `partition` made by a call of `createLargeLeaf`, in order.
The function follows the driver step by step. -/
def createLargeLeafLog {T : Sig} (env : Env T) (s : Settings T) :
    Nat → BuildRecord T → Alloc → State T → List (Heap T × BuildRecord T)
  | 0, _, _, _ => []
  | fuel + 1, current0, alloc, st =>
    if current0.depth > s.maxDepth then
      []
    else
      let current := { current0 with split := findFallback env s st.heap current0 }
      if isLargeLeaf s current then
        []
      else
        largeLeafGrowLog env s current.depth (s.branchingFactor + 1)
            (LocalChildListT.new current) st ++
          match largeLeafGrow env s current.depth (s.branchingFactor + 1)
              (LocalChildListT.new current) st with
          | (.error _, _) => []
          | (.ok children, st1) =>
            let timeSplits := hasTimeSplits env current children
            let node := env.createNode timeSplits alloc
            let st2 := st1.emit (.createNode timeSplits alloc node)
            visitLog (fun c st => createLargeLeaf env s fuel c alloc st)
              (fun c st => createLargeLeafLog env s fuel c alloc st) node
              children.children.enum st2

/-- The calls of `partition` made by a call of `recurse`, in order. The
function follows the driver step by step, in both branches. -/
def recurseLog {T : Sig} (env : Env T) (s : Settings T) :
    Nat → BuildRecord T → Alloc → Bool → State T → List (Heap T × BuildRecord T)
  | 0, _, _, _, _ => []
  | fuel + 1, current, alloc0, toplevel, st0 =>
    let alloc := (recurseEnter s current alloc0 toplevel st0).1
    let st := (recurseEnter s current alloc0 toplevel st0).2
    if recurseLeafCond env s current then
      createLargeLeafLog env s fuel current alloc
        { st with heap := deterministic_order env st.heap current.prims }
    else
      recurseGrowLog env s current.depth (s.branchingFactor + 1)
          (LocalChildListT.new current) st ++
        match recurseGrow env s current.depth (s.branchingFactor + 1)
            (LocalChildListT.new current) st with
        | (.error _, _) => []
        | (.ok children, st1) =>
          let timeSplits := hasTimeSplits env current children
          let node := env.createNode timeSplits alloc
          let st2 := st1.emit (.createNode timeSplits alloc node)
          if current.size > s.singleThreadThreshold then
            visitLog (fun c st => recurse env s fuel c none true st)
              (fun c st => recurseLog env s fuel c none true st) node
              children.children.enum st2
          else
            visitLog (fun c st => recurse env s fuel c alloc false st)
              (fun c st => recurseLog env s fuel c alloc false st) node
              children.children.enum.reverse st2

/-- The calls of `partition` made by `build`, in order. -/
def buildLog {T : Sig} (env : Env T) (settings : Settings T) (fuel : Nat)
    (prims : List (PrimRefMB T)) (pinfo : PrimInfoMB T) : List (Heap T × BuildRecord T) :=
  match BuilderT.new settings with
  | .error _ => []
  | .ok s =>
    recurseLog env s fuel (rootRecord env s prims pinfo) none true
      (({ heap := [prims], trace := [], numAllocs := 0 } : State T).emits
        (find env [prims] (rootSet env pinfo) s.logBlockSize).2)

/-- The events that a call of `createLargeLeaf` emits: the creation of a
leaf, the creation of a node with a time-split flag in `F`, the update of a
node and the deletion of a buffer. Calls of the split heuristics, of the
progress monitor and the creation of an allocation context are not among
them. -/
def LargeLeafEvent {T : Sig} (F : Bool → Prop) : Event T → Prop
  | .createLeaf _ _ _ => True
  | .createNode f _ _ => F f
  | .updateNode _ _ _ => True
  | .delete _ => True
  | _ => False

/-! ## BezierCurve3D (bezier1i.h) -/

/-- Modelled from the spec: `Vec3fa`, a vector of four lanes (the fourth lane
of a control point carries its radius) with lane-wise addition and
subtraction and multiplication by a scalar. The lanes are exact rationals in
place of `float`. -/
structure Vec3fa where
  x : ℚ
  y : ℚ
  z : ℚ
  w : ℚ
  deriving DecidableEq

/-- Modelled from the spec: `a + b` on `Vec3fa`. -/
def Vec3fa.add (a b : Vec3fa) : Vec3fa :=
  { x := a.x + b.x, y := a.y + b.y, z := a.z + b.z, w := a.w + b.w }

/-- Modelled from the spec: `a - b` on `Vec3fa`. -/
def Vec3fa.sub (a b : Vec3fa) : Vec3fa :=
  { x := a.x - b.x, y := a.y - b.y, z := a.z - b.z, w := a.w - b.w }

/-- Modelled from the spec: `a * f` on `Vec3fa` for a scalar `f`. -/
def Vec3fa.mul (a : Vec3fa) (f : ℚ) : Vec3fa :=
  { x := a.x * f, y := a.y * f, z := a.z * f, w := a.w * f }

/-- Counterpart of `struct BezierCurve3D`: four control points, the parameter
interval `[t0, t1]` and the remaining subdivision depth. `float` is an exact
rational and `int` an exact integer. -/
structure BezierCurve3D where
  v0 : Vec3fa
  v1 : Vec3fa
  v2 : Vec3fa
  v3 : Vec3fa
  t0 : ℚ
  t1 : ℚ
  depth : Int
  deriving DecidableEq

/-- Counterpart of `BezierCurve3D::subdivide`: the pair `(left, right)`
written through the two reference parameters. -/
def BezierCurve3D.subdivide (c : BezierCurve3D) : BezierCurve3D × BezierCurve3D :=
  let p00 := c.v0
  let p01 := c.v1
  let p02 := c.v2
  let p03 := c.v3
  let p10 := (p00.add p01).mul (1 / 2)
  let p11 := (p01.add p02).mul (1 / 2)
  let p12 := (p02.add p03).mul (1 / 2)
  let p20 := (p10.add p11).mul (1 / 2)
  let p21 := (p11.add p12).mul (1 / 2)
  let p30 := (p20.add p21).mul (1 / 2)
  let t01 := (c.t0 + c.t1) * (1 / 2)
  ({ v0 := p00, v1 := p10, v2 := p20, v3 := p30, t0 := c.t0, t1 := t01, depth := c.depth - 1 },
   { v0 := p30, v1 := p21, v2 := p12, v3 := p03, t0 := t01, t1 := c.t1, depth := c.depth - 1 })

/-- Counterpart of `BezierCurve3D::eval(t, point, tangent)`: the pair
`(point, tangent)` written through the two reference parameters. -/
def BezierCurve3D.eval (c : BezierCurve3D) (t : ℚ) : Vec3fa × Vec3fa :=
  let t0 := 1 - t
  let t1 := t
  let p00 := c.v0
  let p01 := c.v1
  let p02 := c.v2
  let p03 := c.v3
  let p10 := (p00.mul t0).add (p01.mul t1)
  let p11 := (p01.mul t0).add (p02.mul t1)
  let p12 := (p02.mul t0).add (p03.mul t1)
  let p20 := (p10.mul t0).add (p11.mul t1)
  let p21 := (p11.mul t0).add (p12.mul t1)
  let p30 := (p20.mul t0).add (p21.mul t1)
  (p30, p21.sub p20)

/-! ## A concrete environment

Fixed-point numbers with three decimals stand for `float`: `1000` is `1.0f`.
Bounds are trivial, a node handle is a number. -/

/-- Carrier types of the concrete environment. -/
abbrev ExSig : Sig := { F := Int, L := Unit, G := Unit, N := Nat, M := Unit }

/-- A concrete environment: primitives are ordered by `primID`, the object
heuristic proposes the index median at cost `size`, the temporal heuristic
proposes the middle of the time range at cost `2 * size`, a temporal split
copies the object range into a new buffer for the left child. -/
def exEnv : Env ExSig where
  flt := fun (a b : Int) => decide (a < b)
  fle := fun (a b : Int) => decide (a ≤ b)
  fadd := fun (a b : Int) => a + b
  fmul := fun (a b : Int) => a * b / 1000
  fdiv := fun (a b : Int) => a * 1000 / b
  ofNat := fun n => 1000 * (n : Int)
  ofInt := fun n => 1000 * n
  zero := (0 : Int)
  one := (1000 : Int)
  c1_01 := (1010 : Int)
  inf := (1000000000 : Int)
  neg_inf := (-1000000000 : Int)
  timeRangeSize := fun r => (r.upper - r.lower : Int)
  timeRangeNe := fun a b => decide ((a.lower : Int) ≠ b.lower) || decide ((a.upper : Int) ≠ b.upper)
  primLess := fun a b => decide (a.primID < b.primID)
  getTimeSegmentRange := fun r n =>
    ⟨((r.lower : Int) * n) / 1000, ((r.upper : Int) * n + 999) / 1000⟩
  emptyGeom := ()
  extendGeom := fun _ _ => ()
  leafSAH := fun set _ => 1000 * (set.pinfo.num : Int)
  halfArea := fun set => 1000 * (set.pinfo.num : Int)
  expectedApproxHalfArea := fun _ => (1000 : Int)
  emptyL := ()
  extendL := fun _ _ => ()
  emptyT := ⟨(0 : Int), (0 : Int)⟩
  linearBounds := fun _ _ => ()
  noMapping := ()
  objectFind := fun _ set _ =>
    { sah := 1000 * (set.pinfo.num : Int), data := SPLIT_OBJECT, dim := 0, fpos := (0 : Int),
      mapping := () }
  temporalFind := fun _ set _ =>
    { sah := 2000 * (set.pinfo.num : Int), data := SPLIT_TEMPORAL, dim := 0,
      fpos := ((set.time_range.lower + set.time_range.upper : Int)) / 2, mapping := () }
  objectSplit := fun heap _ set =>
    let center := (set.object_range._begin + set.object_range._end) / 2
    (heap,
     { set with pinfo := { set.pinfo with num := center - set.object_range._begin },
                object_range := ⟨set.object_range._begin, center⟩ },
     { set with pinfo := { set.pinfo with num := set.object_range._end - center },
                object_range := ⟨center, set.object_range._end⟩ })
  temporalSplit := fun heap split set =>
    let copy := ((heap.getD set.prims []).drop set.object_range._begin).take
      (set.object_range._end - set.object_range._begin)
    (heap ++ [copy],
     { set with prims := heap.length, object_range := ⟨0, copy.length⟩,
                time_range := ⟨set.time_range.lower, split.fpos⟩ },
     { set with time_range := ⟨split.fpos, set.time_range.upper⟩ },
     some heap.length)
  createNode := fun _ _ => 0
  createLeaf := fun _ r _ => (r.prims.pinfo.num, (), r.prims.time_range)

/-- The default settings of `Settings()` in the concrete environment. -/
def exSettings : Settings ExSig :=
  { branchingFactor := 2, maxDepth := 32, logBlockSize := 0, minLeafSize := 1, maxLeafSize := 8,
    travCost := (1000 : Int), intCost := (1000 : Int), singleLeafTimeSegment := false,
    singleThreadThreshold := 1024 }

/-- A primitive of the concrete environment with the given identifier and
number of time segments. -/
def exPrim (primID totalTimeSegments : Nat) : PrimRefMB ExSig :=
  { lbounds := (), activeTimeSegments := totalTimeSegments,
    totalTimeSegments := totalTimeSegments, geomID := 0, primID := primID }

/-- A set of the concrete environment: `n` primitives in the range `[0, n)`
of buffer `0` over the time range `[0, 1]`. -/
def exSet (n : Nat) : SetMB ExSig :=
  { pinfo := { geom := (), num := n, max_num_time_segments := 1 }, prims := 0,
    object_range := ⟨0, n⟩, time_range := ⟨(0 : Int), (1000 : Int)⟩ }

/-- A record of the concrete environment: `n` primitives at the given depth
with an object split of cost `n`. -/
def exRecord (n depth : Nat) : BuildRecord ExSig :=
  { depth := depth, prims := exSet n,
    split := { sah := 1000 * (n : Int), data := SPLIT_OBJECT, dim := 0, fpos := (0 : Int),
               mapping := () } }

/-- A child record of the concrete environment: the range `[b, e)` of the
buffer `buf` at the given depth, with a fallback split. -/
def exChild (buf b e depth : Nat) : BuildRecord ExSig :=
  { depth := depth,
    prims := { pinfo := { geom := (), num := e - b, max_num_time_segments := 1 }, prims := buf,
               object_range := ⟨b, e⟩, time_range := ⟨(0 : Int), (1000 : Int)⟩ },
    split := { sah := (1000 : Int), data := SPLIT_FALLBACK, dim := 0, fpos := (0 : Int),
               mapping := () } }

/-- The child list over four primitives of buffer 0 after one split whose
children both alias buffer 0 (an object or fallback split). -/
def exAliasedList : LocalChildListT ExSig :=
  { children := [exChild 0 0 2 2, exChild 0 2 4 2], primvecs := [0, 0],
    sharedPrimVecs := [{ prims := 0, refCount := 3 }], depth := 1 }

/-- An initial machine state of the concrete environment: one buffer with the
primitives `0 .. n-1`, each with one time segment. -/
def exState (n : Nat) : State ExSig :=
  { heap := [(List.range n).map (fun i => exPrim i 1)], trace := [], numAllocs := 0 }

/-- The default settings with a branching factor of 1. -/
def exSettingsOne : Settings ExSig := { exSettings with branchingFactor := 1 }

/-- The concrete environment over primitives that lie far apart: the bounds
of a set of more than one primitive have half area 10, the bounds of a single
primitive have half area 1, and the leaf cost of a set is its half area times
its number of primitives. -/
def exFarEnv : Env ExSig :=
  { exEnv with
    leafSAH := fun set _ =>
      (if set.pinfo.num ≤ 1 then (1000 : Int) else (10000 : Int)) * (set.pinfo.num : Int)
    halfArea := fun set => if set.pinfo.num ≤ 1 then (1000 : Int) else (10000 : Int) }

/-- A heap of the concrete environment whose only buffer holds the primitives
2, 0, 1, 3. -/
def exShuffled : Heap ExSig := [[exPrim 2 1, exPrim 0 1, exPrim 1 1, exPrim 3 1]]

/-- A heap of the concrete environment whose only buffer holds the primitives
0, 2, 1, 3. -/
def exShuffled2 : Heap ExSig := [[exPrim 0 1, exPrim 2 1, exPrim 1 1, exPrim 3 1]]

/-- The default settings with `singleLeafTimeSegment` set. -/
def exSettingsSegment : Settings ExSig := { exSettings with singleLeafTimeSegment := true }

/-- The default settings with a depth limit of 1 and leaves of at most one
primitive. -/
def exSettingsShallow : Settings ExSig := { exSettings with maxDepth := 1, maxLeafSize := 1 }

/-- The primitives `0 .. n-1` of the concrete environment, each with one time
segment. -/
def exPrims (n : Nat) : List (PrimRefMB ExSig) := (List.range n).map (fun i => exPrim i 1)

/-- The concrete environment over geometry for which the object heuristic
finds no split (the centroids of the primitives coincide): its result has an
infinite cost and is tagged as a fallback split. -/
def exFallbackEnv : Env ExSig :=
  { exEnv with
    objectFind := fun _ _ _ =>
      { sah := exEnv.inf, data := SPLIT_FALLBACK, dim := 0, fpos := (0 : Int), mapping := () } }

/-- The default settings with `minLeafSize = 0`, leaves of at most one
primitive and a branching factor of 3. -/
def exSettingsZero : Settings ExSig :=
  { exSettings with minLeafSize := 0, maxLeafSize := 1, branchingFactor := 3 }

/-- The default settings with leaves of at most one primitive and a branching
factor of 3. -/
def exSettingsThree : Settings ExSig :=
  { exSettings with maxLeafSize := 1, branchingFactor := 3 }

/-! ## The leaf decision of `recurse` -/

/-- C1, as stated, fails: with `maxDepth = 32` a record of 100 primitives at
depth 24 has a remaining depth budget of exactly 8, which is not smaller than
the margin of 8, it is larger than both leaf sizes, and still `recurse` takes
the leaf path. -/
theorem recurse_leaf_margin_counterexample :
    recurseLeafCond exEnv exSettings (exRecord 100 24) = true ∧
    ¬ ((exRecord 100 24).prims.size ≤ exSettings.minLeafSize
        ∨ (exSettings.maxDepth : Int) - ((exRecord 100 24).depth : Int) < 8
        ∨ ((exRecord 100 24).prims.size ≤ exSettings.maxLeafSize
            ∧ exEnv.fle
                (exEnv.fmul exSettings.intCost
                  (exEnv.leafSAH (exRecord 100 24).prims exSettings.logBlockSize))
                (exEnv.fadd
                  (exEnv.fmul exSettings.travCost (exEnv.halfArea (exRecord 100 24).prims))
                  (exEnv.fmul exSettings.intCost (exRecord 100 24).split.splitSAH)) = true)) := by
  decide

/-- C1, amended: `recurse` takes the leaf path (`deterministic_order`, then
`createLargeLeaf`, no split) exactly when the primitive count is at most
`minLeafSize`, or the remaining depth budget `maxDepth - depth` is at most 8,
or the primitive count is at most `maxLeafSize` and
`intCost * leafSAH <= travCost * halfArea + intCost * splitSAH`; in every
other case it takes the splitting path. The depth is assumed small enough for
`depth + 8` not to wrap around. -/
theorem recurse_leaf_path_iff {T : Sig} (env : Env T) (s : Settings T) (fuel : Nat)
    (current : BuildRecord T) (alloc : Alloc) (toplevel : Bool) (st : State T)
    (hdepth : current.depth + 8 < 18446744073709551616) :
    recurse env s (fuel + 1) current alloc toplevel st =
      if current.prims.size ≤ s.minLeafSize
          ∨ (s.maxDepth : Int) - (current.depth : Int) ≤ 8
          ∨ (current.prims.size ≤ s.maxLeafSize
              ∧ env.fle (env.fmul s.intCost (env.leafSAH current.prims s.logBlockSize))
                  (env.fadd (env.fmul s.travCost (env.halfArea current.prims))
                    (env.fmul s.intCost current.split.splitSAH)) = true) then
        recurseLeaf env s fuel current (recurseEnter s current alloc toplevel st).1
          (recurseEnter s current alloc toplevel st).2
      else
        recurseSplit env s (fun c a t st => recurse env s fuel c a t st) current
          (recurseEnter s current alloc toplevel st).1
          (recurseEnter s current alloc toplevel st).2 := by
  have hw : wrap (current.depth + MIN_LARGE_LEAF_LEVELS) = current.depth + 8 := by
    unfold wrap MIN_LARGE_LEAF_LEVELS
    omega
  have hcond : recurseLeafCond env s current = true ↔
      (current.prims.size ≤ s.minLeafSize
          ∨ (s.maxDepth : Int) - (current.depth : Int) ≤ 8
          ∨ (current.prims.size ≤ s.maxLeafSize
              ∧ env.fle (env.fmul s.intCost (env.leafSAH current.prims s.logBlockSize))
                  (env.fadd (env.fmul s.travCost (env.halfArea current.prims))
                    (env.fmul s.intCost current.split.splitSAH)) = true)) := by
    unfold recurseLeafCond leafCost splitCost
    rw [hw]
    simp only [Bool.or_eq_true, Bool.and_eq_true, decide_eq_true_eq, or_assoc]
    constructor
    · rintro (h | h | h)
      · exact Or.inl h
      · exact Or.inr (Or.inl (by omega))
      · exact Or.inr (Or.inr h)
    · rintro (h | h | h)
      · exact Or.inl h
      · exact Or.inr (Or.inl (by omega))
      · exact Or.inr (Or.inr h)
  rw [recurse]
  by_cases hc : recurseLeafCond env s current = true
  · rw [if_pos hc, if_pos (hcond.1 hc)]
  · rw [if_neg hc, if_neg (fun h => hc (hcond.2 h))]

/-- The amended C1 at a concrete input: the record of 100 primitives at depth
24 with `maxDepth = 32` is handed to the leaf path. -/
theorem recurse_leaf_path_iff_witness :
    (exRecord 100 24).depth + 8 < 18446744073709551616 ∧
    recurse exEnv exSettings 1 (exRecord 100 24) none true (exState 0) =
      recurseLeaf exEnv exSettings 0 (exRecord 100 24)
        (recurseEnter exSettings (exRecord 100 24) none true (exState 0)).1
        (recurseEnter exSettings (exRecord 100 24) none true (exState 0)).2 :=
  ⟨by decide,
   (recurse_leaf_path_iff exEnv exSettings 0 (exRecord 100 24) none true (exState 0)
      (by decide)).trans (if_pos (by decide))⟩

/-! ## The split finder -/

/-- C2: `find` returns the temporal candidate exactly when the time range
passes the test `time_range.size() > 1.01f / max_num_time_segments` and the
cost of the temporal candidate is strictly lower than the cost of the object
candidate; otherwise it returns the object candidate, whatever that candidate
is. The temporal heuristic is consulted exactly when the test passes. -/
theorem find_returns_cheaper {T : Sig} (env : Env T) (heap : Heap T) (set : SetMB T)
    (logBlockSize : Nat) :
    (find env heap set logBlockSize).1 =
      (if env.flt (env.fdiv env.c1_01 (env.ofNat set.pinfo.max_num_time_segments))
            (env.timeRangeSize set.time_range) = true
          ∧ env.flt (env.temporalFind heap set logBlockSize).splitSAH
              (env.objectFind heap set logBlockSize).splitSAH = true then
        env.temporalFind heap set logBlockSize
      else
        env.objectFind heap set logBlockSize)
    ∧ (find env heap set logBlockSize).2 =
      (if env.flt (env.fdiv env.c1_01 (env.ofNat set.pinfo.max_num_time_segments))
            (env.timeRangeSize set.time_range) = true then
        [Event.objectFind set, Event.temporalFind set]
      else
        [Event.objectFind set]) := by
  unfold find timeRangeBigEnough
  by_cases h1 : env.flt (env.fdiv env.c1_01 (env.ofNat set.pinfo.max_num_time_segments))
      (env.timeRangeSize set.time_range) = true
  · by_cases h2 : env.flt (env.temporalFind heap set logBlockSize).splitSAH
        (env.objectFind heap set logBlockSize).splitSAH = true
    · simp [h1, h2]
    · simp [h1, h2]
  · simp [h1]

/-! ## Construction -/

/-- C3: the constructor raises the configuration error exactly when
`branchingFactor > 8` and succeeds with the given settings otherwise; in
`build` the error is raised before any build step: the heap is untouched, no
callback has been called, and for a branching factor of at most 8 the build
proceeds to the builder entry function. -/
theorem construction_error_iff {T : Sig} (env : Env T) (settings : Settings T) (fuel : Nat)
    (prims : List (PrimRefMB T)) (pinfo : PrimInfoMB T) :
    BuilderT.new settings =
      (if settings.branchingFactor > 8 then .error .branchingFactorTooLarge else .ok settings)
    ∧ build env settings fuel prims pinfo =
      (if settings.branchingFactor > 8 then
        (.error .branchingFactorTooLarge, { heap := [prims], trace := [], numAllocs := 0 })
      else
        BuilderT.run env settings fuel
          (BuildRecord.ofDepth env 1
            { pinfo := pinfo, prims := 0, object_range := ⟨0, pinfo.num⟩,
              time_range := ⟨env.zero, env.one⟩ })
          { heap := [prims], trace := [], numAllocs := 0 }) := by
  unfold build BuilderT.new MAX_BRANCHING_FACTOR
  by_cases h : settings.branchingFactor > 8
  · simp [h]
  · simp [h]

/-! ## Fallback partitioning -/

/-- Reading back the buffer that was just written. -/
theorem Heap.read_write_length {T : Sig} (h : Heap T) (p : Nat) (buf : List (PrimRefMB T))
    (hlen : buf.length = (h.read p).length) : ((h.write p buf).read p).length = (h.read p).length := by
  unfold Heap.read Heap.write at *
  by_cases hp : p < h.length
  · rw [List.getD_eq_getElem?_getD, List.getElem?_set_self hp]
    exact hlen
  · have h1 : h[p]? = none := List.getElem?_eq_none (by omega)
    have h2 : (h.set p buf)[p]? = none := List.getElem?_eq_none (by simp; omega)
    rw [List.getD_eq_getElem?_getD, List.getD_eq_getElem?_getD, h1, h2]

/-- Sorting the object range keeps the length of the backing buffer. -/
theorem deterministic_order_length {T : Sig} (env : Env T) (heap : Heap T) (set : SetMB T)
    (hle : set.object_range._begin ≤ set.object_range._end)
    (hbound : set.object_range._end ≤ (heap.read set.prims).length) :
    ((deterministic_order env heap set).read set.prims).length = (heap.read set.prims).length := by
  unfold deterministic_order
  apply Heap.read_write_length
  simp only [List.length_append, List.length_take, List.length_drop, List.length_insertionSort]
  omega

/-- The count after the loop of `add_primref` over a range inside the buffer. -/
theorem addPrimrefs_num {T : Sig} (env : Env T) (prims : List (PrimRefMB T)) :
    ∀ (n i : Nat) (info : PrimInfoMB T), i + n ≤ prims.length →
      info.num + n < 18446744073709551616 →
      (addPrimrefs env prims i n info).num = info.num + n := by
  intro n
  induction n with
  | zero => intro i info _ _; simp [addPrimrefs]
  | succ n ih =>
    intro i info hb hlt
    have hi : i < prims.length := by omega
    rw [addPrimrefs, List.getElem?_eq_getElem hi]
    simp only
    rw [ih (i + 1) _ (by omega) (by simp only [PrimInfoMB.add_primref, wrap]; omega)]
    simp only [PrimInfoMB.add_primref, wrap]
    omega

/-- C6: for a record whose split is the fallback split (with the invariant of
`SetMB` that the primitive count is the size of the object range, the range
lying inside the buffer and `begin + end` not wrapping around), `partition`
yields `left = [begin, center)` and `right = [center, end)` with
`center = (begin + end) / 2` in the buffer of the parent, the counts of the
children add up to the count of the parent, both time ranges are the one of
the parent, and no new backing buffer is returned. -/
theorem partition_fallback {T : Sig} (env : Env T) (heap : Heap T) (brecord : BuildRecord T)
    (hsplit : brecord.split.data = SPLIT_FALLBACK)
    (hinv : brecord.prims.size =
      brecord.prims.object_range._end - brecord.prims.object_range._begin)
    (hle : brecord.prims.object_range._begin ≤ brecord.prims.object_range._end)
    (hbound : brecord.prims.object_range._end ≤ (heap.read brecord.prims.prims).length)
    (hwrap : brecord.prims.object_range._begin + brecord.prims.object_range._end
      < 18446744073709551616) :
    (partition env heap brecord).2.1.object_range._begin = brecord.prims.object_range._begin
    ∧ (partition env heap brecord).2.1.object_range._end =
        (brecord.prims.object_range._begin + brecord.prims.object_range._end) / 2
    ∧ (partition env heap brecord).2.2.1.object_range._begin =
        (brecord.prims.object_range._begin + brecord.prims.object_range._end) / 2
    ∧ (partition env heap brecord).2.2.1.object_range._end = brecord.prims.object_range._end
    ∧ (partition env heap brecord).2.1.size + (partition env heap brecord).2.2.1.size =
        brecord.prims.size
    ∧ (partition env heap brecord).2.1.time_range = brecord.prims.time_range
    ∧ (partition env heap brecord).2.2.1.time_range = brecord.prims.time_range
    ∧ (partition env heap brecord).2.1.prims = brecord.prims.prims
    ∧ (partition env heap brecord).2.2.1.prims = brecord.prims.prims
    ∧ (partition env heap brecord).2.2.2 = none := by
  have hlen := deterministic_order_length env heap brecord.prims hle hbound
  have hw : wrap (brecord.prims.object_range._begin + brecord.prims.object_range._end) =
      brecord.prims.object_range._begin + brecord.prims.object_range._end := by
    unfold wrap
    omega
  unfold partition
  rw [if_pos hsplit]
  simp only [splitFallback, hw, SetMB.size, true_and, and_true]
  rw [addPrimrefs_num env _ _ _ _ (by rw [hlen]; omega) (by simp only [PrimInfoMB.empty]; omega),
    addPrimrefs_num env _ _ _ _ (by rw [hlen]; omega) (by simp only [PrimInfoMB.empty]; omega)]
  simp only [PrimInfoMB.empty, SetMB.size] at hinv ⊢
  omega

/-- C6 at a concrete input: five primitives in `[0, 5)` are cut at index 2. -/
theorem partition_fallback_witness :
    (partition exEnv (exState 5).heap
        { exRecord 5 1 with split := findFallback exEnv exSettings (exState 5).heap (exRecord 5 1) }
      ).2.1.size
      + (partition exEnv (exState 5).heap
        { exRecord 5 1 with split := findFallback exEnv exSettings (exState 5).heap (exRecord 5 1) }
      ).2.2.1.size = 5 :=
  (partition_fallback exEnv (exState 5).heap
    { exRecord 5 1 with split := findFallback exEnv exSettings (exState 5).heap (exRecord 5 1) }
    (by decide) (by decide) (by decide) (by decide) (by decide)).2.2.2.2.1

/-! ## The fallback split finder -/

/-- The scan finds nothing when no primitive of the range has more than one
local time segment. -/
theorem findFallbackScan_none {T : Sig} (env : Env T) (time_range : BBox1f T)
    (prims : List (PrimRefMB T)) :
    ∀ (n i : Nat),
      (∀ j prim, i ≤ j → j < i + n → prims[j]? = some prim →
        (env.getTimeSegmentRange time_range prim.totalTimeSegments).isize ≤ 1) →
      findFallbackScan env time_range prims i n = none := by
  intro n
  induction n with
  | zero => intro i _; rfl
  | succ n ih =>
    intro i h
    rw [findFallbackScan]
    cases hp : prims[i]? with
    | none => exact ih (i + 1) (fun j prim h1 h2 h3 => h j prim (by omega) (by omega) h3)
    | some prim =>
      have h1 := h i prim (Nat.le_refl i) (by omega) hp
      simp only
      rw [if_neg (by omega)]
      exact ih (i + 1) (fun j prim h1 h2 h3 => h j prim (by omega) (by omega) h3)

/-- The scan returns the temporal split of the first primitive of the range
that has more than one local time segment. -/
theorem findFallbackScan_first {T : Sig} (env : Env T) (time_range : BBox1f T)
    (prims : List (PrimRefMB T)) (k : Nat) (prim : PrimRefMB T) (hk : prims[k]? = some prim)
    (hmany : 1 < (env.getTimeSegmentRange time_range prim.totalTimeSegments).isize) :
    ∀ (n i : Nat), i ≤ k → k < i + n →
      (∀ j p, i ≤ j → j < k → prims[j]? = some p →
        (env.getTimeSegmentRange time_range p.totalTimeSegments).isize ≤ 1) →
      findFallbackScan env time_range prims i n =
        some (Split.ofData env env.one SPLIT_TEMPORAL 0
          (env.fdiv
            (env.ofInt (((env.getTimeSegmentRange time_range prim.totalTimeSegments)._begin
              + (env.getTimeSegmentRange time_range prim.totalTimeSegments)._end).tdiv 2))
            (env.ofNat prim.totalTimeSegments))) := by
  intro n
  induction n with
  | zero => intro i h1 h2; omega
  | succ n ih =>
    intro i h1 h2 hfirst
    rw [findFallbackScan]
    by_cases hik : i = k
    · subst hik
      rw [hk]
      simp only
      rw [if_pos hmany]
    · have hrec := ih (i + 1) (by omega) (by omega)
        (fun j p h3 h4 h5 => hfirst j p (by omega) h4 h5)
      cases hp : prims[i]? with
      | none => exact hrec
      | some p =>
        have hp1 := hfirst i p (Nat.le_refl i) (by omega) hp
        simp only
        rw [if_neg (by omega)]
        exact hrec

/-- C10: `findFallback` returns the fallback split when
`singleLeafTimeSegment` is off or no primitive of the object range has a
local time-segment range of more than one segment; otherwise it returns the
temporal split of the first such primitive in index order, at the time
`icenter / totalTimeSegments` with `icenter = (begin + end) / 2` the midpoint
of the segment range of that primitive. -/
theorem findFallback_result {T : Sig} (env : Env T) (s : Settings T) (heap : Heap T)
    (current : BuildRecord T) :
    ((s.singleLeafTimeSegment = false
        ∨ ∀ i prim, current.prims.object_range._begin ≤ i → i < current.prims.object_range._end →
            (heap.read current.prims.prims)[i]? = some prim →
            (env.getTimeSegmentRange current.prims.time_range prim.totalTimeSegments).isize ≤ 1) →
      findFallback env s heap current = Split.ofData env env.one SPLIT_FALLBACK 0 env.zero)
    ∧ (∀ i prim, s.singleLeafTimeSegment = true →
        current.prims.object_range._begin ≤ i → i < current.prims.object_range._end →
        (heap.read current.prims.prims)[i]? = some prim →
        1 < (env.getTimeSegmentRange current.prims.time_range prim.totalTimeSegments).isize →
        (∀ j p, current.prims.object_range._begin ≤ j → j < i →
            (heap.read current.prims.prims)[j]? = some p →
            (env.getTimeSegmentRange current.prims.time_range p.totalTimeSegments).isize ≤ 1) →
        findFallback env s heap current =
          Split.ofData env env.one SPLIT_TEMPORAL 0
            (env.fdiv
              (env.ofInt
                (((env.getTimeSegmentRange current.prims.time_range prim.totalTimeSegments)._begin
                  + (env.getTimeSegmentRange current.prims.time_range
                      prim.totalTimeSegments)._end).tdiv 2))
              (env.ofNat prim.totalTimeSegments))) := by
  constructor
  · intro h
    unfold findFallback
    cases hs : s.singleLeafTimeSegment with
    | false => simp
    | true =>
      rcases h with h | h
      · rw [hs] at h; cases h
      · rw [findFallbackScan_none env _ _ _ _
          (fun j prim h1 h2 h3 => h j prim h1 (by omega) h3)]
        simp
  · intro i prim hs h1 h2 hp hmany hfirst
    unfold findFallback
    rw [hs, findFallbackScan_first env _ _ i prim hp hmany _ _ h1 (by omega) hfirst]
    simp

/-! ## Reference counting of the child list -/

/-- Lookup in the handle table after `incRef` of one handle. -/
theorem incRefAt_getElem? (shared : List SharedVector) (k j : Nat) :
    (incRefAt shared k)[j]? =
      if j = k then shared[k]?.map SharedVector.incRef else shared[j]? := by
  unfold incRefAt
  cases h : shared[k]? with
  | none =>
    by_cases hj : j = k
    · subst hj; simp [h]
    · simp [hj]
  | some v =>
    have hk : k < shared.length := by
      by_contra hc
      rw [List.getElem?_eq_none (by omega)] at h
      cases h
    by_cases hj : j = k
    · subst hj; simp [List.getElem?_set_self hk]
    · simp only [hj, if_false]
      exact List.getElem?_set_ne (fun h' => hj h'.symm)

/-- Lookup in the handle table after `decRef` of one handle. -/
theorem decRefAt_getElem? (shared : List SharedVector) (k j : Nat) :
    (decRefAt shared k).1[j]? =
      if j = k then shared[k]?.map (fun v => v.decRef.1) else shared[j]? := by
  unfold decRefAt
  cases h : shared[k]? with
  | none =>
    by_cases hj : j = k
    · subst hj; simp [h]
    · simp [hj]
  | some v =>
    have hk : k < shared.length := by
      by_contra hc
      rw [List.getElem?_eq_none (by omega)] at h
      cases h
    by_cases hj : j = k
    · subst hj; simp [List.getElem?_set_self hk]
    · simp only [hj, if_false]
      exact List.getElem?_set_ne (fun h' => hj h'.symm)

/-- The handle table keeps its length under `incRef`. -/
theorem incRefAt_length (shared : List SharedVector) (k : Nat) :
    (incRefAt shared k).length = shared.length := by
  unfold incRefAt
  cases shared[k]? <;> simp

/-- The handle table keeps its length under `decRef`. -/
theorem decRefAt_length (shared : List SharedVector) (k : Nat) :
    (decRefAt shared k).1.length = shared.length := by
  unfold decRefAt
  cases shared[k]? <;> simp

/-- The effect of `decRef` on a handle whose count is positive. -/
theorem SharedVector.decRef_eq (v : SharedVector) (h1 : 1 ≤ v.refCount)
    (h2 : v.refCount < 18446744073709551616) :
    v.decRef = ({ prims := v.prims, refCount := v.refCount - 1 }, decide (v.refCount = 1)) := by
  have hw : wrap (18446744073709551615 + v.refCount) = v.refCount - 1 := by
    unfold wrap
    omega
  unfold SharedVector.decRef
  rw [hw]
  by_cases h : v.refCount = 1
  · simp [h]
  · have : ¬ (v.refCount - 1 = 0) := by omega
    simp [h, this]

/-- The effect of `incRef` on a handle whose count does not wrap. -/
theorem SharedVector.incRef_eq (v : SharedVector) (h2 : v.refCount + 1 < 18446744073709551616) :
    v.incRef = { prims := v.prims, refCount := v.refCount + 1 } := by
  have hw : wrap (v.refCount + 1) = v.refCount + 1 := by
    unfold wrap
    omega
  unfold SharedVector.incRef
  rw [hw]
/-- Effect of one registration of `split` on the handle table. -/
theorem registerChild_spec (shared : List SharedVector) (b bprims ptr : Nat) (v : SharedVector)
    (hv : shared[b]? = some v) (hp : v.prims = bprims)
    (hrc : v.refCount + 1 < 18446744073709551616) (hlen : shared.length < 16) :
    ∃ shared1, registerChild shared b bprims ptr =
        some (if ptr = bprims then b else shared.length, shared1)
      ∧ shared1.length = shared.length + (if ptr = bprims then 0 else 1)
      ∧ ∀ j, shared1[j]? =
          if j = b then
            some { prims := bprims, refCount := v.refCount + (if ptr = bprims then 1 else 0) }
          else
            (shared ++ (if ptr = bprims then []
              else [{ prims := ptr, refCount := 1 }]))[j]? := by
  have hblt : b < shared.length := by
    by_contra hc
    rw [List.getElem?_eq_none (by omega)] at hv
    cases hv
  unfold registerChild
  by_cases h : ptr = bprims
  · refine ⟨incRefAt shared b, by simp [h], by simp [h, incRefAt_length], ?_⟩
    intro j
    rw [incRefAt_getElem?, hv]
    by_cases hj : j = b
    · simp [hj, h, SharedVector.incRef_eq v hrc, hp]
    · simp [hj, h]
  · refine ⟨shared ++ [{ prims := ptr, refCount := 1 }], ?_, by simp [h], ?_⟩
    · simp [h, MAX_BRANCHING_FACTOR, hlen]
    · intro j
      by_cases hj : j = b
      · subst hj
        rw [List.getElem?_append_left hblt, hv]
        subst hp
        simp [h]
      · simp [hj, h]

/-- Closed form of `split` when all accesses are inside the arrays and the
count of the handle of the split slot is positive. -/
theorem LocalChildListT.split_spec {T : Sig} (c : LocalChildListT T) (bestChild b : Nat)
    (bvec : SharedVector) (l r : BuildRecord T) (nv : Option Nat)
    (hbest : bestChild < c.children.length) (hcap : c.children.length < 8)
    (hb : c.primvecs[bestChild]? = some b) (hv : c.sharedPrimVecs[b]? = some bvec)
    (hsh : c.sharedPrimVecs.length + 2 ≤ 16)
    (h1 : 1 ≤ bvec.refCount) (h2 : bvec.refCount + 2 < 18446744073709551616) :
    ∃ c1 deleted, c.split bestChild l r nv = some (c1, deleted)
      ∧ c1.children = c.children.set bestChild l ++ [r]
      ∧ c1.primvecs =
          c.primvecs.set bestChild
              (if l.prims.prims = bvec.prims then b else c.sharedPrimVecs.length)
            ++ [if r.prims.prims = bvec.prims then b
                else c.sharedPrimVecs.length + (if l.prims.prims = bvec.prims then 0 else 1)]
      ∧ c1.depth = c.depth
      ∧ c1.sharedPrimVecs.length =
          c.sharedPrimVecs.length + (if l.prims.prims = bvec.prims then 0 else 1)
            + (if r.prims.prims = bvec.prims then 0 else 1)
      ∧ (∀ j, c1.sharedPrimVecs[j]? =
          if j = b then
            some { prims := bvec.prims
                   refCount := bvec.refCount + (if l.prims.prims = bvec.prims then 1 else 0)
                     + (if r.prims.prims = bvec.prims then 1 else 0) - 1 }
          else
            (c.sharedPrimVecs
              ++ (if l.prims.prims = bvec.prims then []
                  else [{ prims := l.prims.prims, refCount := 1 }])
              ++ (if r.prims.prims = bvec.prims then []
                  else [{ prims := r.prims.prims, refCount := 1 }]))[j]?)
      ∧ deleted =
          if bvec.refCount + (if l.prims.prims = bvec.prims then 1 else 0)
              + (if r.prims.prims = bvec.prims then 1 else 0) - 1 = 0 then [bvec.prims]
          else [] := by
  obtain ⟨sh1, hreg1, hlen1, hget1⟩ := registerChild_spec c.sharedPrimVecs b bvec.prims
    l.prims.prims bvec hv rfl (by omega) (by omega)
  have hv1 := hget1 b
  rw [if_pos rfl] at hv1
  obtain ⟨sh2, hreg2, hlen2, hget2⟩ := registerChild_spec sh1 b bvec.prims
    r.prims.prims _ hv1 rfl (by simp only; split <;> omega) (by rw [hlen1]; split <;> omega)
  have hv2 := hget2 b
  rw [if_pos rfl] at hv2
  simp only at hv2
  have hdec := SharedVector.decRef_eq { prims := bvec.prims, refCount := bvec.refCount
      + (if l.prims.prims = bvec.prims then 1 else 0)
      + (if r.prims.prims = bvec.prims then 1 else 0) }
    (by simp only; omega) (by simp only; split <;> split <;> omega)
  unfold LocalChildListT.split
  rw [if_pos ⟨hbest, by unfold MAX_BRANCHING_FACTOR; exact hcap⟩]
  simp only [hb, hv, hreg1, hreg2]
  refine ⟨_, _, rfl, rfl, ?_, rfl, ?_, ?_, ?_⟩
  · simp only [hlen1]
  · simp only [decRefAt_length, hlen2, hlen1]
  · intro j
    rw [decRefAt_getElem?]
    by_cases hj : j = b
    · rw [if_pos hj, if_pos hj, hv2]
      simp only [Option.map_some', hdec]
    · rw [if_neg hj, if_neg hj, hget2 j, if_neg hj]
      have hlen : (c.sharedPrimVecs ++ (if l.prims.prims = bvec.prims then []
          else [({ prims := l.prims.prims, refCount := 1 } : SharedVector)])).length
            = sh1.length := by
        rw [hlen1]
        split <;> simp
      rw [List.getElem?_append, @List.getElem?_append _ (c.sharedPrimVecs ++ _) _ j, hlen,
        hget1 j, if_neg hj]
  · unfold decRefAt
    rw [hv2]
    simp only [hdec]
    by_cases hl : l.prims.prims = bvec.prims <;> by_cases hr : r.prims.prims = bvec.prims
    · simp only [hl, hr, if_true, decide_eq_true_eq]
      rw [if_neg (by omega), if_neg (by omega)]
    · simp only [hl, hr, if_true, if_false, decide_eq_true_eq]
      rw [if_neg (by omega), if_neg (by omega)]
    · simp only [hl, hr, if_true, if_false, decide_eq_true_eq]
      rw [if_neg (by omega), if_neg (by omega)]
    · simp only [hl, hr, if_false, decide_eq_true_eq]
      by_cases h : bvec.refCount = 1
      · rw [if_pos (by omega), if_pos (by omega)]
      · rw [if_neg (by omega), if_neg (by omega)]

/-- A valid index of a list lookup. -/
theorem lt_length_of_getElem? {α : Type} {l : List α} {k : Nat} {v : α} (h : l[k]? = some v) :
    k < l.length := by
  by_contra hc
  rw [List.getElem?_eq_none (by omega)] at h
  cases h

/-- Handles with distinct buffers: equal buffers mean equal handles. -/
theorem tracked_inj (shared : List SharedVector) (hnd : (shared.map SharedVector.prims).Nodup)
    {k j : Nat} {v w : SharedVector} (hk : shared[k]? = some v) (hj : shared[j]? = some w)
    (hp : v.prims = w.prims) : k = j := by
  refine @List.getElem?_inj _ k j (shared.map SharedVector.prims) ?_ hnd ?_
  · rw [List.length_map]
    exact lt_length_of_getElem? hk
  · rw [List.getElem?_map, List.getElem?_map, hk, hj]
    simp [hp]

/-- The buffer of a handle stays the same under `decRef`. -/
theorem SharedVector.decRef_prims (v : SharedVector) : v.decRef.1.prims = v.prims := rfl

/-- The buffers of the handles stay the same under `decRef`. -/
theorem decRefAt_tracked (shared : List SharedVector) (k : Nat) :
    (decRefAt shared k).1.map SharedVector.prims = shared.map SharedVector.prims := by
  apply List.ext_getElem?
  intro j
  rw [List.getElem?_map, List.getElem?_map, decRefAt_getElem?]
  by_cases hj : j = k
  · subst hj
    rw [if_pos rfl]
    cases h : shared[j]? with
    | none => rfl
    | some v => rfl
  · rw [if_neg hj]

/-- The destructor loop: every handle loses one count per slot that points to
it, and the buffers deleted are those of the handles whose count reaches
zero. -/
theorem destroyLoop_spec : ∀ (ks : List Nat) (shared : List SharedVector) (deleted : List Nat),
    (∀ (k : Nat) (v : SharedVector), shared[k]? = some v →
      ks.count k ≤ v.refCount ∧ v.refCount < 18446744073709551616) →
    (destroyLoop ks shared deleted).1.length = shared.length
    ∧ (∀ (k : Nat) (v : SharedVector), shared[k]? = some v →
        (destroyLoop ks shared deleted).1[k]? =
          some { prims := v.prims, refCount := v.refCount - ks.count k })
    ∧ (∀ p, p ∈ (destroyLoop ks shared deleted).2 ↔
        p ∈ deleted ∨ ∃ k v, shared[k]? = some v ∧ v.prims = p ∧ 1 ≤ ks.count k
          ∧ v.refCount = ks.count k) := by
  intro ks
  induction ks with
  | nil =>
    intro shared deleted _
    refine ⟨rfl, ?_, ?_⟩
    · intro k v hv
      simp [destroyLoop, hv]
    · intro p
      simp [destroyLoop]
  | cons k0 ks ih =>
    intro shared deleted hcount
    rw [destroyLoop]
    cases h0 : shared[k0]? with
    | none =>
      have hsh : (decRefAt shared k0) = (shared, []) := by
        unfold decRefAt
        rw [h0]
      have hne : ∀ (k : Nat) (v : SharedVector), shared[k]? = some v → (k0 :: ks).count k = ks.count k := by
        intro k v hv
        have : k0 ≠ k := by
          intro h
          subst h
          rw [h0] at hv
          cases hv
        simp [List.count_cons, this]
      rw [hsh]
      simp only [List.append_nil]
      obtain ⟨ih1, ih2, ih3⟩ := ih shared deleted (fun k v hv => by
        have := hcount k v hv
        rw [hne k v hv] at this
        exact this)
      refine ⟨ih1, ?_, ?_⟩
      · intro k v hv
        rw [ih2 k v hv, hne k v hv]
      · intro p
        rw [ih3 p]
        constructor
        · rintro (h | ⟨k, v, hv, h⟩)
          · exact Or.inl h
          · exact Or.inr ⟨k, v, hv, by rw [hne k v hv]; exact h⟩
        · rintro (h | ⟨k, v, hv, h⟩)
          · exact Or.inl h
          · exact Or.inr ⟨k, v, hv, by rw [hne k v hv] at h; exact h⟩
    | some v0 =>
      have hc0 := hcount k0 v0 h0
      rw [List.count_cons_self] at hc0
      have hdec := SharedVector.decRef_eq v0 (by omega) hc0.2
      have hget : ∀ j, (decRefAt shared k0).1[j]? =
          if j = k0 then some { prims := v0.prims, refCount := v0.refCount - 1 }
          else shared[j]? := by
        intro j
        rw [decRefAt_getElem?, h0]
        simp [hdec]
      have hdel : (decRefAt shared k0).2 = if v0.refCount = 1 then [v0.prims] else [] := by
        unfold decRefAt
        rw [h0]
        simp [hdec]
      have hcnt : ∀ k, k ≠ k0 → (k0 :: ks).count k = ks.count k := by
        intro k hk
        simp [List.count_cons, Ne.symm hk]
      obtain ⟨ih1, ih2, ih3⟩ := ih (decRefAt shared k0).1 (deleted ++ (decRefAt shared k0).2)
        (fun k v hv => by
          rw [hget k] at hv
          by_cases hk : k = k0
          · rw [if_pos hk] at hv
            cases hv
            subst hk
            simp only
            omega
          · rw [if_neg hk] at hv
            have := hcount k v hv
            rw [hcnt k hk] at this
            exact this)
      refine ⟨by rw [ih1, decRefAt_length], ?_, ?_⟩
      · intro k v hv
        by_cases hk : k = k0
        · subst hk
          rw [h0] at hv
          cases hv
          rw [ih2 k _ (by rw [hget k, if_pos rfl]), List.count_cons_self]
          simp only [Option.some.injEq, SharedVector.mk.injEq, true_and]
          omega
        · rw [ih2 k v (by rw [hget k, if_neg hk]; exact hv), hcnt k hk]
      · intro p
        rw [ih3 p, hdel, List.mem_append]
        constructor
        · rintro ((h | h) | ⟨k, v, hv, hp, h1, h2⟩)
          · exact Or.inl h
          · by_cases hrc : v0.refCount = 1
            · rw [if_pos hrc] at h
              simp only [List.mem_singleton] at h
              exact Or.inr ⟨k0, v0, h0, h.symm, by rw [List.count_cons_self]; omega,
                by rw [List.count_cons_self]; omega⟩
            · rw [if_neg hrc] at h
              cases h
          · rw [hget k] at hv
            by_cases hk : k = k0
            · rw [if_pos hk] at hv
              cases hv
              subst hk
              simp only at hp h2
              exact Or.inr ⟨k, v0, h0, hp, by rw [List.count_cons_self]; omega,
                by rw [List.count_cons_self]; omega⟩
            · rw [if_neg hk] at hv
              exact Or.inr ⟨k, v, hv, hp, by rw [hcnt k hk]; exact h1,
                by rw [hcnt k hk]; exact h2⟩
        · rintro (h | ⟨k, v, hv, hp, h1, h2⟩)
          · exact Or.inl (Or.inl h)
          · by_cases hk : k = k0
            · subst hk
              rw [h0] at hv
              cases hv
              rw [List.count_cons_self] at h1 h2
              by_cases hz : ks.count k = 0
              · left
                right
                rw [if_pos (by omega)]
                simp [hp]
              · right
                exact ⟨k, { prims := v0.prims, refCount := v0.refCount - 1 },
                  by rw [hget k, if_pos rfl], hp, by omega, by simp only; omega⟩
            · right
              rw [hcnt k hk] at h1 h2
              exact ⟨k, v, by rw [hget k, if_neg hk]; exact hv, hp, h1, h2⟩

/-- The destructor loop deletes no buffer twice when the handles track
distinct buffers and the buffers deleted before belong to handles of count
zero. -/
theorem destroyLoop_nodup : ∀ (ks : List Nat) (shared : List SharedVector) (deleted : List Nat),
    (∀ (k : Nat) (v : SharedVector), shared[k]? = some v →
      ks.count k ≤ v.refCount ∧ v.refCount < 18446744073709551616) →
    (shared.map SharedVector.prims).Nodup → deleted.Nodup →
    (∀ p ∈ deleted, ∀ (k : Nat) (v : SharedVector), shared[k]? = some v → v.prims = p → v.refCount = 0) →
    (destroyLoop ks shared deleted).2.Nodup := by
  intro ks
  induction ks with
  | nil =>
    intro shared deleted _ _ hd _
    exact hd
  | cons k0 ks ih =>
    intro shared deleted hcount hnd hd hzero
    rw [destroyLoop]
    cases h0 : shared[k0]? with
    | none =>
      have hsh : (decRefAt shared k0) = (shared, []) := by
        unfold decRefAt
        rw [h0]
      rw [hsh]
      simp only [List.append_nil]
      refine ih shared deleted (fun k v hv => ?_) hnd hd hzero
      have hne : k0 ≠ k := by
        intro h
        subst h
        rw [h0] at hv
        cases hv
      have := hcount k v hv
      simp only [List.count_cons, beq_iff_eq, hne, if_false, Nat.add_zero] at this
      exact this
    | some v0 =>
      have hc0 := hcount k0 v0 h0
      rw [List.count_cons_self] at hc0
      have hdec := SharedVector.decRef_eq v0 (by omega) hc0.2
      have hget : ∀ j, (decRefAt shared k0).1[j]? =
          if j = k0 then some { prims := v0.prims, refCount := v0.refCount - 1 }
          else shared[j]? := by
        intro j
        rw [decRefAt_getElem?, h0]
        simp [hdec]
      have hdel : (decRefAt shared k0).2 = if v0.refCount = 1 then [v0.prims] else [] := by
        unfold decRefAt
        rw [h0]
        simp [hdec]
      have hcnt : ∀ k, k ≠ k0 → (k0 :: ks).count k = ks.count k := by
        intro k hk
        simp [List.count_cons, Ne.symm hk]
      have hnot : v0.prims ∉ deleted := by
        intro hmem
        have := hzero _ hmem k0 v0 h0 rfl
        omega
      apply ih
      · intro k v hv
        rw [hget k] at hv
        by_cases hk : k = k0
        · rw [if_pos hk] at hv
          cases hv
          subst hk
          simp only
          omega
        · rw [if_neg hk] at hv
          have := hcount k v hv
          rw [hcnt k hk] at this
          exact this
      · rw [decRefAt_tracked]
        exact hnd
      · rw [hdel]
        by_cases hrc : v0.refCount = 1
        · rw [if_pos hrc]
          exact List.Nodup.append hd (List.nodup_singleton _)
            (by
              intro p hp1 hp2
              simp only [List.mem_singleton] at hp2
              subst hp2
              exact hnot hp1)
        · rw [if_neg hrc, List.append_nil]
          exact hd
      · intro p hp k v hv hvp
        rw [hdel, List.mem_append] at hp
        rw [hget k] at hv
        by_cases hk : k = k0
        · rw [if_pos hk] at hv
          cases hv
          simp only at hvp ⊢
          rcases hp with hp | hp
          · rw [← hvp] at hp
            exact absurd hp hnot
          · by_cases hrc : v0.refCount = 1
            · omega
            · rw [if_neg hrc] at hp
              cases hp
        · rw [if_neg hk] at hv
          rcases hp with hp | hp
          · exact hzero p hp k v hv hvp
          · by_cases hrc : v0.refCount = 1
            · rw [if_pos hrc] at hp
              simp only [List.mem_singleton] at hp
              exact absurd (tracked_inj shared hnd hv h0 (by rw [hvp, hp])) hk
            · rw [if_neg hrc] at hp
              cases hp

/-- Lookup in a list extended by one element. -/
theorem getElem?_concat_eq_some {α : Type} (l : List α) (x v : α) (k : Nat) :
    (l ++ [x])[k]? = some v ↔ l[k]? = some v ∨ (k = l.length ∧ v = x) := by
  rw [List.getElem?_append]
  by_cases hk : k < l.length
  · rw [if_pos hk]
    constructor
    · exact Or.inl
    · rintro (h | ⟨h, _⟩)
      · exact h
      · omega
  · rw [if_neg hk, List.getElem?_eq_none (Nat.le_of_not_lt hk)]
    by_cases hk2 : k = l.length
    · subst hk2
      simp [eq_comm]
    · have : k - l.length ≠ 0 := by omega
      obtain ⟨m, hm⟩ := Nat.exists_eq_succ_of_ne_zero this
      rw [hm]
      simp [hk2]

/-- Lookup in the handle table extended by the handles of the fresh buffers. -/
theorem lookup_append_fresh (shared : List SharedVector) (P Q : Prop) [Decidable P]
    [Decidable Q] (x y v : SharedVector) (k : Nat) :
    (shared ++ (if P then [] else [x]) ++ (if Q then [] else [y]))[k]? = some v ↔
      shared[k]? = some v ∨ (¬ P ∧ k = shared.length ∧ v = x)
        ∨ (¬ Q ∧ k = shared.length + (if P then 0 else 1) ∧ v = y) := by
  by_cases hP : P <;> by_cases hQ : Q
  · simp [hP, hQ]
  · simp only [hP, hQ, if_true, if_false, List.append_nil, getElem?_concat_eq_some]
    simp
  · simp only [hP, hQ, if_true, if_false, List.append_nil, getElem?_concat_eq_some]
    simp
  · simp only [hP, hQ, if_false, getElem?_concat_eq_some, List.length_append,
      List.length_singleton]
    simp [or_assoc]

/-- One `split` call with fresh buffers keeps the invariant. -/
theorem Balanced.split_step {T : Sig} (c c1 : LocalChildListT T) (deleted d : List Nat)
    (bestChild : Nat) (l r : BuildRecord T) (nv : Option Nat)
    (root : Nat) (hinv : Balanced c deleted root) (hfresh : freshSplit c bestChild l r = true)
    (hsplit : c.split bestChild l r nv = some (c1, d)) : Balanced c1 (deleted ++ d) root := by
  have hcond : bestChild < c.children.length ∧ c.children.length < MAX_BRANCHING_FACTOR := by
    by_contra hc
    simp [LocalChildListT.split, hc] at hsplit
  have hbl : bestChild < c.primvecs.length := by rw [hinv.slots]; exact hcond.1
  have hb : c.primvecs[bestChild]? = some c.primvecs[bestChild] := List.getElem?_eq_getElem hbl
  generalize c.primvecs[bestChild] = b at hb
  have hbmem : b ∈ c.primvecs := List.mem_iff_getElem?.2 ⟨bestChild, hb⟩
  have hblt : b < c.sharedPrimVecs.length := hinv.handles b hbmem
  have hv : c.sharedPrimVecs[b]? = some c.sharedPrimVecs[b] := List.getElem?_eq_getElem hblt
  generalize c.sharedPrimVecs[b] = bvec at hv
  have hrc := hinv.counts b bvec hv
  have hcpos : 1 ≤ c.primvecs.count b := List.one_le_count_iff.2 hbmem
  have hcle : c.primvecs.count b ≤ c.primvecs.length := List.count_le_length _ _
  have hcap := hinv.capacity
  have hslots := hinv.slots
  have hhc := hinv.handlesCap
  unfold MAX_BRANCHING_FACTOR at hcond
  obtain ⟨c2, d2, hs, hch, hpv, -, hlen, hget, hdel⟩ :=
    LocalChildListT.split_spec c bestChild b bvec l r nv hcond.1 hcond.2 hb hv (by omega)
      (by split at hrc <;> omega) (by split at hrc <;> omega)
  rw [hs] at hsplit
  simp only [Option.some.injEq, Prod.mk.injEq] at hsplit
  obtain ⟨h1, h2⟩ := hsplit
  subst h1 h2
  -- freshness of the new buffers
  have hf : (l.prims.prims = bvec.prims ∨ l.prims.prims ∉ c.tracked)
      ∧ (r.prims.prims = bvec.prims
        ∨ (r.prims.prims ∉ c.tracked
            ∧ (l.prims.prims = bvec.prims ∨ r.prims.prims ≠ l.prims.prims))) := by
    unfold freshSplit at hfresh
    simp only [hb, hv] at hfresh
    simpa using hfresh
  -- no old slot points past the old handles
  have hzero : ∀ k, c.sharedPrimVecs.length ≤ k → c.primvecs.count k = 0 := by
    intro k hk
    apply List.count_eq_zero_of_not_mem
    intro hmem
    have := hinv.handles k hmem
    omega
  have hcount : ∀ k, c2.primvecs.count k =
      c.primvecs.count k - (if b = k then 1 else 0)
        + (if (if l.prims.prims = bvec.prims then b else c.sharedPrimVecs.length) = k
            then 1 else 0)
        + (if (if r.prims.prims = bvec.prims then b
              else c.sharedPrimVecs.length + (if l.prims.prims = bvec.prims then 0 else 1)) = k
            then 1 else 0) := by
    intro k
    have hbe : c.primvecs[bestChild] = b := by
      rw [List.getElem?_eq_getElem hbl] at hb
      exact Option.some.inj hb
    rw [hpv, List.count_append, List.count_set _ _ _ _ hbl, List.count_singleton, hbe]
    simp only [beq_iff_eq]
  refine ⟨?_, ?_, ?_, ?_, ?_, ?_, ?_, ?_, ?_⟩
  · rw [hpv, hch]
    simp only [List.length_append, List.length_set, List.length_singleton]
    omega
  · rw [hch]
    simp only [List.length_append, List.length_set, List.length_singleton]
    omega
  · intro k hk
    rw [hpv, List.mem_append, List.mem_singleton] at hk
    rw [hlen]
    rcases hk with hk | hk
    · rcases List.mem_or_eq_of_mem_set hk with hk | hk
      · have := hinv.handles k hk
        omega
      · subst hk
        split <;> split <;> omega
    · subst hk
      split <;> split <;> omega
  · rw [hlen, hch]
    simp only [List.length_append, List.length_set, List.length_singleton]
    split <;> split <;> omega
  · intro k v1 hv1
    rw [hget k] at hv1
    rw [hcount k]
    by_cases hk : k = b
    · subst hk
      rw [if_pos rfl] at hv1
      cases hv1
      simp only [if_true]
      by_cases hl : l.prims.prims = bvec.prims <;> by_cases hr : r.prims.prims = bvec.prims <;>
        simp only [hl, hr, if_true, if_false] <;> split_ifs at hrc ⊢ <;> omega
    · rw [if_neg hk, lookup_append_fresh] at hv1
      rw [if_neg (Ne.symm hk)]
      rcases hv1 with hv1 | ⟨hl, hk1, hv1⟩ | ⟨hr, hk1, hv1⟩
      · have hklt := lt_length_of_getElem? hv1
        rw [hinv.counts k v1 hv1]
        by_cases hl : l.prims.prims = bvec.prims <;> by_cases hr : r.prims.prims = bvec.prims <;>
          simp only [hl, hr, if_true, if_false] <;> split_ifs <;> omega
      · subst hv1
        rw [hzero k (by omega)]
        by_cases hr : r.prims.prims = bvec.prims <;>
          simp only [hl, hr, if_true, if_false] <;> split_ifs <;> omega
      · subst hv1
        rw [hzero k (by omega)]
        by_cases hl : l.prims.prims = bvec.prims <;>
          simp only [hl, hr, if_true, if_false] at hk1 ⊢ <;> split_ifs <;> omega
  · have hmap : c2.sharedPrimVecs.map SharedVector.prims =
        (c.sharedPrimVecs
          ++ (if l.prims.prims = bvec.prims then []
              else [({ prims := l.prims.prims, refCount := 1 } : SharedVector)])
          ++ (if r.prims.prims = bvec.prims then []
              else [({ prims := r.prims.prims, refCount := 1 } : SharedVector)])).map
          SharedVector.prims := by
      apply List.ext_getElem?
      intro j
      rw [List.getElem?_map, List.getElem?_map, hget j]
      by_cases hj : j = b
      · subst hj
        rw [if_pos rfl, List.append_assoc, List.getElem?_append_left hblt, hv]
        rfl
      · rw [if_neg hj]
    rw [hmap]
    have hnd := hinv.distinct
    unfold LocalChildListT.tracked at hf
    by_cases hl : l.prims.prims = bvec.prims <;> by_cases hr : r.prims.prims = bvec.prims
    · simpa [hl, hr] using hnd
    · have h2 := hf.2.resolve_left hr
      simp only [hl, hr, if_true, if_false, List.append_nil, List.map_append, List.map_cons,
        List.map_nil]
      exact List.Nodup.append hnd (List.nodup_singleton _)
        (by
          intro p hp1 hp2
          rw [List.mem_singleton] at hp2
          subst hp2
          exact h2.1 hp1)
    · have h1 := hf.1.resolve_left hl
      simp only [hl, hr, if_true, if_false, List.append_nil, List.map_append, List.map_cons,
        List.map_nil]
      exact List.Nodup.append hnd (List.nodup_singleton _)
        (by
          intro p hp1 hp2
          rw [List.mem_singleton] at hp2
          subst hp2
          exact h1 hp1)
    · have h1 := hf.1.resolve_left hl
      have h2 := hf.2.resolve_left hr
      have h3 := h2.2.resolve_left hl
      simp only [hl, hr, if_false, List.map_append, List.map_cons, List.map_nil]
      refine List.Nodup.append (List.Nodup.append hnd (List.nodup_singleton _) ?_)
        (List.nodup_singleton _) ?_
      · intro p hp1 hp2
        rw [List.mem_singleton] at hp2
        subst hp2
        exact h1 hp1
      · intro p hp1 hp2
        rw [List.mem_singleton] at hp2
        subst hp2
        rw [List.mem_append, List.mem_singleton] at hp1
        rcases hp1 with hp1 | hp1
        · exact h2.1 hp1
        · exact h3 hp1
  · have hnot : bvec.prims ∉ deleted := by
      intro hmem
      obtain ⟨k, v, hkv, hp, hz⟩ := (hinv.deletedIff _).1 hmem
      have hkb := tracked_inj _ hinv.distinct hkv hv hp
      subst hkb
      rw [hv] at hkv
      cases hkv
      omega
    rw [hdel]
    generalize (bvec.refCount + (if l.prims.prims = bvec.prims then 1 else 0)
      + (if r.prims.prims = bvec.prims then 1 else 0) - 1) = nc
    by_cases hz : nc = 0
    · rw [if_pos hz]
      exact List.Nodup.append hinv.deletedNodup (List.nodup_singleton _)
        (by
          intro p hp1 hp2
          rw [List.mem_singleton] at hp2
          subst hp2
          exact hnot hp1)
    · rw [if_neg hz, List.append_nil]
      exact hinv.deletedNodup
  · obtain ⟨v0, hv0, hp0⟩ := hinv.rootHandle
    by_cases h0 : 0 = b
    · subst h0
      rw [hv] at hv0
      cases hv0
      exact ⟨_, (hget 0).trans (if_pos rfl), hp0⟩
    · refine ⟨v0, ?_, hp0⟩
      rw [hget 0, if_neg h0, lookup_append_fresh]
      exact Or.inl hv0
  · intro p
    rw [List.mem_append, hinv.deletedIff p, hdel]
    generalize (bvec.refCount + (if l.prims.prims = bvec.prims then 1 else 0)
      + (if r.prims.prims = bvec.prims then 1 else 0) - 1) = nc at hget ⊢
    constructor
    · rintro (⟨k, v, hkv, hp, hz⟩ | hp)
      · have hkb : k ≠ b := by
          intro h
          subst h
          rw [hv] at hkv
          cases hkv
          omega
        refine ⟨k, v, ?_, hp, hz⟩
        rw [hget k, if_neg hkb, lookup_append_fresh]
        exact Or.inl hkv
      · by_cases hz : nc = 0
        · rw [if_pos hz, List.mem_singleton] at hp
          exact ⟨b, { prims := bvec.prims, refCount := nc }, by rw [hget b, if_pos rfl],
            hp.symm, hz⟩
        · rw [if_neg hz] at hp
          cases hp
    · rintro ⟨k, v, hkv, hp, hz⟩
      rw [hget k] at hkv
      by_cases hkb : k = b
      · rw [if_pos hkb] at hkv
        cases hkv
        right
        simp only at hz hp
        rw [if_pos hz, List.mem_singleton]
        exact hp.symm
      · rw [if_neg hkb, lookup_append_fresh] at hkv
        rcases hkv with hkv | ⟨_, _, hkv⟩ | ⟨_, _, hkv⟩
        · exact Or.inl ⟨k, v, hkv, hp, hz⟩
        · subst hkv
          simp at hz
        · subst hkv
          simp at hz

/-- The list built by the constructor satisfies the invariant. -/
theorem Balanced.new {T : Sig} (record : BuildRecord T) :
    Balanced (LocalChildListT.new record) [] record.prims.prims := by
  refine ⟨rfl, by simp [LocalChildListT.new], ?_, by simp [LocalChildListT.new], ?_,
    by simp [LocalChildListT.new], List.nodup_nil, ⟨_, rfl, rfl⟩, ?_⟩
  · intro k hk
    simp only [LocalChildListT.new, List.mem_singleton] at hk
    subst hk
    simp [LocalChildListT.new]
  · intro k v hv
    simp only [LocalChildListT.new] at hv ⊢
    cases k with
    | zero =>
      simp only [List.getElem?_cons_zero, Option.some.injEq] at hv
      subst hv
      simp
    | succ k => simp at hv
  · intro p
    simp only [LocalChildListT.new, List.not_mem_nil, false_iff, not_exists, not_and]
    intro k v hv _
    cases k with
    | zero =>
      simp only [List.getElem?_cons_zero, Option.some.injEq] at hv
      subst hv
      simp
    | succ k => simp at hv

/-- Every sequence of `split` calls with fresh buffers keeps the invariant. -/
theorem Balanced.runSplits {T : Sig} (root : Nat) :
    ∀ (ops : List (Nat × BuildRecord T × BuildRecord T)) (c c1 : LocalChildListT T)
      (deleted deleted1 : List Nat),
      Balanced c deleted root → freshSplits c ops = true →
      runSplits c ops deleted = some (c1, deleted1) → Balanced c1 deleted1 root := by
  intro ops
  induction ops with
  | nil =>
    intro c c1 deleted deleted1 hinv _ hrun
    simp only [MSMBlur.runSplits, Option.some.injEq, Prod.mk.injEq] at hrun
    obtain ⟨h1, h2⟩ := hrun
    subst h1 h2
    exact hinv
  | cons op ops ih =>
    intro c c1 deleted deleted1 hinv hfresh hrun
    obtain ⟨bestChild, l, r⟩ := op
    simp only [MSMBlur.runSplits] at hrun
    simp only [freshSplits, Bool.and_eq_true] at hfresh
    cases hs : c.split bestChild l r none with
    | none =>
      rw [hs] at hrun
      cases hrun
    | some res =>
      obtain ⟨c2, d⟩ := res
      rw [hs] at hrun hfresh
      exact ih c2 c1 (deleted ++ d) deleted1
        (Balanced.split_step c c2 deleted d bestChild l r none root hinv hfresh.1 hs)
        hfresh.2 hrun

/-- The buffers deleted by the destructor loop are appended to those deleted
before. -/
theorem destroyLoop_append : ∀ (ks : List Nat) (shared : List SharedVector) (deleted : List Nat),
    (destroyLoop ks shared deleted).2 = deleted ++ (destroyLoop ks shared []).2
    ∧ (destroyLoop ks shared deleted).1 = (destroyLoop ks shared []).1 := by
  intro ks
  induction ks with
  | nil => intro shared deleted; simp [destroyLoop]
  | cons k ks ih =>
    intro shared deleted
    rw [destroyLoop, destroyLoop, (ih _ (deleted ++ _)).1, (ih _ (deleted ++ _)).2,
      (ih _ ([] ++ _)).1, (ih _ ([] ++ _)).2]
    simp

/-- C8: `split(bestChild, l, r)` (all accesses inside the arrays, the count
of the handle `b` tracked for the slot positive) replaces slot `bestChild` by
`l` and appends `r` as the new last slot, so that the number of children
grows by one and every other slot and its handle stay as they are; a child
whose buffer is the one of handle `b` reuses `b`, any other child gets a new
handle with count 1; the count of `b` changes by the number of aliasing
children minus one, and every other old handle is unchanged. -/
theorem split_registers_children {T : Sig} (c : LocalChildListT T) (bestChild b : Nat)
    (bvec : SharedVector) (l r : BuildRecord T) (nv : Option Nat)
    (hbest : bestChild < c.children.length) (hcap : c.children.length < 8)
    (hslots : c.primvecs.length = c.children.length)
    (hb : c.primvecs[bestChild]? = some b) (hv : c.sharedPrimVecs[b]? = some bvec)
    (hsh : c.sharedPrimVecs.length + 2 ≤ 16)
    (h1 : 1 ≤ bvec.refCount) (h2 : bvec.refCount + 2 < 18446744073709551616) :
    ∃ c1 deleted, c.split bestChild l r nv = some (c1, deleted)
      ∧ c1.children = c.children.set bestChild l ++ [r]
      ∧ c1.size = c.size + 1
      ∧ c1.children[bestChild]? = some l
      ∧ c1.children[c.size]? = some r
      ∧ (∀ i, i ≠ bestChild → i < c.size →
          c1.children[i]? = c.children[i]? ∧ c1.primvecs[i]? = c.primvecs[i]?)
      ∧ (l.prims.prims = bvec.prims → c1.primvecs[bestChild]? = some b)
      ∧ (l.prims.prims ≠ bvec.prims →
          ∃ k, c1.primvecs[bestChild]? = some k ∧ c.sharedPrimVecs.length ≤ k
            ∧ c1.sharedPrimVecs[k]? = some { prims := l.prims.prims, refCount := 1 })
      ∧ (r.prims.prims = bvec.prims → c1.primvecs[c.size]? = some b)
      ∧ (r.prims.prims ≠ bvec.prims →
          ∃ k, c1.primvecs[c.size]? = some k ∧ c.sharedPrimVecs.length ≤ k
            ∧ c1.sharedPrimVecs[k]? = some { prims := r.prims.prims, refCount := 1 })
      ∧ c1.sharedPrimVecs[b]? =
          some { prims := bvec.prims
                 refCount := bvec.refCount + (if l.prims.prims = bvec.prims then 1 else 0)
                   + (if r.prims.prims = bvec.prims then 1 else 0) - 1 }
      ∧ (∀ k, k ≠ b → k < c.sharedPrimVecs.length →
          c1.sharedPrimVecs[k]? = c.sharedPrimVecs[k]?) := by
  obtain ⟨c1, deleted, hs, hch, hpv, -, hlen, hget, -⟩ :=
    LocalChildListT.split_spec c bestChild b bvec l r nv hbest hcap hb hv hsh h1 h2
  have hblt := lt_length_of_getElem? hv
  have hbl : bestChild < c.primvecs.length := by omega
  refine ⟨c1, deleted, hs, hch, ?_, ?_, ?_, ?_, ?_, ?_, ?_, ?_, ?_, ?_⟩
  · simp [LocalChildListT.size, hch]
  · rw [hch, List.getElem?_append_left (by simpa using hbest), List.getElem?_set_self hbest]
  · rw [hch]
    simp only [LocalChildListT.size]
    rw [List.getElem?_append_right (by simp)]
    simp
  · intro i hi hlt
    simp only [LocalChildListT.size] at hlt
    rw [hch, hpv, List.getElem?_append_left (by simpa using hlt),
      List.getElem?_append_left (by simp; omega), List.getElem?_set_ne (Ne.symm hi),
      List.getElem?_set_ne (Ne.symm hi)]
    exact ⟨rfl, rfl⟩
  · intro hl
    rw [hpv, List.getElem?_append_left (by simpa using hbl), List.getElem?_set_self hbl,
      if_pos hl]
  · intro hl
    refine ⟨c.sharedPrimVecs.length, ?_, Nat.le_refl _, ?_⟩
    · rw [hpv, List.getElem?_append_left (by simpa using hbl), List.getElem?_set_self hbl,
        if_neg hl]
    · rw [hget, if_neg (by omega), lookup_append_fresh]
      exact Or.inr (Or.inl ⟨hl, rfl, rfl⟩)
  · intro hr
    simp only [LocalChildListT.size]
    rw [hpv, List.getElem?_append_right (by simp; omega)]
    simp [hslots, hr]
  · intro hr
    refine ⟨c.sharedPrimVecs.length + (if l.prims.prims = bvec.prims then 0 else 1), ?_,
      Nat.le_add_right _ _, ?_⟩
    · simp only [LocalChildListT.size]
      rw [hpv, List.getElem?_append_right (by simp; omega)]
      simp [hslots, hr]
    · rw [hget, if_neg (by omega), lookup_append_fresh]
      exact Or.inr (Or.inr ⟨hr, rfl, rfl⟩)
  · rw [hget, if_pos rfl]
  · intro k hk hlt
    rw [hget, if_neg hk, List.append_assoc, List.getElem?_append_left hlt]

/-- C8 at a concrete input: a temporal split of the only slot, with the left
child in the new buffer 1 and the right child in buffer 0, leaves the count
of the handle of buffer 0 at 2. -/
theorem split_registers_children_witness :
    ∃ c1 deleted,
      (LocalChildListT.new (exRecord 4 1)).split 0 (exChild 1 0 4 2) (exChild 0 0 4 2) (some 1) =
        some (c1, deleted)
      ∧ c1.sharedPrimVecs[0]? = some { prims := 0, refCount := 2 } :=
  match split_registers_children (LocalChildListT.new (exRecord 4 1)) 0 0
      { prims := 0, refCount := 2 } (exChild 1 0 4 2) (exChild 0 0 4 2) (some 1)
      (by decide) (by decide) rfl rfl rfl (by decide) (by decide) (by decide) with
  | ⟨c1, deleted, h⟩ => ⟨c1, deleted, h.1, h.2.2.2.2.2.2.2.2.2.2.1⟩

/-- C9, as stated, fails: after a split whose children both alias the buffer
of the list, the only tracked handle has count 3 and is pointed to by two
slots; the destructor decrements it twice, to 1, not once. -/
theorem destroy_once_counterexample :
    (LocalChildListT.new (exRecord 4 1)).split 0 (exChild 0 0 2 2) (exChild 0 2 4 2) none =
      some (exAliasedList, [])
    ∧ exAliasedList.sharedPrimVecs = [{ prims := 0, refCount := 3 }]
    ∧ exAliasedList.destroy.1 = [{ prims := 0, refCount := 1 }]
    ∧ ¬ (∀ (k : Nat) (v : SharedVector), exAliasedList.sharedPrimVecs[k]? = some v →
          exAliasedList.destroy.1[k]? = some { prims := v.prims, refCount := v.refCount - 1 }) := by
  refine ⟨rfl, rfl, rfl, ?_⟩
  intro h
  have h0 := h 0 { prims := 0, refCount := 3 } rfl
  revert h0
  decide

/-- C9, amended: the destructor decrements the count of each tracked handle
once for every slot that points to it (a handle no slot points to is left
alone), and a buffer is deleted exactly when the count of its handle reaches
zero: the buffers deleted are those of the handles at least one slot points
to and whose count equals the number of such slots, and a single `decRef`
deletes the buffer exactly when the decremented count is zero. Counts are
assumed not to wrap around. -/
theorem destroy_decrements_per_slot {T : Sig} (c : LocalChildListT T)
    (hcount : ∀ (k : Nat) (v : SharedVector), c.sharedPrimVecs[k]? = some v →
      c.primvecs.count k ≤ v.refCount ∧ v.refCount < 18446744073709551616) :
    (∀ (k : Nat) (v : SharedVector), c.sharedPrimVecs[k]? = some v →
      c.destroy.1[k]? = some { prims := v.prims, refCount := v.refCount - c.primvecs.count k })
    ∧ (∀ p, p ∈ c.destroy.2 ↔
        ∃ (k : Nat) (v : SharedVector), c.sharedPrimVecs[k]? = some v ∧ v.prims = p
          ∧ 1 ≤ c.primvecs.count k ∧ v.refCount = c.primvecs.count k)
    ∧ (∀ v : SharedVector, 1 ≤ v.refCount → v.refCount < 18446744073709551616 →
        v.decRef = ({ prims := v.prims, refCount := v.refCount - 1 },
          decide (v.refCount - 1 = 0))) := by
  obtain ⟨-, h2, h3⟩ := destroyLoop_spec c.primvecs c.sharedPrimVecs [] hcount
  refine ⟨h2, ?_, ?_⟩
  · intro p
    have := h3 p
    simp only [List.not_mem_nil, false_or] at this
    exact this
  · intro v h1 h2
    rw [SharedVector.decRef_eq v h1 h2]
    have : (v.refCount = 1) ↔ (v.refCount - 1 = 0) := by omega
    simp only [this]

/-- The amended C9 at a concrete input: the destructor of the list with two
slots on one handle of count 3 leaves the count 1 and deletes nothing. -/
theorem destroy_decrements_per_slot_witness :
    exAliasedList.destroy.1[0]? = some { prims := 0, refCount := 3 - 2 }
    ∧ (0 ∈ exAliasedList.destroy.2 ↔
        ∃ (k : Nat) (v : SharedVector), exAliasedList.sharedPrimVecs[k]? = some v ∧ v.prims = 0
          ∧ 1 ≤ exAliasedList.primvecs.count k ∧ v.refCount = exAliasedList.primvecs.count k) :=
  have hcount : ∀ (k : Nat) (v : SharedVector), exAliasedList.sharedPrimVecs[k]? = some v →
      exAliasedList.primvecs.count k ≤ v.refCount ∧ v.refCount < 18446744073709551616 := by
    intro k v hv
    cases k with
    | zero =>
      simp only [exAliasedList, List.getElem?_cons_zero, Option.some.injEq] at hv
      subst hv
      decide
    | succ k => simp [exAliasedList] at hv
  ⟨(destroy_decrements_per_slot exAliasedList hcount).1 0 { prims := 0, refCount := 3 } rfl,
   (destroy_decrements_per_slot exAliasedList hcount).2.1 0⟩

/-- C7: after every sequence of `split` calls on a freshly constructed child
list (all accesses inside the arrays, each fresh buffer being distinct from
the buffers tracked so far),
(1) the count of each handle is the number of slots pointing to it, plus one
for handle 0, the handle of the buffer the list was constructed over;
(2) no buffer deleted so far is the buffer of a handle some slot points to,
and while the destructor runs no buffer deleted after the slots `pre` is the
buffer of a handle one of the remaining slots `post` points to;
(3) once the destructor has run, every buffer installed by a split has been
deleted exactly once;
(4) the buffer the list was constructed over is never deleted, and its
handle ends with count 1. -/
theorem refcount_balance {T : Sig} (record : BuildRecord T)
    (ops : List (Nat × BuildRecord T × BuildRecord T)) (c : LocalChildListT T)
    (deleted : List Nat)
    (hfresh : freshSplits (LocalChildListT.new record) ops = true)
    (hrun : runSplits (LocalChildListT.new record) ops [] = some (c, deleted)) :
    (∀ (k : Nat) (v : SharedVector), c.sharedPrimVecs[k]? = some v →
      v.refCount = c.primvecs.count k + (if k = 0 then 1 else 0))
    ∧ (∀ p ∈ deleted, ∀ (i k : Nat) (v : SharedVector), c.primvecs[i]? = some k →
        c.sharedPrimVecs[k]? = some v → v.prims ≠ p)
    ∧ (∀ (pre post : List Nat) (p : Nat), c.primvecs = pre ++ post →
        p ∈ (destroyLoop pre c.sharedPrimVecs []).2 →
        ∀ (k : Nat) (v : SharedVector), k ∈ post → c.sharedPrimVecs[k]? = some v → v.prims ≠ p)
    ∧ (∀ (k : Nat) (v : SharedVector), 0 < k → c.sharedPrimVecs[k]? = some v →
        (deleted ++ c.destroy.2).count v.prims = 1)
    ∧ (deleted ++ c.destroy.2).count record.prims.prims = 0
    ∧ c.destroy.1[0]? = some { prims := record.prims.prims, refCount := 1 } := by
  have hinv := Balanced.runSplits record.prims.prims ops _ c [] deleted (Balanced.new record)
    hfresh hrun
  have hlen8 : c.primvecs.length ≤ 8 := by
    rw [hinv.slots]
    exact hinv.capacity
  have hcount : ∀ (k : Nat) (v : SharedVector), c.sharedPrimVecs[k]? = some v →
      c.primvecs.count k ≤ v.refCount ∧ v.refCount < 18446744073709551616 := by
    intro k v hv
    have h1 := hinv.counts k v hv
    have h2 : c.primvecs.count k ≤ c.primvecs.length := List.count_le_length _ _
    split at h1 <;> omega
  obtain ⟨-, hd1, hd2⟩ := destroyLoop_spec c.primvecs c.sharedPrimVecs [] hcount
  have hzero : ∀ p ∈ deleted, ∀ (k : Nat) (v : SharedVector), c.sharedPrimVecs[k]? = some v →
      v.prims = p → v.refCount = 0 := by
    intro p hp k v hv hvp
    obtain ⟨j, w, hw, hwp, hwz⟩ := (hinv.deletedIff p).1 hp
    have hjk := tracked_inj _ hinv.distinct hw hv (by rw [hwp, hvp])
    subst hjk
    rw [hv] at hw
    cases hw
    exact hwz
  have hnodup : (deleted ++ c.destroy.2).Nodup := by
    have := destroyLoop_nodup c.primvecs c.sharedPrimVecs deleted hcount hinv.distinct
      hinv.deletedNodup hzero
    rw [(destroyLoop_append _ _ _).1] at this
    exact this
  obtain ⟨v0, hv0, hp0⟩ := hinv.rootHandle
  have hc0 := hinv.counts 0 v0 hv0
  rw [if_pos rfl] at hc0
  refine ⟨hinv.counts, ?_, ?_, ?_, ?_, ?_⟩
  · intro p hp i k v hik hv hvp
    have hz := hzero p hp k v hv hvp
    have hc := hinv.counts k v hv
    have hmem : k ∈ c.primvecs := List.mem_iff_getElem?.2 ⟨i, hik⟩
    have := List.one_le_count_iff.2 hmem
    omega
  · intro pre post p hsplit hp k v hk hv hvp
    have hcpre : ∀ j, c.primvecs.count j = pre.count j + post.count j := by
      intro j
      rw [hsplit, List.count_append]
    obtain ⟨-, -, hpre⟩ := destroyLoop_spec pre c.sharedPrimVecs [] (fun j w hw => by
      have := hcount j w hw
      have := hcpre j
      omega)
    rcases (hpre p).1 hp with h | ⟨j, w, hw, hwp, -, hwc⟩
    · cases h
    · have hjk := tracked_inj _ hinv.distinct hw hv (by rw [hwp, hvp])
      subst hjk
      rw [hv] at hw
      cases hw
      have hc := hinv.counts j v hv
      have := hcpre j
      have := List.one_le_count_iff.2 hk
      omega
  · intro k v hk hv
    apply List.count_eq_one_of_mem hnodup
    rw [List.mem_append]
    have hc := hinv.counts k v hv
    rw [if_neg (by omega)] at hc
    by_cases hz : v.refCount = 0
    · exact Or.inl ((hinv.deletedIff _).2 ⟨k, v, hv, rfl, hz⟩)
    · right
      unfold LocalChildListT.destroy
      rw [hd2]
      exact Or.inr ⟨k, v, hv, rfl, by omega, hc⟩
  · apply List.count_eq_zero_of_not_mem
    rw [List.mem_append]
    rintro (h | h)
    · have := hzero _ h 0 v0 hv0 hp0
      omega
    · unfold LocalChildListT.destroy at h
      rw [hd2] at h
      rcases h with h | ⟨j, w, hw, hwp, -, hwc⟩
      · cases h
      · have hj0 := tracked_inj _ hinv.distinct hw hv0 (by rw [hwp, hp0])
        subst hj0
        rw [hv0] at hw
        cases hw
        omega
  · unfold LocalChildListT.destroy
    rw [hd1 0 v0 hv0, hp0]
    congr 2
    omega

/-- C7 at a concrete input: a temporal split of the only slot (left child in
the new buffer 1) followed by a split of slot 1 whose children alias buffer
0; the destructor deletes buffer 1 and leaves the handle of buffer 0 at
count 1. -/
theorem refcount_balance_witness :
    ∃ c deleted,
      runSplits (LocalChildListT.new (exRecord 4 1))
        [(0, exChild 1 0 4 2, exChild 0 0 4 2), (1, exChild 0 0 2 2, exChild 0 2 4 2)] [] =
        some (c, deleted)
      ∧ c.destroy.1[0]? = some { prims := 0, refCount := 1 }
      ∧ (deleted ++ c.destroy.2).count 1 = 1 :=
  ⟨_, _, rfl,
    (refcount_balance (exRecord 4 1)
      [(0, exChild 1 0 4 2, exChild 0 0 4 2), (1, exChild 0 0 2 2, exChild 0 2 4 2)] _ _
      rfl rfl).2.2.2.2.2,
    (refcount_balance (exRecord 4 1)
      [(0, exChild 1 0 4 2, exChild 0 0 4 2), (1, exChild 0 0 2 2, exChild 0 2 4 2)] _ _
      rfl rfl).2.2.2.1 1 { prims := 1, refCount := 1 } (by decide) rfl⟩

/-! ## Leaves of a build -/

/-- Leaf calls of a concatenated trace. -/
theorem leafCalls_append {T : Sig} (t u : List (Event T)) :
    leafCalls (t ++ u) = leafCalls t ++ leafCalls u := by
  induction t with
  | nil => rfl
  | cons e t ih =>
    cases e <;> simp [leafCalls, ih]

/-- Deletions are no leaf calls. -/
theorem leafCalls_delete {T : Sig} (deleted : List Nat) :
    leafCalls (deleted.map (Event.delete : Nat → Event T)) = [] := by
  induction deleted with
  | nil => rfl
  | cons p ps ih => simp [leafCalls, ih]

/-- Leaf records are the first components of the leaf calls. -/
theorem leafRecords_eq {T : Sig} (t : List (Event T)) :
    leafRecords t = (leafCalls t).map Prod.fst := by
  induction t with
  | nil => rfl
  | cons e t ih =>
    cases e <;> simp [leafRecords, leafCalls, ih]

/-- No leaf is created without a step. -/
theorem LeafStep.refl {T : Sig} (env : Env T) (s : Settings T) (t : List (Event T)) :
    LeafStep env s t t := fun _ hx => Or.inl hx

/-- Steps compose. -/
theorem LeafStep.trans {T : Sig} {env : Env T} {s : Settings T} {t t1 t2 : List (Event T)}
    (h1 : LeafStep env s t t1) (h2 : LeafStep env s t1 t2) : LeafStep env s t t2 := by
  intro x hx
  rcases h2 x hx with h | h
  · exact h1 x h
  · exact Or.inr h

/-- A step that adds no leaf call. -/
theorem LeafStep.of_eq {T : Sig} {env : Env T} {s : Settings T} {t t1 : List (Event T)}
    (h : leafCalls t1 = leafCalls t) : LeafStep env s t t1 := by
  intro x hx
  rw [h] at hx
  exact Or.inl hx

/-- The growth loop of `createLargeLeaf` creates no leaf. -/
theorem largeLeafGrow_leafCalls {T : Sig} (env : Env T) (s : Settings T) (depth : Nat) :
    ∀ (n : Nat) (children : LocalChildListT T) (st : State T),
      leafCalls (largeLeafGrow env s depth n children st).2.trace = leafCalls st.trace := by
  intro n
  induction n with
  | zero => intro children st; rfl
  | succ n ih =>
    intro children st
    rw [largeLeafGrow]
    split
    · rfl
    · split
      · rfl
      · simp only
        split
        · rfl
        · split
          · rw [ih]
            simp [State.emits, leafCalls_append, leafCalls_delete]
          · simp [State.emits, leafCalls_append, leafCalls_delete]

/-- The heuristics consulted by `find` are no leaf calls. -/
theorem find_leafCalls {T : Sig} (env : Env T) (heap : Heap T) (set : SetMB T) (lbs : Nat) :
    leafCalls (find env heap set lbs).2 = [] := by
  unfold find
  simp only
  split
  · split <;> rfl
  · rfl

/-- The growth loop of `recurse` creates no leaf. -/
theorem recurseGrow_leafCalls {T : Sig} (env : Env T) (s : Settings T) (depth : Nat) :
    ∀ (n : Nat) (children : LocalChildListT T) (st : State T),
      leafCalls (recurseGrow env s depth n children st).2.trace = leafCalls st.trace := by
  intro n
  induction n with
  | zero => intro children st; rfl
  | succ n ih =>
    intro children st
    rw [recurseGrow]
    split
    · rfl
    · split
      · rfl
      · simp only
        split
        · simp [State.emits, leafCalls_append, find_leafCalls]
        · split
          · rw [ih]
            simp [State.emits, leafCalls_append, leafCalls_delete, find_leafCalls]
          · simp [State.emits, leafCalls_append, leafCalls_delete, find_leafCalls]

/-- The loop over the children creates only good leaves when the driver
called on each child does. -/
theorem visitChildren_leafStep {T : Sig} (env : Env T) (s : Settings T)
    (f : BuildRecord T → State T → Result T × State T)
    (hf : ∀ c st, LeafStep env s st.trace (f c st).2.trace) (node : T.N) :
    ∀ (l : List (Nat × BuildRecord T)) (st : State T),
      LeafStep env s st.trace (visitChildren f node l st).2.trace := by
  intro l
  induction l with
  | nil => intro st; exact LeafStep.refl env s _
  | cons ic rest ih =>
    intro st
    obtain ⟨i, c⟩ := ic
    have h1 := hf c st
    rw [visitChildren]
    cases hfc : f c st with
    | mk r st1 =>
      rw [hfc] at h1
      cases r with
      | error e => exact h1
      | ok v =>
        simp only
        have h2 : LeafStep env s st1.trace (st1.emit (.updateNode node i v)).trace :=
          LeafStep.of_eq (by simp [State.emit, leafCalls_append, leafCalls])
        have h3 := ih (st1.emit (.updateNode node i v))
        cases hv : visitChildren f node rest (st1.emit (.updateNode node i v)) with
        | mk r2 st2 =>
          rw [hv] at h3
          cases r2 with
          | error e => exact (h1.trans h2).trans h3
          | ok vs => exact (h1.trans h2).trans h3

/-- The end of a driver creates no leaf. -/
theorem finishNode_leafCalls {T : Sig} (env : Env T) (current : BuildRecord T)
    (children : LocalChildListT T) (timeSplits : Bool) (node : T.N)
    (r : Except Error (List (Value T)) × State T) :
    leafCalls (finishNode env current children timeSplits node r).2.trace =
      leafCalls r.2.trace := by
  unfold finishNode
  cases r.1 <;> simp [State.emits, leafCalls_append, leafCalls_delete]

/-- The result of `findFallback` depends on the set of the record only. -/
theorem findFallback_congr {T : Sig} (env : Env T) (s : Settings T) (heap : Heap T)
    (a b : BuildRecord T) (h : a.prims = b.prims) :
    findFallback env s heap a = findFallback env s heap b := by
  unfold findFallback
  rw [h]

/-- Every leaf created by `createLargeLeaf` passed its leaf test. -/
theorem createLargeLeaf_leafStep {T : Sig} (env : Env T) (s : Settings T) :
    ∀ (fuel : Nat) (current : BuildRecord T) (alloc : Alloc) (st : State T),
      LeafStep env s st.trace (createLargeLeaf env s fuel current alloc st).2.trace := by
  intro fuel
  induction fuel with
  | zero => intro current alloc st; exact LeafStep.refl env s _
  | succ fuel ih =>
    intro current alloc st
    rw [createLargeLeaf]
    split
    · exact LeafStep.refl env s _
    · simp only
      split
      · rename_i hleaf
        intro x hx
        simp only [State.emit, leafCalls_append, leafCalls, List.mem_append,
          List.mem_singleton] at hx
        rcases hx with hx | hx
        · exact Or.inl hx
        · right
          subst hx
          exact ⟨findFallback_congr env s st.heap _ _ rfl, hleaf⟩
      · cases hg : largeLeafGrow env s current.depth (s.branchingFactor + 1)
            (LocalChildListT.new
              { current with split := findFallback env s st.heap current }) st with
        | mk r st1 =>
          have hg1 := largeLeafGrow_leafCalls env s current.depth (s.branchingFactor + 1)
            (LocalChildListT.new
              { current with split := findFallback env s st.heap current }) st
          rw [hg] at hg1
          cases r with
          | error e => exact LeafStep.of_eq hg1
          | ok children =>
            simp only
            refine (LeafStep.of_eq hg1).trans ?_
            refine LeafStep.trans ?_ (LeafStep.of_eq (finishNode_leafCalls _ _ _ _ _ _))
            refine LeafStep.trans ?_
              (visitChildren_leafStep env s _ (fun c st => ih c alloc st) _ _ _)
            exact LeafStep.of_eq (by simp [State.emit, leafCalls_append, leafCalls])

/-- The start of `recurse` creates no leaf. -/
theorem recurseEnter_leafCalls {T : Sig} (s : Settings T) (current : BuildRecord T)
    (alloc : Alloc) (toplevel : Bool) (st : State T) :
    leafCalls (recurseEnter s current alloc toplevel st).2.trace = leafCalls st.trace := by
  unfold recurseEnter
  cases alloc <;> simp only <;> split <;>
    simp [State.emit, leafCalls_append, leafCalls]

/-- Every leaf created by `recurse` passed the leaf test of
`createLargeLeaf`. -/
theorem recurse_leafStep {T : Sig} (env : Env T) (s : Settings T) :
    ∀ (fuel : Nat) (current : BuildRecord T) (alloc : Alloc) (toplevel : Bool) (st : State T),
      LeafStep env s st.trace (recurse env s fuel current alloc toplevel st).2.trace := by
  intro fuel
  induction fuel with
  | zero => intro current alloc toplevel st; exact LeafStep.refl env s _
  | succ fuel ih =>
    intro current alloc toplevel st
    have he : LeafStep env s st.trace (recurseEnter s current alloc toplevel st).2.trace :=
      LeafStep.of_eq (recurseEnter_leafCalls s current alloc toplevel st)
    rw [recurse]
    split
    · refine he.trans ?_
      unfold recurseLeaf
      exact createLargeLeaf_leafStep env s fuel current _ _
    · refine he.trans ?_
      unfold recurseSplit
      cases hg : recurseGrow env s current.depth (s.branchingFactor + 1)
          (LocalChildListT.new current) (recurseEnter s current alloc toplevel st).2 with
      | mk r st1 =>
        have hg1 := recurseGrow_leafCalls env s current.depth (s.branchingFactor + 1)
          (LocalChildListT.new current) (recurseEnter s current alloc toplevel st).2
        rw [hg] at hg1
        cases r with
        | error e => exact LeafStep.of_eq hg1
        | ok children =>
          simp only
          refine (LeafStep.of_eq hg1).trans ?_
          have hn : LeafStep env s st1.trace
              (st1.emit (.createNode (hasTimeSplits env current children)
                (recurseEnter s current alloc toplevel st).1
                (env.createNode (hasTimeSplits env current children)
                  (recurseEnter s current alloc toplevel st).1))).trace :=
            LeafStep.of_eq (by simp [State.emit, leafCalls_append, leafCalls])
          refine hn.trans ?_
          split
          · refine LeafStep.trans ?_ (LeafStep.of_eq (finishNode_leafCalls _ _ _ _ _ _))
            exact visitChildren_leafStep env s _ (fun c st => ih c none true st) _ _ _
          · refine LeafStep.trans ?_ (LeafStep.of_eq (finishNode_leafCalls _ _ _ _ _ _))
            exact visitChildren_leafStep env s _ (fun c st => ih c _ false st) _ _ _

/-- Unfolding of `build`. -/
theorem build_eq {T : Sig} (env : Env T) (settings : Settings T) (fuel : Nat)
    (prims : List (PrimRefMB T)) (pinfo : PrimInfoMB T) :
    build env settings fuel prims pinfo =
      if settings.branchingFactor > 8 then
        (.error .branchingFactorTooLarge, { heap := [prims], trace := [], numAllocs := 0 })
      else
        BuilderT.run env settings fuel
          (BuildRecord.ofDepth env 1
            { pinfo := pinfo, prims := 0, object_range := ⟨0, pinfo.num⟩,
              time_range := ⟨env.zero, env.one⟩ })
          { heap := [prims], trace := [], numAllocs := 0 } := by
  unfold build BuilderT.new MAX_BRANCHING_FACTOR
  by_cases h : settings.branchingFactor > 8
  · simp [h]
  · simp [h]

/-- Every leaf created by a build passed the leaf test of `createLargeLeaf`
on the heap at the time of the call. -/
theorem build_leaves_good {T : Sig} (env : Env T) (settings : Settings T) (fuel : Nat)
    (prims : List (PrimRefMB T)) (pinfo : PrimInfoMB T) :
    ∀ x ∈ leafCalls (build env settings fuel prims pinfo).2.trace, GoodLeaf env settings x := by
  intro x hx
  rw [build_eq] at hx
  split at hx
  · simp [leafCalls] at hx
  · unfold BuilderT.run at hx
    rcases recurse_leafStep env settings fuel _ _ _ _ x hx with h | h
    · simp [State.emits, leafCalls, find_leafCalls] at h
    · exact h

/-- C4: every record handed to the leaf-creation callback during a build has
at most `maxLeafSize` primitives, for every input and every setting, whatever
the reason was for taking the leaf path (the depth margin included); and the
same holds for the leaves created by any single call of `createLargeLeaf`,
whatever the size of the record it is called on. -/
theorem leaf_size_bounded {T : Sig} (env : Env T) (settings : Settings T) (fuel : Nat)
    (prims : List (PrimRefMB T)) (pinfo : PrimInfoMB T) :
    (∀ r ∈ leafRecords (build env settings fuel prims pinfo).2.trace,
      r.prims.size ≤ settings.maxLeafSize)
    ∧ (∀ (current : BuildRecord T) (alloc : Alloc) (st : State T),
        ∀ r ∈ leafRecords (createLargeLeaf env settings fuel current alloc st).2.trace,
          r ∈ leafRecords st.trace ∨ r.prims.size ≤ settings.maxLeafSize) := by
  have hgood : ∀ x : BuildRecord T × Heap T, GoodLeaf env settings x →
      x.1.prims.size ≤ settings.maxLeafSize := by
    intro x hx
    have h := hx.2
    unfold isLargeLeaf at h
    simp only [Bool.and_eq_true, decide_eq_true_eq] at h
    exact h.1
  constructor
  · intro r hr
    rw [leafRecords_eq, List.mem_map] at hr
    obtain ⟨x, hx, rfl⟩ := hr
    exact hgood x (build_leaves_good env settings fuel prims pinfo x hx)
  · intro current alloc st r hr
    rw [leafRecords_eq, List.mem_map] at hr
    obtain ⟨x, hx, rfl⟩ := hr
    rcases createLargeLeaf_leafStep env settings fuel current alloc st x hx with h | h
    · left
      rw [leafRecords_eq, List.mem_map]
      exact ⟨x, h, rfl⟩
    · exact Or.inr (hgood x h)

/-- C4 at a concrete input: three primitives, `maxLeafSize = 1` and
`maxDepth = 8`, so that the root is sent to the large-leaf path by the depth
margin; the first leaf created has one primitive. -/
theorem leaf_size_bounded_witness :
    ∃ r, (leafRecords (build exEnv { exSettings with maxDepth := 8, maxLeafSize := 1 } 40
            [exPrim 2 1, exPrim 1 1, exPrim 0 1]
            { geom := (), num := 3, max_num_time_segments := 1 }).2.trace)[0]? = some r
      ∧ r.prims.size ≤ 1 :=
  ⟨_, rfl,
    (leaf_size_bounded exEnv { exSettings with maxDepth := 8, maxLeafSize := 1 } 40
      [exPrim 2 1, exPrim 1 1, exPrim 0 1]
      { geom := (), num := 3, max_num_time_segments := 1 }).1 _
      (List.mem_iff_getElem?.2 ⟨0, rfl⟩)⟩

/-- The split found by the scan of `findFallback` is temporal. -/
theorem findFallbackScan_data {T : Sig} (env : Env T) (time_range : BBox1f T)
    (prims : List (PrimRefMB T)) :
    ∀ (n i : Nat) (split : Split T), findFallbackScan env time_range prims i n = some split →
      split.data = SPLIT_TEMPORAL := by
  intro n
  induction n with
  | zero => intro i split h; cases h
  | succ n ih =>
    intro i split h
    rw [findFallbackScan] at h
    split at h
    · exact ih _ _ h
    · simp only at h
      split at h
      · cases h
        rfl
      · exact ih _ _ h

/-- When the scan of `findFallback` finds nothing, no primitive of the range
has more than one local time segment. -/
theorem findFallbackScan_none_imp {T : Sig} (env : Env T) (time_range : BBox1f T)
    (prims : List (PrimRefMB T)) :
    ∀ (n i : Nat), findFallbackScan env time_range prims i n = none →
      ∀ j prim, i ≤ j → j < i + n → prims[j]? = some prim →
        (env.getTimeSegmentRange time_range prim.totalTimeSegments).isize ≤ 1 := by
  intro n
  induction n with
  | zero => intro i _ j prim h1 h2; omega
  | succ n ih =>
    intro i h j prim h1 h2 hp
    rw [findFallbackScan] at h
    by_cases hij : j = i
    · subst hij
      rw [hp] at h
      simp only at h
      split at h
      · cases h
      · omega
    · have hrec : findFallbackScan env time_range prims (i + 1) n = none := by
        split at h
        · exact h
        · simp only at h
          split at h
          · cases h
          · exact h
      exact ih (i + 1) hrec j prim (by omega) (by omega) hp

/-- C5: when `singleLeafTimeSegment` is enabled, for every record handed to
the leaf-creation callback during a build and every primitive in its object
range (read from the backing buffer at the time of the call), the local
time-segment range of the primitive over the time range of the leaf has size
at most 1. -/
theorem single_segment_leaves {T : Sig} (env : Env T) (settings : Settings T) (fuel : Nat)
    (prims : List (PrimRefMB T)) (pinfo : PrimInfoMB T)
    (hsingle : settings.singleLeafTimeSegment = true)
    (x : BuildRecord T × Heap T)
    (hx : x ∈ leafCalls (build env settings fuel prims pinfo).2.trace)
    (i : Nat) (prim : PrimRefMB T)
    (hlo : x.1.prims.object_range._begin ≤ i) (hhi : i < x.1.prims.object_range._end)
    (hprim : (x.2.read x.1.prims.prims)[i]? = some prim) :
    (env.getTimeSegmentRange x.1.prims.time_range prim.totalTimeSegments).isize ≤ 1 := by
  obtain ⟨hsplit, hleaf⟩ := build_leaves_good env settings fuel prims pinfo x hx
  unfold isLargeLeaf at hleaf
  simp only [Bool.and_eq_true, decide_eq_true_eq, bne_iff_ne, ne_eq] at hleaf
  have hdata := hleaf.2
  rw [hsplit] at hdata
  unfold findFallback at hdata
  rw [if_pos hsingle] at hdata
  cases hscan : findFallbackScan env x.1.prims.time_range (x.2.read x.1.prims.prims)
      x.1.prims.object_range._begin
      (x.1.prims.object_range._end - x.1.prims.object_range._begin) with
  | some split =>
    rw [hscan] at hdata
    exact absurd (findFallbackScan_data env _ _ _ _ _ hscan) hdata
  | none =>
    exact findFallbackScan_none_imp env _ _ _ _ hscan i prim hlo (by omega) hprim

/-- C5 at a concrete input: one primitive with two time segments and
`singleLeafTimeSegment` enabled; the first leaf covers the first half of the
time range, where the primitive has one segment. -/
theorem single_segment_leaves_witness :
    ∃ x prim,
      (leafCalls (build exEnv { exSettings with singleLeafTimeSegment := true } 40 [exPrim 0 2]
          { geom := (), num := 1, max_num_time_segments := 2 }).2.trace)[0]? = some x
      ∧ (x.2.read x.1.prims.prims)[0]? = some prim
      ∧ (exEnv.getTimeSegmentRange x.1.prims.time_range prim.totalTimeSegments).isize ≤ 1 :=
  ⟨_, _, rfl, rfl,
    single_segment_leaves exEnv { exSettings with singleLeafTimeSegment := true } 40 [exPrim 0 2]
      { geom := (), num := 1, max_num_time_segments := 2 } rfl _
      (List.mem_iff_getElem?.2 ⟨0, rfl⟩) 0 _ (Nat.zero_le _) (by decide) rfl⟩

/-- C10 at a concrete input: two primitives, the second with two time
segments, over the time range `[0, 1]`. With `singleLeafTimeSegment` off the
fallback split is returned; with it on, the temporal split of the second
primitive at time `1/2`. -/
theorem findFallback_result_witness :
    findFallback exEnv exSettings [[exPrim 0 1, exPrim 1 2]] (exRecord 2 1) =
      Split.ofData exEnv exEnv.one SPLIT_FALLBACK 0 exEnv.zero
    ∧ findFallback exEnv { exSettings with singleLeafTimeSegment := true }
        [[exPrim 0 1, exPrim 1 2]] (exRecord 2 1) =
      Split.ofData exEnv exEnv.one SPLIT_TEMPORAL 0 (500 : Int) :=
  ⟨(findFallback_result exEnv exSettings [[exPrim 0 1, exPrim 1 2]] (exRecord 2 1)).1
      (Or.inl rfl),
   (findFallback_result exEnv { exSettings with singleLeafTimeSegment := true }
      [[exPrim 0 1, exPrim 1 2]] (exRecord 2 1)).2 1 (exPrim 1 2) rfl (by decide) (by decide)
      rfl (by decide)
      (by
        intro j p h1 h2 h3
        have hj : j = 0 := by omega
        subst hj
        cases h3
        decide)⟩

/-! ## Structure of the child list during growth -/

/-- The list built by the constructor is inside the arrays. -/
theorem InBounds.ofNew {T : Sig} (record : BuildRecord T) :
    InBounds (LocalChildListT.new record) := by
  refine ⟨rfl, by simp [LocalChildListT.new], ?_, by simp [LocalChildListT.new]⟩
  intro k hk
  simp only [LocalChildListT.new, List.mem_singleton] at hk
  subst hk
  simp [LocalChildListT.new]

/-- A registration of `split` succeeds while fewer than 16 handles are in
use, and returns a handle inside the new table. -/
theorem registerChild_some (shared : List SharedVector) (b bprims ptr : Nat)
    (hb : b < shared.length) (hlen : shared.length < 16) :
    ∃ pk shared1, registerChild shared b bprims ptr = some (pk, shared1)
      ∧ pk < shared1.length ∧ shared.length ≤ shared1.length
      ∧ shared1.length ≤ shared.length + 1 := by
  unfold registerChild
  by_cases h : ptr = bprims
  · exact ⟨b, incRefAt shared b, by rw [if_pos h], by rw [incRefAt_length]; exact hb,
      by rw [incRefAt_length], by rw [incRefAt_length]; omega⟩
  · refine ⟨shared.length, shared ++ [{ prims := ptr, refCount := 1 }], ?_, ?_, ?_, ?_⟩
    · rw [if_neg h, if_pos (by unfold MAX_BRANCHING_FACTOR; omega)]
    · simp
    · simp
    · simp

/-- A `split` of a valid slot of a list with fewer than 8 children succeeds:
every access is inside the arrays, the chosen slot is replaced, one slot is
appended, and the new list is inside the arrays again. -/
theorem LocalChildListT.split_inBounds {T : Sig} (c : LocalChildListT T) (bestChild : Nat)
    (l r : BuildRecord T) (nv : Option Nat) (hin : InBounds c)
    (hbest : bestChild < c.children.length) (hcap : c.children.length < 8) :
    ∃ c1 deleted, c.split bestChild l r nv = some (c1, deleted)
      ∧ c1.children = c.children.set bestChild l ++ [r]
      ∧ c1.depth = c.depth
      ∧ c1.sharedPrimVecs.length ≤ c.sharedPrimVecs.length + 2
      ∧ InBounds c1 := by
  have hbl : bestChild < c.primvecs.length := by rw [hin.slots]; exact hbest
  obtain ⟨b, hb⟩ : ∃ b, c.primvecs[bestChild]? = some b := ⟨_, List.getElem?_eq_getElem hbl⟩
  have hbmem : b ∈ c.primvecs := List.mem_iff_getElem?.2 ⟨bestChild, hb⟩
  have hblt : b < c.sharedPrimVecs.length := hin.handles b hbmem
  obtain ⟨bvec, hv⟩ : ∃ v, c.sharedPrimVecs[b]? = some v := ⟨_, List.getElem?_eq_getElem hblt⟩
  have hslots := hin.slots
  have hhc := hin.handlesCap
  obtain ⟨pl, sh1, hreg1, hpl, hle1, hge1⟩ := registerChild_some c.sharedPrimVecs b bvec.prims
    l.prims.prims hblt (by omega)
  obtain ⟨pr, sh2, hreg2, hpr, hle2, hge2⟩ := registerChild_some sh1 b bvec.prims
    r.prims.prims (by omega) (by omega)
  unfold LocalChildListT.split
  rw [if_pos ⟨hbest, by unfold MAX_BRANCHING_FACTOR; exact hcap⟩]
  simp only [hb, hv, hreg1, hreg2]
  refine ⟨_, _, rfl, rfl, rfl, ?_, ?_⟩
  · simp only [decRefAt_length]
    omega
  · refine ⟨?_, ?_, ?_, ?_⟩
    · simp only [List.length_append, List.length_set, List.length_singleton]
      omega
    · simp only [List.length_append, List.length_set, List.length_singleton]
      omega
    · intro k hk
      simp only [decRefAt_length]
      rw [List.mem_append, List.mem_singleton] at hk
      rcases hk with hk | hk
      · rcases List.mem_or_eq_of_mem_set hk with hk | hk
        · have := hin.handles k hk
          omega
        · omega
      · omega
    · simp only [decRefAt_length, List.length_append, List.length_set, List.length_singleton]
      omega

/-- One iteration of the growth loop of `createLargeLeaf`. -/
theorem largeLeafGrow_succ {T : Sig} (env : Env T) (s : Settings T) (depth n : Nat)
    (children : LocalChildListT T) (st : State T) :
    largeLeafGrow env s depth (n + 1) children st =
      match largeLeafBest s children.children 0 none 0 with
      | none => (.ok children, st)
      | some bestChild =>
        match children.children[bestChild]? with
        | none => (.error .outOfBounds, st)
        | some brecord =>
          match children.split bestChild (largeLeafLeft env s depth st.heap brecord)
              (largeLeafRight env s depth st.heap brecord)
              (partition env st.heap brecord).2.2.2 with
          | none => (.error .outOfBounds, { st with heap := (partition env st.heap brecord).1 })
          | some (children1, deleted) =>
            if children1.size < s.branchingFactor then
              largeLeafGrow env s depth n children1
                (({ st with heap := (partition env st.heap brecord).1 } : State T).emits
                  (deleted.map Event.delete))
            else
              (.ok children1,
                ({ st with heap := (partition env st.heap brecord).1 } : State T).emits
                  (deleted.map Event.delete)) := rfl

/-- One iteration of the growth loop of `recurse`. -/
theorem recurseGrow_succ {T : Sig} (env : Env T) (s : Settings T) (depth n : Nat)
    (children : LocalChildListT T) (st : State T) :
    recurseGrow env s depth (n + 1) children st =
      match recurseBest env s children.children 0 none env.neg_inf with
      | none => (.ok children, st)
      | some bestChild =>
        match children.children[bestChild]? with
        | none => (.error .outOfBounds, st)
        | some brecord =>
          match children.split bestChild (recurseLeft env s depth st.heap brecord)
              (recurseRight env s depth st.heap brecord)
              (partition env st.heap brecord).2.2.2 with
          | none =>
            (.error .outOfBounds,
              ({ st with heap := (partition env st.heap brecord).1 } : State T).emits
                (recurseFinds env s st.heap brecord))
          | some (children1, deleted) =>
            if children1.size < s.branchingFactor then
              recurseGrow env s depth n children1
                ((({ st with heap := (partition env st.heap brecord).1 } : State T).emits
                  (recurseFinds env s st.heap brecord)).emits (deleted.map Event.delete))
            else
              (.ok children1,
                (({ st with heap := (partition env st.heap brecord).1 } : State T).emits
                  (recurseFinds env s st.heap brecord)).emits (deleted.map Event.delete)) := rfl

/-- The child found by the search loop of `createLargeLeaf` is the initial
candidate or one of the children searched, and that child is not a leaf. -/
theorem largeLeafBest_some {T : Sig} (s : Settings T) :
    ∀ (l : List (BuildRecord T)) (i : Nat) (bestChild : Option Nat) (bestSize j : Nat),
      largeLeafBest s l i bestChild bestSize = some j →
      bestChild = some j ∨
        ∃ c, l[j - i]? = some c ∧ i ≤ j ∧ isLargeLeaf s c = false ∧ 0 < c.prims.size := by
  intro l
  induction l with
  | nil => intro i bc bs j h; exact Or.inl h
  | cons c cs ih =>
    intro i bc bs j h
    rw [largeLeafBest] at h
    have hshift : ∀ x : Nat, (∃ c', cs[j - (i + 1)]? = some c' ∧ i + 1 ≤ j ∧ isLargeLeaf s c' = false
        ∧ 0 < c'.prims.size) →
        ∃ c', (c :: cs)[j - i]? = some c' ∧ i ≤ j ∧ isLargeLeaf s c' = false
          ∧ 0 < c'.prims.size := by
      intro _ ⟨c', h1, h2, h3⟩
      refine ⟨c', ?_, by omega, h3⟩
      have : j - i = (j - (i + 1)) + 1 := by omega
      rw [this, List.getElem?_cons_succ]
      exact h1
    split at h
    · rcases ih _ _ _ _ h with h' | h'
      · exact Or.inl h'
      · exact Or.inr (hshift 0 h')
    · rename_i hleaf
      split at h
      · rename_i hsize
        rcases ih _ _ _ _ h with h' | h'
        · right
          cases h'
          refine ⟨c, by simp, Nat.le_refl _, by simpa using hleaf, by omega⟩
        · exact Or.inr (hshift 0 h')
      · rcases ih _ _ _ _ h with h' | h'
        · exact Or.inl h'
        · exact Or.inr (hshift 0 h')

/-- The child found by the search loop of `recurse` is the initial candidate
or one of the children searched, and that child is larger than `minLeafSize`. -/
theorem recurseBest_some {T : Sig} (env : Env T) (s : Settings T) :
    ∀ (l : List (BuildRecord T)) (i : Nat) (bestChild : Option Nat) (bestSAH : T.F) (j : Nat),
      recurseBest env s l i bestChild bestSAH = some j →
      bestChild = some j ∨
        ∃ c, l[j - i]? = some c ∧ i ≤ j ∧ s.minLeafSize < c.prims.size := by
  intro l
  induction l with
  | nil => intro i bc bs j h; exact Or.inl h
  | cons c cs ih =>
    intro i bc bs j h
    rw [recurseBest] at h
    have hshift : ∀ x : Nat, (∃ c', cs[j - (i + 1)]? = some c' ∧ i + 1 ≤ j
        ∧ s.minLeafSize < c'.prims.size) →
        ∃ c', (c :: cs)[j - i]? = some c' ∧ i ≤ j ∧ s.minLeafSize < c'.prims.size := by
      intro _ ⟨c', h1, h2, h3⟩
      refine ⟨c', ?_, by omega, h3⟩
      have : j - i = (j - (i + 1)) + 1 := by omega
      rw [this, List.getElem?_cons_succ]
      exact h1
    split at h
    · rcases ih _ _ _ _ h with h' | h'
      · exact Or.inl h'
      · exact Or.inr (hshift 0 h')
    · rename_i hsize
      split at h
      · rcases ih _ _ _ _ h with h' | h'
        · right
          cases h'
          exact ⟨c, by simp, Nat.le_refl _, by omega⟩
        · exact Or.inr (hshift 0 h')
      · rcases ih _ _ _ _ h with h' | h'
        · exact Or.inl h'
        · exact Or.inr (hshift 0 h')

/-- Invariant rule for the growth loop of `createLargeLeaf`: with a branching
factor of at most 8, started on a list inside the arrays with one child or
fewer than `branchingFactor` children and with `max 1 (branchingFactor -
size)` iterations allowed, the loop ends normally; every property kept by one
iteration holds at the end, the list is inside the arrays and holds at most
`max 2 branchingFactor` children, and either the first search found no child
and nothing changed, or the list has grown. -/
theorem largeLeafGrow_rule {T : Sig} (env : Env T) (s : Settings T) (depth : Nat)
    (Inv : LocalChildListT T → State T → Prop) (hbf : s.branchingFactor ≤ 8)
    (hstep : ∀ (c : LocalChildListT T) (st : State T) (bestChild : Nat)
      (brecord : BuildRecord T) (c1 : LocalChildListT T) (deleted : List Nat),
      Inv c st → InBounds c →
      largeLeafBest s c.children 0 none 0 = some bestChild →
      c.children[bestChild]? = some brecord →
      c.split bestChild (largeLeafLeft env s depth st.heap brecord)
        (largeLeafRight env s depth st.heap brecord)
        (partition env st.heap brecord).2.2.2 = some (c1, deleted) →
      c1.children = c.children.set bestChild (largeLeafLeft env s depth st.heap brecord)
        ++ [largeLeafRight env s depth st.heap brecord] →
      Inv c1 (({ st with heap := (partition env st.heap brecord).1 } : State T).emits
        (deleted.map Event.delete))) :
    ∀ (n : Nat) (c : LocalChildListT T) (st : State T), Inv c st → InBounds c →
      (c.size = 1 ∨ c.size < s.branchingFactor) →
      max 1 (s.branchingFactor - c.size) ≤ n →
      ∃ c1 st1, largeLeafGrow env s depth n c st = (.ok c1, st1) ∧ Inv c1 st1 ∧ InBounds c1
        ∧ c1.size ≤ max 2 s.branchingFactor
        ∧ ((largeLeafBest s c.children 0 none 0 = none ∧ c1 = c ∧ st1 = st)
            ∨ c.size < c1.size) := by
  intro n
  induction n with
  | zero =>
    intro c st _ _ _ hn
    have : 1 ≤ max 1 (s.branchingFactor - c.size) := Nat.le_max_left _ _
    omega
  | succ n ih =>
    intro c st hinv hin hsize hn
    simp only [LocalChildListT.size] at hsize hn ih ⊢
    rw [largeLeafGrow_succ]
    cases hbest : largeLeafBest s c.children 0 none 0 with
    | none =>
      refine ⟨c, st, rfl, hinv, hin, ?_, Or.inl ⟨rfl, rfl, rfl⟩⟩
      have := Nat.le_max_left 2 s.branchingFactor
      have := Nat.le_max_right 2 s.branchingFactor
      omega
    | some bestChild =>
      have hlt : bestChild < c.children.length := by
        rcases largeLeafBest_some s _ _ _ _ _ hbest with h | ⟨c', h, _⟩
        · cases h
        · exact lt_length_of_getElem? h
      simp only [List.getElem?_eq_getElem hlt]
      obtain ⟨c1, deleted, hsplit, hch, -, -, hin1⟩ :=
        LocalChildListT.split_inBounds c bestChild
          (largeLeafLeft env s depth st.heap c.children[bestChild])
          (largeLeafRight env s depth st.heap c.children[bestChild])
          (partition env st.heap c.children[bestChild]).2.2.2 hin hlt (by omega)
      have hinv1 := hstep c st bestChild c.children[bestChild] c1 deleted hinv hin hbest
        (List.getElem?_eq_getElem hlt) hsplit hch
      have hlen1 : c1.children.length = c.children.length + 1 := by
        rw [hch]
        simp
      rw [hsplit]
      simp only [LocalChildListT.size]
      by_cases hgo : c1.children.length < s.branchingFactor
      · rw [if_pos hgo]
        obtain ⟨c2, st2, hrun, hinv2, hin2, hsz2, hgrow2⟩ := ih c1 _ hinv1 hin1 (Or.inr hgo)
          (by
            have h1 := Nat.le_max_left 1 (s.branchingFactor - c.children.length)
            have h2 := Nat.le_max_right 1 (s.branchingFactor - c.children.length)
            apply Nat.max_le.2
            constructor <;> omega)
        refine ⟨c2, st2, hrun, hinv2, hin2, hsz2, Or.inr ?_⟩
        rcases hgrow2 with ⟨-, h, -⟩ | h
        · rw [h]
          omega
        · omega
      · rw [if_neg hgo]
        refine ⟨c1, _, rfl, hinv1, hin1, ?_, Or.inr (by omega)⟩
        have := Nat.le_max_left 2 s.branchingFactor
        have := Nat.le_max_right 2 s.branchingFactor
        omega

/-- Invariant rule for the growth loop of `recurse`: with a branching
factor of at most 8, started on a list inside the arrays with one child or
fewer than `branchingFactor` children and with `max 1 (branchingFactor -
size)` iterations allowed, the loop ends normally; every property kept by one
iteration holds at the end, the list is inside the arrays and holds at most
`max 2 branchingFactor` children, and either the first search found no child
and nothing changed, or the list has grown. -/
theorem recurseGrow_rule {T : Sig} (env : Env T) (s : Settings T) (depth : Nat)
    (Inv : LocalChildListT T → State T → Prop) (hbf : s.branchingFactor ≤ 8)
    (hstep : ∀ (c : LocalChildListT T) (st : State T) (bestChild : Nat)
      (brecord : BuildRecord T) (c1 : LocalChildListT T) (deleted : List Nat),
      Inv c st → InBounds c →
      recurseBest env s c.children 0 none env.neg_inf = some bestChild →
      c.children[bestChild]? = some brecord →
      c.split bestChild (recurseLeft env s depth st.heap brecord)
        (recurseRight env s depth st.heap brecord)
        (partition env st.heap brecord).2.2.2 = some (c1, deleted) →
      c1.children = c.children.set bestChild (recurseLeft env s depth st.heap brecord)
        ++ [recurseRight env s depth st.heap brecord] →
      Inv c1 ((({ st with heap := (partition env st.heap brecord).1 } : State T).emits
        (recurseFinds env s st.heap brecord)).emits (deleted.map Event.delete))) :
    ∀ (n : Nat) (c : LocalChildListT T) (st : State T), Inv c st → InBounds c →
      (c.size = 1 ∨ c.size < s.branchingFactor) →
      max 1 (s.branchingFactor - c.size) ≤ n →
      ∃ c1 st1, recurseGrow env s depth n c st = (.ok c1, st1) ∧ Inv c1 st1 ∧ InBounds c1
        ∧ c1.size ≤ max 2 s.branchingFactor
        ∧ ((recurseBest env s c.children 0 none env.neg_inf = none ∧ c1 = c ∧ st1 = st)
            ∨ c.size < c1.size) := by
  intro n
  induction n with
  | zero =>
    intro c st _ _ _ hn
    have : 1 ≤ max 1 (s.branchingFactor - c.size) := Nat.le_max_left _ _
    omega
  | succ n ih =>
    intro c st hinv hin hsize hn
    simp only [LocalChildListT.size] at hsize hn ih ⊢
    rw [recurseGrow_succ]
    cases hbest : recurseBest env s c.children 0 none env.neg_inf with
    | none =>
      refine ⟨c, st, rfl, hinv, hin, ?_, Or.inl ⟨rfl, rfl, rfl⟩⟩
      have := Nat.le_max_left 2 s.branchingFactor
      have := Nat.le_max_right 2 s.branchingFactor
      omega
    | some bestChild =>
      have hlt : bestChild < c.children.length := by
        rcases recurseBest_some env s _ _ _ _ _ hbest with h | ⟨c', h, _⟩
        · cases h
        · exact lt_length_of_getElem? h
      simp only [List.getElem?_eq_getElem hlt]
      obtain ⟨c1, deleted, hsplit, hch, -, -, hin1⟩ :=
        LocalChildListT.split_inBounds c bestChild
          (recurseLeft env s depth st.heap c.children[bestChild])
          (recurseRight env s depth st.heap c.children[bestChild])
          (partition env st.heap c.children[bestChild]).2.2.2 hin hlt (by omega)
      have hinv1 := hstep c st bestChild c.children[bestChild] c1 deleted hinv hin hbest
        (List.getElem?_eq_getElem hlt) hsplit hch
      have hlen1 : c1.children.length = c.children.length + 1 := by
        rw [hch]
        simp
      rw [hsplit]
      simp only [LocalChildListT.size]
      by_cases hgo : c1.children.length < s.branchingFactor
      · rw [if_pos hgo]
        obtain ⟨c2, st2, hrun, hinv2, hin2, hsz2, hgrow2⟩ := ih c1 _ hinv1 hin1 (Or.inr hgo)
          (by
            have h1 := Nat.le_max_left 1 (s.branchingFactor - c.children.length)
            have h2 := Nat.le_max_right 1 (s.branchingFactor - c.children.length)
            apply Nat.max_le.2
            constructor <;> omega)
        refine ⟨c2, st2, hrun, hinv2, hin2, hsz2, Or.inr ?_⟩
        rcases hgrow2 with ⟨-, h, -⟩ | h
        · rw [h]
          omega
        · omega
      · rw [if_neg hgo]
        refine ⟨c1, _, rfl, hinv1, hin1, ?_, Or.inr (by omega)⟩
        have := Nat.le_max_left 2 s.branchingFactor
        have := Nat.le_max_right 2 s.branchingFactor
        omega

/-! ## Relations kept by the drivers -/

/-- Emitting one event is emitting a list of one event. -/
theorem State.emit_eq_emits {T : Sig} (st : State T) (e : Event T) : st.emit e = st.emits [e] :=
  rfl

/-- A driver relation is kept by emitting one event of its kinds. -/
theorem DriverRel.emit {T : Sig} {env : Env T} {K : Event T → Prop}
    {R : State T → State T → Prop} (hR : DriverRel env K R) (st : State T) (e : Event T)
    (he : K e) : R st (st.emit e) :=
  hR.emits st [e] (fun x hx => by rw [List.mem_singleton.1 hx]; exact he)

/-- A driver relation is kept by logging deletions. -/
theorem DriverRel.deletes {T : Sig} {env : Env T} {K : Event T → Prop}
    {R : State T → State T → Prop} (hR : DriverRel env K R) (hK : GrowKinds K) (st : State T)
    (deleted : List Nat) : R st (st.emits (deleted.map Event.delete)) :=
  hR.emits st _ (fun x hx => by
    obtain ⟨p, -, rfl⟩ := List.mem_map.1 hx
    exact hK.delete p)

/-- The events of `find` are calls of the split heuristics. -/
theorem find_kinds {T : Sig} (env : Env T) {K : Event T → Prop} (hK : GrowKinds K)
    (heap : Heap T) (set : SetMB T) (lbs : Nat) : ∀ e ∈ (find env heap set lbs).2, K e := by
  intro e he
  unfold find at he
  simp only at he
  split at he
  · split at he <;>
    · simp only [List.mem_cons, List.mem_singleton, List.not_mem_nil, or_false] at he
      rcases he with rfl | rfl
      · exact hK.objectFind _
      · exact hK.temporalFind _
  · simp only [List.mem_singleton] at he
    rw [he]
    exact hK.objectFind _

/-- A driver relation is kept by the growth loop of `createLargeLeaf`. -/
theorem DriverRel.largeLeafGrow {T : Sig} {env : Env T} {K : Event T → Prop}
    {R : State T → State T → Prop}
    (hR : DriverRel env K R) (hK : GrowKinds K) (s : Settings T) (depth : Nat) :
    ∀ (n : Nat) (children : LocalChildListT T) (st : State T),
      R st (largeLeafGrow env s depth n children st).2 := by
  intro n
  induction n with
  | zero => intro children st; exact hR.refl st
  | succ n ih =>
    intro children st
    rw [largeLeafGrow_succ]
    split
    · exact hR.refl st
    · split
      · exact hR.refl st
      · split
        · exact hR.heapPartition st _
        · rename_i brecord _ _ children1 deleted _
          have h1 : R st (({ st with heap := (partition env st.heap brecord).1 } : State T).emits
              (deleted.map Event.delete)) :=
            hR.trans _ _ _ (hR.heapPartition st brecord) (hR.deletes hK _ _)
          split
          · exact hR.trans _ _ _ h1 (ih _ _)
          · exact h1

/-- A driver relation is kept by the growth loop of `recurse`. -/
theorem DriverRel.recurseGrow {T : Sig} {env : Env T} {K : Event T → Prop}
    {R : State T → State T → Prop}
    (hR : DriverRel env K R) (hK : GrowKinds K) (s : Settings T) (depth : Nat) :
    ∀ (n : Nat) (children : LocalChildListT T) (st : State T),
      R st (recurseGrow env s depth n children st).2 := by
  intro n
  induction n with
  | zero => intro children st; exact hR.refl st
  | succ n ih =>
    intro children st
    rw [recurseGrow_succ]
    split
    · exact hR.refl st
    · split
      · exact hR.refl st
      · rename_i brecord _
        have h0 : R st (({ st with heap := (partition env st.heap brecord).1 } : State T).emits
            (recurseFinds env s st.heap brecord)) :=
          hR.trans _ _ _ (hR.heapPartition st brecord) (hR.emits _ _ (by
            intro e he
            unfold recurseFinds at he
            rcases List.mem_append.1 he with h | h
            · exact find_kinds env hK _ _ _ e h
            · exact find_kinds env hK _ _ _ e h))
        split
        · exact h0
        · rename_i children1 deleted _
          have h1 : R st ((({ st with heap := (partition env st.heap brecord).1 } :
              State T).emits (recurseFinds env s st.heap brecord)).emits
                (deleted.map Event.delete)) := hR.trans _ _ _ h0 (hR.deletes hK _ _)
          split
          · exact hR.trans _ _ _ h1 (ih _ _)
          · exact h1

/-- A driver relation is kept by the loop over the children when it is kept
by the driver called on each child. -/
theorem DriverRel.visitChildren {T : Sig} {env : Env T} {K : Event T → Prop}
    {R : State T → State T → Prop}
    (hR : DriverRel env K R) (hK : NodeKinds K)
    (f : BuildRecord T → State T → Result T × State T)
    (hf : ∀ c st, R st (f c st).2) (node : T.N) :
    ∀ (l : List (Nat × BuildRecord T)) (st : State T), R st (visitChildren f node l st).2 := by
  intro l
  induction l with
  | nil => intro st; exact hR.refl st
  | cons ic rest ih =>
    intro st
    obtain ⟨i, c⟩ := ic
    have h1 := hf c st
    rw [MSMBlur.visitChildren]
    cases hfc : f c st with
    | mk r st1 =>
      rw [hfc] at h1
      cases r with
      | error e => exact h1
      | ok v =>
        simp only
        have h2 : R st1 (st1.emit (.updateNode node i v)) := hR.emit st1 _ (hK.updateNode _ _ _)
        have h3 := ih (st1.emit (.updateNode node i v))
        cases hv : MSMBlur.visitChildren f node rest (st1.emit (.updateNode node i v)) with
        | mk r2 st2 =>
          rw [hv] at h3
          cases r2 with
          | error e => exact hR.trans _ _ _ (hR.trans _ _ _ h1 h2) h3
          | ok vs => exact hR.trans _ _ _ (hR.trans _ _ _ h1 h2) h3

/-- A driver relation is kept by the end of a driver. -/
theorem DriverRel.finishNode {T : Sig} {env : Env T} {K : Event T → Prop}
    {R : State T → State T → Prop}
    (hR : DriverRel env K R) (hK : GrowKinds K) (current : BuildRecord T)
    (children : LocalChildListT T)
    (timeSplits : Bool) (node : T.N) (r : Except Error (List (Value T)) × State T) :
    R r.2 (finishNode env current children timeSplits node r).2 := by
  unfold MSMBlur.finishNode
  cases r.1 <;> exact hR.deletes hK _ _

/-- A driver relation is kept by `createLargeLeaf` when it allows the
creation of leaves. -/
theorem DriverRel.createLargeLeaf {T : Sig} {env : Env T} {K : Event T → Prop}
    {R : State T → State T → Prop}
    (hR : DriverRel env K R) (hK : GrowKinds K) (hN : NodeKinds K)
    (hL : ∀ r a h, K (.createLeaf r a h)) (s : Settings T) :
    ∀ (fuel : Nat) (current : BuildRecord T) (alloc : Alloc) (st : State T),
      R st (createLargeLeaf env s fuel current alloc st).2 := by
  intro fuel
  induction fuel with
  | zero => intro current alloc st; exact hR.refl st
  | succ fuel ih =>
    intro current alloc st
    rw [MSMBlur.createLargeLeaf]
    split
    · exact hR.refl st
    · simp only
      split
      · exact hR.emit st _ (hL _ _ _)
      · have hg := hR.largeLeafGrow hK s current.depth (s.branchingFactor + 1)
          (LocalChildListT.new { current with split := findFallback env s st.heap current }) st
        cases hgrow : MSMBlur.largeLeafGrow env s current.depth (s.branchingFactor + 1)
            (LocalChildListT.new
              { current with split := findFallback env s st.heap current }) st with
        | mk r st1 =>
          rw [hgrow] at hg
          cases r with
          | error e => exact hg
          | ok children =>
            simp only
            have h2 : R st1 (st1.emit (.createNode
                (hasTimeSplits env { current with split := findFallback env s st.heap current }
                  children) alloc
                (env.createNode
                  (hasTimeSplits env { current with split := findFallback env s st.heap current }
                    children) alloc))) := hR.emit st1 _ (hN.createNode _ _ _)
            refine hR.trans _ _ _ hg (hR.trans _ _ _ h2 ?_)
            refine hR.trans _ _ _ ?_ (hR.finishNode hK _ _ _ _ _)
            exact hR.visitChildren hN
              (fun c st => MSMBlur.createLargeLeaf env s fuel c alloc st)
              (fun c st => ih c alloc st) _ _ _

/-- A driver relation is kept by the start of `recurse` when it allows the
creation of allocation contexts and the calls of the progress monitor. -/
theorem DriverRel.recurseEnter {T : Sig} {env : Env T} {K : Event T → Prop}
    {R : State T → State T → Prop}
    (hR : DriverRel env K R) (hA : ∀ a, K (.createAlloc a)) (hP : ∀ n, K (.progressMonitor n))
    (s : Settings T) (current : BuildRecord T) (alloc : Alloc)
    (toplevel : Bool) (st : State T) : R st (recurseEnter s current alloc toplevel st).2 := by
  unfold MSMBlur.recurseEnter
  cases alloc with
  | none =>
    simp only
    have h1 : R st (({ st with numAllocs := st.numAllocs + 1 } : State T).emit
        (.createAlloc st.numAllocs)) := hR.trans _ _ _ (hR.alloc st) (hR.emit _ _ (hA _))
    split
    · exact hR.trans _ _ _ h1 (hR.emit _ _ (hP _))
    · exact h1
  | some a =>
    simp only
    split
    · exact hR.emit _ _ (hP _)
    · exact hR.refl st

/-- A driver relation is kept by the leaf path of `recurse` when it allows
the creation of leaves. -/
theorem DriverRel.recurseLeaf {T : Sig} {env : Env T} {K : Event T → Prop}
    {R : State T → State T → Prop}
    (hR : DriverRel env K R) (hK : GrowKinds K) (hN : NodeKinds K)
    (hL : ∀ r a h, K (.createLeaf r a h)) (s : Settings T) (fuel : Nat)
    (current : BuildRecord T) (alloc : Alloc) (st : State T) :
    R st (recurseLeaf env s fuel current alloc st).2 := by
  unfold MSMBlur.recurseLeaf
  exact hR.trans _ _ _ (hR.heapSort _ _) (hR.createLargeLeaf hK hN hL s fuel current _ _)

/-- A driver relation is kept by the splitting path of `recurse` when it is
kept by the driver used for the children. -/
theorem DriverRel.recurseSplit {T : Sig} {env : Env T} {K : Event T → Prop}
    {R : State T → State T → Prop}
    (hR : DriverRel env K R) (hK : GrowKinds K) (hN : NodeKinds K) (s : Settings T)
    (rec_ : BuildRecord T → Alloc → Bool → State T → Result T × State T)
    (hrec : ∀ c a t st, R st (rec_ c a t st).2)
    (current : BuildRecord T) (alloc : Alloc) (st : State T) :
    R st (recurseSplit env s rec_ current alloc st).2 := by
  unfold MSMBlur.recurseSplit
  have hg := hR.recurseGrow hK s current.depth (s.branchingFactor + 1)
    (LocalChildListT.new current) st
  cases hgrow : MSMBlur.recurseGrow env s current.depth (s.branchingFactor + 1)
      (LocalChildListT.new current) st with
  | mk r st1 =>
    rw [hgrow] at hg
    cases r with
    | error e => exact hg
    | ok children =>
      simp only
      have h2 : R st1 (st1.emit (.createNode (hasTimeSplits env current children) alloc
          (env.createNode (hasTimeSplits env current children) alloc))) :=
        hR.emit st1 _ (hN.createNode _ _ _)
      refine hR.trans _ _ _ hg (hR.trans _ _ _ h2 ?_)
      split
      · refine hR.trans _ _ _ ?_ (hR.finishNode hK _ _ _ _ _)
        exact hR.visitChildren hN (fun c st => rec_ c none true st)
          (fun c st => hrec c none true st) _ _ _
      · refine hR.trans _ _ _ ?_ (hR.finishNode hK _ _ _ _ _)
        exact hR.visitChildren hN (fun c st0 => rec_ c alloc false st0)
          (fun c st0 => hrec c alloc false st0) _ _ _

/-- A driver relation is kept by `recurse` when it allows every event. -/
theorem DriverRel.recurse {T : Sig} {env : Env T} {K : Event T → Prop}
    {R : State T → State T → Prop}
    (hR : DriverRel env K R) (hall : ∀ e, K e) (s : Settings T) :
    ∀ (fuel : Nat) (current : BuildRecord T) (alloc : Alloc) (toplevel : Bool) (st : State T),
      R st (recurse env s fuel current alloc toplevel st).2 := by
  have hK : GrowKinds K := ⟨fun _ => hall _, fun _ => hall _, fun _ => hall _⟩
  have hN : NodeKinds K := ⟨fun _ _ _ => hall _, fun _ _ _ => hall _⟩
  intro fuel
  induction fuel with
  | zero => intro current alloc toplevel st; exact hR.refl st
  | succ fuel ih =>
    intro current alloc toplevel st
    have he := hR.recurseEnter (fun _ => hall _) (fun _ => hall _) s current alloc toplevel st
    rw [MSMBlur.recurse]
    split
    · exact hR.trans _ _ _ he (hR.recurseLeaf hK hN (fun _ _ _ => hall _) s fuel current _ _)
    · exact hR.trans _ _ _ he (hR.recurseSplit hK hN s _
        (fun c a t st0 => ih c a t st0) current _ _)

/-- Trace extension is a driver relation for all events. -/
theorem TraceExt.driverRel {T : Sig} (env : Env T) :
    DriverRel env (fun _ => True) (TraceExt : State T → _) := by
  refine ⟨fun st => ⟨[], by simp⟩, ?_, fun st es _ => ⟨es, rfl⟩, fun st _ => ⟨[], by simp⟩,
    fun st _ => ⟨[], by simp⟩, fun st => ⟨[], by simp⟩⟩
  rintro a b c ⟨es, h1⟩ ⟨fs, h2⟩
  exact ⟨es ++ fs, by rw [h2, h1, List.append_assoc]⟩

/-! ## Where the errors of the drivers come from -/

/-- An error of the loop over the children is an error of the driver called
on one of them. -/
theorem visitChildren_error {T : Sig} (f : BuildRecord T → State T → Result T × State T)
    (P : Error → Prop) (node : T.N) :
    ∀ (l : List (Nat × BuildRecord T)) (st : State T),
      (∀ (c : BuildRecord T) (st0 : State T) (e : Error), (f c st0).1 = .error e → P e) →
      ∀ e, (visitChildren f node l st).1 = .error e → P e := by
  intro l
  induction l with
  | nil => intro st _ e h; simp [MSMBlur.visitChildren] at h
  | cons ic rest ih =>
    intro st hf e h
    obtain ⟨i, c⟩ := ic
    rw [MSMBlur.visitChildren] at h
    cases hfc : f c st with
    | mk r st1 =>
      rw [hfc] at h
      cases r with
      | error e1 =>
        simp only at h
        have := hf c st e1 (by rw [hfc])
        cases h
        exact this
      | ok v =>
        simp only at h
        cases hv : MSMBlur.visitChildren f node rest (st1.emit (.updateNode node i v)) with
        | mk r2 st2 =>
          rw [hv] at h
          cases r2 with
          | error e2 =>
            simp only at h
            cases h
            exact ih _ hf e (by rw [hv])
          | ok vs => simp at h

/-- The end of a driver passes an error on and raises none. -/
theorem finishNode_error {T : Sig} (env : Env T) (current : BuildRecord T)
    (children : LocalChildListT T) (timeSplits : Bool) (node : T.N)
    (r : Except Error (List (Value T)) × State T) (e : Error) :
    (finishNode env current children timeSplits node r).1 = .error e ↔ r.1 = .error e := by
  unfold MSMBlur.finishNode
  cases r.1 <;> simp

/-- With a branching factor of at most 8 the growth loop of `createLargeLeaf`
ends normally when started as the driver starts it. -/
theorem largeLeafGrow_ok {T : Sig} (env : Env T) (s : Settings T) (hbf : s.branchingFactor ≤ 8)
    (current : BuildRecord T) (st : State T) :
    ∃ c st1, largeLeafGrow env s current.depth (s.branchingFactor + 1)
      (LocalChildListT.new current) st = (.ok c, st1) ∧ InBounds c
      ∧ c.size ≤ max 2 s.branchingFactor := by
  obtain ⟨c, st1, h, -, hin, hsize, -⟩ := largeLeafGrow_rule env s current.depth
    (fun _ _ => True) hbf (fun _ _ _ _ _ _ _ _ _ _ _ _ => trivial)
    (s.branchingFactor + 1) (LocalChildListT.new current) st trivial (InBounds.ofNew current)
    (Or.inl rfl)
    (by simp only [LocalChildListT.size, LocalChildListT.new, List.length_singleton]; omega)
  exact ⟨c, st1, h, hin, hsize⟩

/-- With a branching factor of at most 8 the growth loop of `recurse` ends
normally when started as the driver starts it. -/
theorem recurseGrow_ok {T : Sig} (env : Env T) (s : Settings T) (hbf : s.branchingFactor ≤ 8)
    (current : BuildRecord T) (st : State T) :
    ∃ c st1, recurseGrow env s current.depth (s.branchingFactor + 1)
      (LocalChildListT.new current) st = (.ok c, st1) ∧ InBounds c
      ∧ c.size ≤ max 2 s.branchingFactor := by
  obtain ⟨c, st1, h, -, hin, hsize, -⟩ := recurseGrow_rule env s current.depth
    (fun _ _ => True) hbf (fun _ _ _ _ _ _ _ _ _ _ _ _ => trivial)
    (s.branchingFactor + 1) (LocalChildListT.new current) st trivial (InBounds.ofNew current)
    (Or.inl rfl)
    (by simp only [LocalChildListT.size, LocalChildListT.new, List.length_singleton]; omega)
  exact ⟨c, st1, h, hin, hsize⟩

/-- With a branching factor of at most 8, `createLargeLeaf` raises nothing but
the depth-limit error; the embedding adds the end of the fuel. -/
theorem createLargeLeaf_error {T : Sig} (env : Env T) (s : Settings T)
    (hbf : s.branchingFactor ≤ 8) :
    ∀ (fuel : Nat) (current : BuildRecord T) (alloc : Alloc) (st : State T) (e : Error),
      (createLargeLeaf env s fuel current alloc st).1 = .error e →
      e = .depthLimitReached ∨ e = .outOfFuel := by
  intro fuel
  induction fuel with
  | zero =>
    intro current alloc st e h
    simp only [MSMBlur.createLargeLeaf] at h
    cases h
    exact Or.inr rfl
  | succ fuel ih =>
    intro current alloc st e h
    rw [MSMBlur.createLargeLeaf] at h
    split at h
    · cases h; exact Or.inl rfl
    · simp only at h
      split at h
      · cases h
      · obtain ⟨c, st1, hg, -, -⟩ := largeLeafGrow_ok env s hbf
          { current with split := findFallback env s st.heap current } st
        simp only at hg
        rw [hg] at h
        simp only at h
        rw [finishNode_error] at h
        exact visitChildren_error _ (fun e => e = .depthLimitReached ∨ e = .outOfFuel) _ _ _
          (fun c st0 e he => ih c alloc st0 e he) e h

/-- With a branching factor of at most 8, `recurse` raises nothing but the
depth-limit error; the embedding adds the end of the fuel. -/
theorem recurse_error {T : Sig} (env : Env T) (s : Settings T)
    (hbf : s.branchingFactor ≤ 8) :
    ∀ (fuel : Nat) (current : BuildRecord T) (alloc : Alloc) (toplevel : Bool) (st : State T)
      (e : Error), (recurse env s fuel current alloc toplevel st).1 = .error e →
      e = .depthLimitReached ∨ e = .outOfFuel := by
  intro fuel
  induction fuel with
  | zero =>
    intro current alloc toplevel st e h
    simp only [MSMBlur.recurse] at h
    cases h
    exact Or.inr rfl
  | succ fuel ih =>
    intro current alloc toplevel st e h
    rw [MSMBlur.recurse] at h
    split at h
    · exact createLargeLeaf_error env s hbf fuel current _ _ e h
    · unfold recurseSplit at h
      obtain ⟨c, st1, hg, -, -⟩ := recurseGrow_ok env s hbf current
        (recurseEnter s current alloc toplevel st).2
      rw [hg] at h
      simp only at h
      split at h
      · rw [finishNode_error] at h
        exact visitChildren_error _ (fun e => e = .depthLimitReached ∨ e = .outOfFuel) _ _ _
          (fun c st0 e he => ih c none true st0 e he) e h
      · rw [finishNode_error] at h
        simp only at h
        cases hv : MSMBlur.visitChildren
            (fun c st0 => MSMBlur.recurse env s fuel c
              (recurseEnter s current alloc toplevel st).1 false st0)
            (env.createNode (hasTimeSplits env current c)
              (recurseEnter s current alloc toplevel st).1)
            c.children.enum.reverse
            (st1.emit (.createNode (hasTimeSplits env current c)
              (recurseEnter s current alloc toplevel st).1
              (env.createNode (hasTimeSplits env current c)
                (recurseEnter s current alloc toplevel st).1))) with
        | mk r2 st2 =>
          rw [hv] at h
          cases r2 with
          | ok vs => simp [Except.map] at h
          | error e2 =>
            simp only [Except.map] at h
            cases h
            exact visitChildren_error _ (fun e => e = .depthLimitReached ∨ e = .outOfFuel)
              _ _ _ (fun c st0 e he => ih c _ false st0 e he) e (by rw [hv])

/-! ## The size of the child list -/

/-- C14, as stated, fails: with `branchingFactor = 1` the `do .. while` loops
of both drivers perform one split before the size is compared for the first
time, so for a record of 10 primitives the list holds 2 records after the
loop, more than the branching factor. -/
theorem growth_exceeds_branchingFactor_counterexample :
    isLargeLeaf exSettingsOne (exChild 0 0 10 1) = false ∧
    recurseLeafCond exEnv exSettingsOne (exRecord 10 1) = false ∧
    (∃ c st1, largeLeafGrow exEnv exSettingsOne (exChild 0 0 10 1).depth
        (exSettingsOne.branchingFactor + 1) (LocalChildListT.new (exChild 0 0 10 1))
        (exState 10) = (.ok c, st1) ∧ ¬ c.size ≤ exSettingsOne.branchingFactor) ∧
    (∃ c st1, recurseGrow exEnv exSettingsOne (exRecord 10 1).depth
        (exSettingsOne.branchingFactor + 1) (LocalChildListT.new (exRecord 10 1))
        (exState 10) = (.ok c, st1) ∧ ¬ c.size ≤ exSettingsOne.branchingFactor) :=
  ⟨by decide, by decide, ⟨_, _, rfl, by decide⟩, ⟨_, _, rfl, by decide⟩⟩

/-- C14, amended: for a branching factor of at most 8 the growth loop of
either driver, started on the list of the record alone with the iterations
the driver allows, ends normally with at most `max 2 branchingFactor`
records in the list, hence with at most `branchingFactor` records when the
branching factor is at least 2. -/
theorem growth_size_bounded {T : Sig} (env : Env T) (s : Settings T)
    (hbf : s.branchingFactor ≤ MAX_BRANCHING_FACTOR) (current : BuildRecord T) (st : State T) :
    (∃ c st1, largeLeafGrow env s current.depth (s.branchingFactor + 1)
        (LocalChildListT.new current) st = (.ok c, st1) ∧
        c.size ≤ max 2 s.branchingFactor ∧ (2 ≤ s.branchingFactor → c.size ≤ s.branchingFactor)) ∧
    (∃ c st1, recurseGrow env s current.depth (s.branchingFactor + 1)
        (LocalChildListT.new current) st = (.ok c, st1) ∧
        c.size ≤ max 2 s.branchingFactor ∧ (2 ≤ s.branchingFactor → c.size ≤ s.branchingFactor)) := by
  have hbf8 : s.branchingFactor ≤ 8 := hbf
  constructor
  · obtain ⟨c, st1, h, -, -, hsize, -⟩ := largeLeafGrow_rule env s current.depth
      (fun _ _ => True) hbf8 (fun _ _ _ _ _ _ _ _ _ _ _ _ => trivial)
      (s.branchingFactor + 1) (LocalChildListT.new current) st trivial (InBounds.ofNew current)
      (Or.inl rfl) (by simp only [LocalChildListT.size, LocalChildListT.new, List.length_singleton]; omega)
    exact ⟨c, st1, h, hsize, fun h2 => by omega⟩
  · obtain ⟨c, st1, h, -, -, hsize, -⟩ := recurseGrow_rule env s current.depth
      (fun _ _ => True) hbf8 (fun _ _ _ _ _ _ _ _ _ _ _ _ => trivial)
      (s.branchingFactor + 1) (LocalChildListT.new current) st trivial (InBounds.ofNew current)
      (Or.inl rfl) (by simp only [LocalChildListT.size, LocalChildListT.new, List.length_singleton]; omega)
    exact ⟨c, st1, h, hsize, fun h2 => by omega⟩

/-- The amended C14 at a branching factor of 1: the list ends with at most 2
records. -/
theorem growth_size_bounded_witness :
    exSettingsOne.branchingFactor ≤ MAX_BRANCHING_FACTOR ∧
    ((∃ c st1, largeLeafGrow exEnv exSettingsOne (exChild 0 0 10 1).depth
        (exSettingsOne.branchingFactor + 1) (LocalChildListT.new (exChild 0 0 10 1))
        (exState 10) = (.ok c, st1) ∧
        c.size ≤ max 2 exSettingsOne.branchingFactor ∧
        (2 ≤ exSettingsOne.branchingFactor → c.size ≤ exSettingsOne.branchingFactor)) ∧
    (∃ c st1, recurseGrow exEnv exSettingsOne (exChild 0 0 10 1).depth
        (exSettingsOne.branchingFactor + 1) (LocalChildListT.new (exChild 0 0 10 1))
        (exState 10) = (.ok c, st1) ∧
        c.size ≤ max 2 exSettingsOne.branchingFactor ∧
        (2 ≤ exSettingsOne.branchingFactor → c.size ≤ exSettingsOne.branchingFactor))) :=
  ⟨by decide, growth_size_bounded exEnv exSettingsOne (by decide) (exChild 0 0 10 1) (exState 10)⟩

/-- A list inside the arrays with at most 8 children respects every capacity. -/
theorem InBounds.capacity {T : Sig} {c : LocalChildListT T} (hin : InBounds c)
    (hsize : c.size ≤ 8) :
    c.children.length ≤ MAX_BRANCHING_FACTOR ∧ c.primvecs.length ≤ MAX_BRANCHING_FACTOR ∧
    c.sharedPrimVecs.length ≤ 2 * MAX_BRANCHING_FACTOR ∧
    (∀ k ∈ c.primvecs, k < c.sharedPrimVecs.length) ∧
    (∀ ic ∈ c.children.enum, ic.1 < MAX_BRANCHING_FACTOR) := by
  have h1 := hin.slots
  have h2 := hin.handlesCap
  simp only [LocalChildListT.size] at hsize
  refine ⟨hsize, by rw [h1]; exact hsize, by simp only [MAX_BRANCHING_FACTOR]; omega,
    hin.handles, ?_⟩
  rintro ⟨i, c0⟩ hic
  have := (List.mem_enum hic).1
  simp only [MAX_BRANCHING_FACTOR]
  omega

/-- C15: for a branching factor of at most 8, including 0 and 1, the growth
loop of either driver ends without an access outside the fixed-capacity
arrays, with at most 8 records in `children`, at most 8 slots in `primvecs`,
at most 16 handles in `sharedPrimVecs`, every slot pointing to a handle of
the table and every index of the `values` array below 8; and neither driver
ever fails with an access out of bounds. -/
theorem child_list_in_bounds {T : Sig} (env : Env T) (s : Settings T)
    (hbf : s.branchingFactor ≤ MAX_BRANCHING_FACTOR) (current : BuildRecord T) (st : State T) :
    (∃ c st1, largeLeafGrow env s current.depth (s.branchingFactor + 1)
        (LocalChildListT.new current) st = (.ok c, st1) ∧
        c.children.length ≤ MAX_BRANCHING_FACTOR ∧ c.primvecs.length ≤ MAX_BRANCHING_FACTOR ∧
        c.sharedPrimVecs.length ≤ 2 * MAX_BRANCHING_FACTOR ∧
        (∀ k ∈ c.primvecs, k < c.sharedPrimVecs.length) ∧
        (∀ ic ∈ c.children.enum, ic.1 < MAX_BRANCHING_FACTOR)) ∧
    (∃ c st1, recurseGrow env s current.depth (s.branchingFactor + 1)
        (LocalChildListT.new current) st = (.ok c, st1) ∧
        c.children.length ≤ MAX_BRANCHING_FACTOR ∧ c.primvecs.length ≤ MAX_BRANCHING_FACTOR ∧
        c.sharedPrimVecs.length ≤ 2 * MAX_BRANCHING_FACTOR ∧
        (∀ k ∈ c.primvecs, k < c.sharedPrimVecs.length) ∧
        (∀ ic ∈ c.children.enum, ic.1 < MAX_BRANCHING_FACTOR)) ∧
    (∀ (fuel : Nat) (alloc : Alloc),
      (createLargeLeaf env s fuel current alloc st).1 ≠ .error .outOfBounds) ∧
    (∀ (fuel : Nat) (alloc : Alloc) (toplevel : Bool),
      (recurse env s fuel current alloc toplevel st).1 ≠ .error .outOfBounds) := by
  have hbf8 : s.branchingFactor ≤ 8 := hbf
  refine ⟨?_, ?_, ?_, ?_⟩
  · obtain ⟨c, st1, h, hin, hsize⟩ := largeLeafGrow_ok env s hbf8 current st
    exact ⟨c, st1, h, hin.capacity (by omega)⟩
  · obtain ⟨c, st1, h, hin, hsize⟩ := recurseGrow_ok env s hbf8 current st
    exact ⟨c, st1, h, hin.capacity (by omega)⟩
  · intro fuel alloc h
    rcases createLargeLeaf_error env s hbf8 fuel current alloc st _ h with h1 | h1 <;> cases h1
  · intro fuel alloc toplevel h
    rcases recurse_error env s hbf8 fuel current alloc toplevel st _ h with h1 | h1 <;> cases h1

/-- C15 at a branching factor of 1: `recurse` never fails out of bounds. -/
theorem child_list_in_bounds_witness :
    exSettingsOne.branchingFactor ≤ MAX_BRANCHING_FACTOR ∧
    (∀ (fuel : Nat) (alloc : Alloc) (toplevel : Bool),
      (recurse exEnv exSettingsOne fuel (exRecord 10 1) alloc toplevel (exState 10)).1
        ≠ .error .outOfBounds) :=
  ⟨by decide,
   (child_list_in_bounds exEnv exSettingsOne (by decide) (exRecord 10 1) (exState 10)).2.2.2⟩

/-! ## Calls of the progress monitor -/

/-- The progress calls of a concatenation. -/
theorem progressCalls_append {T : Sig} (t u : List (Event T)) :
    progressCalls (t ++ u) = progressCalls t ++ progressCalls u := by
  induction t with
  | nil => rfl
  | cons e t ih => cases e <;> simp [progressCalls, ih]

/-- Events other than calls of the progress monitor add no progress call. -/
theorem progressCalls_eq_nil {T : Sig} (es : List (Event T))
    (h : ∀ e ∈ es, ∀ n, e ≠ .progressMonitor n) : progressCalls es = [] := by
  induction es with
  | nil => rfl
  | cons e es ih =>
    have he := h e (List.mem_cons_self _ _)
    have ih1 := ih (fun x hx => h x (List.mem_cons_of_mem _ hx))
    cases e <;> simp_all [progressCalls]

/-- Keeping the calls of the progress monitor is a driver relation for the
events other than these calls. -/
theorem progressKept_driverRel {T : Sig} (env : Env T) :
    DriverRel env (fun e => ∀ n, e ≠ .progressMonitor n)
      (fun st st1 : State T => progressCalls st1.trace = progressCalls st.trace) := by
  refine ⟨fun st => rfl, fun a b c h1 h2 => h2.trans h1, ?_, fun st _ => rfl, fun st _ => rfl,
    fun st => rfl⟩
  intro st es hes
  simp only [State.emits, progressCalls_append, progressCalls_eq_nil es hes, List.append_nil]

/-- The growth kinds are not calls of the progress monitor. -/
theorem growKinds_not_progress {T : Sig} :
    GrowKinds (fun e : Event T => ∀ n, e ≠ .progressMonitor n) :=
  by constructor <;> (intros; intro h; cases h)

/-- The node kinds are not calls of the progress monitor. -/
theorem nodeKinds_not_progress {T : Sig} :
    NodeKinds (fun e : Event T => ∀ n, e ≠ .progressMonitor n) :=
  by constructor <;> (intros; intro h; cases h)

/-- C18: `recurse` first runs `recurseEnter`, which calls the progress
monitor with the size of the record exactly when the call is top-level and
the size is at most `singleThreadThreshold`, and only then takes the leaf or
the splitting path; neither path calls the progress monitor itself: the leaf
path never does, the splitting path only through the driver called on the
children, which is `recurse` with `toplevel` set to whether the size of the
node exceeds `singleThreadThreshold`; a call that is not top-level makes no
progress call of its own. -/
theorem progress_monitor_calls {T : Sig} (env : Env T) (s : Settings T)
    (current : BuildRecord T) (alloc : Alloc) (toplevel : Bool) (st : State T) :
    (progressCalls (recurseEnter s current alloc toplevel st).2.trace =
      progressCalls st.trace ++
        (if toplevel = true ∧ current.size ≤ s.singleThreadThreshold then [current.size]
         else [])) ∧
    (∀ fuel : Nat, recurse env s (fuel + 1) current alloc toplevel st =
      if recurseLeafCond env s current then
        recurseLeaf env s fuel current (recurseEnter s current alloc toplevel st).1
          (recurseEnter s current alloc toplevel st).2
      else
        recurseSplit env s
          (fun c a _ st0 =>
            recurse env s fuel c a (decide (current.size > s.singleThreadThreshold)) st0)
          current (recurseEnter s current alloc toplevel st).1
          (recurseEnter s current alloc toplevel st).2) ∧
    (∀ (fuel : Nat) (a : Alloc) (st0 : State T),
      progressCalls (recurseLeaf env s fuel current a st0).2.trace = progressCalls st0.trace) ∧
    (∀ (rec_ : BuildRecord T → Alloc → Bool → State T → Result T × State T) (a : Alloc)
      (st0 : State T),
      (∀ c a1 t st1, progressCalls (rec_ c a1 t st1).2.trace = progressCalls st1.trace) →
      progressCalls (recurseSplit env s rec_ current a st0).2.trace = progressCalls st0.trace) ∧
    progressCalls (recurseEnter s current alloc false st).2.trace = progressCalls st.trace := by
  have henter : ∀ tl : Bool, progressCalls (recurseEnter s current alloc tl st).2.trace =
      progressCalls st.trace ++
        (if tl = true ∧ current.size ≤ s.singleThreadThreshold then [current.size] else []) := by
    intro tl
    unfold recurseEnter
    cases alloc <;> cases tl <;>
      by_cases h : current.size ≤ s.singleThreadThreshold <;>
      simp [h, State.emit, progressCalls_append, progressCalls]
  refine ⟨henter toplevel, ?_, ?_, ?_, ?_⟩
  · intro fuel
    rw [MSMBlur.recurse]
    split
    · rfl
    · unfold recurseSplit
      split
      · rfl
      · simp only
        split
        · rename_i h
          have hd : decide (current.size > s.singleThreadThreshold) = true := decide_eq_true h
          rw [hd]
        · rename_i h
          have hd : decide (current.size > s.singleThreadThreshold) = false := decide_eq_false h
          rw [hd]
  · intro fuel a st0
    exact (progressKept_driverRel env).recurseLeaf growKinds_not_progress nodeKinds_not_progress
      (fun _ _ _ _ h => by cases h) s fuel current a st0
  · intro rec_ a st0 hrec
    exact (progressKept_driverRel env).recurseSplit growKinds_not_progress nodeKinds_not_progress
      s rec_ hrec current a st0
  · rw [henter false]
    simp

/-- C18 on a top-level record of 100 primitives with a threshold of 1024: the
start of `recurse` reports 100, and the splitting path adds no call when the
driver of the children adds none. -/
theorem progress_monitor_calls_witness :
    progressCalls (recurseEnter exSettings (exRecord 100 1) none true (exState 100)).2.trace
      = [100] ∧
    progressCalls (recurseSplit exEnv exSettings (fun _ _ _ st => (.error .outOfFuel, st))
      (exRecord 100 1) (some 0) (exState 100)).2.trace = [] :=
  ⟨(progress_monitor_calls exEnv exSettings (exRecord 100 1) none true (exState 100)).1,
   (progress_monitor_calls exEnv exSettings (exRecord 100 1) none true (exState 100)).2.2.2.1
     (fun _ _ _ st => (.error .outOfFuel, st)) (some 0) (exState 100) (fun _ _ _ _ => rfl)⟩

/-! ## The node calls of a trace -/

/-- The node calls of a concatenation. -/
theorem nodeCalls_append {T : Sig} (t u : List (Event T)) :
    nodeCalls (t ++ u) = nodeCalls t ++ nodeCalls u := by
  induction t with
  | nil => rfl
  | cons e t ih => cases e <;> simp [nodeCalls, ih]

/-- Deletions are no node calls. -/
theorem nodeCalls_delete {T : Sig} (deleted : List Nat) :
    nodeCalls (deleted.map (Event.delete : Nat → Event T)) = [] := by
  induction deleted with
  | nil => rfl
  | cons p ps ih => simp [nodeCalls, ih]

/-- The start of `recurse` creates no node. -/
theorem recurseEnter_nodeCalls {T : Sig} (s : Settings T) (current : BuildRecord T)
    (alloc : Alloc) (toplevel : Bool) (st : State T) :
    nodeCalls (recurseEnter s current alloc toplevel st).2.trace = nodeCalls st.trace := by
  unfold recurseEnter
  cases alloc <;> simp only <;> split <;>
    simp [State.emit, nodeCalls_append, nodeCalls]

/-- The end of a driver creates no node. -/
theorem finishNode_nodeCalls {T : Sig} (env : Env T) (current : BuildRecord T)
    (children : LocalChildListT T) (timeSplits : Bool) (node : T.N)
    (r : Except Error (List (Value T)) × State T) :
    nodeCalls (finishNode env current children timeSplits node r).2.trace =
      nodeCalls r.2.trace := by
  unfold finishNode
  cases r.1 <;> simp [State.emits, nodeCalls_append, nodeCalls_delete]

/-! ## The scenario of two primitives -/

/-- The events of `find` are no node calls. -/
theorem find_nodeCalls {T : Sig} (env : Env T) (heap : Heap T) (set : SetMB T) (lbs : Nat) :
    nodeCalls (find env heap set lbs).2 = [] := by
  unfold find
  simp only
  split
  · split <;> rfl
  · rfl

/-- C19, as stated, fails: for two primitives with one time segment each that
lie far apart, the leaf cost `1 * (10 * 2)` exceeds the split cost
`1 * 10 + 1 * 2`, so with the default settings `build` creates an inner node
and two leaves of one primitive each. -/
theorem two_primitives_counterexample :
    exSettings = Settings.new exFarEnv ∧
    nodeCalls (build exFarEnv exSettings 3 [exPrim 0 1, exPrim 1 1]
      { geom := (), num := 2, max_num_time_segments := 1 }).2.trace = [(false, some 0)] ∧
    (leafRecords (build exFarEnv exSettings 3 [exPrim 0 1, exPrim 1 1]
      { geom := (), num := 2, max_num_time_segments := 1 }).2.trace).map BuildRecord.size
      = [1, 1] :=
  ⟨rfl, by decide, by decide⟩

/-- C19, amended: for an input of 2 primitives and the default settings,
when the leaf cost of the whole set does not exceed its split cost, `build`
returns the result of the leaf-creation callback, which is called exactly
once, on the record of the whole set with its object range sorted, and the
node-creation callback is never called. -/
theorem two_primitives_single_leaf {T : Sig} (env : Env T) (prims : List (PrimRefMB T))
    (pinfo : PrimInfoMB T) (fuel : Nat) (hnum : pinfo.num = 2)
    (hcost : env.fle (leafCost env (Settings.new env)
        (rootRecord env (Settings.new env) prims pinfo))
      (splitCost env (Settings.new env) (rootRecord env (Settings.new env) prims pinfo)) = true)
    (hfuel : 2 ≤ fuel) :
    ∃ (current : BuildRecord T) (st : State T),
      build env (Settings.new env) fuel prims pinfo =
        (.ok (env.createLeaf (deterministic_order env [prims] (rootSet env pinfo)) current
          (some 0)), st) ∧
      current.prims = rootSet env pinfo ∧
      leafCalls st.trace = [(current, deterministic_order env [prims] (rootSet env pinfo))] ∧
      nodeCalls st.trace = [] := by
  obtain ⟨n, rfl⟩ : ∃ n, fuel = n + 2 := ⟨fuel - 2, by omega⟩
  obtain ⟨geom, num, segs⟩ := pinfo
  simp only at hnum
  subst hnum
  set pinfo : PrimInfoMB T := { geom := geom, num := 2, max_num_time_segments := segs }
  have hnum : pinfo.num = 2 := rfl
  have hleaf : recurseLeafCond env (Settings.new env)
      (rootRecord env (Settings.new env) prims pinfo) = true := by
    simp only [recurseLeafCond, hcost, Bool.and_true, Bool.or_eq_true, decide_eq_true_eq]
    right
    simp only [rootRecord, rootSet, SetMB.size, hnum, Settings.new]
    omega
  refine ⟨{ depth := 1, prims := rootSet env pinfo,
            split := Split.ofData env env.one SPLIT_FALLBACK 0 env.zero }, ?_⟩
  have hrun : build env (Settings.new env) (n + 2) prims pinfo =
      recurse env (Settings.new env) (n + 2) (rootRecord env (Settings.new env) prims pinfo)
        none true
        (({ heap := [prims], trace := [], numAllocs := 0 } : State T).emits
          (find env [prims] (rootSet env pinfo) (Settings.new env).logBlockSize).2) := rfl
  rw [hrun, MSMBlur.recurse, hleaf]
  simp only [if_true]
  unfold recurseLeaf
  rw [MSMBlur.createLargeLeaf]
  have hd : ¬ (rootRecord env (Settings.new env) prims pinfo).depth
      > (Settings.new env).maxDepth := by
    simp [rootRecord, Settings.new]
  rw [if_neg hd]
  have hff : ∀ heap, findFallback env (Settings.new env) heap
      (rootRecord env (Settings.new env) prims pinfo) =
      Split.ofData env env.one SPLIT_FALLBACK 0 env.zero := fun heap => rfl
  simp only [hff]
  have hl : isLargeLeaf (Settings.new env)
      { rootRecord env (Settings.new env) prims pinfo with
        split := Split.ofData env env.one SPLIT_FALLBACK 0 env.zero } = true := by
    simp [isLargeLeaf, rootRecord, rootSet, SetMB.size, hnum, Settings.new, Split.ofData,
      SPLIT_FALLBACK, SPLIT_TEMPORAL]
  rw [if_pos hl]
  refine ⟨_, rfl, trivial, ?_, ?_⟩
  · have h1 := recurseEnter_leafCalls (Settings.new env)
      (rootRecord env (Settings.new env) prims pinfo) none true
      (({ heap := [prims], trace := [], numAllocs := 0 } : State T).emits
        (find env [prims] (rootSet env pinfo) (Settings.new env).logBlockSize).2)
    simp only [State.emit, leafCalls_append, h1]
    simp [State.emits, leafCalls, find_leafCalls]
    exact ⟨⟨rfl, rfl⟩, rfl⟩
  · have h1 := recurseEnter_nodeCalls (Settings.new env)
      (rootRecord env (Settings.new env) prims pinfo) none true
      (({ heap := [prims], trace := [], numAllocs := 0 } : State T).emits
        (find env [prims] (rootSet env pinfo) (Settings.new env).logBlockSize).2)
    simp only [State.emit, nodeCalls_append, h1]
    simp [State.emits, nodeCalls, find_nodeCalls]

/-- The amended C19 on two primitives of the concrete environment, where the
leaf cost 2 does not exceed the split cost 4. -/
theorem two_primitives_single_leaf_witness :
    ∃ (current : BuildRecord ExSig) (st : State ExSig),
      build exEnv (Settings.new exEnv) 2 [exPrim 0 1, exPrim 1 1]
          { geom := (), num := 2, max_num_time_segments := 1 } =
        (.ok (exEnv.createLeaf (deterministic_order exEnv [[exPrim 0 1, exPrim 1 1]]
          (rootSet exEnv { geom := (), num := 2, max_num_time_segments := 1 })) current
          (some 0)), st) ∧
      current.prims = rootSet exEnv { geom := (), num := 2, max_num_time_segments := 1 } ∧
      leafCalls st.trace = [(current, deterministic_order exEnv [[exPrim 0 1, exPrim 1 1]]
        (rootSet exEnv { geom := (), num := 2, max_num_time_segments := 1 }))] ∧
      nodeCalls st.trace = [] :=
  two_primitives_single_leaf exEnv [exPrim 0 1, exPrim 1 1]
    { geom := (), num := 2, max_num_time_segments := 1 } 2 rfl (by decide) (by decide)

/-! ## Partial correctness of the growth loops -/

/-- The children after a `split`: the split child is replaced by the left
record and the right record is appended. -/
theorem LocalChildListT.split_children {T : Sig} (c : LocalChildListT T) (bestChild : Nat)
    (l r : BuildRecord T) (nv : Option Nat) (c1 : LocalChildListT T) (deleted : List Nat)
    (h : c.split bestChild l r nv = some (c1, deleted)) :
    c1.children = c.children.set bestChild l ++ [r] ∧ bestChild < c.children.length := by
  unfold LocalChildListT.split at h
  split at h
  · rename_i hlt
    split at h
    · cases h
    · split at h
      · cases h
      · split at h
        · cases h
        · split at h
          · cases h
          · simp only [Option.some.injEq, Prod.mk.injEq] at h
            obtain ⟨h1, -⟩ := h
            subst h1
            exact ⟨rfl, hlt.1⟩
  · cases h

/-- Partial-correctness rule for the growth loop of `createLargeLeaf`: every
property kept by one iteration holds when the loop ends normally. -/
theorem largeLeafGrow_partial {T : Sig} (env : Env T) (s : Settings T) (depth : Nat)
    (Inv : LocalChildListT T → State T → Prop)
    (hstep : ∀ (c : LocalChildListT T) (st : State T) (bestChild : Nat)
      (brecord : BuildRecord T) (c1 : LocalChildListT T) (deleted : List Nat),
      Inv c st →
      largeLeafBest s c.children 0 none 0 = some bestChild →
      c.children[bestChild]? = some brecord →
      c.split bestChild (largeLeafLeft env s depth st.heap brecord)
        (largeLeafRight env s depth st.heap brecord)
        (partition env st.heap brecord).2.2.2 = some (c1, deleted) →
      c1.children = c.children.set bestChild (largeLeafLeft env s depth st.heap brecord)
        ++ [largeLeafRight env s depth st.heap brecord] →
      Inv c1 (({ st with heap := (partition env st.heap brecord).1 } : State T).emits
        (deleted.map Event.delete))) :
    ∀ (n : Nat) (c : LocalChildListT T) (st : State T) (c1 : LocalChildListT T)
      (st1 : State T), Inv c st → largeLeafGrow env s depth n c st = (.ok c1, st1) →
      Inv c1 st1 := by
  intro n
  induction n with
  | zero =>
    intro c st c1 st1 _ h
    simp [MSMBlur.largeLeafGrow] at h
  | succ n ih =>
    intro c st c1 st1 hinv h
    rw [largeLeafGrow_succ] at h
    split at h
    · simp only [Prod.mk.injEq, Except.ok.injEq] at h
      obtain ⟨rfl, rfl⟩ := h
      exact hinv
    · rename_i bestChild hbest
      split at h
      · simp at h
      · rename_i brecord hb
        split at h
        · simp at h
        · rename_i c2 deleted hsplit
          have hinv2 := hstep c st bestChild brecord c2 deleted hinv hbest hb hsplit
            (LocalChildListT.split_children _ _ _ _ _ _ _ hsplit).1
          split at h
          · exact ih _ _ _ _ hinv2 h
          · simp only [Prod.mk.injEq, Except.ok.injEq] at h
            obtain ⟨rfl, rfl⟩ := h
            exact hinv2

/-- Partial-correctness rule for the growth loop of `recurse`: every property
kept by one iteration holds when the loop ends normally. -/
theorem recurseGrow_partial {T : Sig} (env : Env T) (s : Settings T) (depth : Nat)
    (Inv : LocalChildListT T → State T → Prop)
    (hstep : ∀ (c : LocalChildListT T) (st : State T) (bestChild : Nat)
      (brecord : BuildRecord T) (c1 : LocalChildListT T) (deleted : List Nat),
      Inv c st →
      recurseBest env s c.children 0 none env.neg_inf = some bestChild →
      c.children[bestChild]? = some brecord →
      c.split bestChild (recurseLeft env s depth st.heap brecord)
        (recurseRight env s depth st.heap brecord)
        (partition env st.heap brecord).2.2.2 = some (c1, deleted) →
      c1.children = c.children.set bestChild (recurseLeft env s depth st.heap brecord)
        ++ [recurseRight env s depth st.heap brecord] →
      Inv c1 ((({ st with heap := (partition env st.heap brecord).1 } : State T).emits
        (recurseFinds env s st.heap brecord)).emits (deleted.map Event.delete))) :
    ∀ (n : Nat) (c : LocalChildListT T) (st : State T) (c1 : LocalChildListT T)
      (st1 : State T), Inv c st → recurseGrow env s depth n c st = (.ok c1, st1) →
      Inv c1 st1 := by
  intro n
  induction n with
  | zero =>
    intro c st c1 st1 _ h
    simp [MSMBlur.recurseGrow] at h
  | succ n ih =>
    intro c st c1 st1 hinv h
    rw [recurseGrow_succ] at h
    split at h
    · simp only [Prod.mk.injEq, Except.ok.injEq] at h
      obtain ⟨rfl, rfl⟩ := h
      exact hinv
    · rename_i bestChild hbest
      split at h
      · simp at h
      · rename_i brecord hb
        split at h
        · simp at h
        · rename_i c2 deleted hsplit
          have hinv2 := hstep c st bestChild brecord c2 deleted hinv hbest hb hsplit
            (LocalChildListT.split_children _ _ _ _ _ _ _ hsplit).1
          split at h
          · exact ih _ _ _ _ hinv2 h
          · simp only [Prod.mk.injEq, Except.ok.injEq] at h
            obtain ⟨rfl, rfl⟩ := h
            exact hinv2

/-- The list is never empty after the growth loop of `createLargeLeaf`. -/
theorem largeLeafGrow_ne_nil {T : Sig} (env : Env T) (s : Settings T) (depth n : Nat)
    (c : LocalChildListT T) (st : State T) (c1 : LocalChildListT T) (st1 : State T)
    (hc : c.children ≠ []) (h : largeLeafGrow env s depth n c st = (.ok c1, st1)) :
    c1.children ≠ [] :=
  largeLeafGrow_partial env s depth (fun c _ => c.children ≠ [])
    (fun _ _ _ _ _ _ _ _ _ _ h5 => by show _ ≠ []; rw [h5]; simp) n c st c1 st1 hc h

/-- The list is never empty after the growth loop of `recurse`. -/
theorem recurseGrow_ne_nil {T : Sig} (env : Env T) (s : Settings T) (depth n : Nat)
    (c : LocalChildListT T) (st : State T) (c1 : LocalChildListT T) (st1 : State T)
    (hc : c.children ≠ []) (h : recurseGrow env s depth n c st = (.ok c1, st1)) :
    c1.children ≠ [] :=
  recurseGrow_partial env s depth (fun c _ => c.children ≠ [])
    (fun _ _ _ _ _ _ _ _ _ _ h5 => by show _ ≠ []; rw [h5]; simp) n c st c1 st1 hc h

/-! ## The flag and the bounds of an inner node -/

/-- The results of a loop over the children that ends normally are the
results of the driver on the children, in the order of the calls. -/
theorem visitChildren_ok {T : Sig} (f : BuildRecord T → State T → Result T × State T)
    (node : T.N) :
    ∀ (l : List (Nat × BuildRecord T)) (st : State T) (vs : List (Value T)) (st1 : State T),
      visitChildren f node l st = (.ok vs, st1) →
      List.Forall₂ (fun c v => ∃ st0, (f c st0).1 = .ok v) (l.map Prod.snd) vs := by
  intro l
  induction l with
  | nil =>
    intro st vs st1 h
    simp only [MSMBlur.visitChildren, Prod.mk.injEq, Except.ok.injEq] at h
    obtain ⟨rfl, -⟩ := h
    exact List.Forall₂.nil
  | cons ic rest ih =>
    intro st vs st1 h
    obtain ⟨i, c⟩ := ic
    rw [MSMBlur.visitChildren] at h
    cases hfc : f c st with
    | mk r st2 =>
      rw [hfc] at h
      cases r with
      | error e => simp at h
      | ok v =>
        simp only at h
        cases hv : MSMBlur.visitChildren f node rest (st2.emit (.updateNode node i v)) with
        | mk r2 st3 =>
          rw [hv] at h
          cases r2 with
          | error e => simp at h
          | ok vs2 =>
            simp only [Prod.mk.injEq, Except.ok.injEq] at h
            obtain ⟨rfl, -⟩ := h
            exact List.Forall₂.cons ⟨st, by rw [hfc]⟩ (ih _ _ _ hv)

/-- The children of an enumeration. -/
theorem enum_map_snd {α : Type} (l : List α) : l.enum.map Prod.snd = l := by
  simp [List.enum]

/-- A normal end of a driver: the results of the children were available,
the node is the one created, and the bounds are those of `nodeBounds` on the
heap at the end. -/
theorem finishNode_ok {T : Sig} (env : Env T) (current : BuildRecord T)
    (children : LocalChildListT T) (timeSplits : Bool) (node : T.N)
    (r : Except Error (List (Value T)) × State T) (v : Value T) (st1 : State T)
    (h : finishNode env current children timeSplits node r = (.ok v, st1)) :
    ∃ values, r.1 = .ok values ∧ v.1 = node ∧ st1.heap = r.2.heap ∧
      v.2 = nodeBounds env st1.heap current timeSplits values ∧
      (∀ e ∈ r.2.trace, e ∈ st1.trace) := by
  unfold MSMBlur.finishNode at h
  cases hr : r.1 with
  | error e => rw [hr] at h; simp at h
  | ok values =>
    rw [hr] at h
    simp only [Prod.mk.injEq, Except.ok.injEq] at h
    obtain ⟨rfl, rfl⟩ := h
    refine ⟨values, rfl, rfl, rfl, rfl, ?_⟩
    intro e he
    simp only [State.emits, List.mem_append]
    exact Or.inl he

/-- The two cases of `nodeBounds` for the results of a non-empty list of
children. -/
theorem nodeBounds_spec {T : Sig} (env : Env T) (heap : Heap T) (current : BuildRecord T)
    (timeSplits : Bool) (values : List (Value T)) (hne : values ≠ []) :
    (timeSplits = false →
      (nodeBounds env heap current timeSplits values).1 =
        values.foldl (fun g x => env.extendL g x.2.1) env.emptyL ∧
      ∃ x0, values[0]? = some x0 ∧ (nodeBounds env heap current timeSplits values).2 = x0.2.2) ∧
    (timeSplits = true →
      (nodeBounds env heap current timeSplits values).1 = env.linearBounds heap current.prims ∧
      (nodeBounds env heap current timeSplits values).2 = current.prims.time_range) := by
  constructor
  · intro h
    subst h
    cases values with
    | nil => exact absurd rfl hne
    | cons x0 rest => exact ⟨rfl, x0, List.getElem?_cons_zero, rfl⟩
  · intro h
    subst h
    exact ⟨rfl, rfl⟩

/-- The flag computed by `hasTimeSplits` is true exactly when the time range
of some child differs from the one of the record. -/
theorem hasTimeSplits_iff {T : Sig} (env : Env T) (current : BuildRecord T)
    (children : LocalChildListT T) :
    hasTimeSplits env current children = true ↔
      ∃ c ∈ children.children,
        env.timeRangeNe current.prims.time_range c.prims.time_range = true := by
  simp [hasTimeSplits, List.any_eq_true]

/-- C13: when `createLargeLeaf` or `recurse` returns an inner node, the flag
handed to the node-creation callback is true exactly when the time range of
some child of the list after the growth loop differs from the time range of
the record; the returned values of the children are available in index order;
if the flag is false the returned bounds are the union of the bounds returned
for the children and the returned time interval is the one returned for child
0; if the flag is true the returned bounds are `linearBounds` of the set of
the record and the returned time interval is the time range of the record. -/
theorem node_flag_and_bounds {T : Sig} (env : Env T) (s : Settings T) (fuel : Nat)
    (current : BuildRecord T) (alloc : Alloc) :
    (∀ (st : State T) (v : Value T) (st9 : State T),
      createLargeLeaf env s (fuel + 1) current alloc st = (.ok v, st9) →
      isLargeLeaf s { current with split := findFallback env s st.heap current } = false →
      ∃ (children : LocalChildListT T) (st1 : State T) (values : List (Value T)),
        largeLeafGrow env s current.depth (s.branchingFactor + 1)
          (LocalChildListT.new { current with split := findFallback env s st.heap current })
          st = (.ok children, st1) ∧
        Event.createNode (hasTimeSplits env current children) alloc v.1 ∈ st9.trace ∧
        v.1 = env.createNode (hasTimeSplits env current children) alloc ∧
        (hasTimeSplits env current children = true ↔
          ∃ c ∈ children.children,
            env.timeRangeNe current.prims.time_range c.prims.time_range = true) ∧
        List.Forall₂ (fun c x => ∃ st0, (createLargeLeaf env s fuel c alloc st0).1 = .ok x)
          children.children values ∧
        (hasTimeSplits env current children = false →
          v.2.1 = values.foldl (fun g x => env.extendL g x.2.1) env.emptyL ∧
          ∃ x0, values[0]? = some x0 ∧ v.2.2 = x0.2.2) ∧
        (hasTimeSplits env current children = true →
          v.2.1 = env.linearBounds st9.heap current.prims ∧
          v.2.2 = current.prims.time_range)) ∧
    (∀ (toplevel : Bool) (st : State T) (v : Value T) (st9 : State T),
      recurse env s (fuel + 1) current alloc toplevel st = (.ok v, st9) →
      recurseLeafCond env s current = false →
      ∃ (children : LocalChildListT T) (st1 : State T) (values : List (Value T)),
        recurseGrow env s current.depth (s.branchingFactor + 1) (LocalChildListT.new current)
          (recurseEnter s current alloc toplevel st).2 = (.ok children, st1) ∧
        Event.createNode (hasTimeSplits env current children)
          (recurseEnter s current alloc toplevel st).1 v.1 ∈ st9.trace ∧
        v.1 = env.createNode (hasTimeSplits env current children)
          (recurseEnter s current alloc toplevel st).1 ∧
        (hasTimeSplits env current children = true ↔
          ∃ c ∈ children.children,
            env.timeRangeNe current.prims.time_range c.prims.time_range = true) ∧
        List.Forall₂ (fun c x => ∃ a t st0, (recurse env s fuel c a t st0).1 = .ok x)
          children.children values ∧
        (hasTimeSplits env current children = false →
          v.2.1 = values.foldl (fun g x => env.extendL g x.2.1) env.emptyL ∧
          ∃ x0, values[0]? = some x0 ∧ v.2.2 = x0.2.2) ∧
        (hasTimeSplits env current children = true →
          v.2.1 = env.linearBounds st9.heap current.prims ∧
          v.2.2 = current.prims.time_range)) := by
  have hT := TraceExt.driverRel env
  have hK : GrowKinds (fun _ : Event T => True) := ⟨fun _ => trivial, fun _ => trivial,
    fun _ => trivial⟩
  have hN : NodeKinds (fun _ : Event T => True) := ⟨fun _ _ _ => trivial, fun _ _ _ => trivial⟩
  constructor
  · intro st v st9 h hnl
    rw [MSMBlur.createLargeLeaf] at h
    split at h
    · simp at h
    · simp only at h
      rw [if_neg (by rw [hnl]; simp)] at h
      cases hgrow : MSMBlur.largeLeafGrow env s current.depth (s.branchingFactor + 1)
          (LocalChildListT.new
            { current with split := findFallback env s st.heap current }) st with
      | mk r st1 =>
        rw [hgrow] at h
        cases r with
        | error e => simp at h
        | ok children =>
          simp only at h
          obtain ⟨vs, hvs, hnode, hheap, hb, htr⟩ := finishNode_ok env _ _ _ _ _ _ _ h
          cases hv : MSMBlur.visitChildren
              (fun c st => MSMBlur.createLargeLeaf env s fuel c alloc st)
              (env.createNode (hasTimeSplits env
                { current with split := findFallback env s st.heap current } children) alloc)
              children.children.enum
              (st1.emit (.createNode (hasTimeSplits env
                { current with split := findFallback env s st.heap current } children) alloc
                (env.createNode (hasTimeSplits env
                  { current with split := findFallback env s st.heap current } children)
                  alloc))) with
          | mk r2 st2 =>
            rw [hv] at hvs htr
            simp only at hvs htr
            subst hvs
            have hf := visitChildren_ok _ _ _ _ _ _ hv
            rw [enum_map_snd] at hf
            have hne : children.children ≠ [] :=
              largeLeafGrow_ne_nil env s _ _ _ _ _ _ (by simp [LocalChildListT.new]) hgrow
            have hvne : vs ≠ [] := by
              intro h0
              subst h0
              exact hne (List.forall₂_nil_right_iff.1 hf)
            have hext : TraceExt (st1.emit (.createNode (hasTimeSplits env
                { current with split := findFallback env s st.heap current } children) alloc
                (env.createNode (hasTimeSplits env
                  { current with split := findFallback env s st.heap current } children)
                  alloc))) st2 := by
              have := hT.visitChildren hN
                (fun c st => MSMBlur.createLargeLeaf env s fuel c alloc st)
                (fun c st => hT.createLargeLeaf hK hN (fun _ _ _ => trivial) s fuel c alloc st)
                (env.createNode (hasTimeSplits env
                  { current with split := findFallback env s st.heap current } children) alloc)
                children.children.enum
                (st1.emit (.createNode (hasTimeSplits env
                  { current with split := findFallback env s st.heap current } children) alloc
                  (env.createNode (hasTimeSplits env
                    { current with split := findFallback env s st.heap current } children)
                    alloc)))
              rw [hv] at this
              exact this
            obtain ⟨es, hes⟩ := hext
            have hspec := nodeBounds_spec env st9.heap
              { current with split := findFallback env s st.heap current }
              (hasTimeSplits env { current with split := findFallback env s st.heap current }
                children) vs hvne
            rw [← hb] at hspec
            refine ⟨children, st1, vs, rfl, ?_, hnode, hasTimeSplits_iff env current children,
              hf, hspec.1, hspec.2⟩
            apply htr
            rw [hes]
            refine List.mem_append_left _ (List.mem_append_right _ ?_)
            rw [hnode]
            exact List.mem_singleton.2 rfl
  · intro toplevel st v st9 h hnl
    rw [MSMBlur.recurse, hnl] at h
    simp only [Bool.false_eq_true, if_false] at h
    unfold recurseSplit at h
    cases hgrow : MSMBlur.recurseGrow env s current.depth (s.branchingFactor + 1)
        (LocalChildListT.new current) (recurseEnter s current alloc toplevel st).2 with
    | mk r st1 =>
      rw [hgrow] at h
      cases r with
      | error e => simp at h
      | ok children =>
        simp only at h
        have hne : children.children ≠ [] :=
          recurseGrow_ne_nil env s _ _ _ _ _ _ (by simp [LocalChildListT.new]) hgrow
        split at h
        · obtain ⟨vs, hvs, hnode, hheap, hb, htr⟩ := finishNode_ok env _ _ _ _ _ _ _ h
          cases hv : MSMBlur.visitChildren
              (fun c st => MSMBlur.recurse env s fuel c none true st)
              (env.createNode (hasTimeSplits env current children)
                (recurseEnter s current alloc toplevel st).1)
              children.children.enum
              (st1.emit (.createNode (hasTimeSplits env current children)
                (recurseEnter s current alloc toplevel st).1
                (env.createNode (hasTimeSplits env current children)
                  (recurseEnter s current alloc toplevel st).1))) with
          | mk r2 st2 =>
            rw [hv] at hvs htr
            simp only at hvs htr
            subst hvs
            have hf := visitChildren_ok _ _ _ _ _ _ hv
            rw [enum_map_snd] at hf
            have hvne : vs ≠ [] := by
              intro h0
              subst h0
              exact hne (List.forall₂_nil_right_iff.1 hf)
            have hext : TraceExt (st1.emit (.createNode (hasTimeSplits env current children)
                (recurseEnter s current alloc toplevel st).1
                (env.createNode (hasTimeSplits env current children)
                  (recurseEnter s current alloc toplevel st).1))) st2 := by
              have := hT.visitChildren hN
                (fun c st => MSMBlur.recurse env s fuel c none true st)
                (fun c st => hT.recurse (fun _ => trivial) s fuel c none true st)
                (env.createNode (hasTimeSplits env current children)
                  (recurseEnter s current alloc toplevel st).1)
                children.children.enum
                (st1.emit (.createNode (hasTimeSplits env current children)
                  (recurseEnter s current alloc toplevel st).1
                  (env.createNode (hasTimeSplits env current children)
                    (recurseEnter s current alloc toplevel st).1)))
              rw [hv] at this
              exact this
            obtain ⟨es, hes⟩ := hext
            have hspec := nodeBounds_spec env st9.heap current
              (hasTimeSplits env current children) vs hvne
            rw [← hb] at hspec
            refine ⟨children, st1, vs, rfl, ?_, hnode, hasTimeSplits_iff env current children,
              ?_, hspec.1, hspec.2⟩
            · apply htr
              rw [hes]
              refine List.mem_append_left _ (List.mem_append_right _ ?_)
              rw [hnode]
              exact List.mem_singleton.2 rfl
            · exact hf.imp (fun _ _ ⟨st0, h0⟩ => ⟨none, true, st0, h0⟩)
        · obtain ⟨vs, hvs, hnode, hheap, hb, htr⟩ := finishNode_ok env _ _ _ _ _ _ _ h
          cases hv : MSMBlur.visitChildren
              (fun c st0 => MSMBlur.recurse env s fuel c
                (recurseEnter s current alloc toplevel st).1 false st0)
              (env.createNode (hasTimeSplits env current children)
                (recurseEnter s current alloc toplevel st).1)
              children.children.enum.reverse
              (st1.emit (.createNode (hasTimeSplits env current children)
                (recurseEnter s current alloc toplevel st).1
                (env.createNode (hasTimeSplits env current children)
                  (recurseEnter s current alloc toplevel st).1))) with
          | mk r2 st2 =>
            rw [hv] at hvs htr
            simp only at hvs htr
            cases r2 with
            | error e => simp [Except.map] at hvs
            | ok ws =>
              simp only [Except.map, Except.ok.injEq] at hvs
              subst hvs
              have hf := visitChildren_ok _ _ _ _ _ _ hv
              rw [List.map_reverse, enum_map_snd] at hf
              have hf2 := List.rel_reverse hf
              rw [List.reverse_reverse] at hf2
              have hvne : ws.reverse ≠ [] := by
                intro h0
                rw [h0] at hf2
                exact hne (List.forall₂_nil_right_iff.1 hf2)
              have hext : TraceExt (st1.emit (.createNode (hasTimeSplits env current children)
                  (recurseEnter s current alloc toplevel st).1
                  (env.createNode (hasTimeSplits env current children)
                    (recurseEnter s current alloc toplevel st).1))) st2 := by
                have := hT.visitChildren hN
                  (fun c st0 => MSMBlur.recurse env s fuel c
                    (recurseEnter s current alloc toplevel st).1 false st0)
                  (fun c st0 => hT.recurse (fun _ => trivial) s fuel c _ false st0)
                  (env.createNode (hasTimeSplits env current children)
                    (recurseEnter s current alloc toplevel st).1)
                  children.children.enum.reverse
                  (st1.emit (.createNode (hasTimeSplits env current children)
                    (recurseEnter s current alloc toplevel st).1
                    (env.createNode (hasTimeSplits env current children)
                      (recurseEnter s current alloc toplevel st).1)))
                rw [hv] at this
                exact this
              obtain ⟨es, hes⟩ := hext
              have hspec := nodeBounds_spec env st9.heap current
                (hasTimeSplits env current children) ws.reverse hvne
              rw [← hb] at hspec
              refine ⟨children, st1, ws.reverse, rfl, ?_, hnode,
                hasTimeSplits_iff env current children, ?_, hspec.1, hspec.2⟩
              · apply htr
                rw [hes]
                refine List.mem_append_left _ (List.mem_append_right _ ?_)
                rw [hnode]
                exact List.mem_singleton.2 rfl
              · exact hf2.imp (fun _ _ ⟨st0, h0⟩ => ⟨_, false, st0, h0⟩)

/-- C13 on the inner node that `createLargeLeaf` returns for 10 primitives of
the concrete environment: the flag is false, the bounds are the union over
the two leaves and the time interval is the one of the first leaf. -/
theorem node_flag_and_bounds_witness :
    ∃ (v : Value ExSig) (st9 : State ExSig),
      createLargeLeaf exEnv exSettings 2 (exChild 0 0 10 1) (some 0) (exState 10)
        = (.ok v, st9) ∧
      ∃ (children : LocalChildListT ExSig) (values : List (Value ExSig)),
        Event.createNode (hasTimeSplits exEnv (exChild 0 0 10 1) children) (some 0) v.1
          ∈ st9.trace ∧
        (hasTimeSplits exEnv (exChild 0 0 10 1) children = false →
          v.2.1 = values.foldl (fun g x => exEnv.extendL g x.2.1) exEnv.emptyL ∧
          ∃ x0, values[0]? = some x0 ∧ v.2.2 = x0.2.2) := by
  obtain ⟨c, st1, vs, -, h2, -, -, -, h6, -⟩ :=
    (node_flag_and_bounds exEnv exSettings 1 (exChild 0 0 10 1) (some 0)).1 (exState 10) _ _
      rfl (by decide)
  exact ⟨_, _, rfl, c, vs, h2, h6⟩

/-! ## Sorting under an order that is total on the elements of a range -/

/-- Insertion into a list sorted by a relation that is total and transitive
on the elements concerned keeps the list sorted. -/
theorem orderedInsert_pairwise_on {α : Type} (r : α → α → Prop) [DecidableRel r] (a : α) :
    ∀ (l : List α), (∀ x ∈ l, r a x ∨ r x a) →
      (∀ x ∈ l, ∀ y ∈ l, r a x → r x y → r a y) →
      l.Pairwise r → (l.orderedInsert r a).Pairwise r := by
  intro l
  induction l with
  | nil => intro _ _ _; simp
  | cons b l ih =>
    intro htot htrans hp
    rw [List.pairwise_cons] at hp
    simp only [List.orderedInsert]
    split
    · rename_i hab
      rw [List.pairwise_cons]
      refine ⟨?_, List.pairwise_cons.2 hp⟩
      intro x hx
      rcases List.mem_cons.1 hx with rfl | hx
      · exact hab
      · exact htrans b (List.mem_cons_self _ _) x (List.mem_cons_of_mem _ hx) hab (hp.1 x hx)
    · rename_i hab
      rw [List.pairwise_cons]
      have hba : r b a := by
        rcases htot b (List.mem_cons_self _ _) with h | h
        · exact absurd h hab
        · exact h
      refine ⟨?_, ih (fun x hx => htot x (List.mem_cons_of_mem _ hx))
        (fun x hx y hy => htrans x (List.mem_cons_of_mem _ hx) y (List.mem_cons_of_mem _ hy))
        hp.2⟩
      intro x hx
      rcases (List.mem_orderedInsert r).1 hx with rfl | hx
      · exact hba
      · exact hp.1 x hx

/-- Insertion sort by a relation that is total and transitive on the elements
of the list yields a sorted list. -/
theorem insertionSort_pairwise_on {α : Type} (r : α → α → Prop) [DecidableRel r] :
    ∀ (l : List α), (∀ x ∈ l, ∀ y ∈ l, r x y ∨ r y x) →
      (∀ x ∈ l, ∀ y ∈ l, ∀ z ∈ l, r x y → r y z → r x z) →
      (l.insertionSort r).Pairwise r := by
  intro l
  induction l with
  | nil => intro _ _; simp
  | cons a l ih =>
    intro htot htrans
    simp only [List.insertionSort]
    apply orderedInsert_pairwise_on
    · intro x hx
      rw [List.mem_insertionSort] at hx
      exact htot a (List.mem_cons_self _ _) x (List.mem_cons_of_mem _ hx)
    · intro x hx y hy
      rw [List.mem_insertionSort] at hx hy
      exact htrans a (List.mem_cons_self _ _) x (List.mem_cons_of_mem _ hx) y
        (List.mem_cons_of_mem _ hy)
    · exact ih (fun x hx y hy => htot x (List.mem_cons_of_mem _ hx) y (List.mem_cons_of_mem _ hy))
        (fun x hx y hy z hz => htrans x (List.mem_cons_of_mem _ hx) y
          (List.mem_cons_of_mem _ hy) z (List.mem_cons_of_mem _ hz))

/-- Two sorted lists with the same elements are equal when the relation is
antisymmetric on these elements. -/
theorem eq_of_perm_of_pairwise_on {α : Type} (r : α → α → Prop) :
    ∀ (l₁ l₂ : List α), l₁.Perm l₂ →
      (∀ x ∈ l₁, ∀ y ∈ l₁, r x y → r y x → x = y) →
      l₁.Pairwise r → l₂.Pairwise r → l₁ = l₂ := by
  intro l₁
  induction l₁ with
  | nil => intro l₂ hp _ _ _; exact hp.nil_eq
  | cons a t₁ ih =>
    intro l₂ hp hanti h1 h2
    cases l₂ with
    | nil => exact absurd hp.symm.nil_eq (by simp)
    | cons b t₂ =>
      rw [List.pairwise_cons] at h1 h2
      have hab : a = b := by
        have ha : a ∈ b :: t₂ := hp.subset (List.mem_cons_self _ _)
        have hb : b ∈ a :: t₁ := hp.symm.subset (List.mem_cons_self _ _)
        rcases List.mem_cons.1 ha with h | h
        · exact h
        · rcases List.mem_cons.1 hb with h3 | h3
          · exact h3.symm
          · exact hanti a (List.mem_cons_self _ _) b hb (h1.1 b h3) (h2.1 a h)
      subst hab
      rw [ih t₂ (List.Perm.cons_inv hp)
        (fun x hx y hy => hanti x (List.mem_cons_of_mem _ hx) y (List.mem_cons_of_mem _ hy))
        h1.2 h2.2]

/-- The order `primLe` is total on a list on which `operator<` is
irreflexive, transitive and connected. -/
theorem primLe_total_on {T : Sig} (env : Env T) (l : List (PrimRefMB T))
    (hirr : ∀ a ∈ l, env.primLess a a = false)
    (htrans : ∀ a ∈ l, ∀ b ∈ l, ∀ c ∈ l,
      env.primLess a b = true → env.primLess b c = true → env.primLess a c = true) :
    ∀ x ∈ l, ∀ y ∈ l, primLe env x y ∨ primLe env y x := by
  intro x hx y hy
  unfold primLe
  by_cases h1 : env.primLess y x = true
  · by_cases h2 : env.primLess x y = true
    · have := htrans x hx y hy x hx h2 h1
      rw [hirr x hx] at this
      cases this
    · right
      simpa using h2
  · left
    simpa using h1

/-- The order `primLe` is transitive on a list on which `operator<` is
transitive and connected. -/
theorem primLe_trans_on {T : Sig} (env : Env T) (l : List (PrimRefMB T))
    (htri : ∀ a ∈ l, ∀ b ∈ l, a ≠ b → env.primLess a b = true ∨ env.primLess b a = true)
    (htrans : ∀ a ∈ l, ∀ b ∈ l, ∀ c ∈ l,
      env.primLess a b = true → env.primLess b c = true → env.primLess a c = true) :
    ∀ x ∈ l, ∀ y ∈ l, ∀ z ∈ l, primLe env x y → primLe env y z → primLe env x z := by
  intro x hx y hy z hz hxy hyz
  unfold primLe at *
  by_contra hzx
  have hzx1 : env.primLess z x = true := by simpa using hzx
  by_cases hyz2 : y = z
  · subst hyz2
    rw [hzx1] at hxy
    cases hxy
  · rcases htri y hy z hz hyz2 with h | h
    · have := htrans y hy z hz x hx h hzx1
      rw [this] at hxy
      cases hxy
    · rw [h] at hyz
      cases hyz

/-- The order `primLe` is antisymmetric on a list on which `operator<` is
connected. -/
theorem primLe_antisymm_on {T : Sig} (env : Env T) (l : List (PrimRefMB T))
    (htri : ∀ a ∈ l, ∀ b ∈ l, a ≠ b → env.primLess a b = true ∨ env.primLess b a = true) :
    ∀ x ∈ l, ∀ y ∈ l, primLe env x y → primLe env y x → x = y := by
  intro x hx y hy hxy hyx
  unfold primLe at *
  by_contra hne
  rcases htri x hx y hy hne with h | h
  · rw [h] at hyx
    cases hyx
  · rw [h] at hxy
    cases hxy

/-! ## The buffer after `deterministic_order` -/

/-- Reading another buffer than the one written. -/
theorem Heap.read_write_ne {T : Sig} (h : Heap T) (p q : Nat) (buf : List (PrimRefMB T))
    (hq : q ≠ p) : (h.write p buf).read q = h.read q := by
  unfold Heap.read Heap.write
  rw [List.getD_eq_getElem?_getD, List.getD_eq_getElem?_getD,
    List.getElem?_set_ne (Ne.symm hq)]

/-- Reading the buffer written, for a pointer into the heap. -/
theorem Heap.read_write_self {T : Sig} (h : Heap T) (p : Nat) (buf : List (PrimRefMB T))
    (hp : p < h.length) : (h.write p buf).read p = buf := by
  unfold Heap.read Heap.write
  rw [List.getD_eq_getElem?_getD, List.getElem?_set_self hp]
  rfl

/-- A pointer outside the heap reads as the empty buffer. -/
theorem Heap.read_of_le {T : Sig} (h : Heap T) (p : Nat) (hp : h.length ≤ p) :
    h.read p = [] := by
  unfold Heap.read
  rw [List.getD_eq_getElem?_getD, List.getElem?_eq_none hp]
  rfl

/-- The buffer of a set after `deterministic_order`: the object range is
sorted, the rest is untouched. -/
theorem deterministic_order_read {T : Sig} (env : Env T) (heap : Heap T) (set : SetMB T) :
    (deterministic_order env heap set).read set.prims =
      (heap.read set.prims).take set.object_range._begin
        ++ (set.elems heap).insertionSort (primLe env)
        ++ (heap.read set.prims).drop set.object_range._end := by
  unfold deterministic_order SetMB.elems
  by_cases hp : set.prims < heap.length
  · rw [Heap.read_write_self _ _ _ hp]
  · have h0 : heap.read set.prims = [] := Heap.read_of_le heap _ (by omega)
    have h1 : (heap.write set.prims
        (List.take set.object_range._begin (heap.read set.prims) ++
          List.insertionSort (primLe env)
            (List.take (set.object_range._end - set.object_range._begin)
              (List.drop set.object_range._begin (heap.read set.prims))) ++
          List.drop set.object_range._end (heap.read set.prims))).read set.prims = [] :=
      Heap.read_of_le _ _ (by simp only [Heap.write, List.length_set]; omega)
    rw [h1, h0]
    simp

/-- The other buffers are untouched by `deterministic_order`. -/
theorem deterministic_order_read_ne {T : Sig} (env : Env T) (heap : Heap T) (set : SetMB T)
    (q : Nat) (hq : q ≠ set.prims) : (deterministic_order env heap set).read q = heap.read q := by
  unfold deterministic_order
  exact Heap.read_write_ne _ _ _ _ hq

/-- A window of a list inside its middle part. -/
theorem window_of_middle {α : Type} (A S C : List α) (b1 e1 : Nat) (hb : A.length ≤ b1)
    (hbe : b1 ≤ e1) (he : e1 ≤ A.length + S.length) :
    ((A ++ S ++ C).drop b1).take (e1 - b1) = (S.drop (b1 - A.length)).take (e1 - b1) := by
  have h1 : (A ++ S ++ C).drop b1 = S.drop (b1 - A.length) ++ C := by
    rw [List.append_assoc, List.drop_append_eq_append_drop,
      List.drop_eq_nil_of_le hb, List.nil_append, List.drop_append_of_le_length (by omega)]
  rw [h1, List.take_append_of_le_length (by simp only [List.length_drop]; omega)]

/-- The primitives of a subrange of a set after `deterministic_order` of the
set: a window of the sorted range. -/
theorem deterministic_order_elems {T : Sig} (env : Env T) (heap : Heap T) (set sub : SetMB T)
    (hle : set.object_range._begin ≤ set.object_range._end)
    (hbound : set.object_range._end ≤ (heap.read set.prims).length)
    (hp : sub.prims = set.prims)
    (hb : set.object_range._begin ≤ sub.object_range._begin)
    (hbe : sub.object_range._begin ≤ sub.object_range._end)
    (he : sub.object_range._end ≤ set.object_range._end) :
    sub.elems (deterministic_order env heap set) =
      (((set.elems heap).insertionSort (primLe env)).drop
        (sub.object_range._begin - set.object_range._begin)).take
        (sub.object_range._end - sub.object_range._begin) := by
  have hlen : (set.elems heap).length = set.object_range._end - set.object_range._begin := by
    simp only [SetMB.elems, List.length_take, List.length_drop]
    omega
  have hA : ((heap.read set.prims).take set.object_range._begin).length
      = set.object_range._begin := by
    rw [List.length_take]
    omega
  rw [SetMB.elems, hp, deterministic_order_read,
    window_of_middle _ _ _ _ _ (by rw [hA]; exact hb) hbe
      (by rw [hA, List.length_insertionSort, hlen]; omega), hA]

/-- The result of `partition` for a fallback split. -/
theorem partition_fallback_eq {T : Sig} (env : Env T) (heap : Heap T) (brecord : BuildRecord T)
    (hsplit : brecord.split.data = SPLIT_FALLBACK) :
    partition env heap brecord =
      (deterministic_order env heap brecord.prims,
       (splitFallback env (deterministic_order env heap brecord.prims) brecord.prims).1,
       (splitFallback env (deterministic_order env heap brecord.prims) brecord.prims).2,
       none) := by
  unfold partition
  rw [if_pos hsplit]

/-! ## Determinism of the fallback partitioning -/

/-- C16: for a record with a fallback split whose object range lies inside
the buffer in two heaps, holds the same primitive references up to their
order in both, and is strictly totally ordered by `operator<`, `partition`
yields the same left and the same right sequence of primitives in both
heaps: the sorted range cut at the index midpoint; every reference on the
left is at most every reference on the right, left followed by right is the
sorted range and so a permutation of the range of the parent, and the buffer
outside the range and all other buffers are untouched. -/
theorem fallback_partition_deterministic {T : Sig} (env : Env T) (heap heap2 : Heap T)
    (brecord : BuildRecord T) (hsplit : brecord.split.data = SPLIT_FALLBACK)
    (hle : brecord.prims.object_range._begin ≤ brecord.prims.object_range._end)
    (hbound : brecord.prims.object_range._end ≤ (heap.read brecord.prims.prims).length)
    (hbound2 : brecord.prims.object_range._end ≤ (heap2.read brecord.prims.prims).length)
    (hwrap : brecord.prims.object_range._begin + brecord.prims.object_range._end
      < 18446744073709551616)
    (hperm : (brecord.prims.elems heap).Perm (brecord.prims.elems heap2))
    (hirr : ∀ a ∈ brecord.prims.elems heap, env.primLess a a = false)
    (htri : ∀ a ∈ brecord.prims.elems heap, ∀ b ∈ brecord.prims.elems heap, a ≠ b →
      env.primLess a b = true ∨ env.primLess b a = true)
    (htrans : ∀ a ∈ brecord.prims.elems heap, ∀ b ∈ brecord.prims.elems heap,
      ∀ c ∈ brecord.prims.elems heap,
      env.primLess a b = true → env.primLess b c = true → env.primLess a c = true) :
    (partition env heap brecord).2.1.elems (partition env heap brecord).1 =
      (partition env heap2 brecord).2.1.elems (partition env heap2 brecord).1 ∧
    (partition env heap brecord).2.2.1.elems (partition env heap brecord).1 =
      (partition env heap2 brecord).2.2.1.elems (partition env heap2 brecord).1 ∧
    (partition env heap brecord).2.1.elems (partition env heap brecord).1 =
      ((brecord.prims.elems heap).insertionSort (primLe env)).take
        ((brecord.prims.object_range._begin + brecord.prims.object_range._end) / 2
          - brecord.prims.object_range._begin) ∧
    (partition env heap brecord).2.2.1.elems (partition env heap brecord).1 =
      ((brecord.prims.elems heap).insertionSort (primLe env)).drop
        ((brecord.prims.object_range._begin + brecord.prims.object_range._end) / 2
          - brecord.prims.object_range._begin) ∧
    ((brecord.prims.elems heap).insertionSort (primLe env)).Pairwise (primLe env) ∧
    (∀ x ∈ (partition env heap brecord).2.1.elems (partition env heap brecord).1,
      ∀ y ∈ (partition env heap brecord).2.2.1.elems (partition env heap brecord).1,
        primLe env x y) ∧
    ((partition env heap brecord).2.1.elems (partition env heap brecord).1 ++
      (partition env heap brecord).2.2.1.elems (partition env heap brecord).1).Perm
      (brecord.prims.elems heap) ∧
    ((partition env heap brecord).1.read brecord.prims.prims).take
      brecord.prims.object_range._begin =
        (heap.read brecord.prims.prims).take brecord.prims.object_range._begin ∧
    ((partition env heap brecord).1.read brecord.prims.prims).drop
      brecord.prims.object_range._end =
        (heap.read brecord.prims.prims).drop brecord.prims.object_range._end ∧
    (∀ q, q ≠ brecord.prims.prims → (partition env heap brecord).1.read q = heap.read q) := by
  have hw : wrap (brecord.prims.object_range._begin + brecord.prims.object_range._end) =
      brecord.prims.object_range._begin + brecord.prims.object_range._end := by
    unfold wrap
    omega
  -- the two children in any heap
  have hchild : ∀ h : Heap T,
      brecord.prims.object_range._end ≤ (h.read brecord.prims.prims).length →
      (partition env h brecord).2.1.elems (partition env h brecord).1 =
        ((brecord.prims.elems h).insertionSort (primLe env)).take
          ((brecord.prims.object_range._begin + brecord.prims.object_range._end) / 2
            - brecord.prims.object_range._begin) ∧
      (partition env h brecord).2.2.1.elems (partition env h brecord).1 =
        ((brecord.prims.elems h).insertionSort (primLe env)).drop
          ((brecord.prims.object_range._begin + brecord.prims.object_range._end) / 2
            - brecord.prims.object_range._begin) := by
    intro h hb
    have hlen : (brecord.prims.elems h).length =
        brecord.prims.object_range._end - brecord.prims.object_range._begin := by
      simp only [SetMB.elems, List.length_take, List.length_drop]
      omega
    rw [partition_fallback_eq env h brecord hsplit]
    simp only
    constructor
    · rw [deterministic_order_elems env h brecord.prims
        (splitFallback env (deterministic_order env h brecord.prims) brecord.prims).1 hle hb rfl
        (by simp only [splitFallback]; omega)
        (by simp only [splitFallback, hw]; omega)
        (by simp only [splitFallback, hw]; omega)]
      simp only [splitFallback, hw, Nat.sub_self, List.drop_zero]
    · rw [deterministic_order_elems env h brecord.prims
        (splitFallback env (deterministic_order env h brecord.prims) brecord.prims).2 hle hb rfl
        (by simp only [splitFallback, hw]; omega)
        (by simp only [splitFallback, hw]; omega)
        (by simp only [splitFallback]; omega)]
      simp only [splitFallback, hw]
      apply List.take_of_length_le
      simp only [List.length_drop, List.length_insertionSort, hlen]
      omega
  -- the sorted range is the same in both heaps
  have hsorted1 : ((brecord.prims.elems heap).insertionSort (primLe env)).Pairwise (primLe env) :=
    insertionSort_pairwise_on _ _ (primLe_total_on env _ hirr htrans)
      (primLe_trans_on env _ htri htrans)
  have hmem : ∀ x, x ∈ brecord.prims.elems heap2 → x ∈ brecord.prims.elems heap :=
    fun x hx => hperm.symm.subset hx
  have hsorted2 : ((brecord.prims.elems heap2).insertionSort (primLe env)).Pairwise
      (primLe env) :=
    insertionSort_pairwise_on _ _
      (primLe_total_on env _ (fun a ha => hirr a (hmem a ha))
        (fun a ha b hb c hc => htrans a (hmem a ha) b (hmem b hb) c (hmem c hc)))
      (primLe_trans_on env _ (fun a ha b hb => htri a (hmem a ha) b (hmem b hb))
        (fun a ha b hb c hc => htrans a (hmem a ha) b (hmem b hb) c (hmem c hc)))
  have heq : (brecord.prims.elems heap).insertionSort (primLe env) =
      (brecord.prims.elems heap2).insertionSort (primLe env) := by
    apply eq_of_perm_of_pairwise_on (primLe env) _ _ _ _ hsorted1 hsorted2
    · exact ((List.perm_insertionSort _ _).trans hperm).trans (List.perm_insertionSort _ _).symm
    · intro x hx y hy
      rw [List.mem_insertionSort] at hx hy
      exact primLe_antisymm_on env _ htri x hx y hy
  obtain ⟨hl1, hr1⟩ := hchild heap hbound
  obtain ⟨hl2, hr2⟩ := hchild heap2 hbound2
  have hA : ((heap.read brecord.prims.prims).take brecord.prims.object_range._begin).length
      = brecord.prims.object_range._begin := by
    rw [List.length_take]
    omega
  have hlen : (brecord.prims.elems heap).length =
      brecord.prims.object_range._end - brecord.prims.object_range._begin := by
    simp only [SetMB.elems, List.length_take, List.length_drop]
    omega
  refine ⟨by rw [hl1, hl2, heq], by rw [hr1, hr2, heq], hl1, hr1, hsorted1, ?_, ?_, ?_, ?_, ?_⟩
  · intro x hx y hy
    rw [hl1] at hx
    rw [hr1] at hy
    exact List.Sorted.rel_of_mem_take_of_mem_drop hsorted1 hx hy
  · rw [hl1, hr1, List.take_append_drop]
    exact List.perm_insertionSort _ _
  · rw [partition_fallback_eq env heap brecord hsplit]
    simp only
    rw [deterministic_order_read, List.append_assoc, List.take_append_of_le_length (by omega),
      List.take_of_length_le (by omega)]
  · rw [partition_fallback_eq env heap brecord hsplit]
    simp only
    rw [deterministic_order_read]
    have h3 : ((heap.read brecord.prims.prims).take brecord.prims.object_range._begin
        ++ (brecord.prims.elems heap).insertionSort (primLe env)).length
        = brecord.prims.object_range._end := by
      rw [List.length_append, hA, List.length_insertionSort, hlen]
      omega
    rw [List.drop_append_eq_append_drop, h3, Nat.sub_self, List.drop_zero,
      List.drop_eq_nil_of_le (by omega), List.nil_append]
  · intro q hq
    rw [partition_fallback_eq env heap brecord hsplit]
    exact deterministic_order_read_ne env heap _ q hq

/-- C16 on two buffers that hold the primitives 0 to 3 in different orders:
`partition` yields the same left and the same right sequence for both. -/
theorem fallback_partition_deterministic_witness :
    (partition exEnv exShuffled (exChild 0 0 4 1)).2.1.elems
        (partition exEnv exShuffled (exChild 0 0 4 1)).1 =
      (partition exEnv exShuffled2 (exChild 0 0 4 1)).2.1.elems
        (partition exEnv exShuffled2 (exChild 0 0 4 1)).1 ∧
    (partition exEnv exShuffled (exChild 0 0 4 1)).2.2.1.elems
        (partition exEnv exShuffled (exChild 0 0 4 1)).1 =
      (partition exEnv exShuffled2 (exChild 0 0 4 1)).2.2.1.elems
        (partition exEnv exShuffled2 (exChild 0 0 4 1)).1 :=
  have h := fallback_partition_deterministic exEnv exShuffled exShuffled2 (exChild 0 0 4 1)
    (by decide) (by decide) (by decide) (by decide) (by decide) (List.Perm.swap _ _ _)
    (by decide)
    (by
      intro a ha b hb
      simp only [SetMB.elems, exChild, exShuffled, Heap.read, List.getD_cons_zero,
        List.drop_zero, Nat.sub_zero, List.take_succ_cons, List.take_zero, List.mem_cons,
        List.mem_singleton, List.not_mem_nil, or_false] at ha hb
      rcases ha with rfl | rfl | rfl | rfl <;> rcases hb with rfl | rfl | rfl | rfl <;>
        simp [exEnv, exPrim])
    (by decide)
  ⟨h.1, h.2.1⟩

/-! ## The invariant of the sets along a build -/

/-- Every heap is at least itself. -/
theorem Heap.le_refl {T : Sig} (h : Heap T) : Heap.le h h := fun _ => Nat.le_refl _

/-- Growth of heaps composes. -/
theorem Heap.le_trans {T : Sig} {a b c : Heap T} (h1 : Heap.le a b) (h2 : Heap.le b c) :
    Heap.le a c := fun p => Nat.le_trans (h1 p) (h2 p)

/-- The invariant of a set survives the growth of the heap. -/
theorem SetMB.WF.mono {T : Sig} {heap h1 : Heap T} {set : SetMB T} (hwf : SetMB.WF heap set)
    (hle : Heap.le heap h1) : SetMB.WF h1 set :=
  ⟨hwf.size_eq, hwf.le, Nat.le_trans hwf.bound (hle _), hwf.small⟩

/-- Sorting an object range shortens no buffer. -/
theorem deterministic_order_le {T : Sig} (env : Env T) (heap : Heap T) (set : SetMB T) :
    Heap.le heap (deterministic_order env heap set) := by
  intro p
  by_cases hp : p = set.prims
  · subst hp
    rw [deterministic_order_read]
    simp only [SetMB.elems, List.length_append, List.length_take, List.length_drop,
      List.length_insertionSort]
    omega
  · rw [deterministic_order_read_ne env heap set p hp]

/-- A scan over no index finds nothing. -/
theorem findFallbackScan_zero {T : Sig} (env : Env T) (time_range : BBox1f T)
    (prims : List (PrimRefMB T)) (i : Nat) : findFallbackScan env time_range prims i 0 = none := by
  cases i <;> rfl

/-- The split of `findFallback` is a fallback split, or a temporal split; the
latter only with `singleLeafTimeSegment` and for a non-empty object range. -/
theorem findFallback_data {T : Sig} (env : Env T) (s : Settings T) (heap : Heap T)
    (current : BuildRecord T) :
    (findFallback env s heap current).data = SPLIT_FALLBACK ∨
    ((findFallback env s heap current).data = SPLIT_TEMPORAL ∧ s.singleLeafTimeSegment = true ∧
      current.prims.object_range._begin < current.prims.object_range._end) := by
  unfold findFallback
  split
  · rename_i hflag
    split
    · rename_i split hscan
      right
      refine ⟨findFallbackScan_data env _ _ _ _ _ hscan, hflag, ?_⟩
      by_contra hlt
      have h0 : current.prims.object_range._end - current.prims.object_range._begin = 0 := by
        omega
      rw [h0, findFallbackScan_zero] at hscan
      cases hscan
    · left; rfl
  · left; rfl

/-- The two sets of `splitFallback` for a set that satisfies the invariant
satisfy it again, and their sizes add up to the size of the set. -/
theorem splitFallback_WF {T : Sig} (env : Env T) (heap : Heap T) (set : SetMB T)
    (hwf : SetMB.WF heap set) :
    SetMB.WF heap (splitFallback env heap set).1 ∧ SetMB.WF heap (splitFallback env heap set).2 ∧
    (splitFallback env heap set).1.size + (splitFallback env heap set).2.size = set.size := by
  obtain ⟨h1, h2, h3, h4⟩ := hwf
  have hw : wrap (set.object_range._begin + set.object_range._end) =
      set.object_range._begin + set.object_range._end := by
    unfold wrap
    omega
  have hl := addPrimrefs_num env (heap.read set.prims)
    ((set.object_range._begin + set.object_range._end) / 2 - set.object_range._begin)
    set.object_range._begin (PrimInfoMB.empty env) (by omega)
    (by simp only [PrimInfoMB.empty]; omega)
  have hr := addPrimrefs_num env (heap.read set.prims)
    (set.object_range._end - (set.object_range._begin + set.object_range._end) / 2)
    ((set.object_range._begin + set.object_range._end) / 2) (PrimInfoMB.empty env) (by omega)
    (by simp only [PrimInfoMB.empty]; omega)
  have hz : (PrimInfoMB.empty env).num = 0 := rfl
  rw [hz, Nat.zero_add] at hl hr
  refine ⟨⟨?_, ?_, ?_, ?_⟩, ⟨?_, ?_, ?_, ?_⟩, ?_⟩ <;>
    simp only [splitFallback, hw, SetMB.size, hl, hr] at h1 ⊢ <;> omega

/-- One call of `partition` on a record whose set satisfies the invariant:
no buffer gets shorter and the sets of both children satisfy the invariant;
the external partitioners are only relied on for the splits they perform. -/
theorem partition_WF {T : Sig} (env : Env T) (heap : Heap T) (brecord : BuildRecord T)
    (hwf : SetMB.WF heap brecord.prims)
    (hT : brecord.split.data = SPLIT_TEMPORAL → TemporalContract env)
    (hO : brecord.split.data ≠ SPLIT_FALLBACK → brecord.split.data ≠ SPLIT_TEMPORAL →
      ObjectContract env) :
    Heap.le heap (partition env heap brecord).1 ∧
    SetMB.WF (partition env heap brecord).1 (partition env heap brecord).2.1 ∧
    SetMB.WF (partition env heap brecord).1 (partition env heap brecord).2.2.1 := by
  by_cases h1 : brecord.split.data = SPLIT_FALLBACK
  · rw [partition_fallback_eq env heap brecord h1]
    have hle := deterministic_order_le env heap brecord.prims
    have h2 := splitFallback_WF env _ _ (hwf.mono hle)
    exact ⟨hle, h2.1, h2.2.1⟩
  · by_cases h2 : brecord.split.data = SPLIT_TEMPORAL
    · have hc := hT h2
      unfold partition
      rw [if_neg h1, if_pos h2]
      exact ⟨hc.heap _ _ _, hc.left _ _ _ hwf, hc.right _ _ _ hwf⟩
    · have hc := hO h1 h2
      unfold partition
      rw [if_neg h1, if_neg h2]
      exact ⟨hc.heap _ _ _, hc.left _ _ _ hwf, hc.right _ _ _ hwf⟩

/-- The search of `createLargeLeaf` over the record alone finds it when it is
no leaf and not empty. -/
theorem largeLeafBest_singleton {T : Sig} (s : Settings T) (c : BuildRecord T)
    (hl : isLargeLeaf s c = false) (hpos : 0 < c.prims.size) :
    largeLeafBest s [c] 0 none 0 = some 0 := by
  simp only [largeLeafBest, hl, Bool.false_eq_true, if_false]
  rw [if_pos hpos]

/-! ## Rules for the loop over the children and for one split of the list -/

/-- Rule for the loop over the children: when the driver called on a child
that satisfies `C` keeps the relation `R` and either returns or raises an
error in `E`, so does the loop over children that all satisfy `C`. -/
theorem visitChildren_rule {T : Sig} (f : BuildRecord T → State T → Result T × State T)
    (node : T.N) (R : State T → State T → Prop) (hrefl : ∀ st, R st st)
    (htrans : ∀ a b c, R a b → R b c → R a c) (hemit : ∀ st e, R st (st.emit e))
    (E : Error → Prop) (C : BuildRecord T → State T → Prop)
    (hC : ∀ c st st1, C c st → R st st1 → C c st1)
    (hf : ∀ c st, C c st → R st (f c st).2 ∧
      ((∃ v, (f c st).1 = .ok v) ∨ ∃ e, (f c st).1 = .error e ∧ E e)) :
    ∀ (l : List (Nat × BuildRecord T)) (st : State T), (∀ ic ∈ l, C ic.2 st) →
      R st (visitChildren f node l st).2 ∧
      ((∃ vs, (visitChildren f node l st).1 = .ok vs) ∨
        ∃ e, (visitChildren f node l st).1 = .error e ∧ E e) := by
  intro l
  induction l with
  | nil => intro st _; exact ⟨hrefl st, Or.inl ⟨[], rfl⟩⟩
  | cons ic rest ih =>
    intro st hl
    obtain ⟨i, c⟩ := ic
    have hc : C c st := hl (i, c) (List.mem_cons_self _ _)
    obtain ⟨h1, h2⟩ := hf c st hc
    rw [MSMBlur.visitChildren]
    cases hfc : f c st with
    | mk r st1 =>
      rw [hfc] at h1 h2
      cases r with
      | error e =>
        refine ⟨h1, Or.inr ⟨e, rfl, ?_⟩⟩
        rcases h2 with ⟨v, hv⟩ | ⟨e1, he1, hE⟩
        · cases hv
        · cases he1
          exact hE
      | ok v =>
        simp only
        have h3 : R st (st1.emit (.updateNode node i v)) := htrans _ _ _ h1 (hemit _ _)
        obtain ⟨h4, h5⟩ := ih (st1.emit (.updateNode node i v))
          (fun ic hic => hC _ _ _ (hl ic (List.mem_cons_of_mem _ hic)) h3)
        cases hv : MSMBlur.visitChildren f node rest (st1.emit (.updateNode node i v)) with
        | mk r2 st2 =>
          rw [hv] at h4 h5
          cases r2 with
          | error e =>
            refine ⟨htrans _ _ _ h3 h4, Or.inr ⟨e, rfl, ?_⟩⟩
            rcases h5 with ⟨vs, hvs⟩ | ⟨e1, he1, hE⟩
            · cases hvs
            · cases he1
              exact hE
          | ok vs => exact ⟨htrans _ _ _ h3 h4, Or.inl ⟨v :: vs, rfl⟩⟩

/-- A property of all children is kept by one split when both new records
have it. -/
theorem children_step {α : Type} (P : α → Prop) (l l1 : List α) (best : Nat) (x y : α)
    (h : l1 = l.set best x ++ [y]) (hold : ∀ c ∈ l, P c) (hx : P x) (hy : P y) :
    ∀ c ∈ l1, P c := by
  intro c hc
  rw [h] at hc
  rcases List.mem_append.1 hc with h1 | h1
  · rcases List.mem_or_eq_of_mem_set h1 with h2 | h2
    · exact hold c h2
    · rw [h2]; exact hx
  · rw [List.mem_singleton.1 h1]; exact hy

/-- A property of the new records holds for all children after one split when
the list held the record of the node alone or only new records before. -/
theorem children_step_fresh {α : Type} (P : α → Prop) (l l1 : List α) (best : Nat) (x y z : α)
    (h : l1 = l.set best x ++ [y]) (hbest : best < l.length)
    (hold : l = [z] ∨ ∀ c ∈ l, P c) (hx : P x) (hy : P y) :
    ∀ c ∈ l1, P c := by
  rcases hold with h0 | h0
  · subst h0
    have hb : best = 0 := by simpa using hbest
    subst hb
    intro c hc
    rw [h] at hc
    simp only [List.set_cons_zero, List.singleton_append, List.mem_cons, List.mem_singleton,
      List.not_mem_nil, or_false] at hc
    rcases hc with rfl | rfl
    · exact hx
    · exact hy
  · exact children_step P l l1 best x y h h0 hx hy

/-- One call of `partition` shortens no buffer; the external partitioners are
only relied on for the splits they perform. -/
theorem partition_le {T : Sig} (env : Env T) (heap : Heap T) (brecord : BuildRecord T)
    (hT : brecord.split.data = SPLIT_TEMPORAL → TemporalContract env)
    (hO : brecord.split.data ≠ SPLIT_FALLBACK → brecord.split.data ≠ SPLIT_TEMPORAL →
      ObjectContract env) :
    Heap.le heap (partition env heap brecord).1 := by
  by_cases h1 : brecord.split.data = SPLIT_FALLBACK
  · rw [partition_fallback_eq env heap brecord h1]
    exact deterministic_order_le env heap brecord.prims
  · by_cases h2 : brecord.split.data = SPLIT_TEMPORAL
    · unfold partition
      rw [if_neg h1, if_pos h2]
      exact (hT h2).heap _ _ _
    · unfold partition
      rw [if_neg h1, if_neg h2]
      exact (hO h1 h2).heap _ _ _

/-- More iterations allowed do not change a normal end of the growth loop of
`createLargeLeaf`. -/
theorem largeLeafGrow_fuel {T : Sig} (env : Env T) (s : Settings T) (depth : Nat) :
    ∀ (n m : Nat) (c : LocalChildListT T) (st : State T) (c1 : LocalChildListT T)
      (st1 : State T), n ≤ m → largeLeafGrow env s depth n c st = (.ok c1, st1) →
      largeLeafGrow env s depth m c st = (.ok c1, st1) := by
  intro n
  induction n with
  | zero => intro m c st c1 st1 _ h; simp [MSMBlur.largeLeafGrow] at h
  | succ n ih =>
    intro m c st c1 st1 hnm h
    obtain ⟨m, rfl⟩ : ∃ k, m = k + 1 := ⟨m - 1, by omega⟩
    rw [largeLeafGrow_succ] at h ⊢
    split
    · rename_i hb
      rw [hb] at h
      exact h
    · rename_i best hb
      rw [hb] at h
      simp only at h
      split
      · rename_i hc
        rw [hc] at h
        exact h
      · rename_i brecord hc
        rw [hc] at h
        simp only at h
        split
        · rename_i hs
          rw [hs] at h
          exact h
        · rename_i c2 deleted hs
          rw [hs] at h
          simp only at h
          split
          · rename_i hlt
            rw [if_pos hlt] at h
            exact ih _ _ _ _ _ (by omega) h
          · rename_i hlt
            rw [if_neg hlt] at h
            exact h

/-! ## Termination of `createLargeLeaf` -/

/-- The growth loop of `createLargeLeaf`, started on the record of the node
with at least `max 1 (branchingFactor - 1)` iterations allowed: it ends
normally, no buffer got shorter, the sets of the children satisfy the
invariant when `singleLeafTimeSegment` is set, and for a record that is no
leaf every child is one level deeper than the record. -/
theorem largeLeafGrow_total {T : Sig} (env : Env T) (s : Settings T)
    (hbf : s.branchingFactor ≤ 8)
    (htc : s.singleLeafTimeSegment = true → TemporalContract env)
    (current : BuildRecord T) (st : State T) (n : Nat)
    (hn : max 1 (s.branchingFactor - 1) ≤ n)
    (hwf : s.singleLeafTimeSegment = true → SetMB.WF st.heap current.prims)
    (hdepth : current.depth + 1 < 18446744073709551616)
    (hdata : current.split.data = SPLIT_FALLBACK ∨
      (current.split.data = SPLIT_TEMPORAL ∧ s.singleLeafTimeSegment = true ∧
        current.prims.object_range._begin < current.prims.object_range._end)) :
    ∃ c st1, largeLeafGrow env s current.depth n (LocalChildListT.new current) st = (.ok c, st1) ∧
      Heap.le st.heap st1.heap ∧ InBounds c ∧ c.size ≤ max 2 s.branchingFactor ∧
      (∀ ch ∈ c.children, s.singleLeafTimeSegment = true → SetMB.WF st1.heap ch.prims) ∧
      (isLargeLeaf s current = false → ∀ ch ∈ c.children, ch.depth = current.depth + 1) := by
  have hw : wrap (current.depth + 1) = current.depth + 1 := by
    unfold wrap
    omega
  obtain ⟨c, st1, hg, ⟨hle, hch, hfresh⟩, hin, hsize, hend⟩ := largeLeafGrow_rule env s
    current.depth
    (fun c st1 => Heap.le st.heap st1.heap ∧
      (∀ ch ∈ c.children, (s.singleLeafTimeSegment = true → SetMB.WF st1.heap ch.prims) ∧
        (ch.split.data = SPLIT_FALLBACK ∨
          (ch.split.data = SPLIT_TEMPORAL ∧ s.singleLeafTimeSegment = true ∧
            ch.prims.object_range._begin < ch.prims.object_range._end))) ∧
      (c.children = [current] ∨ ∀ ch ∈ c.children, ch.depth = current.depth + 1))
    hbf
    (by
      intro c st1 best brecord c1 deleted ⟨hle, hch, hfresh⟩ _ _ hb hsplit hc1
      have hmem : brecord ∈ c.children := List.getElem?_mem hb
      obtain ⟨hbwf, hbdata⟩ := hch brecord hmem
      have hT : brecord.split.data = SPLIT_TEMPORAL → TemporalContract env := by
        intro h
        rcases hbdata with h1 | ⟨-, h2, -⟩
        · rw [h] at h1
          cases h1
        · exact htc h2
      have hO : brecord.split.data ≠ SPLIT_FALLBACK → brecord.split.data ≠ SPLIT_TEMPORAL →
          ObjectContract env := by
        intro h1 h2
        rcases hbdata with h | ⟨h, -, -⟩
        · exact absurd h h1
        · exact absurd h h2
      have hple := partition_le env st1.heap brecord hT hO
      refine ⟨Heap.le_trans hle hple, ?_, ?_⟩
      · refine children_step
          (fun ch : BuildRecord T =>
            (s.singleLeafTimeSegment = true →
              SetMB.WF (partition env st1.heap brecord).1 ch.prims) ∧
            (ch.split.data = SPLIT_FALLBACK ∨
              (ch.split.data = SPLIT_TEMPORAL ∧ s.singleLeafTimeSegment = true ∧
                ch.prims.object_range._begin < ch.prims.object_range._end)))
          _ _ _ _ _ hc1 ?_ ?_ ?_
        · intro ch hch1
          exact ⟨fun hf => ((hch ch hch1).1 hf).mono hple, (hch ch hch1).2⟩
        · exact ⟨fun hf => (partition_WF env st1.heap brecord (hbwf hf) hT hO).2.1,
            findFallback_data env s _ _⟩
        · exact ⟨fun hf => (partition_WF env st1.heap brecord (hbwf hf) hT hO).2.2,
            findFallback_data env s _ _⟩
      · right
        exact children_step_fresh (fun ch : BuildRecord T => ch.depth = current.depth + 1)
          _ _ _ _ _ current hc1
          (LocalChildListT.split_children _ _ _ _ _ _ _ hsplit).2 hfresh hw hw)
    n (LocalChildListT.new current) st
    ⟨Heap.le_refl _, by
      intro ch hch
      simp only [LocalChildListT.new, List.mem_singleton] at hch
      subst hch
      exact ⟨hwf, hdata⟩, Or.inl rfl⟩
    (InBounds.ofNew current) (Or.inl rfl)
    (by simp only [LocalChildListT.size, LocalChildListT.new, List.length_singleton]; exact hn)
  refine ⟨c, st1, hg, hle, hin, hsize, fun ch hc => (hch ch hc).1, ?_⟩
  intro hleaf
  have hpos : 0 < current.prims.size := by
    simp only [isLargeLeaf, Bool.and_eq_false_iff, decide_eq_false_iff_not, bne_eq_false_iff_eq]
      at hleaf
    rcases hleaf with h | h
    · omega
    · rcases hdata with h1 | ⟨-, hflag, hlt⟩
      · rw [h] at h1
        cases h1
      · have := (hwf hflag).size_eq
        omega
  rcases hend with ⟨hnone, -, -⟩ | hgrow
  · have hbest := largeLeafBest_singleton s current hleaf hpos
    simp only [LocalChildListT.new] at hnone
    rw [hbest] at hnone
    cases hnone
  · rcases hfresh with h | h
    · simp only [LocalChildListT.size, LocalChildListT.new, List.length_singleton, h] at hgrow
      omega
    · exact h

/-- `createLargeLeaf` ends: with a branching factor of at most 8, a depth
limit below `2^64 - 1` and, when `singleLeafTimeSegment` is set, a set that
satisfies the invariant and a temporal partitioner that keeps it, a call with
fuel for the levels down to `maxDepth + 1` returns or raises the depth-limit
error, and no buffer got shorter. -/
theorem createLargeLeaf_total {T : Sig} (env : Env T) (s : Settings T)
    (hbf : s.branchingFactor ≤ 8) (hmax : s.maxDepth + 1 < 18446744073709551616)
    (htc : s.singleLeafTimeSegment = true → TemporalContract env) :
    ∀ (fuel : Nat) (current : BuildRecord T) (alloc : Alloc) (st : State T),
      (s.singleLeafTimeSegment = true → SetMB.WF st.heap current.prims) →
      0 < fuel → s.maxDepth + 2 ≤ fuel + current.depth →
      Heap.le st.heap (createLargeLeaf env s fuel current alloc st).2.heap ∧
      ((∃ v, (createLargeLeaf env s fuel current alloc st).1 = .ok v) ∨
        ∃ e, (createLargeLeaf env s fuel current alloc st).1 = .error e ∧
          e = .depthLimitReached) := by
  intro fuel
  induction fuel with
  | zero => intro current alloc st _ h; omega
  | succ fuel ih =>
    intro current alloc st hwf _ hfuel
    rw [MSMBlur.createLargeLeaf]
    split
    · exact ⟨Heap.le_refl _, Or.inr ⟨_, rfl, rfl⟩⟩
    · rename_i hd
      simp only
      split
      · exact ⟨Heap.le_refl _, Or.inl ⟨_, rfl⟩⟩
      · rename_i hleaf
        obtain ⟨c, st1, hg, hle, -, -, hch, hdeep⟩ := largeLeafGrow_total env s hbf htc
          { current with split := findFallback env s st.heap current } st
          (s.branchingFactor + 1) (by omega) hwf (by simp only; omega)
          (findFallback_data env s st.heap current)
        simp only at hg
        rw [hg]
        simp only
        have hdeep1 := hdeep (by simpa using hleaf)
        obtain ⟨h1, h2⟩ := visitChildren_rule
          (fun c st => MSMBlur.createLargeLeaf env s fuel c alloc st)
          (env.createNode (hasTimeSplits env
            { current with split := findFallback env s st.heap current } c) alloc)
          (fun a b : State T => Heap.le a.heap b.heap)
          (fun _ => Heap.le_refl _) (fun _ _ _ => Heap.le_trans) (fun _ _ => Heap.le_refl _)
          (fun e => e = .depthLimitReached)
          (fun ch st0 => (s.singleLeafTimeSegment = true → SetMB.WF st0.heap ch.prims) ∧
            ch.depth = current.depth + 1)
          (fun ch st0 st2 hc hr => ⟨fun hf => (hc.1 hf).mono hr, hc.2⟩)
          (fun ch st0 hc => ih ch alloc st0 hc.1 (by omega) (by rw [hc.2]; omega))
          c.children.enum
          (st1.emit (.createNode (hasTimeSplits env
            { current with split := findFallback env s st.heap current } c) alloc
            (env.createNode (hasTimeSplits env
              { current with split := findFallback env s st.heap current } c) alloc)))
          (by
            intro ic hic
            have hmem : ic.2 ∈ c.children := by
              have := List.mem_map_of_mem Prod.snd hic
              rwa [enum_map_snd] at this
            exact ⟨hch ic.2 hmem, hdeep1 ic.2 hmem⟩)
        constructor
        · unfold MSMBlur.finishNode
          split <;> exact Heap.le_trans hle h1
        · rcases h2 with ⟨vs, hvs⟩ | ⟨e, he, hE⟩
          · left
            unfold MSMBlur.finishNode
            rw [hvs]
            exact ⟨_, rfl⟩
          · right
            refine ⟨e, ?_, hE⟩
            rw [finishNode_error]
            exact he

/-! ## The partitioners of the concrete environment keep the invariant -/

/-- Appending a buffer shortens none. -/
theorem Heap.le_append {T : Sig} (heap : Heap T) (buf : List (PrimRefMB T)) :
    Heap.le heap (heap ++ [buf]) := by
  intro p
  unfold Heap.read
  by_cases hp : p < heap.length
  · rw [List.getD_eq_getElem?_getD, List.getD_eq_getElem?_getD, List.getElem?_append_left hp]
  · rw [List.getD_eq_getElem?_getD, List.getElem?_eq_none (by omega)]
    exact Nat.zero_le _

/-- Reading the buffer appended last. -/
theorem Heap.read_append_length {T : Sig} (heap : Heap T) (buf : List (PrimRefMB T)) :
    Heap.read (heap ++ [buf]) heap.length = buf := by
  unfold Heap.read
  rw [List.getD_eq_getElem?_getD, List.getElem?_append_right (Nat.le_refl _)]
  simp

/-- The temporal partitioner of the concrete environment keeps the invariant
of the sets. -/
theorem exEnv_temporalContract : TemporalContract exEnv := by
  refine ⟨fun heap split set => Heap.le_append heap _, ?_, ?_⟩
  · intro heap split set hwf
    obtain ⟨h1, h2, h3, h4⟩ := hwf
    have hlen : (List.take (set.object_range._end - set.object_range._begin)
        (List.drop set.object_range._begin (heap.getD set.prims []))).length
        = set.object_range._end - set.object_range._begin := by
      rw [List.length_take, List.length_drop]
      have : set.object_range._end ≤ (heap.getD set.prims []).length := h3
      omega
    refine ⟨?_, ?_, ?_, ?_⟩
    · simp only [exEnv, SetMB.size, hlen] at h1 ⊢
      omega
    · exact Nat.zero_le _
    · simp only [exEnv]
      rw [Heap.read_append_length]
    · simp only [exEnv, hlen]
      omega
  · intro heap split set hwf
    have h := hwf.mono (Heap.le_append heap
      (List.take (set.object_range._end - set.object_range._begin)
        (List.drop set.object_range._begin (heap.getD set.prims []))))
    exact ⟨h.size_eq, h.le, h.bound, h.small⟩

/-- The object partitioner of the concrete environment keeps the invariant of
the sets and the number of primitives. -/
theorem exEnv_objectContract : ObjectContract exEnv := by
  refine ⟨fun heap split set => Heap.le_refl heap, ?_, ?_, ?_⟩
  · intro heap split set hwf
    obtain ⟨h1, h2, h3, h4⟩ := hwf
    refine ⟨?_, ?_, ?_, ?_⟩ <;> simp only [exEnv, SetMB.size] at h1 ⊢ <;> omega
  · intro heap split set hwf
    obtain ⟨h1, h2, h3, h4⟩ := hwf
    refine ⟨?_, ?_, ?_, ?_⟩ <;> simp only [exEnv, SetMB.size] at h1 ⊢ <;> omega
  · intro heap split set hwf
    obtain ⟨h1, h2, h3, h4⟩ := hwf
    simp only [exEnv, SetMB.size] at h1 ⊢
    omega

/-- A call of `createLargeLeaf` on a record within the depth limit that is no
leaf leaves a longer trace, whatever its outcome. -/
theorem createLargeLeaf_trace_grows {T : Sig} (env : Env T) (s : Settings T)
    (hbf : s.branchingFactor ≤ 8) (fuel : Nat) (current : BuildRecord T) (alloc : Alloc)
    (st : State T) (hd : ¬ current.depth > s.maxDepth) :
    (createLargeLeaf env s (fuel + 1) current alloc st).2.trace ≠ st.trace ∨
    ∃ v, (createLargeLeaf env s (fuel + 1) current alloc st).1 = .ok v := by
  have hT := TraceExt.driverRel env
  have hK : GrowKinds (fun _ : Event T => True) := ⟨fun _ => trivial, fun _ => trivial,
    fun _ => trivial⟩
  have hN : NodeKinds (fun _ : Event T => True) := ⟨fun _ _ _ => trivial, fun _ _ _ => trivial⟩
  rw [MSMBlur.createLargeLeaf, if_neg hd]
  simp only
  split
  · exact Or.inr ⟨_, rfl⟩
  · left
    obtain ⟨c, st1, hg, -, -⟩ := largeLeafGrow_ok env s hbf
      { current with split := findFallback env s st.heap current } st
    simp only at hg
    have h1 := hT.largeLeafGrow hK s current.depth (s.branchingFactor + 1)
      (LocalChildListT.new { current with split := findFallback env s st.heap current }) st
    rw [hg] at h1 ⊢
    simp only at h1 ⊢
    have h2 := hT.visitChildren hN
      (fun c st => MSMBlur.createLargeLeaf env s fuel c alloc st)
      (fun c st => hT.createLargeLeaf hK hN (fun _ _ _ => trivial) s fuel c alloc st)
      (env.createNode (hasTimeSplits env
        { current with split := findFallback env s st.heap current } c) alloc)
      c.children.enum
      (st1.emit (.createNode (hasTimeSplits env
        { current with split := findFallback env s st.heap current } c) alloc
        (env.createNode (hasTimeSplits env
          { current with split := findFallback env s st.heap current } c) alloc)))
    have h3 := hT.finishNode hK { current with split := findFallback env s st.heap current } c
      (hasTimeSplits env { current with split := findFallback env s st.heap current } c)
      (env.createNode (hasTimeSplits env
        { current with split := findFallback env s st.heap current } c) alloc)
      (MSMBlur.visitChildren
        (fun c st => MSMBlur.createLargeLeaf env s fuel c alloc st)
        (env.createNode (hasTimeSplits env
          { current with split := findFallback env s st.heap current } c) alloc)
        c.children.enum
        (st1.emit (.createNode (hasTimeSplits env
          { current with split := findFallback env s st.heap current } c) alloc
          (env.createNode (hasTimeSplits env
            { current with split := findFallback env s st.heap current } c) alloc))))
    obtain ⟨es1, he1⟩ := h1
    obtain ⟨es2, he2⟩ := h2
    obtain ⟨es3, he3⟩ := h3
    intro hcontra
    have hlen := congrArg List.length hcontra
    rw [he3, he2] at hlen
    simp only [State.emit, he1, List.length_append, List.length_singleton] at hlen
    omega

/-- C12: for a builder with a branching factor of at most 8 and a depth limit
below `2^64 - 1`, and, when `singleLeafTimeSegment` is set, for a set that
satisfies the invariant of `SetMB` and a temporal partitioner that keeps it,
`createLargeLeaf` terminates: with fuel for the levels down to `maxDepth + 1`
it returns or raises the depth-limit error; the growth loop ends within
`max 1 (branchingFactor - 1)` iterations, with the result the driver gets;
every child of a node is one level deeper than the record of the node; and
the depth-limit error is raised with the state untouched exactly when the
call is reached with `depth > maxDepth`. -/
theorem createLargeLeaf_terminates {T : Sig} (env : Env T) (s : Settings T)
    (hbf : s.branchingFactor ≤ MAX_BRANCHING_FACTOR)
    (hmax : s.maxDepth + 1 < 18446744073709551616)
    (htc : s.singleLeafTimeSegment = true → TemporalContract env)
    (current : BuildRecord T) (alloc : Alloc) (st : State T)
    (hwf : s.singleLeafTimeSegment = true → SetMB.WF st.heap current.prims) :
    (∀ fuel : Nat, 0 < fuel → s.maxDepth + 2 ≤ fuel + current.depth →
      (∃ v, (createLargeLeaf env s fuel current alloc st).1 = .ok v) ∨
      (createLargeLeaf env s fuel current alloc st).1 = .error .depthLimitReached) ∧
    (current.depth ≤ s.maxDepth →
      ∃ c st1,
        largeLeafGrow env s current.depth (max 1 (s.branchingFactor - 1))
          (LocalChildListT.new { current with split := findFallback env s st.heap current })
          st = (.ok c, st1) ∧
        largeLeafGrow env s current.depth (s.branchingFactor + 1)
          (LocalChildListT.new { current with split := findFallback env s st.heap current })
          st = (.ok c, st1) ∧
        (isLargeLeaf s { current with split := findFallback env s st.heap current } = false →
          ∀ ch ∈ c.children, ch.depth = current.depth + 1 ∧ current.depth < ch.depth)) ∧
    (∀ fuel : Nat, current.depth > s.maxDepth ↔
      createLargeLeaf env s (fuel + 1) current alloc st = (.error .depthLimitReached, st)) := by
  have hbf8 : s.branchingFactor ≤ 8 := hbf
  refine ⟨?_, ?_, ?_⟩
  · intro fuel hpos hfuel
    obtain ⟨-, h⟩ := createLargeLeaf_total env s hbf8 hmax htc fuel current alloc st hwf hpos
      hfuel
    rcases h with h | ⟨e, he, rfl⟩
    · exact Or.inl h
    · exact Or.inr he
  · intro hd
    obtain ⟨c, st1, hg, -, -, -, -, hdeep⟩ := largeLeafGrow_total env s hbf8 htc
      { current with split := findFallback env s st.heap current } st
      (max 1 (s.branchingFactor - 1)) (Nat.le_refl _) hwf (by simp only; omega)
      (findFallback_data env s st.heap current)
    refine ⟨c, st1, hg, ?_, ?_⟩
    · exact largeLeafGrow_fuel env s _ _ _ _ _ _ _ (by omega) hg
    · intro hleaf ch hch
      have := hdeep hleaf ch hch
      simp only at this
      omega
  · intro fuel
    constructor
    · intro hd
      rw [MSMBlur.createLargeLeaf, if_pos hd]
    · intro h
      by_contra hd
      rcases createLargeLeaf_trace_grows env s hbf8 fuel current alloc st hd with h1 | ⟨v, h1⟩
      · rw [h] at h1
        exact h1 rfl
      · rw [h] at h1
        cases h1

/-- C12 on a record of 10 primitives of the concrete environment with
`singleLeafTimeSegment` set: with fuel 33 `createLargeLeaf` returns or raises
the depth-limit error. -/
theorem createLargeLeaf_terminates_witness :
    (∃ v, (createLargeLeaf exEnv exSettingsSegment 33 (exChild 0 0 10 1) (some 0)
      (exState 10)).1 = .ok v) ∨
    (createLargeLeaf exEnv exSettingsSegment 33 (exChild 0 0 10 1) (some 0)
      (exState 10)).1 = .error .depthLimitReached :=
  (createLargeLeaf_terminates exEnv exSettingsSegment (by decide) (by decide)
    (fun _ => exEnv_temporalContract) (exChild 0 0 10 1) (some 0) (exState 10)
    (fun _ => ⟨rfl, by decide, by decide, by decide⟩)).1 33 (by decide) (by decide)

/-! ## Termination of `recurse` -/

/-- The search of `recurse` over the record alone finds it when it has more
than `minLeafSize` primitives and its expected half area exceeds `neg_inf`. -/
theorem recurseBest_singleton {T : Sig} (env : Env T) (s : Settings T) (c : BuildRecord T)
    (hsize : s.minLeafSize < c.prims.size)
    (harea : env.flt env.neg_inf (env.expectedApproxHalfArea c.prims.pinfo.geom) = true) :
    recurseBest env s [c] 0 none env.neg_inf = some 0 := by
  simp only [recurseBest]
  rw [if_neg (by omega), if_pos harea]

/-- The growth loop of `recurse`, started on the record of the node with at
least `max 1 (branchingFactor - 1)` iterations allowed, for partitioners that
keep the invariant of the sets: it ends normally, no buffer got shorter, the
sets of the children satisfy the invariant, and when the record is found by
the first search every child is one level deeper than the record. -/
theorem recurseGrow_total {T : Sig} (env : Env T) (s : Settings T)
    (hbf : s.branchingFactor ≤ 8) (hT : TemporalContract env) (hO : ObjectContract env)
    (current : BuildRecord T) (st : State T) (n : Nat)
    (hn : max 1 (s.branchingFactor - 1) ≤ n)
    (hwf : SetMB.WF st.heap current.prims)
    (hdepth : current.depth + 1 < 18446744073709551616) :
    ∃ c st1, recurseGrow env s current.depth n (LocalChildListT.new current) st = (.ok c, st1) ∧
      Heap.le st.heap st1.heap ∧ InBounds c ∧ c.size ≤ max 2 s.branchingFactor ∧
      (∀ ch ∈ c.children, SetMB.WF st1.heap ch.prims) ∧
      (recurseBest env s [current] 0 none env.neg_inf ≠ none →
        ∀ ch ∈ c.children, ch.depth = current.depth + 1) := by
  have hw : wrap (current.depth + 1) = current.depth + 1 := by
    unfold wrap
    omega
  obtain ⟨c, st1, hg, ⟨hle, hch, hfresh⟩, hin, hsize, hend⟩ := recurseGrow_rule env s
    current.depth
    (fun c st1 => Heap.le st.heap st1.heap ∧
      (∀ ch ∈ c.children, SetMB.WF st1.heap ch.prims) ∧
      (c.children = [current] ∨ ∀ ch ∈ c.children, ch.depth = current.depth + 1))
    hbf
    (by
      intro c st1 best brecord c1 deleted ⟨hle, hch, hfresh⟩ _ _ hb hsplit hc1
      have hmem : brecord ∈ c.children := List.getElem?_mem hb
      have hbwf := hch brecord hmem
      obtain ⟨hple, hl, hr⟩ := partition_WF env st1.heap brecord hbwf (fun _ => hT)
        (fun _ _ => hO)
      refine ⟨Heap.le_trans hle hple, ?_, ?_⟩
      · refine children_step
          (fun ch : BuildRecord T => SetMB.WF (partition env st1.heap brecord).1 ch.prims)
          _ _ _ _ _ hc1 ?_ hl hr
        intro ch hch1
        exact (hch ch hch1).mono hple
      · right
        exact children_step_fresh (fun ch : BuildRecord T => ch.depth = current.depth + 1)
          _ _ _ _ _ current hc1
          (LocalChildListT.split_children _ _ _ _ _ _ _ hsplit).2 hfresh hw hw)
    n (LocalChildListT.new current) st
    ⟨Heap.le_refl _, by
      intro ch hch
      simp only [LocalChildListT.new, List.mem_singleton] at hch
      subst hch
      exact hwf, Or.inl rfl⟩
    (InBounds.ofNew current) (Or.inl rfl)
    (by simp only [LocalChildListT.size, LocalChildListT.new, List.length_singleton]; exact hn)
  refine ⟨c, st1, hg, hle, hin, hsize, hch, ?_⟩
  intro hbest
  rcases hend with ⟨hnone, -, -⟩ | hgrow
  · exact absurd hnone hbest
  · rcases hfresh with h | h
    · simp only [LocalChildListT.size, LocalChildListT.new, List.length_singleton, h] at hgrow
      omega
    · exact h

/-- `recurse` ends: with a branching factor of at most 8, a depth limit below
`2^64 - 1`, partitioners that keep the invariant of the sets and expected half
areas that exceed `neg_inf`, a call on a set that satisfies the invariant with
fuel for the levels down to `maxDepth + 1` returns or raises the depth-limit
error, and no buffer got shorter. -/
theorem recurse_total {T : Sig} (env : Env T) (s : Settings T)
    (hbf : s.branchingFactor ≤ 8) (hmax : s.maxDepth + 1 < 18446744073709551616)
    (hT : TemporalContract env) (hO : ObjectContract env)
    (harea : ∀ g, env.flt env.neg_inf (env.expectedApproxHalfArea g) = true) :
    ∀ (fuel : Nat) (current : BuildRecord T) (alloc : Alloc) (toplevel : Bool) (st : State T),
      SetMB.WF st.heap current.prims → current.depth + 8 < 18446744073709551616 →
      2 ≤ fuel → s.maxDepth + 3 ≤ fuel + current.depth →
      Heap.le st.heap (recurse env s fuel current alloc toplevel st).2.heap ∧
      ((∃ v, (recurse env s fuel current alloc toplevel st).1 = .ok v) ∨
        ∃ e, (recurse env s fuel current alloc toplevel st).1 = .error e ∧
          e = .depthLimitReached) := by
  intro fuel
  induction fuel with
  | zero => intro current alloc toplevel st _ _ h; omega
  | succ fuel ih =>
    intro current alloc toplevel st hwf hd8 hf2 hfuel
    have henter : (recurseEnter s current alloc toplevel st).2.heap = st.heap := by
      unfold recurseEnter
      cases alloc <;> simp only <;> split <;> rfl
    rw [MSMBlur.recurse]
    split
    · unfold recurseLeaf
      have hsort := deterministic_order_le env (recurseEnter s current alloc toplevel st).2.heap
        current.prims
      obtain ⟨h1, h2⟩ := createLargeLeaf_total env s hbf hmax (fun _ => hT) fuel current
        (recurseEnter s current alloc toplevel st).1
        { (recurseEnter s current alloc toplevel st).2 with
          heap := deterministic_order env (recurseEnter s current alloc toplevel st).2.heap
            current.prims }
        (fun _ => by
          simp only
          rw [henter]
          exact hwf.mono (deterministic_order_le env st.heap current.prims))
        (by omega) (by omega)
      refine ⟨?_, h2⟩
      refine Heap.le_trans ?_ h1
      simp only
      rw [henter]
      exact deterministic_order_le env st.heap current.prims
    · rename_i hleaf
      have hcond : recurseLeafCond env s current = false := by simpa using hleaf
      simp only [recurseLeafCond, Bool.or_eq_false_iff, decide_eq_false_iff_not] at hcond
      obtain ⟨⟨hmin, hdep⟩, -⟩ := hcond
      have hw8 : wrap (current.depth + MIN_LARGE_LEAF_LEVELS) = current.depth + 8 := by
        unfold wrap MIN_LARGE_LEAF_LEVELS
        omega
      rw [hw8] at hdep
      unfold recurseSplit
      obtain ⟨c, st1, hg, hle, -, -, hch, hdeep⟩ := recurseGrow_total env s hbf hT hO current
        (recurseEnter s current alloc toplevel st).2 (s.branchingFactor + 1) (by omega)
        (by rw [henter]; exact hwf) (by omega)
      rw [hg]
      simp only
      have hdeep1 := hdeep (by
        rw [recurseBest_singleton env s current (by omega) (harea _)]
        simp)
      have hC : ∀ ic ∈ c.children.enum,
          SetMB.WF (st1.emit (.createNode (hasTimeSplits env current c)
            (recurseEnter s current alloc toplevel st).1
            (env.createNode (hasTimeSplits env current c)
              (recurseEnter s current alloc toplevel st).1))).heap ic.2.prims ∧
          ic.2.depth = current.depth + 1 := by
        intro ic hic
        have hmem : ic.2 ∈ c.children := by
          have := List.mem_map_of_mem Prod.snd hic
          rwa [enum_map_snd] at this
        exact ⟨hch ic.2 hmem, hdeep1 ic.2 hmem⟩
      have hfin : ∀ (r : Except Error (List (Value T)) × State T),
          Heap.le (st1.emit (.createNode (hasTimeSplits env current c)
            (recurseEnter s current alloc toplevel st).1
            (env.createNode (hasTimeSplits env current c)
              (recurseEnter s current alloc toplevel st).1))).heap r.2.heap →
          ((∃ vs, r.1 = .ok vs) ∨ ∃ e, r.1 = .error e ∧ e = .depthLimitReached) →
          Heap.le st.heap (finishNode env current c (hasTimeSplits env current c)
            (env.createNode (hasTimeSplits env current c)
              (recurseEnter s current alloc toplevel st).1) r).2.heap ∧
          ((∃ v, (finishNode env current c (hasTimeSplits env current c)
            (env.createNode (hasTimeSplits env current c)
              (recurseEnter s current alloc toplevel st).1) r).1 = .ok v) ∨
            ∃ e, (finishNode env current c (hasTimeSplits env current c)
              (env.createNode (hasTimeSplits env current c)
                (recurseEnter s current alloc toplevel st).1) r).1 = .error e ∧
              e = .depthLimitReached) := by
        intro r h1 h2
        constructor
        · rw [henter] at hle
          unfold MSMBlur.finishNode
          split <;> exact Heap.le_trans hle h1
        · rcases h2 with ⟨vs, hvs⟩ | ⟨e, he, hE⟩
          · left
            unfold MSMBlur.finishNode
            rw [hvs]
            exact ⟨_, rfl⟩
          · right
            refine ⟨e, ?_, hE⟩
            rw [finishNode_error]
            exact he
      split
      · obtain ⟨h1, h2⟩ := visitChildren_rule
          (fun c st => MSMBlur.recurse env s fuel c none true st)
          (env.createNode (hasTimeSplits env current c)
            (recurseEnter s current alloc toplevel st).1)
          (fun a b : State T => Heap.le a.heap b.heap)
          (fun _ => Heap.le_refl _) (fun _ _ _ => Heap.le_trans) (fun _ _ => Heap.le_refl _)
          (fun e => e = .depthLimitReached)
          (fun ch st0 => SetMB.WF st0.heap ch.prims ∧ ch.depth = current.depth + 1)
          (fun ch st0 st2 hc hr => ⟨hc.1.mono hr, hc.2⟩)
          (fun ch st0 hc => ih ch none true st0 hc.1 (by rw [hc.2]; omega) (by omega)
            (by rw [hc.2]; omega))
          c.children.enum _ hC
        exact hfin _ h1 h2
      · obtain ⟨h1, h2⟩ := visitChildren_rule
          (fun c st0 => MSMBlur.recurse env s fuel c
            (recurseEnter s current alloc toplevel st).1 false st0)
          (env.createNode (hasTimeSplits env current c)
            (recurseEnter s current alloc toplevel st).1)
          (fun a b : State T => Heap.le a.heap b.heap)
          (fun _ => Heap.le_refl _) (fun _ _ _ => Heap.le_trans) (fun _ _ => Heap.le_refl _)
          (fun e => e = .depthLimitReached)
          (fun ch st0 => SetMB.WF st0.heap ch.prims ∧ ch.depth = current.depth + 1)
          (fun ch st0 st2 hc hr => ⟨hc.1.mono hr, hc.2⟩)
          (fun ch st0 hc => ih ch _ false st0 hc.1 (by rw [hc.2]; omega) (by omega)
            (by rw [hc.2]; omega))
          c.children.enum.reverse _ (fun ic hic => hC ic (List.mem_reverse.1 hic))
        refine hfin (_, _) h1 ?_
        rcases h2 with ⟨vs, hvs⟩ | ⟨e, he, hE⟩
        · left
          simp only
          rw [hvs]
          exact ⟨_, rfl⟩
        · right
          simp only
          rw [he]
          exact ⟨e, rfl, hE⟩

/-! ## The number of primitives over the leaves -/

/-- The leaf records of a concatenation. -/
theorem leafRecords_append {T : Sig} (t u : List (Event T)) :
    leafRecords (t ++ u) = leafRecords t ++ leafRecords u := by
  induction t with
  | nil => rfl
  | cons e t ih => cases e <;> simp [leafRecords, ih]

/-- The leaf total of a concatenation. -/
theorem leafTotal_append {T : Sig} (t u : List (Event T)) :
    leafTotal (t ++ u) = leafTotal t + leafTotal u := by
  simp [leafTotal, leafRecords_append]

/-- Events other than leaf creations add nothing to the leaf total. -/
theorem leafTotal_eq_zero {T : Sig} (es : List (Event T))
    (h : ∀ e ∈ es, ∀ r a hp, e ≠ .createLeaf r a hp) : leafTotal es = 0 := by
  induction es with
  | nil => rfl
  | cons e es ih =>
    have he := h e (List.mem_cons_self _ _)
    have ih1 := ih (fun x hx => h x (List.mem_cons_of_mem _ hx))
    cases e <;> simp_all [leafTotal, leafRecords]

/-- Keeping the leaf total is a driver relation for the events other than
leaf creations. -/
theorem leafTotalKept_driverRel {T : Sig} (env : Env T) :
    DriverRel env (fun e => ∀ r a hp, e ≠ .createLeaf r a hp)
      (fun st st1 : State T => leafTotal st1.trace = leafTotal st.trace) := by
  refine ⟨fun st => rfl, fun a b c h1 h2 => h2.trans h1, ?_, fun st _ => rfl, fun st _ => rfl,
    fun st => rfl⟩
  intro st es hes
  simp only [State.emits, leafTotal_append, leafTotal_eq_zero es hes, Nat.add_zero]

/-- The growth kinds are no leaf creations. -/
theorem growKinds_not_leaf {T : Sig} :
    GrowKinds (fun e : Event T => ∀ r a hp, e ≠ .createLeaf r a hp) :=
  by constructor <;> (intros; intro h; cases h)

/-- The node kinds are no leaf creations. -/
theorem nodeKinds_not_leaf {T : Sig} :
    NodeKinds (fun e : Event T => ∀ r a hp, e ≠ .createLeaf r a hp) :=
  by constructor <;> (intros; intro h; cases h)

/-- Replacing an element of a list changes the sum of a measure by the
difference of the measures. -/
theorem sum_map_set {α : Type} (f : α → Nat) :
    ∀ (l : List α) (i : Nat) (b x : α), l[i]? = some b →
      ((l.set i x).map f).sum + f b = (l.map f).sum + f x := by
  intro l
  induction l with
  | nil => intro i b x h; simp at h
  | cons a l ih =>
    intro i b x h
    cases i with
    | zero =>
      simp only [List.getElem?_cons_zero, Option.some.injEq] at h
      subst h
      simp only [List.set_cons_zero, List.map_cons, List.sum_cons]
      omega
    | succ i =>
      simp only [List.getElem?_cons_succ] at h
      have := ih i b x h
      simp only [List.set_cons_succ, List.map_cons, List.sum_cons]
      omega

/-- One call of `partition` with a split that is not temporal, on a record
whose set satisfies the invariant: no buffer gets shorter, the sets of both
children satisfy the invariant and their sizes add up to the size of the
record. -/
theorem partition_count {T : Sig} (env : Env T) (heap : Heap T) (brecord : BuildRecord T)
    (hwf : SetMB.WF heap brecord.prims) (hdata : brecord.split.data ≠ SPLIT_TEMPORAL)
    (hO : brecord.split.data ≠ SPLIT_FALLBACK → ObjectContract env) :
    Heap.le heap (partition env heap brecord).1 ∧
    SetMB.WF (partition env heap brecord).1 (partition env heap brecord).2.1 ∧
    SetMB.WF (partition env heap brecord).1 (partition env heap brecord).2.2.1 ∧
    (partition env heap brecord).2.1.size + (partition env heap brecord).2.2.1.size
      = brecord.prims.size := by
  by_cases h1 : brecord.split.data = SPLIT_FALLBACK
  · rw [partition_fallback_eq env heap brecord h1]
    have hle := deterministic_order_le env heap brecord.prims
    have h2 := splitFallback_WF env _ _ (hwf.mono hle)
    exact ⟨hle, h2.1, h2.2.1, h2.2.2⟩
  · have hc := hO h1
    unfold partition
    rw [if_neg h1, if_neg hdata]
    exact ⟨hc.heap _ _ _, hc.left _ _ _ hwf, hc.right _ _ _ hwf, hc.count _ _ _ hwf⟩

/-- The start of `recurse` leaves the heap alone. -/
theorem recurseEnter_heap {T : Sig} (s : Settings T) (current : BuildRecord T) (alloc : Alloc)
    (toplevel : Bool) (st : State T) : (recurseEnter s current alloc toplevel st).2.heap = st.heap := by
  unfold recurseEnter
  cases alloc <;> simp only <;> split <;> rfl

/-! ## Termination of a build and the primitives of its leaves -/

/-- C11, as stated, fails twice. With a depth limit of 1 and leaves of at most
one primitive, `build` on three primitives raises the depth-limit error
instead of returning a root. With `singleLeafTimeSegment` set, `build` on one
primitive with two time segments returns a root whose two leaves hold one
primitive each: the temporal split puts the primitive into both children, so
the total over the leaves is 2 for an input count of 1. -/
theorem build_count_counterexample :
    (build exEnv exSettingsShallow 10 [exPrim 0 1, exPrim 1 1, exPrim 2 1]
      { geom := (), num := 3, max_num_time_segments := 1 }).1 = .error .depthLimitReached ∧
    (∃ v, (build exEnv exSettingsSegment 40 [exPrim 0 2]
      { geom := (), num := 1, max_num_time_segments := 2 }).1 = .ok v) ∧
    leafTotal (build exEnv exSettingsSegment 40 [exPrim 0 2]
      { geom := (), num := 1, max_num_time_segments := 2 }).2.trace = 2 :=
  ⟨rfl, ⟨_, rfl⟩, rfl⟩

/-! ## Sets that do not overlap: basic facts -/

/-- Not overlapping is symmetric. -/
theorem Sep.symm {T : Sig} {x y : SetMB T} (h : Sep x y) : Sep y x := by
  rcases h with h | h | h
  · exact Or.inl (Ne.symm h)
  · exact Or.inr (Or.inr h)
  · exact Or.inr (Or.inl h)

/-- A set that does not overlap `y` does not overlap a set inside `y`. -/
theorem Sep.of_within {T : Sig} {x y z : SetMB T} (h : Sep x y) (hz : Within z y) : Sep x z := by
  obtain ⟨h1, h2, h3⟩ := hz
  rcases h with h | h | h
  · exact Or.inl (by rw [h1]; exact h)
  · exact Or.inr (Or.inl (by omega))
  · exact Or.inr (Or.inr (by omega))

/-- A live set does not overlap a set of a buffer allocated later. -/
theorem Sep.of_fresh {T : Sig} {h : Heap T} {x z : SetMB T} (hx : Live h x)
    (hz : h.length ≤ z.prims) : Sep x z :=
  Or.inl (by have := hx.2; omega)

/-- Being inside is transitive. -/
theorem Within.chain {T : Sig} {x y z : SetMB T} (h1 : Within x y) (h2 : Within y z) :
    Within x z :=
  ⟨h1.1.trans h2.1, by have := h1.2.1; have := h2.2.1; omega,
    by have := h1.2.2; have := h2.2.2; omega⟩

/-- Every set is inside itself. -/
theorem Within.self {T : Sig} (x : SetMB T) : Within x x := ⟨rfl, Nat.le_refl _, Nat.le_refl _⟩

/-- A live set stays live when the heap grows. -/
theorem Live.grow {T : Sig} {h h1 : Heap T} {x : SetMB T} (hx : Live h x)
    (hlen : h.length ≤ h1.length) (hle : Heap.le h h1) : Live h1 x :=
  ⟨hx.1.mono hle, by have := hx.2; omega⟩

/-- No change is confined to any set. -/
theorem Frame.same {T : Sig} (h : Heap T) (y : SetMB T) : Frame h h y :=
  ⟨Nat.le_refl _, Heap.le_refl _, fun _ _ _ => rfl⟩

/-- A live set stays live across a confined change. -/
theorem Frame.live {T : Sig} {h h1 : Heap T} {y x : SetMB T} (hf : Frame h h1 y)
    (hx : Live h x) : Live h1 x :=
  hx.grow hf.1 hf.2.1

/-- Two confined changes in a row, the second confined to a set inside the
set of the first or in a buffer that is new to the first heap, are confined to
the set of the first. -/
theorem Frame.trans_owned {T : Sig} {h h1 h2 : Heap T} {y z : SetMB T} (h01 : Frame h h1 y)
    (h12 : Frame h1 h2 z) (hz : Within z y ∨ h.length ≤ z.prims) : Frame h h2 y := by
  refine ⟨Nat.le_trans h01.1 h12.1, Heap.le_trans h01.2.1 h12.2.1, ?_⟩
  intro x hx hsep
  have hsep2 : Sep x z := by
    rcases hz with hz | hz
    · exact hsep.of_within hz
    · exact Sep.of_fresh hx hz
  rw [h12.2.2 x (h01.live hx) hsep2, h01.2.2 x hx hsep]

/-- A change confined to a set inside `y` or to a new buffer is confined to
`y`. -/
theorem Frame.of_owned {T : Sig} {h h1 : Heap T} {y z : SetMB T} (hf : Frame h h1 z)
    (hz : Within z y ∨ h.length ≤ z.prims) : Frame h h1 y :=
  (Frame.same h y).trans_owned hf hz

/-! ## The fallback partitioning is local -/

/-- Two buffers that differ only in a middle part of the same length agree on
every window outside the middle part. -/
theorem window_outside {α : Type} (A S S1 C : List α) (b1 n : Nat)
    (hlen : S.length = S1.length)
    (hout : b1 + n ≤ A.length ∨ A.length + S.length ≤ b1) :
    ((A ++ S ++ C).drop b1).take n = ((A ++ S1 ++ C).drop b1).take n := by
  apply List.ext_getElem?
  intro i
  by_cases hi : i < n
  · rw [List.getElem?_take_of_lt hi, List.getElem?_take_of_lt hi, List.getElem?_drop,
      List.getElem?_drop]
    rcases hout with h | h
    · rw [List.append_assoc, List.append_assoc, List.getElem?_append_left (by omega),
        List.getElem?_append_left (by omega)]
    · rw [List.getElem?_append_right (by simp only [List.length_append]; omega),
        List.getElem?_append_right (by simp only [List.length_append]; omega)]
      simp only [List.length_append, hlen]
  · rw [List.getElem?_eq_none (by simp only [List.length_take]; omega),
      List.getElem?_eq_none (by simp only [List.length_take]; omega)]

/-- A buffer is its part before an object range, the range and the part
after it. -/
theorem buffer_split {α : Type} (L : List α) (b e : Nat) (hbe : b ≤ e) :
    L = L.take b ++ (L.drop b).take (e - b) ++ L.drop e := by
  have h1 : L.drop e = (L.drop b).drop (e - b) := by
    rw [List.drop_drop]
    congr 1
    omega
  rw [h1, List.append_assoc, List.take_append_drop, List.take_append_drop]

/-- Sorting the object range of a live set is confined to the set. -/
theorem deterministic_order_frame {T : Sig} (env : Env T) (heap : Heap T) (set : SetMB T)
    (hset : Live heap set) : Frame heap (deterministic_order env heap set) set := by
  refine ⟨?_, deterministic_order_le env heap set, ?_⟩
  · simp [deterministic_order, Heap.write]
  · intro x hx hsep
    by_cases hp : x.prims = set.prims
    · have hb := hset.1.bound
      have hle := hset.1.le
      have hA : ((heap.read set.prims).take set.object_range._begin).length
          = set.object_range._begin := by
        rw [List.length_take]
        omega
      have hS : (set.elems heap).length = set.object_range._end - set.object_range._begin := by
        simp only [SetMB.elems, List.length_take, List.length_drop]
        omega
      have hout : x.object_range._begin + (x.object_range._end - x.object_range._begin) ≤
          ((heap.read set.prims).take set.object_range._begin).length ∨
          ((heap.read set.prims).take set.object_range._begin).length
            + ((set.elems heap).insertionSort (primLe env)).length ≤ x.object_range._begin := by
        rw [hA, List.length_insertionSort, hS]
        have := hx.1.le
        rcases hsep with h | h | h
        · exact absurd hp h
        · left; omega
        · right; omega
      have h1 := window_outside ((heap.read set.prims).take set.object_range._begin)
        ((set.elems heap).insertionSort (primLe env)) (set.elems heap)
        ((heap.read set.prims).drop set.object_range._end) x.object_range._begin
        (x.object_range._end - x.object_range._begin) (List.length_insertionSort _ _) hout
      have h2 : (heap.read set.prims).take set.object_range._begin ++ set.elems heap
          ++ (heap.read set.prims).drop set.object_range._end = heap.read set.prims :=
        (buffer_split (heap.read set.prims) _ _ hle).symm
      rw [h2] at h1
      rw [SetMB.elems, SetMB.elems, hp, deterministic_order_read]
      exact h1
    · rw [SetMB.elems, SetMB.elems, deterministic_order_read_ne env heap set _ hp]

/-- The loop of `add_primref` over a range inside the buffer folds
`add_primref` over the primitives of the range. -/
theorem addPrimrefs_eq_foldl {T : Sig} (env : Env T) (prims : List (PrimRefMB T)) :
    ∀ (n i : Nat) (info : PrimInfoMB T), i + n ≤ prims.length →
      addPrimrefs env prims i n info =
        ((prims.drop i).take n).foldl (fun a p => a.add_primref env p) info := by
  intro n
  induction n with
  | zero => intro i info _; simp [addPrimrefs]
  | succ n ih =>
    intro i info hb
    have hi : i < prims.length := by omega
    rw [addPrimrefs, List.getElem?_eq_getElem hi]
    simp only
    rw [ih (i + 1) _ (by omega)]
    have hd : prims.drop i = prims[i] :: prims.drop (i + 1) := List.drop_eq_getElem_cons hi
    rw [hd, List.take_succ_cons, List.foldl_cons]

/-- The length of the primitives of a set that satisfies the invariant. -/
theorem SetMB.WF.length_elems {T : Sig} {heap : Heap T} {set : SetMB T}
    (hwf : SetMB.WF heap set) :
    (set.elems heap).length = set.object_range._end - set.object_range._begin := by
  have := hwf.bound
  have := hwf.le
  simp only [SetMB.elems, List.length_take, List.length_drop]
  omega

/-- No wrap-around in the midpoint of a set that satisfies the invariant. -/
theorem SetMB.WF.wrap_eq {T : Sig} {heap : Heap T} {set : SetMB T} (hwf : SetMB.WF heap set) :
    wrap (set.object_range._begin + set.object_range._end) =
      set.object_range._begin + set.object_range._end := by
  have := hwf.le
  have := hwf.small
  unfold wrap
  omega

/-- The sets of `splitFallback` as windows of the buffer: their primitives are
the two halves of the primitives of the set, and their aggregate info is
folded from these halves. -/
theorem splitFallback_content {T : Sig} (env : Env T) (heap : Heap T) (set : SetMB T)
    (hwf : SetMB.WF heap set) :
    (splitFallback env heap set).1.elems heap =
      (set.elems heap).take ((set.object_range._end - set.object_range._begin) / 2) ∧
    (splitFallback env heap set).2.elems heap =
      (set.elems heap).drop ((set.object_range._end - set.object_range._begin) / 2) ∧
    (splitFallback env heap set).1.pinfo =
      ((set.elems heap).take ((set.object_range._end - set.object_range._begin) / 2)).foldl
        (fun a p => a.add_primref env p) (PrimInfoMB.empty env) ∧
    (splitFallback env heap set).2.pinfo =
      ((set.elems heap).drop ((set.object_range._end - set.object_range._begin) / 2)).foldl
        (fun a p => a.add_primref env p) (PrimInfoMB.empty env) ∧
    (splitFallback env heap set).1.time_range = set.time_range ∧
    (splitFallback env heap set).2.time_range = set.time_range := by
  have hw := hwf.wrap_eq
  have hle := hwf.le
  have hb := hwf.bound
  obtain ⟨m, hm⟩ : ∃ m, m = (set.object_range._end - set.object_range._begin) / 2 := ⟨_, rfl⟩
  obtain ⟨c, hc⟩ : ∃ c, c = (set.object_range._begin + set.object_range._end) / 2 := ⟨_, rfl⟩
  have hcm : c = set.object_range._begin + m := by omega
  rw [← hm]
  have hl : (splitFallback env heap set).1.elems heap = (set.elems heap).take m := by
    simp only [SetMB.elems, splitFallback, hw, ← hc, List.take_take]
    congr 1
    omega
  have hr : (splitFallback env heap set).2.elems heap = (set.elems heap).drop m := by
    simp only [SetMB.elems, splitFallback, hw, ← hc]
    rw [List.drop_take, List.drop_drop]
    have h2 : set.object_range._end - set.object_range._begin - m = set.object_range._end - c := by
      omega
    rw [← hcm, h2]
  refine ⟨hl, hr, ?_, ?_, rfl, rfl⟩
  · rw [← hl]
    simp only [splitFallback, hw, SetMB.elems, ← hc]
    exact addPrimrefs_eq_foldl env _ _ _ _ (by omega)
  · rw [← hr]
    simp only [splitFallback, hw, SetMB.elems, ← hc]
    exact addPrimrefs_eq_foldl env _ _ _ _ (by omega)

/-- The primitives of a set after `deterministic_order`: sorted. -/
theorem deterministic_order_elems_self {T : Sig} (env : Env T) (heap : Heap T) (set : SetMB T)
    (hwf : SetMB.WF heap set) :
    set.elems (deterministic_order env heap set) = (set.elems heap).insertionSort (primLe env) := by
  rw [deterministic_order_elems env heap set set hwf.le hwf.bound rfl (Nat.le_refl _) hwf.le
    (Nat.le_refl _), Nat.sub_self, List.drop_zero]
  apply List.take_of_length_le
  rw [List.length_insertionSort, hwf.length_elems]

/-- The change of the heap by `partition` of a live record is confined to the
set of the record. -/
theorem partition_frame {T : Sig} {env : Env T} (hloc : LocalEnv env) (h : Heap T)
    (b : BuildRecord T) (hb : Live h b.prims) : Frame h (partition env h b).1 b.prims := by
  by_cases h1 : b.split.data = SPLIT_FALLBACK
  · rw [partition_fallback_eq env h b h1]
    exact deterministic_order_frame env h b.prims hb
  · exact hloc.frame h b h1 hb

/-- The sets of both children of a live record are live after `partition`. -/
theorem partition_live {T : Sig} {env : Env T} (hloc : LocalEnv env) (h : Heap T)
    (b : BuildRecord T) (hb : Live h b.prims) :
    Live (partition env h b).1 (partition env h b).2.1 ∧
    Live (partition env h b).1 (partition env h b).2.2.1 := by
  by_cases h1 : b.split.data = SPLIT_FALLBACK
  · have hf := deterministic_order_frame env h b.prims hb
    have hwf := splitFallback_WF env _ _ (hf.live hb).1
    rw [partition_fallback_eq env h b h1]
    exact ⟨⟨hwf.1, (hf.live hb).2⟩, ⟨hwf.2.1, (hf.live hb).2⟩⟩
  · exact hloc.live h b h1 hb

/-- The sets of both children lie inside the set of the record or in a new
buffer. -/
theorem partition_owned {T : Sig} {env : Env T} (hloc : LocalEnv env) (h : Heap T)
    (b : BuildRecord T) (hb : Live h b.prims) :
    (Within (partition env h b).2.1 b.prims ∨ h.length ≤ (partition env h b).2.1.prims) ∧
    (Within (partition env h b).2.2.1 b.prims ∨ h.length ≤ (partition env h b).2.2.1.prims) := by
  by_cases h1 : b.split.data = SPLIT_FALLBACK
  · rw [partition_fallback_eq env h b h1]
    have hw := hb.1.wrap_eq
    have hle := hb.1.le
    refine ⟨Or.inl ⟨rfl, ?_, ?_⟩, Or.inl ⟨rfl, ?_, ?_⟩⟩ <;>
      simp only [splitFallback, hw] <;> omega
  · exact hloc.owned h b h1 hb

/-- The sets of the two children do not overlap. -/
theorem partition_sep {T : Sig} {env : Env T} (hloc : LocalEnv env) (h : Heap T)
    (b : BuildRecord T) (hb : Live h b.prims) :
    Sep (partition env h b).2.1 (partition env h b).2.2.1 := by
  by_cases h1 : b.split.data = SPLIT_FALLBACK
  · rw [partition_fallback_eq env h b h1]
    exact Or.inr (Or.inl (Nat.le_refl _))
  · exact hloc.sep h b h1 hb

/-- The function `partition` on two live records with the same split and content
yields children with the same contents. -/
theorem partition_sim {T : Sig} {env : Env T} (hloc : LocalEnv env) (h : Heap T)
    (b : BuildRecord T) (h1 : Heap T) (b1 : BuildRecord T) (hb : Live h b.prims)
    (hb1 : Live h1 b1.prims) (hsplit : b.split = b1.split)
    (hsim : SimSet h b.prims h1 b1.prims) :
    SimSet (partition env h b).1 (partition env h b).2.1
      (partition env h1 b1).1 (partition env h1 b1).2.1 ∧
    SimSet (partition env h b).1 (partition env h b).2.2.1
      (partition env h1 b1).1 (partition env h1 b1).2.2.1 := by
  by_cases hd : b.split.data = SPLIT_FALLBACK
  · have hd1 : b1.split.data = SPLIT_FALLBACK := by rw [← hsplit]; exact hd
    rw [partition_fallback_eq env h b hd, partition_fallback_eq env h1 b1 hd1]
    have hf := deterministic_order_frame env h b.prims hb
    have hf1 := deterministic_order_frame env h1 b1.prims hb1
    obtain ⟨c1, c2, c3, c4, c5, c6⟩ := splitFallback_content env _ _ (hf.live hb).1
    obtain ⟨e1, e2, e3, e4, e5, e6⟩ := splitFallback_content env _ _ (hf1.live hb1).1
    have hs := deterministic_order_elems_self env h b.prims hb.1
    have hs1 := deterministic_order_elems_self env h1 b1.prims hb1.1
    obtain ⟨-, ht, he⟩ := hsim
    have hlen : b.prims.object_range._end - b.prims.object_range._begin =
        b1.prims.object_range._end - b1.prims.object_range._begin := by
      rw [← hb.1.length_elems, ← hb1.1.length_elems, he]
    have hsorted : b.prims.elems (deterministic_order env h b.prims) =
        b1.prims.elems (deterministic_order env h1 b1.prims) := by rw [hs, hs1, he]
    refine ⟨⟨?_, ?_, ?_⟩, ⟨?_, ?_, ?_⟩⟩
    · rw [c3, e3, hsorted, hlen]
    · rw [c5, e5, ht]
    · rw [c1, e1, hsorted, hlen]
    · rw [c4, e4, hsorted, hlen]
    · rw [c6, e6, ht]
    · rw [c2, e2, hsorted, hlen]
  · exact hloc.sim h b h1 b1 hd hb hb1 hsplit hsim

/-! ## Decisions of the drivers depend on contents only -/

/-- The split finder returns the same split for two live sets with the same
content. -/
theorem find_sim {T : Sig} {env : Env T} (hloc : LocalEnv env) (h : Heap T) (x : SetMB T)
    (h1 : Heap T) (x1 : SetMB T) (lbs : Nat) (hx : Live h x) (hx1 : Live h1 x1)
    (hsim : SimSet h x h1 x1) : (find env h x lbs).1 = (find env h1 x1 lbs).1 := by
  have ho := hloc.objectFind h x h1 x1 lbs hx hx1 hsim
  have ht := hloc.temporalFind h x h1 x1 lbs hx hx1 hsim
  have hb : timeRangeBigEnough env x = timeRangeBigEnough env x1 := by
    simp only [timeRangeBigEnough, hsim.1, hsim.2.1]
  unfold find
  simp only [ho, ht, hb]
  split
  · split <;> rfl
  · rfl

/-- The scan of `findFallback` over a range inside the buffer depends on the
primitives of the range only. -/
theorem findFallbackScan_window {T : Sig} (env : Env T) (tr : BBox1f T) :
    ∀ (n i i1 : Nat) (prims prims1 : List (PrimRefMB T)), i + n ≤ prims.length →
      i1 + n ≤ prims1.length → (prims.drop i).take n = (prims1.drop i1).take n →
      findFallbackScan env tr prims i n = findFallbackScan env tr prims1 i1 n := by
  intro n
  induction n with
  | zero => intro i i1 prims prims1 _ _ _; rw [findFallbackScan_zero, findFallbackScan_zero]
  | succ n ih =>
    intro i i1 prims prims1 hb hb1 hw
    have hi : i < prims.length := by omega
    have hi1 : i1 < prims1.length := by omega
    rw [List.drop_eq_getElem_cons hi, List.drop_eq_getElem_cons hi1, List.take_succ_cons,
      List.take_succ_cons] at hw
    simp only [List.cons.injEq] at hw
    obtain ⟨hhead, htail⟩ := hw
    rw [findFallbackScan, findFallbackScan, List.getElem?_eq_getElem hi,
      List.getElem?_eq_getElem hi1, hhead]
    simp only
    rw [ih (i + 1) (i1 + 1) prims prims1 (by omega) (by omega) htail]

/-- The function `findFallback` returns the same split for two records whose
live sets have the same content. -/
theorem findFallback_sim {T : Sig} (env : Env T) (s : Settings T) (h : Heap T)
    (r : BuildRecord T) (h1 : Heap T) (r1 : BuildRecord T) (hr : Live h r.prims)
    (hr1 : Live h1 r1.prims) (hsim : SimSet h r.prims h1 r1.prims) :
    findFallback env s h r = findFallback env s h1 r1 := by
  obtain ⟨-, ht, he⟩ := hsim
  have hlen : r.prims.object_range._end - r.prims.object_range._begin =
      r1.prims.object_range._end - r1.prims.object_range._begin := by
    rw [← hr.1.length_elems, ← hr1.1.length_elems, he]
  have hscan := findFallbackScan_window env r.prims.time_range
    (r.prims.object_range._end - r.prims.object_range._begin)
    r.prims.object_range._begin r1.prims.object_range._begin
    (h.read r.prims.prims) (h1.read r1.prims.prims)
    (by have := hr.1.bound; have := hr.1.le; omega)
    (by have := hr1.1.bound; have := hr1.1.le; omega)
    (by simp only [SetMB.elems] at he; rw [← hlen] at he; exact he)
  unfold findFallback
  rw [hscan, ← hlen, ht]

/-- The search of `createLargeLeaf` finds the same child in two lists of
records with the same sizes and splits. -/
theorem largeLeafBest_sim {T : Sig} (s : Settings T) (h h1 : Heap T) :
    ∀ (l l1 : List (BuildRecord T)), List.Forall₂ (fun a b => SimRec h a h1 b) l l1 →
      ∀ (i : Nat) (bc : Option Nat) (bs : Nat),
        largeLeafBest s l i bc bs = largeLeafBest s l1 i bc bs := by
  intro l l1 hf
  induction hf with
  | nil => intro i bc bs; rfl
  | @cons a b l l1 hab _ ih =>
    intro i bc bs
    obtain ⟨-, hsplit, hp, -, -⟩ := hab
    have hleaf : isLargeLeaf s a = isLargeLeaf s b := by
      simp only [isLargeLeaf, SetMB.size, hp, hsplit]
    have hsize : a.prims.size = b.prims.size := by simp only [SetMB.size, hp]
    simp only [largeLeafBest, hleaf, hsize, ih]

/-- The search of `recurse` finds the same child in two lists of records with
the same aggregate info. -/
theorem recurseBest_sim {T : Sig} (env : Env T) (s : Settings T) (h h1 : Heap T) :
    ∀ (l l1 : List (BuildRecord T)), List.Forall₂ (fun a b => SimRec h a h1 b) l l1 →
      ∀ (i : Nat) (bc : Option Nat) (bs : T.F),
        recurseBest env s l i bc bs = recurseBest env s l1 i bc bs := by
  intro l l1 hf
  induction hf with
  | nil => intro i bc bs; rfl
  | @cons a b l l1 hab _ ih =>
    intro i bc bs
    obtain ⟨-, -, hp, -, -⟩ := hab
    have hsize : a.prims.size = b.prims.size := by simp only [SetMB.size, hp]
    simp only [recurseBest, hsize, hp, ih]

/-- The leaf condition of `recurse` is the same for two records with the same
depth, split and content. -/
theorem recurseLeafCond_sim {T : Sig} {env : Env T} (hloc : LocalEnv env) (s : Settings T)
    (h : Heap T) (r : BuildRecord T) (h1 : Heap T) (r1 : BuildRecord T)
    (hsim : SimRec h r h1 r1) : recurseLeafCond env s r = recurseLeafCond env s r1 := by
  obtain ⟨hd, hsplit, hp, ht, -⟩ := hsim
  obtain ⟨hc1, hc2⟩ := hloc.cost r.prims r1.prims s.logBlockSize hp ht
  simp only [recurseLeafCond, leafCost, splitCost, SetMB.size, hd, hsplit, hp, hc1, hc2]

/-! ## The children of a node do not overlap -/

/-- A symmetric relation that holds pairwise in a list still does after one
element is replaced and one is appended, when the new elements are related to
everything the replaced element was related to, and to each other. -/
theorem pairwise_set_append {α : Type} (S : α → α → Prop) (hsymm : ∀ a b, S a b → S b a) :
    ∀ (l : List α) (i : Nat) (b x y : α), l[i]? = some b → l.Pairwise S →
      (∀ z ∈ l, S z b → S z x) → (∀ z ∈ l, S z b → S z y) → S x y →
      (l.set i x ++ [y]).Pairwise S := by
  intro l
  induction l with
  | nil => intro i b x y h; simp at h
  | cons a t ih =>
    intro i b x y hb hp hx hy hxy
    rw [List.pairwise_cons] at hp
    cases i with
    | zero =>
      simp only [List.getElem?_cons_zero, Option.some.injEq] at hb
      subst hb
      simp only [List.set_cons_zero, List.cons_append]
      rw [List.pairwise_cons]
      constructor
      · intro z hz
        rcases List.mem_append.1 hz with h | h
        · exact hsymm _ _ (hx z (List.mem_cons_of_mem _ h) (hsymm _ _ (hp.1 z h)))
        · rw [List.mem_singleton.1 h]; exact hxy
      · rw [List.pairwise_append]
        refine ⟨hp.2, List.pairwise_singleton _ _, ?_⟩
        intro z hz w hw
        rw [List.mem_singleton.1 hw]
        exact hy z (List.mem_cons_of_mem _ hz) (hsymm _ _ (hp.1 z hz))
    | succ i =>
      simp only [List.getElem?_cons_succ] at hb
      simp only [List.set_cons_succ, List.cons_append]
      rw [List.pairwise_cons]
      have hbt : b ∈ t := List.getElem?_mem hb
      constructor
      · intro z hz
        rcases List.mem_append.1 hz with h | h
        · rcases List.mem_or_eq_of_mem_set h with h2 | h2
          · exact hp.1 z h2
          · rw [h2]; exact hx a (List.mem_cons_self _ _) (hp.1 b hbt)
        · rw [List.mem_singleton.1 h]; exact hy a (List.mem_cons_self _ _) (hp.1 b hbt)
      · exact ih i b x y hb hp.2 (fun z hz => hx z (List.mem_cons_of_mem _ hz))
          (fun z hz => hy z (List.mem_cons_of_mem _ hz)) hxy

/-- The list of the record of a live set alone is a good list. -/
theorem GoodList.ofRecord {T : Sig} (h : Heap T) (current : BuildRecord T)
    (hc : Live h current.prims) :
    GoodList h.length current.prims h (LocalChildListT.new current).children := by
  constructor
  · intro c hmem
    simp only [LocalChildListT.new, List.mem_singleton] at hmem
    subst hmem
    exact ⟨hc, Or.inl (Within.self _)⟩
  · simp [LocalChildListT.new]

/-- One split of a good list by `partition` yields a good list in the new
heap. -/
theorem GoodList.step {T : Sig} {env : Env T} (hloc : LocalEnv env) {n : Nat} {y : SetMB T}
    {h : Heap T} {l : List (BuildRecord T)} {best : Nat} {b lrec rrec : BuildRecord T}
    (hg : GoodList n y h l) (hn : n ≤ h.length) (hb : l[best]? = some b)
    (hL : lrec.prims = (partition env h b).2.1) (hR : rrec.prims = (partition env h b).2.2.1) :
    GoodList n y (partition env h b).1 (l.set best lrec ++ [rrec]) := by
  have hmem : b ∈ l := List.getElem?_mem hb
  obtain ⟨hblive, hbown⟩ := hg.1 b hmem
  have hframe := partition_frame hloc h b hblive
  obtain ⟨hl1, hr1⟩ := partition_live hloc h b hblive
  obtain ⟨hl2, hr2⟩ := partition_owned hloc h b hblive
  have hsep := partition_sep hloc h b hblive
  have hown : ∀ z : SetMB T, (Within z b.prims ∨ h.length ≤ z.prims) →
      (Within z y ∨ n ≤ z.prims) := by
    intro z hz
    rcases hz with hz | hz
    · rcases hbown with hw | hw
      · exact Or.inl (hz.chain hw)
      · exact Or.inr (by rw [hz.1]; exact hw)
    · exact Or.inr (by omega)
  have hsepz : ∀ c ∈ l, ∀ z : SetMB T, (Within z b.prims ∨ h.length ≤ z.prims) →
      Sep c.prims b.prims → Sep c.prims z := by
    intro c hc z hz hcb
    rcases hz with hz | hz
    · exact hcb.of_within hz
    · exact Sep.of_fresh (hg.1 c hc).1 hz
  constructor
  · refine children_step
      (fun c : BuildRecord T => Live (partition env h b).1 c.prims ∧
        (Within c.prims y ∨ n ≤ c.prims.prims)) l _ best lrec rrec rfl ?_ ?_ ?_
    · intro c hc
      exact ⟨hframe.live (hg.1 c hc).1, (hg.1 c hc).2⟩
    · show Live _ lrec.prims ∧ (Within lrec.prims y ∨ n ≤ lrec.prims.prims)
      rw [hL]; exact ⟨hl1, hown _ hl2⟩
    · show Live _ rrec.prims ∧ (Within rrec.prims y ∨ n ≤ rrec.prims.prims)
      rw [hR]; exact ⟨hr1, hown _ hr2⟩
  · refine pairwise_set_append (fun a c : BuildRecord T => Sep a.prims c.prims)
      (fun _ _ h => h.symm) l best b lrec rrec hb hg.2 ?_ ?_ ?_
    · intro z hz hzb
      show Sep z.prims lrec.prims
      rw [hL]; exact hsepz z hz _ hl2 hzb
    · intro z hz hzb
      show Sep z.prims rrec.prims
      rw [hR]; exact hsepz z hz _ hr2 hzb
    · show Sep lrec.prims rrec.prims
      rw [hL, hR]; exact hsep

/-- The growth loop of `createLargeLeaf`, when it ends normally on the record
of a live set: the change of the heap is confined to the set of the record and
the children form a good list. -/
theorem largeLeafGrow_frame {T : Sig} {env : Env T} (hloc : LocalEnv env) (s : Settings T)
    (current : BuildRecord T) (st : State T) (n : Nat) (c : LocalChildListT T) (st1 : State T)
    (hlive : Live st.heap current.prims)
    (hg : largeLeafGrow env s current.depth n (LocalChildListT.new current) st = (.ok c, st1)) :
    Frame st.heap st1.heap current.prims ∧
    GoodList st.heap.length current.prims st1.heap c.children :=
  largeLeafGrow_partial env s current.depth
    (fun c st1 => Frame st.heap st1.heap current.prims ∧
      GoodList st.heap.length current.prims st1.heap c.children)
    (by
      intro c st1 best brecord c1 deleted ⟨hf, hgood⟩ _ hb _ hc1
      have hmem : brecord ∈ c.children := List.getElem?_mem hb
      obtain ⟨hblive, hbown⟩ := hgood.1 brecord hmem
      refine ⟨hf.trans_owned (partition_frame hloc st1.heap brecord hblive) hbown, ?_⟩
      show GoodList _ _ (partition env st1.heap brecord).1 c1.children
      rw [hc1]
      exact hgood.step hloc hf.1 hb rfl rfl)
    n (LocalChildListT.new current) st c st1
    ⟨Frame.same _ _, GoodList.ofRecord st.heap current hlive⟩ hg

/-- The growth loop of `recurse`, when it ends normally on the record of a
live set: the change of the heap is confined to the set of the record and the
children form a good list. -/
theorem recurseGrow_frame {T : Sig} {env : Env T} (hloc : LocalEnv env) (s : Settings T)
    (current : BuildRecord T) (st : State T) (n : Nat) (c : LocalChildListT T) (st1 : State T)
    (hlive : Live st.heap current.prims)
    (hg : recurseGrow env s current.depth n (LocalChildListT.new current) st = (.ok c, st1)) :
    Frame st.heap st1.heap current.prims ∧
    GoodList st.heap.length current.prims st1.heap c.children :=
  recurseGrow_partial env s current.depth
    (fun c st1 => Frame st.heap st1.heap current.prims ∧
      GoodList st.heap.length current.prims st1.heap c.children)
    (by
      intro c st1 best brecord c1 deleted ⟨hf, hgood⟩ _ hb _ hc1
      have hmem : brecord ∈ c.children := List.getElem?_mem hb
      obtain ⟨hblive, hbown⟩ := hgood.1 brecord hmem
      refine ⟨hf.trans_owned (partition_frame hloc st1.heap brecord hblive) hbown, ?_⟩
      show GoodList _ _ (partition env st1.heap brecord).1 c1.children
      rw [hc1]
      exact hgood.step hloc hf.1 hb rfl rfl)
    n (LocalChildListT.new current) st c st1
    ⟨Frame.same _ _, GoodList.ofRecord st.heap current hlive⟩ hg

/-! ## Two runs of a growth loop on the same contents -/

/-- A pairing of two lists survives the replacement of the elements at one
index and a change of the relation, when the relation is kept for the other
pairs: those that are related to the replaced elements by the symmetric
relations that hold pairwise in the two lists. -/
theorem forall₂_set_of_pairwise {α β : Type} (S : α → α → Prop) (S1 : β → β → Prop)
    (hsymm : ∀ a b, S a b → S b a) (hsymm1 : ∀ a b, S1 a b → S1 b a) (R R1 : α → β → Prop) :
    ∀ (l : List α) (l1 : List β), List.Forall₂ R l l1 →
      ∀ (i : Nat) (b : α) (b1 : β) (x : α) (x1 : β), l.Pairwise S → l1.Pairwise S1 →
      l[i]? = some b → l1[i]? = some b1 →
      (∀ a a1, a ∈ l → a1 ∈ l1 → S a b → S1 a1 b1 → R a a1 → R1 a a1) → R1 x x1 →
      List.Forall₂ R1 (l.set i x) (l1.set i x1) := by
  intro l l1 hf
  induction hf with
  | nil => intro i b b1 x x1 _ _ h; simp at h
  | @cons a a1 t t1 haa htt ih =>
    intro i b b1 x x1 hp hp1 hb hb1 hkeep hx
    rw [List.pairwise_cons] at hp hp1
    cases i with
    | zero =>
      simp only [List.getElem?_cons_zero, Option.some.injEq] at hb hb1
      subst hb
      subst hb1
      simp only [List.set_cons_zero]
      refine List.Forall₂.cons hx ?_
      clear ih
      have hmono : ∀ (u : List α) (u1 : List β), List.Forall₂ R u u1 →
          (∀ z ∈ u, z ∈ t) → (∀ z ∈ u1, z ∈ t1) → List.Forall₂ R1 u u1 := by
        intro u u1 hu
        induction hu with
        | nil => intro _ _; exact List.Forall₂.nil
        | @cons c c1 v v1 hcc _ ih2 =>
          intro hsub hsub1
          have hc : c ∈ t := hsub c (List.mem_cons_self _ _)
          have hc1 : c1 ∈ t1 := hsub1 c1 (List.mem_cons_self _ _)
          exact List.Forall₂.cons
            (hkeep c c1 (List.mem_cons_of_mem _ hc) (List.mem_cons_of_mem _ hc1)
              (hsymm _ _ (hp.1 c hc)) (hsymm1 _ _ (hp1.1 c1 hc1)) hcc)
            (ih2 (fun z hz => hsub z (List.mem_cons_of_mem _ hz))
              (fun z hz => hsub1 z (List.mem_cons_of_mem _ hz)))
      exact hmono t t1 htt (fun _ h => h) (fun _ h => h)
    | succ i =>
      simp only [List.getElem?_cons_succ] at hb hb1
      simp only [List.set_cons_succ]
      have hbt : b ∈ t := List.getElem?_mem hb
      have hbt1 : b1 ∈ t1 := List.getElem?_mem hb1
      refine List.Forall₂.cons
        (hkeep a a1 (List.mem_cons_self _ _) (List.mem_cons_self _ _) (hp.1 b hbt)
          (hp1.1 b1 hbt1) haa) ?_
      exact ih i b b1 x x1 hp.2 hp1.2 hb hb1
        (fun c c1 hc hc1 => hkeep c c1 (List.mem_cons_of_mem _ hc) (List.mem_cons_of_mem _ hc1))
        hx

/-- Pairing two lists after an element was appended to each. -/
theorem forall₂_append_singleton {α β : Type} (R : α → β → Prop) (l : List α) (l1 : List β)
    (y : α) (y1 : β) (h : List.Forall₂ R l l1) (hy : R y y1) :
    List.Forall₂ R (l ++ [y]) (l1 ++ [y1]) := by
  induction h with
  | nil => exact List.Forall₂.cons hy List.Forall₂.nil
  | cons hab _ ih => exact List.Forall₂.cons hab ih

/-- The elements at one index of two paired lists are related. -/
theorem forall₂_getElem_some {α β : Type} (R : α → β → Prop) :
    ∀ (l : List α) (l1 : List β), List.Forall₂ R l l1 → ∀ (i : Nat) (b : α),
      l[i]? = some b → ∃ b1, l1[i]? = some b1 ∧ R b b1 := by
  intro l l1 hf
  induction hf with
  | nil => intro i b h; simp at h
  | @cons a a1 t t1 haa _ ih =>
    intro i b hb
    cases i with
    | zero =>
      simp only [List.getElem?_cons_zero, Option.some.injEq] at hb
      subst hb
      exact ⟨a1, List.getElem?_cons_zero, haa⟩
    | succ i =>
      simp only [List.getElem?_cons_succ] at hb ⊢
      exact ih i b hb

/-- A record keeps its content across a confined change that it does not
overlap, in each of two heaps. -/
theorem SimRec.frame {T : Sig} {h h1 k k1 : Heap T} {a a1 : BuildRecord T} {y y1 : SetMB T}
    (hs : SimRec h a h1 a1) (hf : Frame h k y) (hf1 : Frame h1 k1 y1) (ha : Live h a.prims)
    (ha1 : Live h1 a1.prims) (hsep : Sep a.prims y) (hsep1 : Sep a1.prims y1) :
    SimRec k a k1 a1 := by
  obtain ⟨hd, hsplit, hp, ht, he⟩ := hs
  refine ⟨hd, hsplit, hp, ht, ?_⟩
  rw [hf.2.2 a.prims ha hsep, hf1.2.2 a1.prims ha1 hsep1]
  exact he

/-- One iteration of a growth loop in two runs: when the children have the
same contents pairwise and the records that replace the split child have the
sets returned by `partition`, the same depth and the same split, the children
have the same contents pairwise after the iteration. -/
theorem grow_step_sim {T : Sig} {env : Env T} (hloc : LocalEnv env) {n n1 : Nat}
    {y y1 : SetMB T} {h h1 : Heap T} {l l1 : List (BuildRecord T)} {best : Nat}
    {b b1 lrec rrec lrec1 rrec1 : BuildRecord T}
    (hg : GoodList n y h l) (hg1 : GoodList n1 y1 h1 l1)
    (hf : List.Forall₂ (fun a a1 => SimRec h a h1 a1) l l1)
    (hb : l[best]? = some b) (hb1 : l1[best]? = some b1)
    (hL : lrec.prims = (partition env h b).2.1) (hR : rrec.prims = (partition env h b).2.2.1)
    (hL1 : lrec1.prims = (partition env h1 b1).2.1)
    (hR1 : rrec1.prims = (partition env h1 b1).2.2.1)
    (hLd : lrec.depth = lrec1.depth) (hRd : rrec.depth = rrec1.depth)
    (hLs : lrec.split = lrec1.split) (hRs : rrec.split = rrec1.split) :
    List.Forall₂ (fun a a1 => SimRec (partition env h b).1 a (partition env h1 b1).1 a1)
      (l.set best lrec ++ [rrec]) (l1.set best lrec1 ++ [rrec1]) := by
  have hbl : Live h b.prims := (hg.1 b (List.getElem?_mem hb)).1
  have hbl1 : Live h1 b1.prims := (hg1.1 b1 (List.getElem?_mem hb1)).1
  obtain ⟨c, hc, hbb⟩ := forall₂_getElem_some _ l l1 hf best b hb
  rw [hb1] at hc
  cases hc
  obtain ⟨hsl, hsr⟩ := partition_sim hloc h b h1 b1 hbl hbl1 hbb.2.1 hbb.2.2
  have hfr := partition_frame hloc h b hbl
  have hfr1 := partition_frame hloc h1 b1 hbl1
  refine forall₂_append_singleton _ _ _ _ _ ?_ ⟨hRd, hRs, by rw [hR, hR1]; exact hsr⟩
  refine forall₂_set_of_pairwise (fun a c : BuildRecord T => Sep a.prims c.prims)
    (fun a c : BuildRecord T => Sep a.prims c.prims) (fun _ _ h => h.symm) (fun _ _ h => h.symm)
    _ _ l l1 hf best b b1 lrec lrec1 hg.2 hg1.2 hb hb1 ?_
    ⟨hLd, hLs, by rw [hL, hL1]; exact hsl⟩
  intro a a1 ha ha1 hs hs1 hr
  exact hr.frame hfr hfr1 (hg.1 a ha).1 (hg1.1 a1 ha1).1 hs hs1

/-- A `split` that succeeds was applied to a list of fewer than 8 children. -/
theorem LocalChildListT.split_lt {T : Sig} (c : LocalChildListT T) (bestChild : Nat)
    (l r : BuildRecord T) (nv : Option Nat) (c1 : LocalChildListT T) (deleted : List Nat)
    (h : c.split bestChild l r nv = some (c1, deleted)) : c.children.length < 8 := by
  unfold LocalChildListT.split at h
  split at h
  · rename_i hlt
    exact hlt.2
  · cases h

/-- The records that replace the child split by the growth loop of
`createLargeLeaf` have the same splits in two runs on the same content. -/
theorem largeLeaf_records_sim {T : Sig} {env : Env T} (hloc : LocalEnv env) (s : Settings T)
    (depth : Nat) (h h1 : Heap T) (b b1 : BuildRecord T) (hb : Live h b.prims)
    (hb1 : Live h1 b1.prims) (hsim : SimRec h b h1 b1) :
    (largeLeafLeft env s depth h b).split = (largeLeafLeft env s depth h1 b1).split ∧
    (largeLeafRight env s depth h b).split = (largeLeafRight env s depth h1 b1).split := by
  obtain ⟨hsl, hsr⟩ := partition_sim hloc h b h1 b1 hb hb1 hsim.2.1 hsim.2.2
  obtain ⟨hl, hr⟩ := partition_live hloc h b hb
  obtain ⟨hl1, hr1⟩ := partition_live hloc h1 b1 hb1
  exact ⟨findFallback_sim env s _ (BuildRecord.ofDepth env (wrap (depth + 1)) _) _
      (BuildRecord.ofDepth env (wrap (depth + 1)) _) hl hl1 hsl,
    findFallback_sim env s _ (BuildRecord.ofDepth env (wrap (depth + 1)) _) _
      (BuildRecord.ofDepth env (wrap (depth + 1)) _) hr hr1 hsr⟩

/-- The records that replace the child split by the growth loop of `recurse`
have the same splits in two runs on the same content. -/
theorem recurse_records_sim {T : Sig} {env : Env T} (hloc : LocalEnv env) (s : Settings T)
    (depth : Nat) (h h1 : Heap T) (b b1 : BuildRecord T) (hb : Live h b.prims)
    (hb1 : Live h1 b1.prims) (hsim : SimRec h b h1 b1) :
    (recurseLeft env s depth h b).split = (recurseLeft env s depth h1 b1).split ∧
    (recurseRight env s depth h b).split = (recurseRight env s depth h1 b1).split := by
  obtain ⟨hsl, hsr⟩ := partition_sim hloc h b h1 b1 hb hb1 hsim.2.1 hsim.2.2
  obtain ⟨hl, hr⟩ := partition_live hloc h b hb
  obtain ⟨hl1, hr1⟩ := partition_live hloc h1 b1 hb1
  exact ⟨find_sim hloc _ _ _ _ s.logBlockSize hl hl1 hsl,
    find_sim hloc _ _ _ _ s.logBlockSize hr hr1 hsr⟩

/-- Two runs of the growth loop of `createLargeLeaf` on children with the
same contents: when the first ends normally, so does the second, and the
children have the same contents pairwise at the end. -/
theorem largeLeafGrow_sim {T : Sig} {env : Env T} (hloc : LocalEnv env) (s : Settings T)
    (depth : Nat) :
    ∀ (n : Nat) (c : LocalChildListT T) (st : State T) (c1 : LocalChildListT T) (st1 : State T)
      (m m1 : Nat) (y y1 : SetMB T),
      InBounds c1 → GoodList m y st.heap c.children → m ≤ st.heap.length →
      GoodList m1 y1 st1.heap c1.children → m1 ≤ st1.heap.length →
      List.Forall₂ (fun a a1 => SimRec st.heap a st1.heap a1) c.children c1.children →
      ∀ (c2 : LocalChildListT T) (st2 : State T),
        largeLeafGrow env s depth n c st = (.ok c2, st2) →
        ∃ c3 st3, largeLeafGrow env s depth n c1 st1 = (.ok c3, st3) ∧
          List.Forall₂ (fun a a1 => SimRec st2.heap a st3.heap a1) c2.children c3.children := by
  intro n
  induction n with
  | zero =>
    intro c st c1 st1 m m1 y y1 _ _ _ _ _ _ c2 st2 h
    simp [MSMBlur.largeLeafGrow] at h
  | succ n ih =>
    intro c st c1 st1 m m1 y y1 hin hg hm hg1 hm1 hf c2 st2 h
    rw [largeLeafGrow_succ] at h ⊢
    rw [← largeLeafBest_sim s st.heap st1.heap _ _ hf 0 none 0]
    cases hb : largeLeafBest s c.children 0 none 0 with
    | none =>
      rw [hb] at h
      simp only [Prod.mk.injEq, Except.ok.injEq] at h
      obtain ⟨rfl, rfl⟩ := h
      exact ⟨c1, st1, rfl, hf⟩
    | some best =>
      rw [hb] at h
      simp only at h ⊢
      cases hbr : c.children[best]? with
      | none => rw [hbr] at h; simp at h
      | some b =>
        rw [hbr] at h
        simp only at h
        obtain ⟨b1, hbr1, hbb⟩ := forall₂_getElem_some _ _ _ hf best b hbr
        rw [hbr1]
        simp only
        cases hsp : c.split best (largeLeafLeft env s depth st.heap b)
            (largeLeafRight env s depth st.heap b) (partition env st.heap b).2.2.2 with
        | none => rw [hsp] at h; simp at h
        | some p =>
          obtain ⟨cA, del⟩ := p
          rw [hsp] at h
          simp only at h
          obtain ⟨hcA, hlt⟩ := LocalChildListT.split_children _ _ _ _ _ _ _ hsp
          have hcap := LocalChildListT.split_lt _ _ _ _ _ _ _ hsp
          have hlen := hf.length_eq
          obtain ⟨cB, delB, hspB, hcB, -, -, hinB⟩ := LocalChildListT.split_inBounds c1 best
            (largeLeafLeft env s depth st1.heap b1) (largeLeafRight env s depth st1.heap b1)
            (partition env st1.heap b1).2.2.2 hin (by omega) (by omega)
          rw [hspB]
          simp only
          have hbl : Live st.heap b.prims := (hg.1 b (List.getElem?_mem hbr)).1
          have hbl1 : Live st1.heap b1.prims := (hg1.1 b1 (List.getElem?_mem hbr1)).1
          have hgA : GoodList m y (partition env st.heap b).1 cA.children := by
            rw [hcA]; exact hg.step hloc hm hbr rfl rfl
          have hgB : GoodList m1 y1 (partition env st1.heap b1).1 cB.children := by
            rw [hcB]; exact hg1.step hloc hm1 hbr1 rfl rfl
          have hmA : m ≤ (partition env st.heap b).1.length :=
            Nat.le_trans hm (partition_frame hloc st.heap b hbl).1
          have hmB : m1 ≤ (partition env st1.heap b1).1.length :=
            Nat.le_trans hm1 (partition_frame hloc st1.heap b1 hbl1).1
          obtain ⟨hsL, hsR⟩ := largeLeaf_records_sim hloc s depth st.heap st1.heap b b1 hbl hbl1
            hbb
          have hfn : List.Forall₂
              (fun a a1 => SimRec (partition env st.heap b).1 a (partition env st1.heap b1).1 a1)
              cA.children cB.children := by
            rw [hcA, hcB]
            exact grow_step_sim hloc hg hg1 hf hbr hbr1 rfl rfl rfl rfl rfl rfl hsL hsR
          have hsize : cB.size = cA.size := by
            simp only [LocalChildListT.size, hcA, hcB, List.length_append, List.length_set, hlen,
              List.length_singleton]
          rw [hsize]
          by_cases hlt2 : cA.size < s.branchingFactor
          · rw [if_pos hlt2] at h ⊢
            exact ih cA _ cB _ m m1 y y1 hinB hgA hmA hgB hmB hfn c2 st2 h
          · rw [if_neg hlt2] at h ⊢
            simp only [Prod.mk.injEq, Except.ok.injEq] at h
            obtain ⟨rfl, rfl⟩ := h
            exact ⟨cB, _, rfl, hfn⟩

/-- Two runs of the growth loop of `recurse` on children with the same
contents: when the first ends normally, so does the second, and the children
have the same contents pairwise at the end. -/
theorem recurseGrow_sim {T : Sig} {env : Env T} (hloc : LocalEnv env) (s : Settings T)
    (depth : Nat) :
    ∀ (n : Nat) (c : LocalChildListT T) (st : State T) (c1 : LocalChildListT T) (st1 : State T)
      (m m1 : Nat) (y y1 : SetMB T),
      InBounds c1 → GoodList m y st.heap c.children → m ≤ st.heap.length →
      GoodList m1 y1 st1.heap c1.children → m1 ≤ st1.heap.length →
      List.Forall₂ (fun a a1 => SimRec st.heap a st1.heap a1) c.children c1.children →
      ∀ (c2 : LocalChildListT T) (st2 : State T),
        recurseGrow env s depth n c st = (.ok c2, st2) →
        ∃ c3 st3, recurseGrow env s depth n c1 st1 = (.ok c3, st3) ∧
          List.Forall₂ (fun a a1 => SimRec st2.heap a st3.heap a1) c2.children c3.children := by
  intro n
  induction n with
  | zero =>
    intro c st c1 st1 m m1 y y1 _ _ _ _ _ _ c2 st2 h
    simp [MSMBlur.recurseGrow] at h
  | succ n ih =>
    intro c st c1 st1 m m1 y y1 hin hg hm hg1 hm1 hf c2 st2 h
    rw [recurseGrow_succ] at h ⊢
    rw [← recurseBest_sim env s st.heap st1.heap _ _ hf 0 none env.neg_inf]
    cases hb : recurseBest env s c.children 0 none env.neg_inf with
    | none =>
      rw [hb] at h
      simp only [Prod.mk.injEq, Except.ok.injEq] at h
      obtain ⟨rfl, rfl⟩ := h
      exact ⟨c1, st1, rfl, hf⟩
    | some best =>
      rw [hb] at h
      simp only at h ⊢
      cases hbr : c.children[best]? with
      | none => rw [hbr] at h; simp at h
      | some b =>
        rw [hbr] at h
        simp only at h
        obtain ⟨b1, hbr1, hbb⟩ := forall₂_getElem_some _ _ _ hf best b hbr
        rw [hbr1]
        simp only
        cases hsp : c.split best (recurseLeft env s depth st.heap b)
            (recurseRight env s depth st.heap b) (partition env st.heap b).2.2.2 with
        | none => rw [hsp] at h; simp at h
        | some p =>
          obtain ⟨cA, del⟩ := p
          rw [hsp] at h
          simp only at h
          obtain ⟨hcA, hlt⟩ := LocalChildListT.split_children _ _ _ _ _ _ _ hsp
          have hcap := LocalChildListT.split_lt _ _ _ _ _ _ _ hsp
          have hlen := hf.length_eq
          obtain ⟨cB, delB, hspB, hcB, -, -, hinB⟩ := LocalChildListT.split_inBounds c1 best
            (recurseLeft env s depth st1.heap b1) (recurseRight env s depth st1.heap b1)
            (partition env st1.heap b1).2.2.2 hin (by omega) (by omega)
          rw [hspB]
          simp only
          have hbl : Live st.heap b.prims := (hg.1 b (List.getElem?_mem hbr)).1
          have hbl1 : Live st1.heap b1.prims := (hg1.1 b1 (List.getElem?_mem hbr1)).1
          have hgA : GoodList m y (partition env st.heap b).1 cA.children := by
            rw [hcA]; exact hg.step hloc hm hbr rfl rfl
          have hgB : GoodList m1 y1 (partition env st1.heap b1).1 cB.children := by
            rw [hcB]; exact hg1.step hloc hm1 hbr1 rfl rfl
          have hmA : m ≤ (partition env st.heap b).1.length :=
            Nat.le_trans hm (partition_frame hloc st.heap b hbl).1
          have hmB : m1 ≤ (partition env st1.heap b1).1.length :=
            Nat.le_trans hm1 (partition_frame hloc st1.heap b1 hbl1).1
          obtain ⟨hsL, hsR⟩ := recurse_records_sim hloc s depth st.heap st1.heap b b1 hbl hbl1
            hbb
          have hfn : List.Forall₂
              (fun a a1 => SimRec (partition env st.heap b).1 a (partition env st1.heap b1).1 a1)
              cA.children cB.children := by
            rw [hcA, hcB]
            exact grow_step_sim hloc hg hg1 hf hbr hbr1 rfl rfl rfl rfl rfl rfl hsL hsR
          have hsize : cB.size = cA.size := by
            simp only [LocalChildListT.size, hcA, hcB, List.length_append, List.length_set, hlen,
              List.length_singleton]
          rw [hsize]
          by_cases hlt2 : cA.size < s.branchingFactor
          · rw [if_pos hlt2] at h ⊢
            exact ih cA _ cB _ m m1 y y1 hinB hgA hmA hgB hmB hfn c2 st2 h
          · rw [if_neg hlt2] at h ⊢
            simp only [Prod.mk.injEq, Except.ok.injEq] at h
            obtain ⟨rfl, rfl⟩ := h
            exact ⟨cB, _, rfl, hfn⟩

/-! ## The loop over the children of a node -/

/-- The loop over the children, when it ends normally, changes the heap
inside the set of the node and in new buffers only, when the driver called on
a child does so for the set of the child. -/
theorem visitChildren_frame {T : Sig} (f : BuildRecord T → State T → Result T × State T)
    (node : T.N) (h0 : Heap T) (y : SetMB T)
    (hframe : ∀ (c : BuildRecord T) (st : State T) (v : Value T) (st1 : State T),
      Live st.heap c.prims → f c st = (.ok v, st1) → Frame st.heap st1.heap c.prims) :
    ∀ (l : List (Nat × BuildRecord T)) (st : State T) (vs : List (Value T)) (st1 : State T),
      Frame h0 st.heap y →
      (∀ c ∈ l.map Prod.snd, Live st.heap c.prims ∧
        (Within c.prims y ∨ h0.length ≤ c.prims.prims)) →
      visitChildren f node l st = (.ok vs, st1) → Frame h0 st1.heap y := by
  intro l
  induction l with
  | nil =>
    intro st vs st1 hf _ h
    simp only [MSMBlur.visitChildren, Prod.mk.injEq, Except.ok.injEq] at h
    obtain ⟨-, rfl⟩ := h
    exact hf
  | cons ic rest ih =>
    intro st vs st1 hf hl h
    obtain ⟨i, c⟩ := ic
    rw [MSMBlur.visitChildren] at h
    cases hfc : f c st with
    | mk r st2 =>
      rw [hfc] at h
      cases r with
      | error e => simp at h
      | ok v =>
        simp only at h
        cases hv : visitChildren f node rest (st2.emit (.updateNode node i v)) with
        | mk r2 st3 =>
          rw [hv] at h
          cases r2 with
          | error e => simp at h
          | ok vs2 =>
            simp only [Prod.mk.injEq, Except.ok.injEq] at h
            obtain ⟨-, rfl⟩ := h
            have hc := hl c (by simp)
            have hfr : Frame st.heap st2.heap c.prims := hframe c st v st2 hc.1 hfc
            refine ih (st2.emit (.updateNode node i v)) vs2 st3 (hf.trans_owned hfr hc.2) ?_ hv
            intro d hd
            have hdl := hl d (by simp only [List.map_cons, List.mem_cons]; exact Or.inr hd)
            exact ⟨hfr.live hdl.1, hdl.2⟩

/-- The loop over children that do not overlap, when it ends normally: the
driver also returns on every child from the state at the start of the loop,
and the tree of every child is the one built from that state. -/
theorem visitChildren_home {T : Sig} (f : BuildRecord T → State T → Result T × State T)
    (g : BuildRecord T → State T → Tree T) (node : T.N)
    (hframe : ∀ (c : BuildRecord T) (st : State T) (v : Value T) (st1 : State T),
      Live st.heap c.prims → f c st = (.ok v, st1) → Frame st.heap st1.heap c.prims)
    (hself : ∀ (c : BuildRecord T) (st st1 : State T), Live st.heap c.prims →
      Live st1.heap c.prims → c.prims.elems st.heap = c.prims.elems st1.heap →
      (∃ v st2, f c st = (.ok v, st2)) →
      (∃ v st2, f c st1 = (.ok v, st2)) ∧ g c st = g c st1) :
    ∀ (l : List (Nat × BuildRecord T)) (st : State T) (vs : List (Value T)) (st1 : State T),
      (∀ c ∈ l.map Prod.snd, Live st.heap c.prims) →
      (l.map Prod.snd).Pairwise (fun a b => Sep a.prims b.prims) →
      visitChildren f node l st = (.ok vs, st1) →
      (∀ c ∈ l.map Prod.snd, ∃ v st2, f c st = (.ok v, st2)) ∧
      visitTrees f g node l st = (l.map Prod.snd).map (fun c => g c st) := by
  intro l
  induction l with
  | nil =>
    intro st vs st1 _ _ _
    exact ⟨by simp, rfl⟩
  | cons ic rest ih =>
    intro st vs st1 hl hp h
    obtain ⟨i, c⟩ := ic
    rw [MSMBlur.visitChildren] at h
    simp only [List.map_cons, List.pairwise_cons] at hp
    cases hfc : f c st with
    | mk r st2 =>
      rw [hfc] at h
      cases r with
      | error e => simp at h
      | ok v =>
        simp only at h
        cases hv : visitChildren f node rest (st2.emit (.updateNode node i v)) with
        | mk r2 st3 =>
          rw [hv] at h
          cases r2 with
          | error e => simp at h
          | ok vs2 =>
            have hc := hl c (by simp)
            have hfr : Frame st.heap st2.heap c.prims := hframe c st v st2 hc hfc
            have hrest : ∀ d ∈ rest.map Prod.snd, Live st.heap d.prims := fun d hd =>
              hl d (by simp only [List.map_cons, List.mem_cons]; exact Or.inr hd)
            obtain ⟨ih1, ih2⟩ := ih (st2.emit (.updateNode node i v)) vs2 st3
              (fun d hd => hfr.live (hrest d hd)) hp.2 hv
            have hback : ∀ d ∈ rest.map Prod.snd,
                (∃ w st4, f d st = (.ok w, st4)) ∧
                  g d (st2.emit (.updateNode node i v)) = g d st := by
              intro d hd
              exact hself d (st2.emit (.updateNode node i v)) st (hfr.live (hrest d hd))
                (hrest d hd) (hfr.2.2 d.prims (hrest d hd) (hp.1 d hd).symm) (ih1 d hd)
            constructor
            · intro d hd
              simp only [List.map_cons, List.mem_cons] at hd
              rcases hd with rfl | hd
              · exact ⟨v, st2, hfc⟩
              · exact (hback d hd).1
            · rw [MSMBlur.visitTrees, hfc]
              simp only [List.map_cons]
              rw [ih2]
              congr 1
              exact List.map_congr_left (fun d hd => (hback d hd).2)

/-- The loop over children that do not overlap ends normally when the driver
returns on every child from the state at the start of the loop, and the tree
of every child is the one built from that state. -/
theorem visitChildren_away {T : Sig} (f : BuildRecord T → State T → Result T × State T)
    (g : BuildRecord T → State T → Tree T) (node : T.N)
    (hframe : ∀ (c : BuildRecord T) (st : State T) (v : Value T) (st1 : State T),
      Live st.heap c.prims → f c st = (.ok v, st1) → Frame st.heap st1.heap c.prims)
    (hself : ∀ (c : BuildRecord T) (st st1 : State T), Live st.heap c.prims →
      Live st1.heap c.prims → c.prims.elems st.heap = c.prims.elems st1.heap →
      (∃ v st2, f c st = (.ok v, st2)) →
      (∃ v st2, f c st1 = (.ok v, st2)) ∧ g c st = g c st1) :
    ∀ (l : List (Nat × BuildRecord T)) (st : State T),
      (∀ c ∈ l.map Prod.snd, Live st.heap c.prims) →
      (l.map Prod.snd).Pairwise (fun a b => Sep a.prims b.prims) →
      (∀ c ∈ l.map Prod.snd, ∃ v st2, f c st = (.ok v, st2)) →
      (∃ vs st1, visitChildren f node l st = (.ok vs, st1)) ∧
      visitTrees f g node l st = (l.map Prod.snd).map (fun c => g c st) := by
  intro l
  induction l with
  | nil =>
    intro st _ _ _
    exact ⟨⟨[], st, rfl⟩, rfl⟩
  | cons ic rest ih =>
    intro st hl hp hok
    obtain ⟨i, c⟩ := ic
    simp only [List.map_cons, List.pairwise_cons] at hp
    obtain ⟨v, st2, hfc⟩ := hok c (by simp)
    have hc := hl c (by simp)
    have hfr : Frame st.heap st2.heap c.prims := hframe c st v st2 hc hfc
    have hrest : ∀ d ∈ rest.map Prod.snd, Live st.heap d.prims := fun d hd =>
      hl d (by simp only [List.map_cons, List.mem_cons]; exact Or.inr hd)
    have hfwd : ∀ d ∈ rest.map Prod.snd,
        (∃ w st4, f d (st2.emit (.updateNode node i v)) = (.ok w, st4)) ∧
          g d st = g d (st2.emit (.updateNode node i v)) := by
      intro d hd
      exact hself d st (st2.emit (.updateNode node i v)) (hrest d hd) (hfr.live (hrest d hd))
        (hfr.2.2 d.prims (hrest d hd) (hp.1 d hd).symm).symm
        (hok d (by simp only [List.map_cons, List.mem_cons]; exact Or.inr hd))
    obtain ⟨⟨vs2, st3, hv⟩, ih2⟩ := ih (st2.emit (.updateNode node i v))
      (fun d hd => hfr.live (hrest d hd)) hp.2 (fun d hd => (hfwd d hd).1)
    constructor
    · rw [MSMBlur.visitChildren, hfc]
      simp only
      rw [hv]
      exact ⟨v :: vs2, st3, rfl⟩
    · rw [MSMBlur.visitTrees, hfc]
      simp only [List.map_cons]
      rw [ih2]
      congr 1
      exact List.map_congr_left (fun d hd => ((hfwd d hd).2).symm)

/-- Two paired lists have the same image under two functions that agree on
the pairs. -/
theorem forall₂_map_eq {α β γ : Type} (R : α → β → Prop) (F : α → γ) (G : β → γ) :
    ∀ (l : List α) (l1 : List β), List.Forall₂ R l l1 →
      (∀ a b, a ∈ l → R a b → F a = G b) → l.map F = l1.map G := by
  intro l l1 hf
  induction hf with
  | nil => intro _; rfl
  | @cons a b t t1 hab _ ih =>
    intro h
    simp only [List.map_cons]
    rw [h a b (List.mem_cons_self _ _) hab, ih (fun c d hc => h c d (List.mem_cons_of_mem _ hc))]

/-- Every element of the second of two paired lists is paired with an element
of the first. -/
theorem forall₂_mem_right {α β : Type} (R : α → β → Prop) :
    ∀ (l : List α) (l1 : List β), List.Forall₂ R l l1 → ∀ b ∈ l1, ∃ a ∈ l, R a b := by
  intro l l1 hf
  induction hf with
  | nil => intro b hb; simp at hb
  | @cons a b t t1 hab _ ih =>
    intro d hd
    rcases List.mem_cons.1 hd with rfl | hd
    · exact ⟨a, List.mem_cons_self _ _, hab⟩
    · obtain ⟨c, hc, hr⟩ := ih d hd
      exact ⟨c, List.mem_cons_of_mem _ hc, hr⟩

/-- Every pair of two paired lists has its second element in the second
list. -/
theorem forall₂_and_mem_right {α β : Type} (R : α → β → Prop) :
    ∀ (l : List α) (l1 : List β), List.Forall₂ R l l1 →
      List.Forall₂ (fun a b => R a b ∧ b ∈ l1) l l1 := by
  intro l l1 hf
  induction hf with
  | nil => exact List.Forall₂.nil
  | @cons a b t t1 hab _ ih =>
    exact List.Forall₂.cons ⟨hab, List.mem_cons_self _ _⟩
      (ih.imp (fun _ _ h => ⟨h.1, List.mem_cons_of_mem _ h.2⟩))

/-- The loops over the children of a node in two runs, each in index order or
in reverse index order: when the children do not overlap and have the same
contents pairwise and the first loop ends normally, so does the second, the
tree of every child is the one built from the state at the start of its loop,
and these trees are the same in both runs. -/
theorem visitChildren_sim {T : Sig} (fA fB : BuildRecord T → State T → Result T × State T)
    (gA gB : BuildRecord T → State T → Tree T) (nodeA nodeB : T.N)
    (hframeA : ∀ (c : BuildRecord T) (st : State T) (v : Value T) (st1 : State T),
      Live st.heap c.prims → fA c st = (.ok v, st1) → Frame st.heap st1.heap c.prims)
    (hframeB : ∀ (c : BuildRecord T) (st : State T) (v : Value T) (st1 : State T),
      Live st.heap c.prims → fB c st = (.ok v, st1) → Frame st.heap st1.heap c.prims)
    (hselfA : ∀ (c : BuildRecord T) (st st1 : State T), Live st.heap c.prims →
      Live st1.heap c.prims → c.prims.elems st.heap = c.prims.elems st1.heap →
      (∃ v st2, fA c st = (.ok v, st2)) →
      (∃ v st2, fA c st1 = (.ok v, st2)) ∧ gA c st = gA c st1)
    (hselfB : ∀ (c : BuildRecord T) (st st1 : State T), Live st.heap c.prims →
      Live st1.heap c.prims → c.prims.elems st.heap = c.prims.elems st1.heap →
      (∃ v st2, fB c st = (.ok v, st2)) →
      (∃ v st2, fB c st1 = (.ok v, st2)) ∧ gB c st = gB c st1)
    (hcross : ∀ (c : BuildRecord T) (st : State T) (c1 : BuildRecord T) (st1 : State T),
      Live st.heap c.prims → Live st1.heap c1.prims → SimRec st.heap c st1.heap c1 →
      (∃ v st2, fA c st = (.ok v, st2)) →
      (∃ v st2, fB c1 st1 = (.ok v, st2)) ∧ gA c st = gB c1 st1)
    (lA lB : List (BuildRecord T)) (stA stB : State T)
    (oA oB : List (Nat × BuildRecord T))
    (hoA : oA.map Prod.snd = lA ∨ oA.map Prod.snd = lA.reverse)
    (hoB : oB.map Prod.snd = lB ∨ oB.map Prod.snd = lB.reverse)
    (hlA : ∀ c ∈ lA, Live stA.heap c.prims) (hlB : ∀ c ∈ lB, Live stB.heap c.prims)
    (hpA : lA.Pairwise (fun a b => Sep a.prims b.prims))
    (hpB : lB.Pairwise (fun a b => Sep a.prims b.prims))
    (hsim : List.Forall₂ (fun a a1 => SimRec stA.heap a stB.heap a1) lA lB)
    (vs : List (Value T)) (st1 : State T)
    (h : visitChildren fA nodeA oA stA = (.ok vs, st1)) :
    (∃ vs1 st2, visitChildren fB nodeB oB stB = (.ok vs1, st2)) ∧
    visitTrees fA gA nodeA oA stA = (oA.map Prod.snd).map (fun c => gA c stA) ∧
    visitTrees fB gB nodeB oB stB = (oB.map Prod.snd).map (fun c => gB c stB) ∧
    lA.map (fun c => gA c stA) = lB.map (fun c => gB c stB) := by
  have hmemA : ∀ c, c ∈ oA.map Prod.snd ↔ c ∈ lA := by
    intro c
    rcases hoA with h1 | h1 <;> rw [h1]
    exact List.mem_reverse
  have hmemB : ∀ c, c ∈ oB.map Prod.snd ↔ c ∈ lB := by
    intro c
    rcases hoB with h1 | h1 <;> rw [h1]
    exact List.mem_reverse
  have hpoA : (oA.map Prod.snd).Pairwise (fun a b => Sep a.prims b.prims) := by
    rcases hoA with h1 | h1 <;> rw [h1]
    · exact hpA
    · rw [List.pairwise_reverse]
      exact hpA.imp (fun h => h.symm)
  have hpoB : (oB.map Prod.snd).Pairwise (fun a b => Sep a.prims b.prims) := by
    rcases hoB with h1 | h1 <;> rw [h1]
    · exact hpB
    · rw [List.pairwise_reverse]
      exact hpB.imp (fun h => h.symm)
  obtain ⟨hokA, htA⟩ := visitChildren_home fA gA nodeA hframeA hselfA oA stA vs st1
    (fun c hc => hlA c ((hmemA c).1 hc)) hpoA h
  have hpair : ∀ a b, a ∈ lA → SimRec stA.heap a stB.heap b → b ∈ lB →
      (∃ v st2, fB b stB = (.ok v, st2)) ∧ gA a stA = gB b stB := by
    intro a b ha hab hb
    exact hcross a stA b stB (hlA a ha) (hlB b hb) hab (hokA a ((hmemA a).2 ha))
  have hokB : ∀ c ∈ oB.map Prod.snd, ∃ v st2, fB c stB = (.ok v, st2) := by
    intro c hc
    have hcB := (hmemB c).1 hc
    obtain ⟨a, ha, hab⟩ := forall₂_mem_right _ lA lB hsim c hcB
    exact (hpair a c ha hab hcB).1
  obtain ⟨hvB, htB⟩ := visitChildren_away fB gB nodeB hframeB hselfB oB stB
    (fun c hc => hlB c ((hmemB c).1 hc)) hpoB hokB
  refine ⟨hvB, htA, htB, ?_⟩
  have hsim2 := forall₂_and_mem_right _ lA lB hsim
  exact forall₂_map_eq _ _ _ lA lB hsim2 (fun a b ha hab => (hpair a b ha hab.1 hab.2).2)

/-! ## The drivers change the heap inside the set of the record only -/

/-- The records listed by `enum`, in reverse order. -/
theorem enum_reverse_map_snd {α : Type} (l : List α) :
    l.enum.reverse.map Prod.snd = l.reverse := by
  rw [List.map_reverse, enum_map_snd]

/-- A call of `createLargeLeaf` on the record of a live set that returns has
changed the heap inside the set of the record and in new buffers only. -/
theorem createLargeLeaf_frame {T : Sig} {env : Env T} (hloc : LocalEnv env) (s : Settings T) :
    ∀ (fuel : Nat) (c : BuildRecord T) (alloc : Alloc) (st : State T) (v : Value T)
      (st9 : State T), Live st.heap c.prims →
      createLargeLeaf env s fuel c alloc st = (.ok v, st9) →
      Frame st.heap st9.heap c.prims := by
  intro fuel
  induction fuel with
  | zero => intro c alloc st v st9 _ h; simp [MSMBlur.createLargeLeaf] at h
  | succ fuel ih =>
    intro c alloc st v st9 hlive h
    rw [MSMBlur.createLargeLeaf] at h
    split at h
    · simp at h
    · simp only at h
      split at h
      · simp only [Prod.mk.injEq, Except.ok.injEq] at h
        obtain ⟨-, rfl⟩ := h
        exact Frame.same _ _
      · cases hgrow : MSMBlur.largeLeafGrow env s c.depth (s.branchingFactor + 1)
            (LocalChildListT.new { c with split := findFallback env s st.heap c }) st with
        | mk r st1 =>
          rw [hgrow] at h
          cases r with
          | error e => simp at h
          | ok ch =>
            simp only at h
            obtain ⟨hfr, hgood⟩ := largeLeafGrow_frame hloc s
              { c with split := findFallback env s st.heap c } st _ ch st1 hlive hgrow
            obtain ⟨vs, hvs, -, hheap, -, -⟩ := finishNode_ok env _ _ _ _ _ _ _ h
            cases hv : MSMBlur.visitChildren
                (fun c st => MSMBlur.createLargeLeaf env s fuel c alloc st)
                (env.createNode (hasTimeSplits env
                  { c with split := findFallback env s st.heap c } ch) alloc)
                ch.children.enum
                (st1.emit (.createNode (hasTimeSplits env
                  { c with split := findFallback env s st.heap c } ch) alloc
                  (env.createNode (hasTimeSplits env
                    { c with split := findFallback env s st.heap c } ch)
                    alloc))) with
            | mk r2 st2 =>
              rw [hv] at hvs hheap
              simp only at hvs hheap
              subst hvs
              rw [hheap]
              refine visitChildren_frame _ _ st.heap c.prims
                (fun d st0 v0 st3 hd hr => ih d alloc st0 v0 st3 hd hr) _ _ vs st2 ?_ ?_ hv
              · exact hfr
              · intro d hd
                rw [enum_map_snd] at hd
                exact hgood.1 d hd

/-- A call of `recurse` on the record of a live set that returns has changed
the heap inside the set of the record and in new buffers only. -/
theorem recurse_frame {T : Sig} {env : Env T} (hloc : LocalEnv env) (s : Settings T) :
    ∀ (fuel : Nat) (c : BuildRecord T) (alloc : Alloc) (toplevel : Bool) (st : State T)
      (v : Value T) (st9 : State T), Live st.heap c.prims →
      recurse env s fuel c alloc toplevel st = (.ok v, st9) →
      Frame st.heap st9.heap c.prims := by
  intro fuel
  induction fuel with
  | zero => intro c alloc toplevel st v st9 _ h; simp [MSMBlur.recurse] at h
  | succ fuel ih =>
    intro c alloc0 toplevel st0 v st9 hlive0 h
    rw [MSMBlur.recurse] at h
    have hheap0 := recurseEnter_heap s c alloc0 toplevel st0
    generalize (recurseEnter s c alloc0 toplevel st0).1 = alloc at h
    generalize (recurseEnter s c alloc0 toplevel st0).2 = st at h hheap0
    rw [← hheap0]
    have hlive : Live st.heap c.prims := by rw [hheap0]; exact hlive0
    split at h
    · unfold recurseLeaf at h
      have h1 := deterministic_order_frame env st.heap c.prims hlive
      have h2 := createLargeLeaf_frame hloc s fuel c alloc
        { st with heap := deterministic_order env st.heap c.prims } v st9 (h1.live hlive) h
      exact h1.trans_owned h2 (Or.inl (Within.self _))
    · unfold recurseSplit at h
      cases hgrow : MSMBlur.recurseGrow env s c.depth (s.branchingFactor + 1)
          (LocalChildListT.new c) st with
      | mk r st1 =>
        rw [hgrow] at h
        cases r with
        | error e => simp at h
        | ok ch =>
          simp only at h
          obtain ⟨hfr, hgood⟩ := recurseGrow_frame hloc s c st _ ch st1 hlive hgrow
          split at h
          · obtain ⟨vs, hvs, -, hheap, -, -⟩ := finishNode_ok env _ _ _ _ _ _ _ h
            cases hv : MSMBlur.visitChildren
                (fun c st => MSMBlur.recurse env s fuel c none true st)
                (env.createNode (hasTimeSplits env c ch) alloc) ch.children.enum
                (st1.emit (.createNode (hasTimeSplits env c ch) alloc
                  (env.createNode (hasTimeSplits env c ch) alloc))) with
            | mk r2 st2 =>
              rw [hv] at hvs hheap
              simp only at hvs hheap
              subst hvs
              rw [hheap]
              refine visitChildren_frame _ _ st.heap c.prims
                (fun d st0 v0 st3 hd hr => ih d none true st0 v0 st3 hd hr) _ _ vs st2 ?_ ?_ hv
              · exact hfr
              · intro d hd
                rw [enum_map_snd] at hd
                exact hgood.1 d hd
          · obtain ⟨vs, hvs, -, hheap, -, -⟩ := finishNode_ok env _ _ _ _ _ _ _ h
            cases hv : MSMBlur.visitChildren
                (fun c st => MSMBlur.recurse env s fuel c alloc false st)
                (env.createNode (hasTimeSplits env c ch) alloc) ch.children.enum.reverse
                (st1.emit (.createNode (hasTimeSplits env c ch) alloc
                  (env.createNode (hasTimeSplits env c ch) alloc))) with
            | mk r2 st2 =>
              rw [hv] at hvs hheap
              simp only at hvs hheap
              cases r2 with
              | error e => cases hvs
              | ok vs2 =>
                rw [hheap]
                refine visitChildren_frame _ _ st.heap c.prims
                  (fun d st0 v0 st3 hd hr => ih d alloc false st0 v0 st3 hd hr) _ _ vs2 st2
                  ?_ ?_ hv
                · exact hfr
                · intro d hd
                  rw [enum_reverse_map_snd] at hd
                  exact hgood.1 d (List.mem_reverse.1 hd)

/-! ## The drivers do not read `singleThreadThreshold` outside the choice of the branch -/

/-- The search of `createLargeLeaf` for the best child does not read
`singleThreadThreshold`. -/
theorem largeLeafBest_threshold {T : Sig} (s : Settings T) (t : Nat) :
    ∀ (l : List (BuildRecord T)) (i : Nat) (bc : Option Nat) (bs : Nat),
      largeLeafBest { s with singleThreadThreshold := t } l i bc bs = largeLeafBest s l i bc bs := by
  intro l
  induction l with
  | nil => intro i bc bs; rfl
  | cons c cs ih =>
    intro i bc bs
    simp only [largeLeafBest, ih]
    rfl

/-- The growth loop of `createLargeLeaf` does not read
`singleThreadThreshold`. -/
theorem largeLeafGrow_threshold {T : Sig} (env : Env T) (s : Settings T) (t : Nat)
    (depth : Nat) :
    ∀ (n : Nat) (c : LocalChildListT T) (st : State T),
      largeLeafGrow env { s with singleThreadThreshold := t } depth n c st =
        largeLeafGrow env s depth n c st := by
  intro n
  induction n with
  | zero => intro c st; rfl
  | succ n ih =>
    intro c st
    rw [largeLeafGrow_succ, largeLeafGrow_succ, largeLeafBest_threshold]
    simp only [ih]
    rfl

/-- The driver `createLargeLeaf` does not read `singleThreadThreshold`. -/
theorem createLargeLeaf_threshold {T : Sig} (env : Env T) (s : Settings T) (t : Nat) :
    ∀ (fuel : Nat) (c : BuildRecord T) (alloc : Alloc) (st : State T),
      createLargeLeaf env { s with singleThreadThreshold := t } fuel c alloc st =
        createLargeLeaf env s fuel c alloc st := by
  intro fuel
  induction fuel with
  | zero => intro c alloc st; rfl
  | succ fuel ih =>
    intro c alloc st
    rw [MSMBlur.createLargeLeaf, MSMBlur.createLargeLeaf]
    simp only [largeLeafGrow_threshold, ih]
    rfl

/-- The tree of `createLargeLeaf` does not depend on
`singleThreadThreshold`. -/
theorem createLargeLeafTree_threshold {T : Sig} (env : Env T) (s : Settings T) (t : Nat) :
    ∀ (fuel : Nat) (c : BuildRecord T) (alloc : Alloc) (st : State T),
      createLargeLeafTree env { s with singleThreadThreshold := t } fuel c alloc st =
        createLargeLeafTree env s fuel c alloc st := by
  intro fuel
  induction fuel with
  | zero => intro c alloc st; rfl
  | succ fuel ih =>
    intro c alloc st
    rw [MSMBlur.createLargeLeafTree, MSMBlur.createLargeLeafTree]
    simp only [largeLeafGrow_threshold, createLargeLeaf_threshold, ih]
    rfl

/-- The search of `recurse` for the best child does not read
`singleThreadThreshold`. -/
theorem recurseBest_threshold {T : Sig} (env : Env T) (s : Settings T) (t : Nat) :
    ∀ (l : List (BuildRecord T)) (i : Nat) (bc : Option Nat) (bs : T.F),
      recurseBest env { s with singleThreadThreshold := t } l i bc bs =
        recurseBest env s l i bc bs := by
  intro l
  induction l with
  | nil => intro i bc bs; rfl
  | cons c cs ih =>
    intro i bc bs
    simp only [recurseBest, ih]

/-- The growth loop of `recurse` does not read `singleThreadThreshold`. -/
theorem recurseGrow_threshold {T : Sig} (env : Env T) (s : Settings T) (t : Nat)
    (depth : Nat) :
    ∀ (n : Nat) (c : LocalChildListT T) (st : State T),
      recurseGrow env { s with singleThreadThreshold := t } depth n c st =
        recurseGrow env s depth n c st := by
  intro n
  induction n with
  | zero => intro c st; rfl
  | succ n ih =>
    intro c st
    rw [recurseGrow_succ, recurseGrow_succ, recurseBest_threshold]
    simp only [ih]
    rfl

/-! ## The steps of the drivers, case by case -/

/-- The loop over the children ended normally: so does the driver. -/
theorem finishNode_of_ok {T : Sig} (env : Env T) (current : BuildRecord T)
    (children : LocalChildListT T) (timeSplits : Bool) (node : T.N)
    (r : Except Error (List (Value T)) × State T) (vs : List (Value T)) (h : r.1 = .ok vs) :
    ∃ v st, finishNode env current children timeSplits node r = (.ok v, st) := by
  unfold MSMBlur.finishNode
  rw [h]
  exact ⟨_, _, rfl⟩

/-- The driver `createLargeLeaf` on a record that becomes a leaf. -/
theorem createLargeLeaf_leaf_eq {T : Sig} (env : Env T) (s : Settings T) (fuel : Nat)
    (c : BuildRecord T) (alloc : Alloc) (st : State T) (hd : ¬ c.depth > s.maxDepth)
    (hleaf : isLargeLeaf s { c with split := findFallback env s st.heap c } = true) :
    createLargeLeaf env s (fuel + 1) c alloc st =
      (.ok (env.createLeaf st.heap { c with split := findFallback env s st.heap c } alloc),
        st.emit (.createLeaf { c with split := findFallback env s st.heap c } alloc st.heap)) := by
  rw [MSMBlur.createLargeLeaf, if_neg hd]
  simp only [hleaf, if_true]

/-- The tree of `createLargeLeaf` on a record that becomes a leaf. -/
theorem createLargeLeafTree_leaf_eq {T : Sig} (env : Env T) (s : Settings T) (fuel : Nat)
    (c : BuildRecord T) (alloc : Alloc) (st : State T) (hd : ¬ c.depth > s.maxDepth)
    (hleaf : isLargeLeaf s { c with split := findFallback env s st.heap c } = true) :
    createLargeLeafTree env s (fuel + 1) c alloc st = .leaf (c.prims.content st.heap) := by
  rw [MSMBlur.createLargeLeafTree, if_neg hd]
  simp only [hleaf, if_true]

/-- The driver `createLargeLeaf` on a record that becomes an inner node. -/
theorem createLargeLeaf_node_eq {T : Sig} (env : Env T) (s : Settings T) (fuel : Nat)
    (c : BuildRecord T) (alloc : Alloc) (st : State T) (hd : ¬ c.depth > s.maxDepth)
    (hleaf : ¬ isLargeLeaf s { c with split := findFallback env s st.heap c } = true)
    (ch : LocalChildListT T) (st1 : State T)
    (hg : largeLeafGrow env s c.depth (s.branchingFactor + 1)
      (LocalChildListT.new { c with split := findFallback env s st.heap c }) st = (.ok ch, st1)) :
    createLargeLeaf env s (fuel + 1) c alloc st =
      finishNode env { c with split := findFallback env s st.heap c } ch
        (hasTimeSplits env { c with split := findFallback env s st.heap c } ch)
        (env.createNode (hasTimeSplits env { c with split := findFallback env s st.heap c } ch)
          alloc)
        (visitChildren (fun d st0 => createLargeLeaf env s fuel d alloc st0)
          (env.createNode (hasTimeSplits env { c with split := findFallback env s st.heap c } ch)
            alloc)
          ch.children.enum
          (st1.emit (.createNode
            (hasTimeSplits env { c with split := findFallback env s st.heap c } ch) alloc
            (env.createNode
              (hasTimeSplits env { c with split := findFallback env s st.heap c } ch)
              alloc)))) := by
  rw [MSMBlur.createLargeLeaf, if_neg hd]
  simp only [hleaf, hg]
  rfl

/-- The tree of `createLargeLeaf` on a record that becomes an inner node. -/
theorem createLargeLeafTree_node_eq {T : Sig} (env : Env T) (s : Settings T) (fuel : Nat)
    (c : BuildRecord T) (alloc : Alloc) (st : State T) (hd : ¬ c.depth > s.maxDepth)
    (hleaf : ¬ isLargeLeaf s { c with split := findFallback env s st.heap c } = true)
    (ch : LocalChildListT T) (st1 : State T)
    (hg : largeLeafGrow env s c.depth (s.branchingFactor + 1)
      (LocalChildListT.new { c with split := findFallback env s st.heap c }) st = (.ok ch, st1)) :
    createLargeLeafTree env s (fuel + 1) c alloc st =
      .node (ch.children.map (fun d => d.prims.content st1.heap))
        (visitTrees (fun d st0 => createLargeLeaf env s fuel d alloc st0)
          (fun d st0 => createLargeLeafTree env s fuel d alloc st0)
          (env.createNode (hasTimeSplits env { c with split := findFallback env s st.heap c } ch)
            alloc)
          ch.children.enum
          (st1.emit (.createNode
            (hasTimeSplits env { c with split := findFallback env s st.heap c } ch) alloc
            (env.createNode
              (hasTimeSplits env { c with split := findFallback env s st.heap c } ch)
              alloc)))) := by
  rw [MSMBlur.createLargeLeafTree, if_neg hd]
  simp only [hleaf, hg]
  rfl

/-! ## Two runs of a driver on the same content -/

/-- Two sets with the same content have the same `Content`. -/
theorem SimSet.content_eq {T : Sig} {h h1 : Heap T} {x x1 : SetMB T} (hs : SimSet h x h1 x1) :
    x.content h = x1.content h1 := by
  obtain ⟨hp, ht, he⟩ := hs
  simp only [SetMB.content, hp, ht, he]

/-- Two runs of `createLargeLeaf` on records of live sets with the same depth
and the same content, with any allocation contexts: when the first returns, so
does the second, and both build the same tree. -/
theorem createLargeLeaf_sim {T : Sig} {env : Env T} (hloc : LocalEnv env) (s : Settings T) :
    ∀ (fuel : Nat) (c : BuildRecord T) (alloc : Alloc) (st : State T) (c1 : BuildRecord T)
      (alloc1 : Alloc) (st1 : State T), Live st.heap c.prims → Live st1.heap c1.prims →
      c.depth = c1.depth → SimSet st.heap c.prims st1.heap c1.prims →
      (∃ v st2, createLargeLeaf env s fuel c alloc st = (.ok v, st2)) →
      (∃ v st2, createLargeLeaf env s fuel c1 alloc1 st1 = (.ok v, st2)) ∧
      createLargeLeafTree env s fuel c alloc st = createLargeLeafTree env s fuel c1 alloc1 st1 := by
  intro fuel
  induction fuel with
  | zero =>
    intro c alloc st c1 alloc1 st1 _ _ _ _ h
    obtain ⟨v, st2, h⟩ := h
    simp [MSMBlur.createLargeLeaf] at h
  | succ fuel ih =>
    intro c alloc st c1 alloc1 st1 hlive hlive1 hdepth hsim h
    obtain ⟨v, st9, h⟩ := h
    have hff : findFallback env s st.heap c = findFallback env s st1.heap c1 :=
      findFallback_sim env s _ c _ c1 hlive hlive1 hsim
    have hleafEq : isLargeLeaf s { c with split := findFallback env s st.heap c } =
        isLargeLeaf s { c1 with split := findFallback env s st1.heap c1 } := by
      simp only [isLargeLeaf, SetMB.size, hsim.1, hff]
    by_cases hd : c.depth > s.maxDepth
    · rw [MSMBlur.createLargeLeaf, if_pos hd] at h
      simp at h
    · have hd1 : ¬ c1.depth > s.maxDepth := by rw [← hdepth]; exact hd
      by_cases hleaf : isLargeLeaf s { c with split := findFallback env s st.heap c } = true
      · have hleaf1 := hleaf
        rw [hleafEq] at hleaf1
        rw [createLargeLeaf_leaf_eq env s fuel c1 alloc1 st1 hd1 hleaf1,
          createLargeLeafTree_leaf_eq env s fuel c alloc st hd hleaf,
          createLargeLeafTree_leaf_eq env s fuel c1 alloc1 st1 hd1 hleaf1, hsim.content_eq]
        exact ⟨⟨_, _, rfl⟩, rfl⟩
      · have hleaf1 := hleaf
        rw [hleafEq] at hleaf1
        cases hgrow : MSMBlur.largeLeafGrow env s c.depth (s.branchingFactor + 1)
            (LocalChildListT.new { c with split := findFallback env s st.heap c }) st with
        | mk r stA =>
          cases r with
          | error e =>
            rw [MSMBlur.createLargeLeaf, if_neg hd] at h
            simp only [hleaf, hgrow] at h
            simp at h
          | ok ch =>
            rw [createLargeLeaf_node_eq env s fuel c alloc st hd hleaf ch stA hgrow] at h
            obtain ⟨hfrA, hgoodA⟩ := largeLeafGrow_frame hloc s
              { c with split := findFallback env s st.heap c } st _ ch stA hlive hgrow
            have hsim0 : List.Forall₂ (fun a a1 => SimRec st.heap a st1.heap a1)
                (LocalChildListT.new { c with split := findFallback env s st.heap c }).children
                (LocalChildListT.new
                  { c1 with split := findFallback env s st1.heap c1 }).children :=
              List.Forall₂.cons ⟨hdepth, hff, hsim⟩ List.Forall₂.nil
            obtain ⟨ch1, stB, hgrow1, hsimc⟩ := largeLeafGrow_sim hloc s c.depth
              (s.branchingFactor + 1) _ st _ st1 st.heap.length st1.heap.length c.prims c1.prims
              (InBounds.ofNew _)
              (GoodList.ofRecord st.heap { c with split := findFallback env s st.heap c } hlive)
              (Nat.le_refl _)
              (GoodList.ofRecord st1.heap { c1 with split := findFallback env s st1.heap c1 } hlive1)
              (Nat.le_refl _) hsim0 ch stA hgrow
            rw [hdepth] at hgrow1
            obtain ⟨hfrB, hgoodB⟩ := largeLeafGrow_frame hloc s
              { c1 with split := findFallback env s st1.heap c1 } st1 _ ch1 stB hlive1 hgrow1
            obtain ⟨vs, hvs, -⟩ := finishNode_ok env _ _ _ _ _ _ _ h
            have hframe : ∀ (a : Alloc) (d : BuildRecord T) (st0 : State T) (v0 : Value T)
                (st3 : State T), Live st0.heap d.prims →
                createLargeLeaf env s fuel d a st0 = (.ok v0, st3) →
                Frame st0.heap st3.heap d.prims :=
              fun a d st0 v0 st3 hd0 hr =>
                createLargeLeaf_frame hloc s fuel d a st0 v0 st3 hd0 hr
            have hself : ∀ (a : Alloc) (d : BuildRecord T) (st0 st3 : State T),
                Live st0.heap d.prims → Live st3.heap d.prims →
                d.prims.elems st0.heap = d.prims.elems st3.heap →
                (∃ v st2, createLargeLeaf env s fuel d a st0 = (.ok v, st2)) →
                (∃ v st2, createLargeLeaf env s fuel d a st3 = (.ok v, st2)) ∧
                  createLargeLeafTree env s fuel d a st0 =
                    createLargeLeafTree env s fuel d a st3 :=
              fun a d st0 st3 h0 h3 he hok =>
                ih d a st0 d a st3 h0 h3 rfl ⟨rfl, rfl, he⟩ hok
            cases hv : MSMBlur.visitChildren
                (fun d st0 => MSMBlur.createLargeLeaf env s fuel d alloc st0)
                (env.createNode (hasTimeSplits env
                  { c with split := findFallback env s st.heap c } ch) alloc)
                ch.children.enum
                (stA.emit (.createNode (hasTimeSplits env
                  { c with split := findFallback env s st.heap c } ch) alloc
                  (env.createNode (hasTimeSplits env
                    { c with split := findFallback env s st.heap c } ch)
                    alloc))) with
            | mk r2 st2 =>
              rw [hv] at hvs
              simp only at hvs
              subst hvs
              obtain ⟨⟨vs1, st3, hvB⟩, htA, htB, hmap⟩ := visitChildren_sim
                (fun d st0 => createLargeLeaf env s fuel d alloc st0)
                (fun d st0 => createLargeLeaf env s fuel d alloc1 st0)
                (fun d st0 => createLargeLeafTree env s fuel d alloc st0)
                (fun d st0 => createLargeLeafTree env s fuel d alloc1 st0)
                (env.createNode (hasTimeSplits env
                  { c with split := findFallback env s st.heap c } ch) alloc)
                (env.createNode (hasTimeSplits env
                  { c1 with split := findFallback env s st1.heap c1 } ch1) alloc1)
                (hframe alloc) (hframe alloc1) (hself alloc) (hself alloc1)
                (fun d st0 d1 st3 h0 h3 hs hok =>
                  ih d alloc st0 d1 alloc1 st3 h0 h3 hs.1 hs.2.2 hok)
                ch.children ch1.children
                (stA.emit (.createNode (hasTimeSplits env
                  { c with split := findFallback env s st.heap c } ch) alloc
                  (env.createNode (hasTimeSplits env
                    { c with split := findFallback env s st.heap c } ch) alloc)))
                (stB.emit (.createNode (hasTimeSplits env
                  { c1 with split := findFallback env s st1.heap c1 } ch1) alloc1
                  (env.createNode (hasTimeSplits env
                    { c1 with split := findFallback env s st1.heap c1 } ch1) alloc1)))
                ch.children.enum ch1.children.enum
                (Or.inl (enum_map_snd _)) (Or.inl (enum_map_snd _))
                (fun d hd0 => (hgoodA.1 d hd0).1) (fun d hd0 => (hgoodB.1 d hd0).1)
                hgoodA.2 hgoodB.2 hsimc vs st2 hv
              rw [enum_map_snd] at htA htB
              constructor
              · rw [createLargeLeaf_node_eq env s fuel c1 alloc1 st1 hd1 hleaf1 ch1 stB hgrow1]
                exact finishNode_of_ok env _ _ _ _ _ vs1 (by rw [hvB])
              · rw [createLargeLeafTree_node_eq env s fuel c alloc st hd hleaf ch stA hgrow,
                  createLargeLeafTree_node_eq env s fuel c1 alloc1 st1 hd1 hleaf1 ch1 stB hgrow1,
                  htA, htB, hmap]
                congr 1
                exact forall₂_map_eq _ _ _ _ _ hsimc (fun a b _ hab => hab.2.2.content_eq)

/-- The leaf path of `recurse`. -/
theorem recurse_leaf_eq {T : Sig} (env : Env T) (s : Settings T) (fuel : Nat)
    (c : BuildRecord T) (alloc0 : Alloc) (toplevel : Bool) (st0 : State T)
    (hcond : recurseLeafCond env s c = true) :
    recurse env s (fuel + 1) c alloc0 toplevel st0 =
      createLargeLeaf env s fuel c (recurseEnter s c alloc0 toplevel st0).1
        { (recurseEnter s c alloc0 toplevel st0).2 with
          heap := deterministic_order env (recurseEnter s c alloc0 toplevel st0).2.heap c.prims } := by
  rw [MSMBlur.recurse, if_pos hcond]
  rfl

/-- The tree of the leaf path of `recurse`. -/
theorem recurseTree_leaf_eq {T : Sig} (env : Env T) (s : Settings T) (fuel : Nat)
    (c : BuildRecord T) (alloc0 : Alloc) (toplevel : Bool) (st0 : State T)
    (hcond : recurseLeafCond env s c = true) :
    recurseTree env s (fuel + 1) c alloc0 toplevel st0 =
      createLargeLeafTree env s fuel c (recurseEnter s c alloc0 toplevel st0).1
        { (recurseEnter s c alloc0 toplevel st0).2 with
          heap := deterministic_order env (recurseEnter s c alloc0 toplevel st0).2.heap c.prims } := by
  rw [MSMBlur.recurseTree]
  simp only [hcond, if_true]

/-- The splitting path of `recurse` after the growth loop, in either branch:
the driver is called on the children, in index order or in reverse index
order, with some allocation context and flag, from a state with the heap left
by the growth loop; the call returns exactly when this loop ends normally, and
when the tree of every child is the one built from the state at the start of
the loop, the tree of the call lists the contents of the children and these
trees in index order. -/
theorem recurse_node_cases {T : Sig} (env : Env T) (s : Settings T) (fuel : Nat)
    (c : BuildRecord T) (alloc0 : Alloc) (toplevel : Bool) (st0 : State T)
    (hcond : ¬ recurseLeafCond env s c = true) (ch : LocalChildListT T) (st1 : State T)
    (hg : recurseGrow env s c.depth (s.branchingFactor + 1) (LocalChildListT.new c)
      (recurseEnter s c alloc0 toplevel st0).2 = (.ok ch, st1)) :
    ∃ (a : Alloc) (tl : Bool) (o : List (Nat × BuildRecord T)) (node : T.N) (st2 : State T),
      st2.heap = st1.heap ∧
      (o.map Prod.snd = ch.children ∨ o.map Prod.snd = ch.children.reverse) ∧
      ((∃ v st9, recurse env s (fuel + 1) c alloc0 toplevel st0 = (.ok v, st9)) ↔
        (∃ vs st3, visitChildren (fun d st => recurse env s fuel d a tl st) node o st2 =
          (.ok vs, st3))) ∧
      (visitTrees (fun d st => recurse env s fuel d a tl st)
          (fun d st => recurseTree env s fuel d a tl st) node o st2 =
          (o.map Prod.snd).map (fun d => recurseTree env s fuel d a tl st2) →
        recurseTree env s (fuel + 1) c alloc0 toplevel st0 =
          .node (ch.children.map (fun d => d.prims.content st1.heap))
            (ch.children.map (fun d => recurseTree env s fuel d a tl st2))) := by
  by_cases hsize : c.size > s.singleThreadThreshold
  · refine ⟨none, true, ch.children.enum,
      env.createNode (hasTimeSplits env c ch) (recurseEnter s c alloc0 toplevel st0).1,
      st1.emit (.createNode (hasTimeSplits env c ch) (recurseEnter s c alloc0 toplevel st0).1
        (env.createNode (hasTimeSplits env c ch) (recurseEnter s c alloc0 toplevel st0).1)),
      rfl, Or.inl (enum_map_snd _), ?_, ?_⟩
    · have heq : recurse env s (fuel + 1) c alloc0 toplevel st0 =
          finishNode env c ch (hasTimeSplits env c ch)
            (env.createNode (hasTimeSplits env c ch) (recurseEnter s c alloc0 toplevel st0).1)
            (visitChildren (fun d st => recurse env s fuel d none true st)
              (env.createNode (hasTimeSplits env c ch) (recurseEnter s c alloc0 toplevel st0).1)
              ch.children.enum
              (st1.emit (.createNode (hasTimeSplits env c ch)
                (recurseEnter s c alloc0 toplevel st0).1
                (env.createNode (hasTimeSplits env c ch)
                  (recurseEnter s c alloc0 toplevel st0).1)))) := by
        rw [MSMBlur.recurse, if_neg hcond]
        unfold recurseSplit
        rw [hg]
        simp only [if_pos hsize]
      rw [heq]
      constructor
      · rintro ⟨v, st9, h⟩
        obtain ⟨vs, hvs, -⟩ := finishNode_ok env _ _ _ _ _ _ _ h
        exact ⟨vs, _, Prod.ext hvs rfl⟩
      · rintro ⟨vs, st3, h⟩
        exact finishNode_of_ok env _ _ _ _ _ vs (by rw [h])
    · intro hvt
      rw [MSMBlur.recurseTree]
      simp only [hcond, hg, if_pos hsize]
      rw [hvt, enum_map_snd]
      rfl
  · refine ⟨(recurseEnter s c alloc0 toplevel st0).1, false, ch.children.enum.reverse,
      env.createNode (hasTimeSplits env c ch) (recurseEnter s c alloc0 toplevel st0).1,
      st1.emit (.createNode (hasTimeSplits env c ch) (recurseEnter s c alloc0 toplevel st0).1
        (env.createNode (hasTimeSplits env c ch) (recurseEnter s c alloc0 toplevel st0).1)),
      rfl, Or.inr (enum_reverse_map_snd _), ?_, ?_⟩
    · have heq : recurse env s (fuel + 1) c alloc0 toplevel st0 =
          finishNode env c ch (hasTimeSplits env c ch)
            (env.createNode (hasTimeSplits env c ch) (recurseEnter s c alloc0 toplevel st0).1)
            ((visitChildren
                (fun d st => recurse env s fuel d (recurseEnter s c alloc0 toplevel st0).1 false st)
                (env.createNode (hasTimeSplits env c ch)
                  (recurseEnter s c alloc0 toplevel st0).1)
                ch.children.enum.reverse
                (st1.emit (.createNode (hasTimeSplits env c ch)
                  (recurseEnter s c alloc0 toplevel st0).1
                  (env.createNode (hasTimeSplits env c ch)
                    (recurseEnter s c alloc0 toplevel st0).1)))).1.map List.reverse,
              (visitChildren
                (fun d st => recurse env s fuel d (recurseEnter s c alloc0 toplevel st0).1 false st)
                (env.createNode (hasTimeSplits env c ch)
                  (recurseEnter s c alloc0 toplevel st0).1)
                ch.children.enum.reverse
                (st1.emit (.createNode (hasTimeSplits env c ch)
                  (recurseEnter s c alloc0 toplevel st0).1
                  (env.createNode (hasTimeSplits env c ch)
                    (recurseEnter s c alloc0 toplevel st0).1)))).2) := by
        rw [MSMBlur.recurse, if_neg hcond]
        unfold recurseSplit
        rw [hg]
        simp only [if_neg hsize]
      rw [heq]
      generalize visitChildren
        (fun d st => recurse env s fuel d (recurseEnter s c alloc0 toplevel st0).1 false st)
        (env.createNode (hasTimeSplits env c ch) (recurseEnter s c alloc0 toplevel st0).1)
        ch.children.enum.reverse
        (st1.emit (.createNode (hasTimeSplits env c ch)
          (recurseEnter s c alloc0 toplevel st0).1
          (env.createNode (hasTimeSplits env c ch)
            (recurseEnter s c alloc0 toplevel st0).1))) = r
      obtain ⟨r1, r2⟩ := r
      constructor
      · rintro ⟨v, st9, h⟩
        obtain ⟨vs, hvs, -⟩ := finishNode_ok env _ _ _ _ _ _ _ h
        cases r1 with
        | error e => cases hvs
        | ok vs2 => exact ⟨vs2, r2, rfl⟩
      · rintro ⟨vs, st3, h⟩
        simp only [Prod.mk.injEq] at h
        obtain ⟨rfl, rfl⟩ := h
        exact finishNode_of_ok env _ _ _ _ _ vs.reverse rfl
    · intro hvt
      rw [MSMBlur.recurseTree]
      simp only [hcond, hg, if_neg hsize]
      rw [hvt, enum_reverse_map_snd, List.map_reverse, List.reverse_reverse]
      rfl

/-- Two runs of `recurse` on records of live sets with the same depth, split
and content, under settings that differ in `singleThreadThreshold` only, with
any allocation contexts and flags: when the first returns, so does the second,
and both build the same tree. -/
theorem recurse_sim {T : Sig} {env : Env T} (hloc : LocalEnv env) :
    ∀ (fuel : Nat) (s : Settings T) (t : Nat) (c : BuildRecord T) (alloc : Alloc) (tl : Bool)
      (st : State T) (c1 : BuildRecord T) (alloc1 : Alloc) (tl1 : Bool) (st1 : State T),
      Live st.heap c.prims → Live st1.heap c1.prims → SimRec st.heap c st1.heap c1 →
      (∃ v st2, recurse env s fuel c alloc tl st = (.ok v, st2)) →
      (∃ v st2, recurse env { s with singleThreadThreshold := t } fuel c1 alloc1 tl1 st1 =
        (.ok v, st2)) ∧
      recurseTree env s fuel c alloc tl st =
        recurseTree env { s with singleThreadThreshold := t } fuel c1 alloc1 tl1 st1 := by
  intro fuel
  induction fuel with
  | zero =>
    intro s t c alloc tl st c1 alloc1 tl1 st1 _ _ _ h
    obtain ⟨v, st2, h⟩ := h
    simp [MSMBlur.recurse] at h
  | succ fuel ih =>
    intro s t c alloc0 tl0 st0 c1 alloc1 tl1 st1 hlive0 hlive1 hsim h
    have hcondEq : recurseLeafCond env { s with singleThreadThreshold := t } c1 =
        recurseLeafCond env s c :=
      (recurseLeafCond_sim hloc s st0.heap c st1.heap c1 hsim).symm
    have hA := recurseEnter_heap s c alloc0 tl0 st0
    have hB := recurseEnter_heap { s with singleThreadThreshold := t } c1 alloc1 tl1 st1
    have hliveA : Live (recurseEnter s c alloc0 tl0 st0).2.heap c.prims := by
      rw [hA]; exact hlive0
    have hliveB : Live (recurseEnter { s with singleThreadThreshold := t } c1 alloc1 tl1
        st1).2.heap c1.prims := by
      rw [hB]; exact hlive1
    by_cases hcond : recurseLeafCond env s c = true
    · have hcond1 : recurseLeafCond env { s with singleThreadThreshold := t } c1 = true := by
        rw [hcondEq]; exact hcond
      rw [recurse_leaf_eq env s fuel c alloc0 tl0 st0 hcond] at h
      rw [recurse_leaf_eq env _ fuel c1 alloc1 tl1 st1 hcond1,
        recurseTree_leaf_eq env s fuel c alloc0 tl0 st0 hcond,
        recurseTree_leaf_eq env _ fuel c1 alloc1 tl1 st1 hcond1,
        createLargeLeaf_threshold env s t, createLargeLeafTree_threshold env s t]
      have hfA := deterministic_order_frame env _ c.prims hliveA
      have hfB := deterministic_order_frame env _ c1.prims hliveB
      refine createLargeLeaf_sim hloc s fuel c (recurseEnter s c alloc0 tl0 st0).1
        { (recurseEnter s c alloc0 tl0 st0).2 with
          heap := deterministic_order env (recurseEnter s c alloc0 tl0 st0).2.heap c.prims }
        c1 (recurseEnter { s with singleThreadThreshold := t } c1 alloc1 tl1 st1).1
        { (recurseEnter { s with singleThreadThreshold := t } c1 alloc1 tl1 st1).2 with
          heap := deterministic_order env
            (recurseEnter { s with singleThreadThreshold := t } c1 alloc1 tl1 st1).2.heap
            c1.prims }
        (hfA.live hliveA) (hfB.live hliveB) hsim.1 ⟨hsim.2.2.1, hsim.2.2.2.1, ?_⟩ h
      show c.prims.elems (deterministic_order env _ c.prims) =
        c1.prims.elems (deterministic_order env _ c1.prims)
      rw [deterministic_order_elems_self env _ c.prims hliveA.1,
        deterministic_order_elems_self env _ c1.prims hliveB.1, hA, hB, hsim.2.2.2.2]
    · have hcond1 : ¬ recurseLeafCond env { s with singleThreadThreshold := t } c1 = true := by
        rw [hcondEq]; exact hcond
      cases hgrow : MSMBlur.recurseGrow env s c.depth (s.branchingFactor + 1)
          (LocalChildListT.new c) (recurseEnter s c alloc0 tl0 st0).2 with
      | mk r stA =>
        cases r with
        | error e =>
          obtain ⟨v, st2, h⟩ := h
          rw [MSMBlur.recurse, if_neg hcond] at h
          unfold recurseSplit at h
          rw [hgrow] at h
          simp at h
        | ok ch =>
          obtain ⟨hfrA, hgoodA⟩ := recurseGrow_frame hloc s c _ _ ch stA hliveA hgrow
          have hsim0 : List.Forall₂
              (fun a a1 => SimRec (recurseEnter s c alloc0 tl0 st0).2.heap a
                (recurseEnter { s with singleThreadThreshold := t } c1 alloc1 tl1 st1).2.heap a1)
              (LocalChildListT.new c).children (LocalChildListT.new c1).children := by
            refine List.Forall₂.cons ?_ List.Forall₂.nil
            rw [hA, hB]
            exact hsim
          obtain ⟨ch1, stB, hgrow1, hsimc⟩ := recurseGrow_sim hloc s c.depth
            (s.branchingFactor + 1) _ _ _ _ _ _ c.prims c1.prims
            (InBounds.ofNew _) (GoodList.ofRecord _ c hliveA) (Nat.le_refl _)
            (GoodList.ofRecord _ c1 hliveB) (Nat.le_refl _) hsim0 ch stA hgrow
          rw [hsim.1, ← recurseGrow_threshold env s t] at hgrow1
          obtain ⟨hfrB, hgoodB⟩ := recurseGrow_frame hloc { s with singleThreadThreshold := t }
            c1 _ _ ch1 stB hliveB hgrow1
          obtain ⟨aA, tlA, oA, nodeA, stA2, hhA, hoA, hiffA, htreeA⟩ :=
            recurse_node_cases env s fuel c alloc0 tl0 st0 hcond ch stA hgrow
          obtain ⟨aB, tlB, oB, nodeB, stB2, hhB, hoB, hiffB, htreeB⟩ :=
            recurse_node_cases env { s with singleThreadThreshold := t } fuel c1 alloc1 tl1 st1
              hcond1 ch1 stB hgrow1
          obtain ⟨vs, st3, hv⟩ := hiffA.1 h
          have hframe : ∀ (s0 : Settings T) (a : Alloc) (tl : Bool) (d : BuildRecord T)
              (st0 : State T) (v0 : Value T) (st3 : State T), Live st0.heap d.prims →
              recurse env s0 fuel d a tl st0 = (.ok v0, st3) →
              Frame st0.heap st3.heap d.prims :=
            fun s0 a tl d st0 v0 st3 hd0 hr => recurse_frame hloc s0 fuel d a tl st0 v0 st3 hd0 hr
          have hself : ∀ (s0 : Settings T) (a : Alloc) (tl : Bool) (d : BuildRecord T)
              (st0 st3 : State T), Live st0.heap d.prims → Live st3.heap d.prims →
              d.prims.elems st0.heap = d.prims.elems st3.heap →
              (∃ v st2, recurse env s0 fuel d a tl st0 = (.ok v, st2)) →
              (∃ v st2, recurse env s0 fuel d a tl st3 = (.ok v, st2)) ∧
                recurseTree env s0 fuel d a tl st0 = recurseTree env s0 fuel d a tl st3 :=
            fun s0 a tl d st0 st3 h0 h3 he hok =>
              ih s0 s0.singleThreadThreshold d a tl st0 d a tl st3 h0 h3 ⟨rfl, rfl, rfl, rfl, he⟩
                hok
          obtain ⟨hvB, htA, htB, hmap⟩ := visitChildren_sim
            (fun d st => recurse env s fuel d aA tlA st)
            (fun d st => recurse env { s with singleThreadThreshold := t } fuel d aB tlB st)
            (fun d st => recurseTree env s fuel d aA tlA st)
            (fun d st => recurseTree env { s with singleThreadThreshold := t } fuel d aB tlB st)
            nodeA nodeB (hframe s aA tlA) (hframe _ aB tlB) (hself s aA tlA) (hself _ aB tlB)
            (fun d st0 d1 st3 h0 h3 hs hok => ih s t d aA tlA st0 d1 aB tlB st3 h0 h3 hs hok)
            ch.children ch1.children stA2 stB2 oA oB hoA hoB
            (fun d hd0 => by rw [hhA]; exact (hgoodA.1 d hd0).1)
            (fun d hd0 => by rw [hhB]; exact (hgoodB.1 d hd0).1)
            hgoodA.2 hgoodB.2 (by rw [hhA, hhB]; exact hsimc) vs st3 hv
          refine ⟨hiffB.2 hvB, ?_⟩
          rw [htreeA htA, htreeB htB, hmap]
          congr 1
          exact forall₂_map_eq _ _ _ _ _ hsimc (fun a b _ hab => hab.2.2.content_eq)

/-! ## The concrete environment keeps the contract of the collaborators -/

/-- Reading an old buffer after a buffer was appended. -/
theorem Heap.read_append_of_lt {T : Sig} (heap : Heap T) (buf : List (PrimRefMB T)) (p : Nat)
    (hp : p < heap.length) : Heap.read (heap ++ [buf]) p = Heap.read heap p := by
  unfold Heap.read
  rw [List.getD_eq_getElem?_getD, List.getD_eq_getElem?_getD, List.getElem?_append_left hp]

/-- The primitives of a live set after a buffer was appended. -/
theorem SetMB.elems_append {T : Sig} (heap : Heap T) (buf : List (PrimRefMB T)) (x : SetMB T)
    (hx : Live heap x) : x.elems (heap ++ [buf]) = x.elems heap := by
  simp only [SetMB.elems, Heap.read_append_of_lt heap buf x.prims hx.2]

/-- A temporal split in the concrete environment. -/
theorem exEnv_partition_temporal (h : Heap ExSig) (b : BuildRecord ExSig)
    (hd : b.split.data = SPLIT_TEMPORAL) :
    partition exEnv h b =
      (h ++ [b.prims.elems h],
       { b.prims with prims := h.length, object_range := ⟨0, (b.prims.elems h).length⟩,
                      time_range := ⟨b.prims.time_range.lower, b.split.fpos⟩ },
       { b.prims with time_range := ⟨b.split.fpos, b.prims.time_range.upper⟩ },
       some h.length) := by
  unfold partition
  rw [if_neg (by rw [hd]; decide), if_pos hd]
  rfl

/-- An object split in the concrete environment. -/
theorem exEnv_partition_object (h : Heap ExSig) (b : BuildRecord ExSig)
    (hf : b.split.data ≠ SPLIT_FALLBACK) (ht : b.split.data ≠ SPLIT_TEMPORAL) :
    partition exEnv h b =
      (h,
       { b.prims with
         pinfo := { b.prims.pinfo with
           num := (b.prims.object_range._begin + b.prims.object_range._end) / 2
             - b.prims.object_range._begin },
         object_range := ⟨b.prims.object_range._begin,
           (b.prims.object_range._begin + b.prims.object_range._end) / 2⟩ },
       { b.prims with
         pinfo := { b.prims.pinfo with
           num := b.prims.object_range._end
             - (b.prims.object_range._begin + b.prims.object_range._end) / 2 },
         object_range := ⟨(b.prims.object_range._begin + b.prims.object_range._end) / 2,
           b.prims.object_range._end⟩ },
       none) := by
  unfold partition
  rw [if_neg hf, if_neg ht]
  rfl

/-- The primitives of the two sets of an object split in the concrete
environment are the two halves of the primitives of the set. -/
theorem exEnv_object_elems (h : Heap ExSig) (x : SetMB ExSig) (hwf : SetMB.WF h x)
    (l r : SetMB ExSig) (hlp : l.prims = x.prims) (hrp : r.prims = x.prims)
    (hlr : l.object_range = ⟨x.object_range._begin,
      (x.object_range._begin + x.object_range._end) / 2⟩)
    (hrr : r.object_range = ⟨(x.object_range._begin + x.object_range._end) / 2,
      x.object_range._end⟩) :
    l.elems h = (x.elems h).take ((x.object_range._end - x.object_range._begin) / 2) ∧
    r.elems h = (x.elems h).drop ((x.object_range._end - x.object_range._begin) / 2) := by
  have hle := hwf.le
  obtain ⟨m, hm⟩ : ∃ m, m = (x.object_range._end - x.object_range._begin) / 2 := ⟨_, rfl⟩
  obtain ⟨c, hc⟩ : ∃ c, c = (x.object_range._begin + x.object_range._end) / 2 := ⟨_, rfl⟩
  have hcm : c = x.object_range._begin + m := by omega
  rw [← hm]
  rw [← hc] at hlr hrr
  constructor
  · simp only [SetMB.elems, hlp, hlr, List.take_take]
    congr 1
    omega
  · simp only [SetMB.elems, hrp, hrr]
    rw [List.drop_take, List.drop_drop]
    have h2 : x.object_range._end - x.object_range._begin - m = x.object_range._end - c := by
      omega
    rw [← hcm, h2]

/-- The concrete environment keeps the contract that the independence of
sibling subtrees relies on. -/
theorem exEnv_localEnv : LocalEnv exEnv := by
  refine ⟨?_, ?_, ?_, ?_, ?_, ?_, ?_, ?_⟩
  · intro x x1 lbs hp _
    simp only [exEnv, hp, and_self]
  · intro h x h1 x1 lbs _ _ hs
    simp only [exEnv, hs.1]
  · intro h x h1 x1 lbs _ _ hs
    simp only [exEnv, hs.1, hs.2.1]
  · intro h b hf hb
    by_cases ht : b.split.data = SPLIT_TEMPORAL
    · rw [exEnv_partition_temporal h b ht]
      exact ⟨by simp, Heap.le_append h _, fun x hx _ => SetMB.elems_append h _ x hx⟩
    · rw [exEnv_partition_object h b hf ht]
      exact Frame.same _ _
  · intro h b hf hb
    have hlen := hb.1.length_elems
    obtain ⟨⟨h1, h2, h3, h4⟩, h5⟩ := hb
    by_cases ht : b.split.data = SPLIT_TEMPORAL
    · rw [exEnv_partition_temporal h b ht]
      refine ⟨⟨⟨?_, ?_, ?_, ?_⟩, ?_⟩, ⟨⟨?_, ?_, ?_, ?_⟩, ?_⟩⟩
      · simp only [SetMB.size] at h1 ⊢
        omega
      · exact Nat.zero_le _
      · simp only [Heap.read_append_length]
        exact Nat.le_refl _
      · simp only
        omega
      · simp
      · exact h1
      · exact h2
      · simp only [Heap.read_append_of_lt h _ _ h5]
        exact h3
      · exact h4
      · simp only [List.length_append, List.length_singleton]
        omega
    · rw [exEnv_partition_object h b hf ht]
      refine ⟨⟨⟨?_, ?_, ?_, ?_⟩, h5⟩, ⟨⟨?_, ?_, ?_, ?_⟩, h5⟩⟩ <;>
        simp only [SetMB.size] at h1 ⊢ <;> omega
  · intro h b hf hb
    have hle := hb.1.le
    by_cases ht : b.split.data = SPLIT_TEMPORAL
    · rw [exEnv_partition_temporal h b ht]
      exact ⟨Or.inr (Nat.le_refl _), Or.inl ⟨rfl, Nat.le_refl _, Nat.le_refl _⟩⟩
    · rw [exEnv_partition_object h b hf ht]
      refine ⟨Or.inl ⟨rfl, ?_, ?_⟩, Or.inl ⟨rfl, ?_, ?_⟩⟩ <;> simp only <;> omega
  · intro h b hf hb
    by_cases ht : b.split.data = SPLIT_TEMPORAL
    · rw [exEnv_partition_temporal h b ht]
      refine Or.inl ?_
      have := hb.2
      simp only
      omega
    · rw [exEnv_partition_object h b hf ht]
      exact Or.inr (Or.inl (Nat.le_refl _))
  · intro h b h1 b1 hf hb hb1 hsplit hs
    obtain ⟨hp, htr, he⟩ := hs
    have hf1 : b1.split.data ≠ SPLIT_FALLBACK := by rw [← hsplit]; exact hf
    have hlen := hb.1.length_elems
    have hlen1 := hb1.1.length_elems
    rw [he] at hlen
    by_cases ht : b.split.data = SPLIT_TEMPORAL
    · have ht1 : b1.split.data = SPLIT_TEMPORAL := by rw [← hsplit]; exact ht
      rw [exEnv_partition_temporal h b ht, exEnv_partition_temporal h1 b1 ht1]
      refine ⟨⟨hp, ?_, ?_⟩, ⟨hp, ?_, ?_⟩⟩
      · simp only [htr, hsplit]
      · simp only [SetMB.elems, Heap.read_append_length, List.drop_zero, Nat.sub_zero,
          List.take_length]
        exact he
      · simp only [htr, hsplit]
      · have e1 := SetMB.elems_append h (b.prims.elems h) b.prims hb
        have e2 := SetMB.elems_append h1 (b1.prims.elems h1) b1.prims hb1
        simp only [SetMB.elems] at e1 e2 he ⊢
        rw [e1, e2]
        exact he
    · have ht1 : b1.split.data ≠ SPLIT_TEMPORAL := by rw [← hsplit]; exact ht
      rw [exEnv_partition_object h b hf ht, exEnv_partition_object h1 b1 hf1 ht1]
      have hle := hb.1.le
      have hle1 := hb1.1.le
      have hhalf : (b.prims.object_range._end - b.prims.object_range._begin) / 2 =
          (b1.prims.object_range._end - b1.prims.object_range._begin) / 2 := by
        rw [← hlen, ← hlen1]
      obtain ⟨el, er⟩ := exEnv_object_elems h b.prims hb.1
        { b.prims with
          pinfo := { b.prims.pinfo with
            num := (b.prims.object_range._begin + b.prims.object_range._end) / 2
              - b.prims.object_range._begin },
          object_range := ⟨b.prims.object_range._begin,
            (b.prims.object_range._begin + b.prims.object_range._end) / 2⟩ }
        { b.prims with
          pinfo := { b.prims.pinfo with
            num := b.prims.object_range._end
              - (b.prims.object_range._begin + b.prims.object_range._end) / 2 },
          object_range := ⟨(b.prims.object_range._begin + b.prims.object_range._end) / 2,
            b.prims.object_range._end⟩ } rfl rfl rfl rfl
      obtain ⟨el1, er1⟩ := exEnv_object_elems h1 b1.prims hb1.1
        { b1.prims with
          pinfo := { b1.prims.pinfo with
            num := (b1.prims.object_range._begin + b1.prims.object_range._end) / 2
              - b1.prims.object_range._begin },
          object_range := ⟨b1.prims.object_range._begin,
            (b1.prims.object_range._begin + b1.prims.object_range._end) / 2⟩ }
        { b1.prims with
          pinfo := { b1.prims.pinfo with
            num := b1.prims.object_range._end
              - (b1.prims.object_range._begin + b1.prims.object_range._end) / 2 },
          object_range := ⟨(b1.prims.object_range._begin + b1.prims.object_range._end) / 2,
            b1.prims.object_range._end⟩ } rfl rfl rfl rfl
      have hnl : (b.prims.object_range._begin + b.prims.object_range._end) / 2
            - b.prims.object_range._begin =
          (b1.prims.object_range._begin + b1.prims.object_range._end) / 2
            - b1.prims.object_range._begin := by omega
      have hnr : b.prims.object_range._end
            - (b.prims.object_range._begin + b.prims.object_range._end) / 2 =
          b1.prims.object_range._end
            - (b1.prims.object_range._begin + b1.prims.object_range._end) / 2 := by omega
      refine ⟨⟨?_, htr, ?_⟩, ⟨?_, htr, ?_⟩⟩
      · simp only [hp, hnl]
      · rw [el, el1, he, hhalf]
      · simp only [hp, hnr]
      · rw [er, er1, he, hhalf]

/-! ## The tree of a build does not depend on `singleThreadThreshold` -/

/-- Unfolding of `buildTree`. -/
theorem buildTree_eq {T : Sig} (env : Env T) (settings : Settings T) (fuel : Nat)
    (prims : List (PrimRefMB T)) (pinfo : PrimInfoMB T) :
    buildTree env settings fuel prims pinfo =
      if settings.branchingFactor > 8 then
        .stop
      else
        recurseTree env settings fuel (rootRecord env settings prims pinfo) none true
          (({ heap := [prims], trace := [], numAllocs := 0 } : State T).emits
            (find env [prims] (rootSet env pinfo) settings.logBlockSize).2) := by
  unfold buildTree BuilderT.new MAX_BRANCHING_FACTOR
  by_cases h : settings.branchingFactor > 8
  · simp [h]
  · simp [h]

/-- C17: the tree built does not depend on `singleThreadThreshold`. For
collaborators that keep the locality contract (cost functions and split
heuristics that depend on the content of a set only, partitioners that change
the heap inside the set they partition and in new buffers only and that
return the same contents for the same content) and an input whose count lies
inside the buffer: when `build` returns under some settings, it also returns
under the settings that differ in `singleThreadThreshold` only, whichever
nodes recurse through the parallel branch (children in index order, fresh
allocation contexts, progress monitor) and whichever through the sequential
branch (children from the last to the first, shared context), and the tree of
primitive sets is the same: at every node the same contents of the children
in the same index order, and the same leaves. -/
theorem tree_independent_of_threshold {T : Sig} (env : Env T) (hloc : LocalEnv env)
    (settings : Settings T) (t : Nat) (fuel : Nat) (prims : List (PrimRefMB T))
    (pinfo : PrimInfoMB T) (hin : pinfo.num ≤ prims.length)
    (hsmall : pinfo.num < 9223372036854775808)
    (hok : ∃ v, (build env settings fuel prims pinfo).1 = .ok v) :
    (∃ v, (build env { settings with singleThreadThreshold := t } fuel prims pinfo).1 = .ok v) ∧
    buildTree env { settings with singleThreadThreshold := t } fuel prims pinfo =
      buildTree env settings fuel prims pinfo := by
  have hwf : SetMB.WF [prims] (rootSet env pinfo) :=
    ⟨rfl, Nat.zero_le _, hin, hsmall⟩
  have hlive : Live [prims] (rootSet env pinfo) := ⟨hwf, Nat.zero_lt_one⟩
  rw [build_eq] at hok ⊢
  rw [buildTree_eq, buildTree_eq]
  by_cases hbf : settings.branchingFactor > 8
  · rw [if_pos hbf] at hok
    obtain ⟨v, hv⟩ := hok
    cases hv
  · have hbf1 : ¬ ({ settings with singleThreadThreshold := t } : Settings T).branchingFactor > 8 :=
      hbf
    rw [if_neg hbf] at hok
    rw [if_neg hbf1, if_neg hbf1, if_neg hbf]
    obtain ⟨v, hv⟩ := hok
    obtain ⟨⟨v1, st1, h1⟩, h2⟩ := recurse_sim hloc fuel settings t
      (rootRecord env settings prims pinfo) none true
      (({ heap := [prims], trace := [], numAllocs := 0 } : State T).emits
        (find env [prims] (rootSet env pinfo) settings.logBlockSize).2)
      (rootRecord env settings prims pinfo) none true
      (({ heap := [prims], trace := [], numAllocs := 0 } : State T).emits
        (find env [prims] (rootSet env pinfo) settings.logBlockSize).2)
      hlive hlive ⟨rfl, rfl, rfl, rfl, rfl⟩ ⟨v, _, Prod.ext hv rfl⟩
    exact ⟨⟨v1, congrArg Prod.fst h1⟩, h2.symm⟩

/-- C17 on ten primitives of the concrete environment: with the default
threshold of 1024 every node recurses through the sequential branch, with a
threshold of 4 the root recurses through the parallel branch; the build
returns in both runs and the trees are the same, a root with two children. -/
theorem tree_independent_of_threshold_witness :
    ((∃ v, (build exEnv { exSettings with singleThreadThreshold := 4 } 34 (exPrims 10)
        { geom := (), num := 10, max_num_time_segments := 1 }).1 = .ok v) ∧
      buildTree exEnv { exSettings with singleThreadThreshold := 4 } 34 (exPrims 10)
          { geom := (), num := 10, max_num_time_segments := 1 } =
        buildTree exEnv exSettings 34 (exPrims 10)
          { geom := (), num := 10, max_num_time_segments := 1 }) ∧
    (∃ sets l r, buildTree exEnv exSettings 34 (exPrims 10)
        { geom := (), num := 10, max_num_time_segments := 1 } = .node sets [l, r]) :=
  ⟨tree_independent_of_threshold exEnv exEnv_localEnv exSettings 4 34 (exPrims 10)
      { geom := (), num := 10, max_num_time_segments := 1 } (by decide) (by decide) ⟨_, rfl⟩,
    ⟨_, _, _, rfl⟩⟩

/-! ## Rules for the partitions performed -/

/-- Rule for the partitions of the growth loop of `createLargeLeaf`: a
property holds for every partition when it holds for the record chosen in
every iteration that starts from a list and a state with the invariant, and
the iteration keeps the invariant. -/
theorem largeLeafGrowLog_rule {T : Sig} (env : Env T) (s : Settings T) (depth : Nat)
    (Inv : LocalChildListT T → State T → Prop) (P : Heap T × BuildRecord T → Prop)
    (hstep : ∀ (c : LocalChildListT T) (st : State T) (bestChild : Nat)
      (brecord : BuildRecord T), Inv c st →
      largeLeafBest s c.children 0 none 0 = some bestChild →
      c.children[bestChild]? = some brecord →
      P (st.heap, brecord) ∧
      ∀ (c1 : LocalChildListT T) (deleted : List Nat),
        c.split bestChild (largeLeafLeft env s depth st.heap brecord)
          (largeLeafRight env s depth st.heap brecord)
          (partition env st.heap brecord).2.2.2 = some (c1, deleted) →
        c1.children = c.children.set bestChild (largeLeafLeft env s depth st.heap brecord)
          ++ [largeLeafRight env s depth st.heap brecord] →
        Inv c1 (({ st with heap := (partition env st.heap brecord).1 } : State T).emits
          (deleted.map Event.delete))) :
    ∀ (n : Nat) (c : LocalChildListT T) (st : State T), Inv c st →
      ∀ x ∈ largeLeafGrowLog env s depth n c st, P x := by
  intro n
  induction n with
  | zero => intro c st _ x hx; simp [largeLeafGrowLog] at hx
  | succ n ih =>
    intro c st hinv x hx
    rw [largeLeafGrowLog] at hx
    cases hb : largeLeafBest s c.children 0 none 0 with
    | none => rw [hb] at hx; simp at hx
    | some best =>
      rw [hb] at hx
      simp only at hx
      cases hbr : c.children[best]? with
      | none => rw [hbr] at hx; simp at hx
      | some brecord =>
        rw [hbr] at hx
        simp only at hx
        obtain ⟨hP, hnext⟩ := hstep c st best brecord hinv hb hbr
        rcases List.mem_cons.1 hx with rfl | hx
        · exact hP
        · cases hsp : c.split best (largeLeafLeft env s depth st.heap brecord)
              (largeLeafRight env s depth st.heap brecord)
              (partition env st.heap brecord).2.2.2 with
          | none => rw [hsp] at hx; simp at hx
          | some p =>
            obtain ⟨c1, deleted⟩ := p
            rw [hsp] at hx
            simp only at hx
            split at hx
            · exact ih c1 _ (hnext c1 deleted hsp
                (LocalChildListT.split_children _ _ _ _ _ _ _ hsp).1) x hx
            · simp at hx

/-- Rule for the partitions of the growth loop of `recurse`: a property holds
for every partition when it holds for the record chosen in every iteration
that starts from a list and a state with the invariant, and the iteration
keeps the invariant. -/
theorem recurseGrowLog_rule {T : Sig} (env : Env T) (s : Settings T) (depth : Nat)
    (Inv : LocalChildListT T → State T → Prop) (P : Heap T × BuildRecord T → Prop)
    (hstep : ∀ (c : LocalChildListT T) (st : State T) (bestChild : Nat)
      (brecord : BuildRecord T), Inv c st →
      recurseBest env s c.children 0 none env.neg_inf = some bestChild →
      c.children[bestChild]? = some brecord →
      P (st.heap, brecord) ∧
      ∀ (c1 : LocalChildListT T) (deleted : List Nat),
        c.split bestChild (recurseLeft env s depth st.heap brecord)
          (recurseRight env s depth st.heap brecord)
          (partition env st.heap brecord).2.2.2 = some (c1, deleted) →
        c1.children = c.children.set bestChild (recurseLeft env s depth st.heap brecord)
          ++ [recurseRight env s depth st.heap brecord] →
        Inv c1 ((({ st with heap := (partition env st.heap brecord).1 } : State T).emits
          (recurseFinds env s st.heap brecord)).emits (deleted.map Event.delete))) :
    ∀ (n : Nat) (c : LocalChildListT T) (st : State T), Inv c st →
      ∀ x ∈ recurseGrowLog env s depth n c st, P x := by
  intro n
  induction n with
  | zero => intro c st _ x hx; simp [recurseGrowLog] at hx
  | succ n ih =>
    intro c st hinv x hx
    rw [recurseGrowLog] at hx
    cases hb : recurseBest env s c.children 0 none env.neg_inf with
    | none => rw [hb] at hx; simp at hx
    | some best =>
      rw [hb] at hx
      simp only at hx
      cases hbr : c.children[best]? with
      | none => rw [hbr] at hx; simp at hx
      | some brecord =>
        rw [hbr] at hx
        simp only at hx
        obtain ⟨hP, hnext⟩ := hstep c st best brecord hinv hb hbr
        rcases List.mem_cons.1 hx with rfl | hx
        · exact hP
        · cases hsp : c.split best (recurseLeft env s depth st.heap brecord)
              (recurseRight env s depth st.heap brecord)
              (partition env st.heap brecord).2.2.2 with
          | none => rw [hsp] at hx; simp at hx
          | some p =>
            obtain ⟨c1, deleted⟩ := p
            rw [hsp] at hx
            simp only at hx
            split at hx
            · exact ih c1 _ (hnext c1 deleted hsp
                (LocalChildListT.split_children _ _ _ _ _ _ _ hsp).1) x hx
            · simp at hx

/-- Rule for the partitions made during the loop over the children: a
property holds for all of them when it holds for the partitions of the driver
called on a child that satisfies `C`, the driver keeps the relation `R`, and
`C` is kept along `R`. -/
theorem visitLog_rule {T : Sig} (f : BuildRecord T → State T → Result T × State T)
    (g : BuildRecord T → State T → List (Heap T × BuildRecord T)) (node : T.N)
    (R : State T → State T → Prop) (htrans : ∀ a b c, R a b → R b c → R a c)
    (hemit : ∀ (st : State T) (i : Nat) (v : Value T), R st (st.emit (.updateNode node i v)))
    (C : BuildRecord T → State T → Prop)
    (hC : ∀ c st st1, C c st → R st st1 → C c st1)
    (hf : ∀ c st, C c st → R st (f c st).2)
    (P : Heap T × BuildRecord T → Prop)
    (hg : ∀ c st, C c st → ∀ x ∈ g c st, P x) :
    ∀ (l : List (Nat × BuildRecord T)) (st : State T), (∀ ic ∈ l, C ic.2 st) →
      ∀ x ∈ visitLog f g node l st, P x := by
  intro l
  induction l with
  | nil => intro st _ x hx; simp [visitLog] at hx
  | cons ic rest ih =>
    intro st hl x hx
    obtain ⟨i, c⟩ := ic
    have hc : C c st := hl (i, c) (List.mem_cons_self _ _)
    rw [visitLog] at hx
    rcases List.mem_append.1 hx with hx | hx
    · exact hg c st hc x hx
    · have h1 := hf c st hc
      cases hfc : f c st with
      | mk r st1 =>
        rw [hfc] at hx h1
        cases r with
        | error e => simp at hx
        | ok v =>
          simp only at hx h1
          refine ih (st1.emit (.updateNode node i v)) ?_ x hx
          intro jc hjc
          exact hC jc.2 st _ (hl jc (List.mem_cons_of_mem _ hjc)) (htrans _ _ _ h1 (hemit _ _ _))

/-! ## The temporal split of `findFallback` lies inside the segment range -/

/-- The midpoint `(b + e) / 2`, with the division of `int` that truncates
towards zero, of a range of integers with more than one element lies
strictly inside the range. -/
theorem tdiv_two_inside (b e : Int) (h : 1 < e - b) :
    b < (b + e).tdiv 2 ∧ (b + e).tdiv 2 < e := by
  rcases Int.le_total 0 (b + e) with h0 | h0
  · rw [Int.tdiv_eq_ediv h0 (by decide)]
    omega
  · have h1 : (b + e).tdiv 2 = -((-(b + e)) / 2) := by
      rw [← Int.tdiv_eq_ediv (by omega) (by decide), Int.neg_tdiv, Int.neg_neg]
    rw [h1]
    omega

/-- A split returned by the scan of `findFallback` is the temporal split of a
primitive of the range that has more than one local time segment. -/
theorem findFallbackScan_some {T : Sig} (env : Env T) (time_range : BBox1f T)
    (prims : List (PrimRefMB T)) :
    ∀ (n i : Nat) (split : Split T), findFallbackScan env time_range prims i n = some split →
      ∃ k prim, i ≤ k ∧ k < i + n ∧ prims[k]? = some prim ∧
        1 < (env.getTimeSegmentRange time_range prim.totalTimeSegments).isize ∧
        split = Split.ofData env env.one SPLIT_TEMPORAL 0
          (env.fdiv
            (env.ofInt (((env.getTimeSegmentRange time_range prim.totalTimeSegments)._begin
              + (env.getTimeSegmentRange time_range prim.totalTimeSegments)._end).tdiv 2))
            (env.ofNat prim.totalTimeSegments)) := by
  intro n
  induction n with
  | zero =>
    intro i split h
    rw [findFallbackScan_zero] at h
    cases h
  | succ n ih =>
    intro i split h
    rw [findFallbackScan] at h
    cases hp : prims[i]? with
    | none =>
      rw [hp] at h
      simp only at h
      obtain ⟨k, prim, h1, h2, h3⟩ := ih (i + 1) split h
      exact ⟨k, prim, by omega, by omega, h3⟩
    | some prim =>
      rw [hp] at h
      simp only at h
      split at h
      · rename_i hgt
        simp only [Option.some.injEq] at h
        exact ⟨i, prim, Nat.le_refl _, by omega, hp, hgt, h.symm⟩
      · obtain ⟨k, prim1, h1, h2, h3⟩ := ih (i + 1) split h
        exact ⟨k, prim1, by omega, by omega, h3⟩

/-- C25: whenever `findFallback` returns a temporal split, the split belongs
to a primitive of the object range whose local segment range `[b, e)` has
more than one segment, its time is `icenter / totalTimeSegments` with
`icenter = (b + e) / 2` (truncating division), and the index lies strictly
inside the range, `b < icenter < e`, so that both sides `[b, icenter)` and
`[icenter, e)` hold at least one and strictly fewer whole segments than
`[b, e)`. The arithmetic of `int` is exact here. -/
theorem temporal_split_index_inside {T : Sig} (env : Env T) (s : Settings T) (heap : Heap T)
    (current : BuildRecord T)
    (htemp : (findFallback env s heap current).data = SPLIT_TEMPORAL) :
    ∃ (i : Nat) (prim : PrimRefMB T) (b e icenter : Int),
      current.prims.object_range._begin ≤ i ∧ i < current.prims.object_range._end ∧
      (heap.read current.prims.prims)[i]? = some prim ∧
      env.getTimeSegmentRange current.prims.time_range prim.totalTimeSegments = ⟨b, e⟩ ∧
      1 < e - b ∧ icenter = (b + e).tdiv 2 ∧
      (findFallback env s heap current).fpos =
        env.fdiv (env.ofInt icenter) (env.ofNat prim.totalTimeSegments) ∧
      b < icenter ∧ icenter < e ∧
      0 < icenter - b ∧ icenter - b < e - b ∧ 0 < e - icenter ∧ e - icenter < e - b := by
  have hne : (Split.ofData env env.one SPLIT_FALLBACK 0 env.zero).data ≠ SPLIT_TEMPORAL := by
    simp only [Split.ofData, SPLIT_FALLBACK, SPLIT_TEMPORAL]
    omega
  by_cases hflag : s.singleLeafTimeSegment = true
  · cases hscan : findFallbackScan env current.prims.time_range
        (heap.read current.prims.prims) current.prims.object_range._begin
        (current.prims.object_range._end - current.prims.object_range._begin) with
    | none =>
      have hff : findFallback env s heap current =
          Split.ofData env env.one SPLIT_FALLBACK 0 env.zero := by
        unfold findFallback
        rw [if_pos hflag, hscan]
      rw [hff] at htemp
      exact absurd htemp hne
    | some split =>
      have hff : findFallback env s heap current = split := by
        unfold findFallback
        rw [if_pos hflag, hscan]
      obtain ⟨k, prim, h1, h2, h3, h4, h5⟩ := findFallbackScan_some env _ _ _ _ _ hscan
      generalize hr : env.getTimeSegmentRange current.prims.time_range prim.totalTimeSegments
        = r at h4 h5
      obtain ⟨b, e⟩ := r
      simp only [range.isize] at h4 h5
      have hin := tdiv_two_inside b e h4
      refine ⟨k, prim, b, e, (b + e).tdiv 2, h1, by omega, h3, hr, h4, rfl, ?_, hin.1, hin.2,
        ?_, ?_, ?_, ?_⟩
      · rw [hff, h5]
        rfl
      all_goals omega
  · have hff : findFallback env s heap current =
        Split.ofData env env.one SPLIT_FALLBACK 0 env.zero := by
      unfold findFallback
      rw [if_neg hflag]
    rw [hff] at htemp
    exact absurd htemp hne

/-- C25 on one primitive with two time segments over the time range `[0, 1]`
in the concrete environment: the segment range is `[0, 2)` and the split
index is 1. -/
theorem temporal_split_index_inside_witness :
    (findFallback exEnv exSettingsSegment [[exPrim 0 2]]
        (exChild 0 0 1 1)).data = SPLIT_TEMPORAL ∧
    ∃ (i : Nat) (prim : PrimRefMB ExSig) (b e icenter : Int),
      (exChild 0 0 1 1).prims.object_range._begin ≤ i ∧
      i < (exChild 0 0 1 1).prims.object_range._end ∧
      (Heap.read [[exPrim 0 2]] (exChild 0 0 1 1).prims.prims)[i]? = some prim ∧
      exEnv.getTimeSegmentRange (exChild 0 0 1 1).prims.time_range prim.totalTimeSegments
        = ⟨b, e⟩ ∧
      1 < e - b ∧ icenter = (b + e).tdiv 2 ∧
      (findFallback exEnv exSettingsSegment [[exPrim 0 2]] (exChild 0 0 1 1)).fpos =
        exEnv.fdiv (exEnv.ofInt icenter) (exEnv.ofNat prim.totalTimeSegments) ∧
      b < icenter ∧ icenter < e ∧
      0 < icenter - b ∧ icenter - b < e - b ∧ 0 < e - icenter ∧ e - icenter < e - b :=
  ⟨rfl, temporal_split_index_inside exEnv exSettingsSegment [[exPrim 0 2]] (exChild 0 0 1 1) rfl⟩

/-! ## The child chosen by the growth loop of `createLargeLeaf` -/

/-- The leaf test fails exactly for a record with more than `maxLeafSize`
primitives or with a temporal split. -/
theorem isLargeLeaf_eq_false {T : Sig} (s : Settings T) (c : BuildRecord T) :
    isLargeLeaf s c = false ↔ (s.maxLeafSize < c.prims.size ∨ c.split.data = SPLIT_TEMPORAL) := by
  unfold isLargeLeaf
  simp only [Bool.and_eq_false_iff, decide_eq_false_iff_not, Nat.not_le, bne_eq_false_iff_eq]

/-- The search loop of `createLargeLeaf`, from any intermediate state: it
keeps the candidate when no child that is not a leaf is larger than
`bestSize`; otherwise it returns the first child of maximal size among the
children that are not leaves, and that child is larger than `bestSize`. -/
theorem largeLeafBest_spec {T : Sig} (s : Settings T) :
    ∀ (l : List (BuildRecord T)) (i : Nat) (bc : Option Nat) (bs : Nat),
      (largeLeafBest s l i bc bs = bc ∧
        ∀ c ∈ l, isLargeLeaf s c = false → c.prims.size ≤ bs) ∨
      ∃ (k : Nat) (c : BuildRecord T), largeLeafBest s l i bc bs = some (i + k) ∧
        l[k]? = some c ∧ isLargeLeaf s c = false ∧ bs < c.prims.size ∧
        (∀ (j : Nat) (d : BuildRecord T), l[j]? = some d → isLargeLeaf s d = false →
          d.prims.size ≤ c.prims.size) ∧
        (∀ (j : Nat) (d : BuildRecord T), j < k → l[j]? = some d → isLargeLeaf s d = false →
          d.prims.size < c.prims.size) := by
  intro l
  induction l with
  | nil => intro i bc bs; exact Or.inl ⟨rfl, by simp⟩
  | cons a t ih =>
    intro i bc bs
    rw [largeLeafBest]
    by_cases hleaf : isLargeLeaf s a = true
    · rw [if_pos hleaf]
      rcases ih (i + 1) bc bs with ⟨h1, h2⟩ | ⟨k, c, h1, h2, h3, h4, h5, h6⟩
      · left
        refine ⟨h1, ?_⟩
        intro c hc hcl
        rcases List.mem_cons.1 hc with rfl | hc
        · rw [hleaf] at hcl; cases hcl
        · exact h2 c hc hcl
      · right
        refine ⟨k + 1, c, by rw [h1]; congr 1; omega, by simpa using h2, h3, h4, ?_, ?_⟩
        · intro j d hj hd
          cases j with
          | zero =>
            simp only [List.getElem?_cons_zero, Option.some.injEq] at hj
            subst hj
            rw [hleaf] at hd; cases hd
          | succ j => exact h5 j d (by simpa using hj) hd
        · intro j d hjk hj hd
          cases j with
          | zero =>
            simp only [List.getElem?_cons_zero, Option.some.injEq] at hj
            subst hj
            rw [hleaf] at hd; cases hd
          | succ j => exact h6 j d (by omega) (by simpa using hj) hd
    · rw [if_neg hleaf]
      have hleaf0 : isLargeLeaf s a = false := by simpa using hleaf
      by_cases hgt : a.prims.size > bs
      · rw [if_pos hgt]
        rcases ih (i + 1) (some i) a.prims.size with ⟨h1, h2⟩ | ⟨k, c, h1, h2, h3, h4, h5, h6⟩
        · right
          refine ⟨0, a, by rw [h1]; rfl, by simp, hleaf0, hgt, ?_, ?_⟩
          · intro j d hj hd
            cases j with
            | zero =>
              simp only [List.getElem?_cons_zero, Option.some.injEq] at hj
              subst hj
              exact Nat.le_refl _
            | succ j =>
              exact h2 d (List.getElem?_mem (by simpa using hj)) hd
          · intro j d hjk
            omega
        · right
          refine ⟨k + 1, c, by rw [h1]; congr 1; omega, by simpa using h2, h3, by omega, ?_, ?_⟩
          · intro j d hj hd
            cases j with
            | zero =>
              simp only [List.getElem?_cons_zero, Option.some.injEq] at hj
              subst hj
              omega
            | succ j => exact h5 j d (by simpa using hj) hd
          · intro j d hjk hj hd
            cases j with
            | zero =>
              simp only [List.getElem?_cons_zero, Option.some.injEq] at hj
              subst hj
              exact h4
            | succ j => exact h6 j d (by omega) (by simpa using hj) hd
      · rw [if_neg hgt]
        rcases ih (i + 1) bc bs with ⟨h1, h2⟩ | ⟨k, c, h1, h2, h3, h4, h5, h6⟩
        · left
          refine ⟨h1, ?_⟩
          intro c hc hcl
          rcases List.mem_cons.1 hc with rfl | hc
          · omega
          · exact h2 c hc hcl
        · right
          refine ⟨k + 1, c, by rw [h1]; congr 1; omega, by simpa using h2, h3, h4, ?_, ?_⟩
          · intro j d hj hd
            cases j with
            | zero =>
              simp only [List.getElem?_cons_zero, Option.some.injEq] at hj
              subst hj
              omega
            | succ j => exact h5 j d (by simpa using hj) hd
          · intro j d hjk hj hd
            cases j with
            | zero =>
              simp only [List.getElem?_cons_zero, Option.some.injEq] at hj
              subst hj
              omega
            | succ j => exact h6 j d (by omega) (by simpa using hj) hd

/-- The search loop of `createLargeLeaf` reads the primitive counts and the
tags of the splits of the children, and nothing else. -/
theorem largeLeafBest_congr {T : Sig} (s : Settings T) :
    ∀ (l l1 : List (BuildRecord T)),
      List.Forall₂ (fun a b => a.prims.size = b.prims.size ∧ a.split.data = b.split.data) l l1 →
      ∀ (i : Nat) (bc : Option Nat) (bs : Nat),
        largeLeafBest s l i bc bs = largeLeafBest s l1 i bc bs := by
  intro l l1 hf
  induction hf with
  | nil => intro i bc bs; rfl
  | @cons a b t t1 hab _ ih =>
    intro i bc bs
    simp only [largeLeafBest, isLargeLeaf, hab.1, hab.2, ih]

/-- A record whose split was computed by `findFallback` and whose primitive
count is the size of its object range is not empty when the split is
temporal. -/
theorem temporal_nonempty {T : Sig} (env : Env T) (s : Settings T) (c : BuildRecord T)
    (hsplit : ∃ heap, c.split = findFallback env s heap c)
    (hsize : c.prims.size = c.prims.object_range._end - c.prims.object_range._begin)
    (htemp : c.split.data = SPLIT_TEMPORAL) : 0 < c.prims.size := by
  obtain ⟨heap, hs⟩ := hsplit
  rw [hs] at htemp
  rcases findFallback_data env s heap c with h | ⟨-, -, h⟩
  · rw [h] at htemp
    simp [SPLIT_FALLBACK, SPLIT_TEMPORAL] at htemp
  · omega

/-- The growth loop of `createLargeLeaf` performs no partition exactly when
its first search finds no child. -/
theorem largeLeafGrowLog_eq_nil {T : Sig} (env : Env T) (s : Settings T) (depth n : Nat)
    (ch : LocalChildListT T) (st : State T) :
    largeLeafGrowLog env s depth (n + 1) ch st = [] ↔
      largeLeafBest s ch.children 0 none 0 = none := by
  rw [largeLeafGrowLog]
  cases hb : largeLeafBest s ch.children 0 none 0 with
  | none => simp
  | some best =>
    rcases largeLeafBest_some s ch.children 0 none 0 best hb with h | ⟨c, hc, -, -, -⟩
    · cases h
    · rw [Nat.sub_zero] at hc
      simp [hc]

/-- C22: in each iteration of the growth loop of `createLargeLeaf`, on a list
of children whose splits were computed by `findFallback` and whose primitive
counts are the sizes of their object ranges, the child chosen is a child that
is not leaf-sized (more than `maxLeafSize` primitives, or a temporal split),
no child that is not leaf-sized has more primitives, and every such child
with a lower index has fewer; no child is chosen exactly when every child is
leaf-sized, and then the loop ends with the list unchanged and without a
partition; a child that is chosen is partitioned; the choice reads the
primitive counts and the tags of the splits only, no cost. -/
theorem large_leaf_choice {T : Sig} (env : Env T) (s : Settings T) (ch : LocalChildListT T)
    (hsplit : ∀ c ∈ ch.children, ∃ heap, c.split = findFallback env s heap c)
    (hsize : ∀ c ∈ ch.children,
      c.prims.size = c.prims.object_range._end - c.prims.object_range._begin) :
    (∀ c : BuildRecord T, isLargeLeaf s c = false ↔
      (s.maxLeafSize < c.prims.size ∨ c.split.data = SPLIT_TEMPORAL)) ∧
    (largeLeafBest s ch.children 0 none 0 = none ↔
      ∀ c ∈ ch.children, isLargeLeaf s c = true) ∧
    (∀ i, largeLeafBest s ch.children 0 none 0 = some i →
      ∃ c, ch.children[i]? = some c ∧ isLargeLeaf s c = false ∧
        (∀ (j : Nat) (d : BuildRecord T), ch.children[j]? = some d →
          isLargeLeaf s d = false → d.prims.size ≤ c.prims.size) ∧
        (∀ (j : Nat) (d : BuildRecord T), j < i → ch.children[j]? = some d →
          isLargeLeaf s d = false → d.prims.size < c.prims.size)) ∧
    (∀ (depth n : Nat) (st : State T),
      ((∀ c ∈ ch.children, isLargeLeaf s c = true) ↔
        largeLeafGrowLog env s depth (n + 1) ch st = []) ∧
      ((∀ c ∈ ch.children, isLargeLeaf s c = true) →
        largeLeafGrow env s depth (n + 1) ch st = (.ok ch, st)) ∧
      (∀ i, largeLeafBest s ch.children 0 none 0 = some i →
        ∃ c, ch.children[i]? = some c ∧
          (largeLeafGrowLog env s depth (n + 1) ch st).head? = some (st.heap, c))) ∧
    (∀ l1 : List (BuildRecord T),
      List.Forall₂ (fun a b => a.prims.size = b.prims.size ∧ a.split.data = b.split.data)
        ch.children l1 →
      largeLeafBest s l1 0 none 0 = largeLeafBest s ch.children 0 none 0) := by
  have hpos : ∀ c ∈ ch.children, isLargeLeaf s c = false → 0 < c.prims.size := by
    intro c hc hl
    rcases (isLargeLeaf_eq_false s c).1 hl with h | h
    · omega
    · exact temporal_nonempty env s c (hsplit c hc) (hsize c hc) h
  have hnone : largeLeafBest s ch.children 0 none 0 = none ↔
      ∀ c ∈ ch.children, isLargeLeaf s c = true := by
    constructor
    · intro h c hc
      rcases largeLeafBest_spec s ch.children 0 none 0 with ⟨-, h2⟩ | ⟨k, c1, h1, -⟩
      · by_contra hl
        have hl0 : isLargeLeaf s c = false := by simpa using hl
        have := h2 c hc hl0
        have := hpos c hc hl0
        omega
      · rw [h] at h1; cases h1
    · intro h
      rcases largeLeafBest_spec s ch.children 0 none 0 with ⟨h1, -⟩ | ⟨k, c1, -, h2, h3, -⟩
      · exact h1
      · rw [h c1 (List.getElem?_mem h2)] at h3; cases h3
  have hsome : ∀ i, largeLeafBest s ch.children 0 none 0 = some i →
      ∃ c, ch.children[i]? = some c ∧ isLargeLeaf s c = false ∧
        (∀ (j : Nat) (d : BuildRecord T), ch.children[j]? = some d →
          isLargeLeaf s d = false → d.prims.size ≤ c.prims.size) ∧
        (∀ (j : Nat) (d : BuildRecord T), j < i → ch.children[j]? = some d →
          isLargeLeaf s d = false → d.prims.size < c.prims.size) := by
    intro i hi
    rcases largeLeafBest_spec s ch.children 0 none 0 with ⟨h1, -⟩ | ⟨k, c, h1, h2, h3, -, h5, h6⟩
    · rw [hi] at h1; cases h1
    · rw [hi, Nat.zero_add] at h1
      cases h1
      exact ⟨c, h2, h3, h5, h6⟩
  refine ⟨isLargeLeaf_eq_false s, hnone, hsome, ?_, ?_⟩
  · intro depth n st
    refine ⟨?_, ?_, ?_⟩
    · rw [largeLeafGrowLog_eq_nil, hnone]
    · intro h
      rw [largeLeafGrow_succ, hnone.2 h]
    · intro i hi
      obtain ⟨c, hc, -⟩ := hsome i hi
      refine ⟨c, hc, ?_⟩
      rw [largeLeafGrowLog, hi]
      simp only [hc, List.head?_cons]
  · intro l1 hf
    exact (largeLeafBest_congr s ch.children l1 hf 0 none 0).symm

/-- C22 on two children of two primitives each with `maxLeafSize = 1`: both
need splitting and have the same size, the first one is chosen. -/
theorem large_leaf_choice_witness :
    largeLeafBest { exSettings with maxLeafSize := 1 } exAliasedList.children 0 none 0 = some 0 ∧
    ∃ c, exAliasedList.children[0]? = some c ∧
      isLargeLeaf { exSettings with maxLeafSize := 1 } c = false ∧
      (∀ (j : Nat) (d : BuildRecord ExSig), exAliasedList.children[j]? = some d →
        isLargeLeaf { exSettings with maxLeafSize := 1 } d = false →
        d.prims.size ≤ c.prims.size) ∧
      (∀ (j : Nat) (d : BuildRecord ExSig), j < 0 → exAliasedList.children[j]? = some d →
        isLargeLeaf { exSettings with maxLeafSize := 1 } d = false →
        d.prims.size < c.prims.size) :=
  ⟨rfl, (large_leaf_choice exEnv { exSettings with maxLeafSize := 1 } exAliasedList
    (by
      intro c hc
      refine ⟨[], ?_⟩
      simp only [exAliasedList, List.mem_cons, List.mem_singleton, List.not_mem_nil,
        or_false] at hc
      rcases hc with rfl | rfl <;> rfl)
    (by
      intro c hc
      simp only [exAliasedList, List.mem_cons, List.mem_singleton, List.not_mem_nil,
        or_false] at hc
      rcases hc with rfl | rfl <;> rfl)).2.2.1 0 rfl⟩

/-! ## The child chosen by the growth loop of `recurse` -/

/-- The search loop of `recurse`, from any intermediate state, when the
comparison `<` of `float` is a strict weak order on the values `V` that hold
`bestSAH` and the expected half areas of the children with more than
`minLeafSize` primitives: it keeps the candidate when no such child has an
area above `bestSAH`; otherwise it returns the first child of maximal area
among these children, and the area of that child is above `bestSAH`. -/
theorem recurseBest_spec {T : Sig} (env : Env T) (s : Settings T) (V : T.F → Prop)
    (hirr : ∀ x, V x → env.flt x x = false)
    (htrans : ∀ x y z, V x → V y → V z → env.flt x y = true → env.flt y z = true →
      env.flt x z = true)
    (hneg : ∀ x y z, V x → V y → V z → env.flt x z = true →
      env.flt x y = true ∨ env.flt y z = true) :
    ∀ (l : List (BuildRecord T)) (i : Nat) (bc : Option Nat) (bs : T.F), V bs →
      (∀ c ∈ l, s.minLeafSize < c.prims.size →
        V (env.expectedApproxHalfArea c.prims.pinfo.geom)) →
      (recurseBest env s l i bc bs = bc ∧
        ∀ c ∈ l, s.minLeafSize < c.prims.size →
          env.flt bs (env.expectedApproxHalfArea c.prims.pinfo.geom) = false) ∨
      ∃ (k : Nat) (c : BuildRecord T), recurseBest env s l i bc bs = some (i + k) ∧
        l[k]? = some c ∧ s.minLeafSize < c.prims.size ∧
        env.flt bs (env.expectedApproxHalfArea c.prims.pinfo.geom) = true ∧
        (∀ (j : Nat) (d : BuildRecord T), l[j]? = some d → s.minLeafSize < d.prims.size →
          env.flt (env.expectedApproxHalfArea c.prims.pinfo.geom)
            (env.expectedApproxHalfArea d.prims.pinfo.geom) = false) ∧
        (∀ (j : Nat) (d : BuildRecord T), j < k → l[j]? = some d →
          s.minLeafSize < d.prims.size →
          env.flt (env.expectedApproxHalfArea d.prims.pinfo.geom)
            (env.expectedApproxHalfArea c.prims.pinfo.geom) = true) := by
  have hasym : ∀ x y, V x → V y → env.flt x y = true → env.flt y x = false := by
    intro x y hx hy hxy
    cases hyx : env.flt y x with
    | false => rfl
    | true =>
      have := htrans x y x hx hy hx hxy hyx
      rw [hirr x hx] at this
      cases this
  intro l
  induction l with
  | nil => intro i bc bs _ _; exact Or.inl ⟨rfl, by simp⟩
  | cons a t ih =>
    intro i bc bs hbs hV
    have hVt : ∀ c ∈ t, s.minLeafSize < c.prims.size →
        V (env.expectedApproxHalfArea c.prims.pinfo.geom) :=
      fun c hc => hV c (List.mem_cons_of_mem _ hc)
    rw [recurseBest]
    by_cases hsmall : a.prims.size ≤ s.minLeafSize
    · rw [if_pos hsmall]
      rcases ih (i + 1) bc bs hbs hVt with ⟨h1, h2⟩ | ⟨k, c, h1, h2, h3, h4, h5, h6⟩
      · left
        refine ⟨h1, ?_⟩
        intro c hc hq
        rcases List.mem_cons.1 hc with rfl | hc
        · omega
        · exact h2 c hc hq
      · right
        refine ⟨k + 1, c, by rw [h1]; congr 1; omega, by simpa using h2, h3, h4, ?_, ?_⟩
        · intro j d hj hd
          cases j with
          | zero =>
            simp only [List.getElem?_cons_zero, Option.some.injEq] at hj
            subst hj
            omega
          | succ j => exact h5 j d (by simpa using hj) hd
        · intro j d hjk hj hd
          cases j with
          | zero =>
            simp only [List.getElem?_cons_zero, Option.some.injEq] at hj
            subst hj
            omega
          | succ j => exact h6 j d (by omega) (by simpa using hj) hd
    · rw [if_neg hsmall]
      have hq : s.minLeafSize < a.prims.size := by omega
      have hVa := hV a (List.mem_cons_self _ _) hq
      by_cases hgt : env.flt bs (env.expectedApproxHalfArea a.prims.pinfo.geom) = true
      · rw [if_pos hgt]
        rcases ih (i + 1) (some i) (env.expectedApproxHalfArea a.prims.pinfo.geom) hVa hVt with
          ⟨h1, h2⟩ | ⟨k, c, h1, h2, h3, h4, h5, h6⟩
        · right
          refine ⟨0, a, by rw [h1]; rfl, by simp, hq, hgt, ?_, ?_⟩
          · intro j d hj hd
            cases j with
            | zero =>
              simp only [List.getElem?_cons_zero, Option.some.injEq] at hj
              subst hj
              exact hirr _ hVa
            | succ j => exact h2 d (List.getElem?_mem (by simpa using hj)) hd
          · intro j d hjk
            omega
        · right
          have hVc := hVt c (List.getElem?_mem h2) h3
          refine ⟨k + 1, c, by rw [h1]; congr 1; omega, by simpa using h2, h3,
            htrans _ _ _ hbs hVa hVc hgt h4, ?_, ?_⟩
          · intro j d hj hd
            cases j with
            | zero =>
              simp only [List.getElem?_cons_zero, Option.some.injEq] at hj
              subst hj
              exact hasym _ _ hVa hVc h4
            | succ j => exact h5 j d (by simpa using hj) hd
          · intro j d hjk hj hd
            cases j with
            | zero =>
              simp only [List.getElem?_cons_zero, Option.some.injEq] at hj
              subst hj
              exact h4
            | succ j => exact h6 j d (by omega) (by simpa using hj) hd
      · rw [if_neg hgt]
        have hgt0 : env.flt bs (env.expectedApproxHalfArea a.prims.pinfo.geom) = false := by
          simpa using hgt
        rcases ih (i + 1) bc bs hbs hVt with ⟨h1, h2⟩ | ⟨k, c, h1, h2, h3, h4, h5, h6⟩
        · left
          refine ⟨h1, ?_⟩
          intro c hc hqc
          rcases List.mem_cons.1 hc with rfl | hc
          · exact hgt0
          · exact h2 c hc hqc
        · right
          have hVc := hVt c (List.getElem?_mem h2) h3
          have hac : env.flt (env.expectedApproxHalfArea a.prims.pinfo.geom)
              (env.expectedApproxHalfArea c.prims.pinfo.geom) = true := by
            rcases hneg _ _ _ hbs hVa hVc h4 with h | h
            · rw [hgt0] at h; cases h
            · exact h
          refine ⟨k + 1, c, by rw [h1]; congr 1; omega, by simpa using h2, h3, h4, ?_, ?_⟩
          · intro j d hj hd
            cases j with
            | zero =>
              simp only [List.getElem?_cons_zero, Option.some.injEq] at hj
              subst hj
              exact hasym _ _ hVa hVc hac
            | succ j => exact h5 j d (by simpa using hj) hd
          · intro j d hjk hj hd
            cases j with
            | zero =>
              simp only [List.getElem?_cons_zero, Option.some.injEq] at hj
              subst hj
              exact hac
            | succ j => exact h6 j d (by omega) (by simpa using hj) hd

/-- The growth loop of `recurse` performs no partition exactly when its first
search finds no child. -/
theorem recurseGrowLog_eq_nil {T : Sig} (env : Env T) (s : Settings T) (depth n : Nat)
    (ch : LocalChildListT T) (st : State T) :
    recurseGrowLog env s depth (n + 1) ch st = [] ↔
      recurseBest env s ch.children 0 none env.neg_inf = none := by
  rw [recurseGrowLog]
  cases hb : recurseBest env s ch.children 0 none env.neg_inf with
  | none => simp
  | some best =>
    rcases recurseBest_some env s ch.children 0 none env.neg_inf best hb with h | ⟨c, hc, -, -⟩
    · cases h
    · rw [Nat.sub_zero] at hc
      simp [hc]

/-- C23: in each iteration of the growth loop of `recurse`, when the
comparison `<` of `float` is a strict weak order on `neg_inf` and the
expected half areas of the children with more than `minLeafSize` primitives,
and these areas are above `neg_inf`: the child chosen has more than
`minLeafSize` primitives, no child with more than `minLeafSize` primitives has
a larger expected half area, and every such child with a lower index has a
smaller one; a child with at most `minLeafSize` primitives is never chosen;
no child is chosen exactly when no child has more than `minLeafSize`
primitives, and then the loop ends with the list unchanged and without a
partition; a child that is chosen is partitioned, and after its split the loop
goes on exactly when the number of children is below `branchingFactor`. -/
theorem recurse_choice {T : Sig} (env : Env T) (s : Settings T) (ch : LocalChildListT T)
    (hirr : ∀ x, (x = env.neg_inf ∨ ∃ c ∈ ch.children, s.minLeafSize < c.prims.size ∧
        x = env.expectedApproxHalfArea c.prims.pinfo.geom) → env.flt x x = false)
    (htrans : ∀ x y z,
      (x = env.neg_inf ∨ ∃ c ∈ ch.children, s.minLeafSize < c.prims.size ∧
        x = env.expectedApproxHalfArea c.prims.pinfo.geom) →
      (y = env.neg_inf ∨ ∃ c ∈ ch.children, s.minLeafSize < c.prims.size ∧
        y = env.expectedApproxHalfArea c.prims.pinfo.geom) →
      (z = env.neg_inf ∨ ∃ c ∈ ch.children, s.minLeafSize < c.prims.size ∧
        z = env.expectedApproxHalfArea c.prims.pinfo.geom) →
      env.flt x y = true → env.flt y z = true → env.flt x z = true)
    (hneg : ∀ x y z,
      (x = env.neg_inf ∨ ∃ c ∈ ch.children, s.minLeafSize < c.prims.size ∧
        x = env.expectedApproxHalfArea c.prims.pinfo.geom) →
      (y = env.neg_inf ∨ ∃ c ∈ ch.children, s.minLeafSize < c.prims.size ∧
        y = env.expectedApproxHalfArea c.prims.pinfo.geom) →
      (z = env.neg_inf ∨ ∃ c ∈ ch.children, s.minLeafSize < c.prims.size ∧
        z = env.expectedApproxHalfArea c.prims.pinfo.geom) →
      env.flt x z = true → env.flt x y = true ∨ env.flt y z = true)
    (hinf : ∀ c ∈ ch.children, s.minLeafSize < c.prims.size →
      env.flt env.neg_inf (env.expectedApproxHalfArea c.prims.pinfo.geom) = true) :
    (recurseBest env s ch.children 0 none env.neg_inf = none ↔
      ∀ c ∈ ch.children, c.prims.size ≤ s.minLeafSize) ∧
    (∀ i, recurseBest env s ch.children 0 none env.neg_inf = some i →
      ∃ c, ch.children[i]? = some c ∧ s.minLeafSize < c.prims.size ∧
        (∀ (j : Nat) (d : BuildRecord T), ch.children[j]? = some d →
          s.minLeafSize < d.prims.size →
          env.flt (env.expectedApproxHalfArea c.prims.pinfo.geom)
            (env.expectedApproxHalfArea d.prims.pinfo.geom) = false) ∧
        (∀ (j : Nat) (d : BuildRecord T), j < i → ch.children[j]? = some d →
          s.minLeafSize < d.prims.size →
          env.flt (env.expectedApproxHalfArea d.prims.pinfo.geom)
            (env.expectedApproxHalfArea c.prims.pinfo.geom) = true)) ∧
    (∀ (depth n : Nat) (st : State T),
      ((∀ c ∈ ch.children, c.prims.size ≤ s.minLeafSize) ↔
        recurseGrowLog env s depth (n + 1) ch st = []) ∧
      ((∀ c ∈ ch.children, c.prims.size ≤ s.minLeafSize) →
        recurseGrow env s depth (n + 1) ch st = (.ok ch, st)) ∧
      (∀ (i : Nat) (c : BuildRecord T) (c1 : LocalChildListT T) (deleted : List Nat),
        recurseBest env s ch.children 0 none env.neg_inf = some i →
        ch.children[i]? = some c →
        ch.split i (recurseLeft env s depth st.heap c) (recurseRight env s depth st.heap c)
          (partition env st.heap c).2.2.2 = some (c1, deleted) →
        (recurseGrowLog env s depth (n + 1) ch st).head? = some (st.heap, c) ∧
        (c1.size < s.branchingFactor →
          recurseGrow env s depth (n + 1) ch st =
            recurseGrow env s depth n c1
              ((({ st with heap := (partition env st.heap c).1 } : State T).emits
                (recurseFinds env s st.heap c)).emits (deleted.map Event.delete))) ∧
        (¬ c1.size < s.branchingFactor →
          recurseGrow env s depth (n + 1) ch st =
            (.ok c1, (({ st with heap := (partition env st.heap c).1 } : State T).emits
              (recurseFinds env s st.heap c)).emits (deleted.map Event.delete)) ∧
          recurseGrowLog env s depth (n + 1) ch st = [(st.heap, c)]))) := by
  have hspec := recurseBest_spec env s
    (fun x => x = env.neg_inf ∨ ∃ c ∈ ch.children, s.minLeafSize < c.prims.size ∧
      x = env.expectedApproxHalfArea c.prims.pinfo.geom)
    hirr htrans hneg ch.children 0 none env.neg_inf (Or.inl rfl)
    (fun c hc hq => Or.inr ⟨c, hc, hq, rfl⟩)
  have hnone : recurseBest env s ch.children 0 none env.neg_inf = none ↔
      ∀ c ∈ ch.children, c.prims.size ≤ s.minLeafSize := by
    constructor
    · intro h c hc
      rcases hspec with ⟨-, h2⟩ | ⟨k, c1, h1, -⟩
      · by_contra hl
        have h3 := h2 c hc (by omega)
        rw [hinf c hc (by omega)] at h3
        cases h3
      · rw [h] at h1; cases h1
    · intro h
      rcases hspec with ⟨h1, -⟩ | ⟨k, c1, -, h2, h3, -⟩
      · exact h1
      · have := h c1 (List.getElem?_mem h2)
        omega
  have hsome : ∀ i, recurseBest env s ch.children 0 none env.neg_inf = some i →
      ∃ c, ch.children[i]? = some c ∧ s.minLeafSize < c.prims.size ∧
        (∀ (j : Nat) (d : BuildRecord T), ch.children[j]? = some d →
          s.minLeafSize < d.prims.size →
          env.flt (env.expectedApproxHalfArea c.prims.pinfo.geom)
            (env.expectedApproxHalfArea d.prims.pinfo.geom) = false) ∧
        (∀ (j : Nat) (d : BuildRecord T), j < i → ch.children[j]? = some d →
          s.minLeafSize < d.prims.size →
          env.flt (env.expectedApproxHalfArea d.prims.pinfo.geom)
            (env.expectedApproxHalfArea c.prims.pinfo.geom) = true) := by
    intro i hi
    rcases hspec with ⟨h1, -⟩ | ⟨k, c, h1, h2, h3, -, h5, h6⟩
    · rw [hi] at h1; cases h1
    · rw [hi, Nat.zero_add] at h1
      cases h1
      exact ⟨c, h2, h3, h5, h6⟩
  refine ⟨hnone, hsome, ?_⟩
  intro depth n st
  refine ⟨?_, ?_, ?_⟩
  · rw [recurseGrowLog_eq_nil, hnone]
  · intro h
    rw [recurseGrow_succ, hnone.2 h]
  · intro i c c1 deleted hi hc hsp
    refine ⟨?_, ?_, ?_⟩
    · rw [recurseGrowLog, hi]
      simp only [hc, List.head?_cons]
    · intro hlt
      rw [recurseGrow_succ, hi]
      simp only [hc, hsp, if_pos hlt]
    · intro hge
      constructor
      · rw [recurseGrow_succ, hi]
        simp only [hc, hsp, if_neg hge]
      · rw [recurseGrowLog, hi]
        simp only [hc, hsp, if_neg hge]

/-- C23 on two children of two primitives each with the same expected half
area, in the concrete environment with `minLeafSize = 1`: the first one is
chosen. -/
theorem recurse_choice_witness :
    recurseBest exEnv exSettings exAliasedList.children 0 none exEnv.neg_inf = some 0 ∧
    ∃ c, exAliasedList.children[0]? = some c ∧ exSettings.minLeafSize < c.prims.size ∧
      (∀ (j : Nat) (d : BuildRecord ExSig), exAliasedList.children[j]? = some d →
        exSettings.minLeafSize < d.prims.size →
        exEnv.flt (exEnv.expectedApproxHalfArea c.prims.pinfo.geom)
          (exEnv.expectedApproxHalfArea d.prims.pinfo.geom) = false) ∧
      (∀ (j : Nat) (d : BuildRecord ExSig), j < 0 → exAliasedList.children[j]? = some d →
        exSettings.minLeafSize < d.prims.size →
        exEnv.flt (exEnv.expectedApproxHalfArea d.prims.pinfo.geom)
          (exEnv.expectedApproxHalfArea c.prims.pinfo.geom) = true) :=
  ⟨rfl, (recurse_choice exEnv exSettings exAliasedList
    (fun x _ => by simp [exEnv])
    (fun x y z _ _ _ hxy hyz => by
      simp only [exEnv, decide_eq_true_eq] at hxy hyz ⊢
      omega)
    (fun x y z _ _ _ hxz => by
      simp only [exEnv, decide_eq_true_eq] at hxz ⊢
      omega)
    (fun c _ _ => by simp [exEnv])).2.1 0 rfl⟩

/-! ## The inner nodes of `createLargeLeaf` -/

/-- C27: when `createLargeLeaf` does not emit the record as a leaf (the depth
is within the limit and the leaf test fails), for every branching factor that
the builder accepts, also 0 and 1, for a record whose primitive count is the
size of its object range and whose depth plus one does not wrap around: the
first search of the growth loop finds the record itself, the loop ends with at
least two children, every child has the depth of the record plus one, and the
node is created with these children: the driver continues with the loop over
them. -/
theorem large_leaf_node_children {T : Sig} (env : Env T) (s : Settings T)
    (hbf : s.branchingFactor ≤ 8) (fuel : Nat) (current : BuildRecord T) (alloc : Alloc)
    (st : State T)
    (hsize : current.prims.size =
      current.prims.object_range._end - current.prims.object_range._begin)
    (hwrap : current.depth + 1 < 18446744073709551616)
    (hd : ¬ current.depth > s.maxDepth)
    (hleaf : isLargeLeaf s { current with split := findFallback env s st.heap current } = false) :
    largeLeafBest s
      (LocalChildListT.new { current with split := findFallback env s st.heap current }).children
      0 none 0 = some 0 ∧
    ∃ (ch : LocalChildListT T) (st1 : State T),
      largeLeafGrow env s current.depth (s.branchingFactor + 1)
        (LocalChildListT.new { current with split := findFallback env s st.heap current }) st
        = (.ok ch, st1) ∧
      2 ≤ ch.children.length ∧
      (∀ c ∈ ch.children, c.depth = current.depth + 1) ∧
      createLargeLeaf env s (fuel + 1) current alloc st =
        finishNode env { current with split := findFallback env s st.heap current } ch
          (hasTimeSplits env { current with split := findFallback env s st.heap current } ch)
          (env.createNode
            (hasTimeSplits env { current with split := findFallback env s st.heap current } ch)
            alloc)
          (visitChildren (fun d st0 => createLargeLeaf env s fuel d alloc st0)
            (env.createNode
              (hasTimeSplits env { current with split := findFallback env s st.heap current } ch)
              alloc)
            ch.children.enum
            (st1.emit (.createNode
              (hasTimeSplits env { current with split := findFallback env s st.heap current } ch)
              alloc
              (env.createNode
                (hasTimeSplits env
                  { current with split := findFallback env s st.heap current } ch)
                alloc)))) := by
  have hw : wrap (current.depth + 1) = current.depth + 1 := by
    unfold wrap
    omega
  have hpos : 0 < current.prims.size := by
    rcases (isLargeLeaf_eq_false s _).1 hleaf with h | h
    · exact Nat.lt_of_le_of_lt (Nat.zero_le _) h
    · exact temporal_nonempty env s
        { current with split := findFallback env s st.heap current } ⟨st.heap, rfl⟩ hsize h
  have hbest := largeLeafBest_singleton s
    { current with split := findFallback env s st.heap current } hleaf hpos
  obtain ⟨c, st1, hg, hfresh, hin, -, hend⟩ := largeLeafGrow_rule env s current.depth
    (fun c _ =>
      c.children = [{ current with split := findFallback env s st.heap current }] ∨
        ∀ ch ∈ c.children, ch.depth = current.depth + 1)
    hbf
    (by
      intro c st1 best brecord c1 deleted hfresh _ _ hb hsplit hc1
      right
      exact children_step_fresh (fun ch : BuildRecord T => ch.depth = current.depth + 1)
        _ _ _ _ _ { current with split := findFallback env s st.heap current } hc1
        (LocalChildListT.split_children _ _ _ _ _ _ _ hsplit).2 hfresh hw hw)
    (s.branchingFactor + 1)
    (LocalChildListT.new { current with split := findFallback env s st.heap current }) st
    (Or.inl rfl) (InBounds.ofNew _) (Or.inl rfl)
    (by simp only [LocalChildListT.size, LocalChildListT.new, List.length_singleton]; omega)
  have hgrow : (LocalChildListT.new
      { current with split := findFallback env s st.heap current }).size < c.size := by
    rcases hend with ⟨hnone, -, -⟩ | hgrow
    · simp only [LocalChildListT.new] at hnone hbest
      rw [hbest] at hnone
      cases hnone
    · exact hgrow
  simp only [LocalChildListT.size, LocalChildListT.new, List.length_singleton] at hgrow
  refine ⟨hbest, c, st1, hg, hgrow, ?_, ?_⟩
  · rcases hfresh with h | h
    · rw [h] at hgrow
      simp at hgrow
    · exact h
  · exact createLargeLeaf_node_eq env s fuel current alloc st hd (by rw [hleaf]; simp) c st1 hg

/-- C27 with a branching factor of 1 on ten primitives of the concrete
environment: the node gets two children, both at depth 2. -/
theorem large_leaf_node_children_witness :
    ∃ (ch : LocalChildListT ExSig) (st1 : State ExSig),
      largeLeafGrow exEnv exSettingsOne (exChild 0 0 10 1).depth
        (exSettingsOne.branchingFactor + 1)
        (LocalChildListT.new { exChild 0 0 10 1 with
          split := findFallback exEnv exSettingsOne (exState 10).heap (exChild 0 0 10 1) })
        (exState 10) = (.ok ch, st1) ∧
      2 ≤ ch.children.length ∧
      (∀ c ∈ ch.children, c.depth = (exChild 0 0 10 1).depth + 1) := by
  obtain ⟨-, ch, st1, h1, h2, h3, -⟩ := large_leaf_node_children exEnv exSettingsOne
    (by decide) 1 (exChild 0 0 10 1) (some 0) (exState 10) rfl (by decide) (by decide) rfl
  exact ⟨ch, st1, h1, h2, h3⟩

/-! ## The large-leaf builder uses the splits of `findFallback` only -/

/-- The split that a record carries when it is handed to `createLargeLeaf` is
not read: the call overwrites it by the split of `findFallback`. -/
theorem createLargeLeaf_split_discarded {T : Sig} (env : Env T) (s : Settings T) (fuel : Nat)
    (current : BuildRecord T) (split : Split T) (alloc : Alloc) (st : State T) :
    createLargeLeaf env s fuel { current with split := split } alloc st =
      createLargeLeaf env s fuel current alloc st := by
  cases fuel <;> rfl

/-- The partitions of a call of `createLargeLeaf` do not depend on the split
that the record carries. -/
theorem createLargeLeafLog_split_discarded {T : Sig} (env : Env T) (s : Settings T)
    (fuel : Nat) (current : BuildRecord T) (split : Split T) (alloc : Alloc) (st : State T) :
    createLargeLeafLog env s fuel { current with split := split } alloc st =
      createLargeLeafLog env s fuel current alloc st := by
  cases fuel <;> rfl

/-- Every record partitioned by the growth loop of `createLargeLeaf` carries
a split computed by `findFallback`, when the children of the list do. -/
theorem largeLeafGrowLog_findFallback {T : Sig} (env : Env T) (s : Settings T) (depth : Nat) :
    ∀ (n : Nat) (c : LocalChildListT T) (st : State T),
      (∀ ch ∈ c.children, ∃ h0, ch.split = findFallback env s h0 ch) →
      ∀ x ∈ largeLeafGrowLog env s depth n c st, ∃ h0, x.2.split = findFallback env s h0 x.2 :=
  largeLeafGrowLog_rule env s depth
    (fun c _ => ∀ ch ∈ c.children, ∃ h0, ch.split = findFallback env s h0 ch)
    (fun x => ∃ h0, x.2.split = findFallback env s h0 x.2)
    (by
      intro c st best brecord hinv _ hb
      refine ⟨hinv brecord (List.getElem?_mem hb), ?_⟩
      intro c1 deleted _ hc1
      exact children_step (fun ch : BuildRecord T => ∃ h0, ch.split = findFallback env s h0 ch)
        _ _ _ _ _ hc1 hinv
        ⟨(partition env st.heap brecord).1, findFallback_congr env s _ _ _ rfl⟩
        ⟨(partition env st.heap brecord).1, findFallback_congr env s _ _ _ rfl⟩)

/-- Every record partitioned during a call of `createLargeLeaf` carries a
split computed by `findFallback`. -/
theorem createLargeLeafLog_findFallback {T : Sig} (env : Env T) (s : Settings T) :
    ∀ (fuel : Nat) (current : BuildRecord T) (alloc : Alloc) (st : State T),
      ∀ x ∈ createLargeLeafLog env s fuel current alloc st,
        ∃ h0, x.2.split = findFallback env s h0 x.2 := by
  intro fuel
  induction fuel with
  | zero => intro current alloc st x hx; simp [createLargeLeafLog] at hx
  | succ fuel ih =>
    intro current alloc st x hx
    rw [createLargeLeafLog] at hx
    split at hx
    · simp at hx
    · simp only at hx
      split at hx
      · simp at hx
      · rcases List.mem_append.1 hx with hx | hx
        · refine largeLeafGrowLog_findFallback env s _ _ _ st ?_ x hx
          intro ch hch
          simp only [LocalChildListT.new, List.mem_singleton] at hch
          subst hch
          exact ⟨st.heap, findFallback_congr env s _ _ _ rfl⟩
        · split at hx
          · simp at hx
          · exact visitLog_rule _ _ _ (fun _ _ => True) (fun _ _ _ _ _ => trivial)
              (fun _ _ _ => trivial) (fun _ _ => True) (fun _ _ _ _ _ => trivial)
              (fun _ _ _ => trivial) _ (fun c st0 _ => ih c alloc st0) _ _
              (fun _ _ => trivial) x hx

/-- A relation between states that is reflexive, transitive and kept by the
update of a node is kept by the loop over the children when the driver called
on a child keeps it. -/
theorem visitChildren_keeps {T : Sig} (f : BuildRecord T → State T → Result T × State T)
    (node : T.N) (R : State T → State T → Prop) (hrefl : ∀ st, R st st)
    (htrans : ∀ a b c, R a b → R b c → R a c)
    (hemit : ∀ (st : State T) (i : Nat) (v : Value T), R st (st.emit (.updateNode node i v)))
    (hf : ∀ c st, R st (f c st).2) :
    ∀ (l : List (Nat × BuildRecord T)) (st : State T), R st (visitChildren f node l st).2 := by
  intro l
  induction l with
  | nil => intro st; exact hrefl st
  | cons ic rest ih =>
    intro st
    obtain ⟨i, c⟩ := ic
    have h1 := hf c st
    rw [MSMBlur.visitChildren]
    cases hfc : f c st with
    | mk r st1 =>
      rw [hfc] at h1
      cases r with
      | error e => exact h1
      | ok v =>
        simp only at h1 ⊢
        have h2 := ih (st1.emit (.updateNode node i v))
        have h3 := htrans _ _ _ (htrans _ _ _ h1 (hemit st1 i v)) h2
        cases hv : visitChildren f node rest (st1.emit (.updateNode node i v)) with
        | mk r2 st2 =>
          rw [hv] at h3
          cases r2 <;> exact h3

/-- Rule for `createLargeLeaf` with a branching factor of at most 8: a
relation between states that is reflexive and transitive is kept by every
call when it is kept by the creation of a leaf, by the update of a node, by
the deletion of buffers and by the growth loop followed by the creation of the
node. Nothing else happens in a call. -/
theorem createLargeLeaf_rule {T : Sig} (env : Env T) (s : Settings T)
    (hbf : s.branchingFactor ≤ 8) (R : State T → State T → Prop) (hrefl : ∀ st, R st st)
    (htrans : ∀ a b c, R a b → R b c → R a c)
    (hleaf : ∀ (st : State T) (r : BuildRecord T) (a : Alloc),
      R st (st.emit (.createLeaf r a st.heap)))
    (hupd : ∀ (st : State T) (n : T.N) (i : Nat) (v : Value T),
      R st (st.emit (.updateNode n i v)))
    (hdel : ∀ (st : State T) (deleted : List Nat), R st (st.emits (deleted.map Event.delete)))
    (hnode : ∀ (cur : BuildRecord T) (st : State T) (ch : LocalChildListT T) (st1 : State T)
      (alloc : Alloc), cur.split = findFallback env s st.heap cur →
      largeLeafGrow env s cur.depth (s.branchingFactor + 1) (LocalChildListT.new cur) st
        = (.ok ch, st1) →
      R st (st1.emit (.createNode (hasTimeSplits env cur ch) alloc
        (env.createNode (hasTimeSplits env cur ch) alloc)))) :
    ∀ (fuel : Nat) (current : BuildRecord T) (alloc : Alloc) (st : State T),
      R st (createLargeLeaf env s fuel current alloc st).2 := by
  intro fuel
  induction fuel with
  | zero => intro current alloc st; exact hrefl st
  | succ fuel ih =>
    intro current alloc st
    rw [MSMBlur.createLargeLeaf]
    split
    · exact hrefl st
    · simp only
      split
      · exact hleaf st _ alloc
      · obtain ⟨ch, st1, hg, -, -⟩ := largeLeafGrow_ok env s hbf
          { current with split := findFallback env s st.heap current } st
        rw [hg]
        simp only
        have h1 := hnode { current with split := findFallback env s st.heap current } st ch st1
          alloc (findFallback_congr env s _ _ _ rfl) hg
        have h2 := visitChildren_keeps
          (fun c st => MSMBlur.createLargeLeaf env s fuel c alloc st)
          (env.createNode (hasTimeSplits env
            { current with split := findFallback env s st.heap current } ch) alloc)
          R hrefl htrans (fun st0 i v => hupd st0 _ i v) (fun c st0 => ih c alloc st0)
          ch.children.enum
          (st1.emit (.createNode (hasTimeSplits env
            { current with split := findFallback env s st.heap current } ch) alloc
            (env.createNode (hasTimeSplits env
              { current with split := findFallback env s st.heap current } ch) alloc)))
        refine htrans _ _ _ (htrans _ _ _ h1 h2) ?_
        unfold MSMBlur.finishNode
        split <;> exact hdel _ _

/-- The growth loop of `createLargeLeaf`, when it ends normally, has added
deletions of buffers to the trace and nothing else. -/
theorem largeLeafGrow_trace {T : Sig} (env : Env T) (s : Settings T) (depth n : Nat)
    (c : LocalChildListT T) (st : State T) (c1 : LocalChildListT T) (st1 : State T)
    (h : largeLeafGrow env s depth n c st = (.ok c1, st1)) :
    ∃ ds : List Nat, st1.trace = st.trace ++ ds.map Event.delete :=
  largeLeafGrow_partial env s depth
    (fun _ st1 => ∃ ds : List Nat, st1.trace = st.trace ++ ds.map Event.delete)
    (by
      intro c st1 best brecord c1 deleted ⟨ds, hds⟩ _ _ _ _
      refine ⟨ds ++ deleted, ?_⟩
      simp only [State.emits, hds, List.map_append, List.append_assoc])
    n c st c1 st1 ⟨[], by simp⟩ h

/-- Sorting an object range keeps the number of buffers. -/
theorem deterministic_order_heap_length {T : Sig} (env : Env T) (heap : Heap T) (set : SetMB T) :
    (deterministic_order env heap set).length = heap.length := by
  simp [deterministic_order, Heap.write]

/-- The split of `findFallback` without `singleLeafTimeSegment` is a fallback
split. -/
theorem findFallback_off {T : Sig} (env : Env T) (s : Settings T)
    (hflag : s.singleLeafTimeSegment = false) (heap : Heap T) (c : BuildRecord T) :
    (findFallback env s heap c).data = SPLIT_FALLBACK := by
  rcases findFallback_data env s heap c with h | ⟨-, h, -⟩
  · exact h
  · rw [hflag] at h
    cases h

/-- The growth loop of `createLargeLeaf` without `singleLeafTimeSegment`, on
the record of the node with a fallback split, when it ends normally: the
number of buffers is unchanged, and every child has a fallback split and the
time range of the record. -/
theorem largeLeafGrow_fallback_only {T : Sig} (env : Env T) (s : Settings T)
    (hflag : s.singleLeafTimeSegment = false) (cur : BuildRecord T) (st : State T) (n : Nat)
    (hcur : cur.split.data = SPLIT_FALLBACK) (c1 : LocalChildListT T) (st1 : State T)
    (h : largeLeafGrow env s cur.depth n (LocalChildListT.new cur) st = (.ok c1, st1)) :
    st1.heap.length = st.heap.length ∧
    ∀ ch ∈ c1.children, ch.split.data = SPLIT_FALLBACK ∧
      ch.prims.time_range = cur.prims.time_range :=
  largeLeafGrow_partial env s cur.depth
    (fun c st1 => st1.heap.length = st.heap.length ∧
      ∀ ch ∈ c.children, ch.split.data = SPLIT_FALLBACK ∧
        ch.prims.time_range = cur.prims.time_range)
    (by
      intro c st1 best brecord c1 deleted ⟨hlen, hch⟩ _ hb _ hc1
      obtain ⟨hbd, hbt⟩ := hch brecord (List.getElem?_mem hb)
      have hp := partition_fallback_eq env st1.heap brecord hbd
      refine ⟨?_, ?_⟩
      · show (partition env st1.heap brecord).1.length = st.heap.length
        rw [hp]
        simp only
        rw [deterministic_order_heap_length, hlen]
      · refine children_step
          (fun ch : BuildRecord T => ch.split.data = SPLIT_FALLBACK ∧
            ch.prims.time_range = cur.prims.time_range) _ _ _ _ _ hc1 hch ?_ ?_
        · refine ⟨findFallback_off env s hflag _ _, ?_⟩
          show (partition env st1.heap brecord).2.1.time_range = cur.prims.time_range
          rw [hp]
          exact hbt
        · refine ⟨findFallback_off env s hflag _ _, ?_⟩
          show (partition env st1.heap brecord).2.2.1.time_range = cur.prims.time_range
          rw [hp]
          exact hbt)
    n (LocalChildListT.new cur) st c1 st1
    ⟨rfl, by
      intro ch hch
      simp only [LocalChildListT.new, List.mem_singleton] at hch
      subst hch
      exact ⟨hcur, rfl⟩⟩ h

/-- No time split is flagged when every child has the time range of the
record and a time range does not differ from itself. -/
theorem hasTimeSplits_eq_false {T : Sig} (env : Env T) (hne : ∀ r, env.timeRangeNe r r = false)
    (cur : BuildRecord T) (ch : LocalChildListT T)
    (h : ∀ c ∈ ch.children, c.prims.time_range = cur.prims.time_range) :
    hasTimeSplits env cur ch = false := by
  cases hts : hasTimeSplits env cur ch with
  | false => rfl
  | true =>
    obtain ⟨c, hc, hct⟩ := (hasTimeSplits_iff env cur ch).1 hts
    rw [h c hc, hne] at hct
    cases hct

/-- The events of a call of `createLargeLeaf`: the trace is extended by
creations of leaves, creations of nodes, updates of nodes and deletions of
buffers only, and the flag of every created node satisfies `F` when the flag
computed after a growth loop that started from a split of `findFallback`
does. -/
theorem createLargeLeaf_events {T : Sig} (env : Env T) (s : Settings T)
    (hbf : s.branchingFactor ≤ 8) (F : Bool → Prop)
    (hF : ∀ (cur : BuildRecord T) (st : State T) (ch : LocalChildListT T) (st1 : State T),
      cur.split = findFallback env s st.heap cur →
      largeLeafGrow env s cur.depth (s.branchingFactor + 1) (LocalChildListT.new cur) st
        = (.ok ch, st1) → F (hasTimeSplits env cur ch))
    (fuel : Nat) (current : BuildRecord T) (alloc : Alloc) (st : State T) :
    ∃ evs, (createLargeLeaf env s fuel current alloc st).2.trace = st.trace ++ evs ∧
      ∀ e ∈ evs, LargeLeafEvent F e := by
  refine createLargeLeaf_rule env s hbf
    (fun st st1 => ∃ evs, st1.trace = st.trace ++ evs ∧ ∀ e ∈ evs, LargeLeafEvent F e)
    (fun st => ⟨[], by simp, by simp⟩) ?_ ?_ ?_ ?_ ?_ fuel current alloc st
  · rintro a b c ⟨e1, h1, hp1⟩ ⟨e2, h2, hp2⟩
    refine ⟨e1 ++ e2, by rw [h2, h1, List.append_assoc], ?_⟩
    intro e he
    rcases List.mem_append.1 he with he | he
    · exact hp1 e he
    · exact hp2 e he
  · intro st r a
    refine ⟨[.createLeaf r a st.heap], rfl, ?_⟩
    intro e he
    rw [List.mem_singleton] at he
    subst he
    exact trivial
  · intro st n i v
    refine ⟨[.updateNode n i v], rfl, ?_⟩
    intro e he
    rw [List.mem_singleton] at he
    subst he
    exact trivial
  · intro st deleted
    refine ⟨deleted.map Event.delete, rfl, ?_⟩
    intro e he
    obtain ⟨d, -, rfl⟩ := List.mem_map.1 he
    exact trivial
  · intro cur st ch st1 alloc hcur hg
    obtain ⟨ds, hds⟩ := largeLeafGrow_trace env s _ _ _ _ _ _ hg
    refine ⟨ds.map Event.delete ++ [.createNode (hasTimeSplits env cur ch) alloc
      (env.createNode (hasTimeSplits env cur ch) alloc)], ?_, ?_⟩
    · show st1.trace ++ _ = _
      rw [hds, List.append_assoc]
    · intro e he
      rcases List.mem_append.1 he with he | he
      · obtain ⟨d, -, rfl⟩ := List.mem_map.1 he
        exact trivial
      · rw [List.mem_singleton] at he
        subst he
        exact hF cur st ch st1 hcur hg

/-- A call of `createLargeLeaf` without `singleLeafTimeSegment` keeps the
number of buffers. -/
theorem createLargeLeaf_heap_length {T : Sig} (env : Env T) (s : Settings T)
    (hbf : s.branchingFactor ≤ 8) (hflag : s.singleLeafTimeSegment = false)
    (fuel : Nat) (current : BuildRecord T) (alloc : Alloc) (st : State T) :
    (createLargeLeaf env s fuel current alloc st).2.heap.length = st.heap.length := by
  refine createLargeLeaf_rule env s hbf
    (fun st st1 => st1.heap.length = st.heap.length)
    (fun st => rfl) (fun a b c h1 h2 => h2.trans h1) (fun _ _ _ => rfl) (fun _ _ _ _ => rfl)
    (fun _ _ => rfl) ?_ fuel current alloc st
  intro cur st ch st1 alloc hcur hg
  exact (largeLeafGrow_fallback_only env s hflag cur st _
    (by rw [hcur]; exact findFallback_off env s hflag _ _) ch st1 hg).1

/-- C24: the large-leaf builder does not go back to the cost-driven driver.
For a builder with a branching factor of at most 8 and every call of
`createLargeLeaf`: (1) the split that the record carries is discarded, the
result, the final state and the partitions of the call do not depend on it;
(2) every record partitioned in the subtree of the call carries a split
computed by `findFallback`, tagged as a fallback or as a temporal split;
(3) the call extends the trace by creations of leaves and of nodes, updates of
nodes and deletions of buffers only, so no split finder is invoked; (4) with
`singleLeafTimeSegment` off every partition of the subtree is a fallback
split, returns no new backing buffer and keeps the number of buffers, the call
as a whole keeps the number of buffers, and, when a time range does not differ
from itself, the flag passed to every creation of a node is false. -/
theorem large_leaf_uses_fallback_splits {T : Sig} (env : Env T) (s : Settings T)
    (hbf : s.branchingFactor ≤ 8) (fuel : Nat) (current : BuildRecord T) (alloc : Alloc)
    (st : State T) :
    (∀ split : Split T,
      createLargeLeaf env s fuel { current with split := split } alloc st =
        createLargeLeaf env s fuel current alloc st ∧
      createLargeLeafLog env s fuel { current with split := split } alloc st =
        createLargeLeafLog env s fuel current alloc st) ∧
    (∀ x ∈ createLargeLeafLog env s fuel current alloc st,
      (∃ h0, x.2.split = findFallback env s h0 x.2) ∧
      (x.2.split.data = SPLIT_FALLBACK ∨ x.2.split.data = SPLIT_TEMPORAL)) ∧
    (∃ evs, (createLargeLeaf env s fuel current alloc st).2.trace = st.trace ++ evs ∧
      ∀ e ∈ evs, LargeLeafEvent (fun _ => True) e) ∧
    (s.singleLeafTimeSegment = false →
      (∀ x ∈ createLargeLeafLog env s fuel current alloc st,
        x.2.split.data = SPLIT_FALLBACK ∧ (partition env x.1 x.2).2.2.2 = none ∧
        (partition env x.1 x.2).1.length = x.1.length) ∧
      (createLargeLeaf env s fuel current alloc st).2.heap.length = st.heap.length ∧
      ((∀ r, env.timeRangeNe r r = false) →
        ∃ evs, (createLargeLeaf env s fuel current alloc st).2.trace = st.trace ++ evs ∧
          ∀ e ∈ evs, LargeLeafEvent (fun flag => flag = false) e)) := by
  refine ⟨fun split => ⟨createLargeLeaf_split_discarded env s fuel current split alloc st,
    createLargeLeafLog_split_discarded env s fuel current split alloc st⟩, ?_,
    createLargeLeaf_events env s hbf (fun _ => True) (fun _ _ _ _ _ _ => trivial) fuel current
      alloc st, ?_⟩
  · intro x hx
    obtain ⟨h0, hh⟩ := createLargeLeafLog_findFallback env s fuel current alloc st x hx
    refine ⟨⟨h0, hh⟩, ?_⟩
    rw [hh]
    rcases findFallback_data env s h0 x.2 with h | ⟨h, -⟩
    · exact Or.inl h
    · exact Or.inr h
  · intro hflag
    refine ⟨?_, createLargeLeaf_heap_length env s hbf hflag fuel current alloc st, ?_⟩
    · intro x hx
      obtain ⟨h0, hh⟩ := createLargeLeafLog_findFallback env s fuel current alloc st x hx
      have hd : x.2.split.data = SPLIT_FALLBACK := by
        rw [hh]
        exact findFallback_off env s hflag h0 x.2
      have hp := partition_fallback_eq env x.1 x.2 hd
      refine ⟨hd, ?_, ?_⟩
      · rw [hp]
      · rw [hp]
        exact deterministic_order_heap_length env x.1 x.2.prims
    · intro hne
      refine createLargeLeaf_events env s hbf (fun flag => flag = false) ?_ fuel current alloc st
      intro cur st0 ch st1 hcur hg
      refine hasTimeSplits_eq_false env hne cur ch ?_
      intro c hc
      exact ((largeLeafGrow_fallback_only env s hflag cur st0 _
        (by rw [hcur]; exact findFallback_off env s hflag _ _) ch st1 hg).2 c hc).2

/-- Witness for C24: the default settings and a record of 10 primitives. -/
theorem large_leaf_uses_fallback_splits_witness :
    exSettings.branchingFactor ≤ 8 ∧ exSettings.singleLeafTimeSegment = false ∧
    (∀ r, exEnv.timeRangeNe r r = false) ∧
    (createLargeLeafLog exEnv exSettings 2 (exChild 0 0 10 1) (some 0) (exState 10)).length = 1 ∧
    ((∀ split : Split ExSig,
      createLargeLeaf exEnv exSettings 2 { exChild 0 0 10 1 with split := split } (some 0)
          (exState 10) =
        createLargeLeaf exEnv exSettings 2 (exChild 0 0 10 1) (some 0) (exState 10) ∧
      createLargeLeafLog exEnv exSettings 2 { exChild 0 0 10 1 with split := split } (some 0)
          (exState 10) =
        createLargeLeafLog exEnv exSettings 2 (exChild 0 0 10 1) (some 0) (exState 10)) ∧
    (∀ x ∈ createLargeLeafLog exEnv exSettings 2 (exChild 0 0 10 1) (some 0) (exState 10),
      (∃ h0, x.2.split = findFallback exEnv exSettings h0 x.2) ∧
      (x.2.split.data = SPLIT_FALLBACK ∨ x.2.split.data = SPLIT_TEMPORAL)) ∧
    (∃ evs, (createLargeLeaf exEnv exSettings 2 (exChild 0 0 10 1) (some 0)
        (exState 10)).2.trace = (exState 10).trace ++ evs ∧
      ∀ e ∈ evs, LargeLeafEvent (fun _ => True) e) ∧
    (exSettings.singleLeafTimeSegment = false →
      (∀ x ∈ createLargeLeafLog exEnv exSettings 2 (exChild 0 0 10 1) (some 0) (exState 10),
        x.2.split.data = SPLIT_FALLBACK ∧ (partition exEnv x.1 x.2).2.2.2 = none ∧
        (partition exEnv x.1 x.2).1.length = x.1.length) ∧
      (createLargeLeaf exEnv exSettings 2 (exChild 0 0 10 1) (some 0)
        (exState 10)).2.heap.length = (exState 10).heap.length ∧
      ((∀ r, exEnv.timeRangeNe r r = false) →
        ∃ evs, (createLargeLeaf exEnv exSettings 2 (exChild 0 0 10 1) (some 0)
            (exState 10)).2.trace = (exState 10).trace ++ evs ∧
          ∀ e ∈ evs, LargeLeafEvent (fun flag => flag = false) e))) :=
  ⟨by decide, rfl, by intro r; simp [exEnv], by decide,
    large_leaf_uses_fallback_splits exEnv exSettings (by decide) 2 (exChild 0 0 10 1)
    (some 0) (exState 10)⟩

/-! ## Fallback splits halve a record -/

/-- Under the contracts of the two partitioners no step of the drivers
shortens a buffer. -/
theorem heapLe_driverRel {T : Sig} (env : Env T) (hT : TemporalContract env)
    (hO : ObjectContract env) :
    DriverRel env (fun _ => True) (fun a b : State T => Heap.le a.heap b.heap) :=
  ⟨fun _ => Heap.le_refl _, fun _ _ _ => Heap.le_trans, fun _ _ _ => Heap.le_refl _,
    fun st brecord => partition_le env st.heap brecord (fun _ => hT) (fun _ _ => hO),
    fun st set => deterministic_order_le env st.heap set, fun _ => Heap.le_refl _⟩

/-- The sizes of the two sets of a fallback split of a set of `n` primitives
that satisfies the invariant: `n / 2` and `(n + 1) / 2`. -/
theorem partition_fallback_halves {T : Sig} (env : Env T) (heap : Heap T)
    (brecord : BuildRecord T) (hwf : SetMB.WF heap brecord.prims)
    (hd : brecord.split.data = SPLIT_FALLBACK) :
    (partition env heap brecord).2.1.size = brecord.prims.size / 2 ∧
    (partition env heap brecord).2.2.1.size = (brecord.prims.size + 1) / 2 := by
  rw [partition_fallback_eq env heap brecord hd]
  have hwf1 := hwf.mono (deterministic_order_le env heap brecord.prims)
  obtain ⟨hl, -, hsum⟩ := splitFallback_WF env _ _ hwf1
  have h1 : (splitFallback env (deterministic_order env heap brecord.prims) brecord.prims).1.size
      = wrap (brecord.prims.object_range._begin + brecord.prims.object_range._end) / 2
        - brecord.prims.object_range._begin := hl.size_eq
  rw [hwf.wrap_eq] at h1
  have h2 := hwf.size_eq
  have h3 := hwf.le
  simp only
  omega

/-- One split of a growth loop keeps the invariant of the sets of all
children, under the contracts of the two partitioners. -/
theorem children_WF_step {T : Sig} (env : Env T) (hT : TemporalContract env)
    (hO : ObjectContract env) (heap : Heap T) (brecord l r : BuildRecord T)
    (c c1 : List (BuildRecord T)) (best : Nat)
    (hl : l.prims = (partition env heap brecord).2.1)
    (hr : r.prims = (partition env heap brecord).2.2.1)
    (hc1 : c1 = c.set best l ++ [r])
    (hinv : ∀ ch ∈ c, SetMB.WF heap ch.prims) (hmem : brecord ∈ c) :
    ∀ ch ∈ c1, SetMB.WF (partition env heap brecord).1 ch.prims := by
  have hp := partition_WF env heap brecord (hinv _ hmem) (fun _ => hT) (fun _ _ => hO)
  refine children_step (fun ch : BuildRecord T => SetMB.WF (partition env heap brecord).1 ch.prims)
    _ _ _ _ _ hc1 (fun ch hch => (hinv ch hch).mono hp.1) ?_ ?_
  · show SetMB.WF _ l.prims
    rw [hl]
    exact hp.2.1
  · show SetMB.WF _ r.prims
    rw [hr]
    exact hp.2.2

/-- The growth loop of `createLargeLeaf`, when it ends normally, leaves
children whose sets satisfy the invariant. -/
theorem largeLeafGrow_WF {T : Sig} (env : Env T) (s : Settings T) (hT : TemporalContract env)
    (hO : ObjectContract env) (depth n : Nat) (c : LocalChildListT T) (st : State T)
    (c1 : LocalChildListT T) (st1 : State T)
    (hinv : ∀ ch ∈ c.children, SetMB.WF st.heap ch.prims)
    (h : largeLeafGrow env s depth n c st = (.ok c1, st1)) :
    ∀ ch ∈ c1.children, SetMB.WF st1.heap ch.prims :=
  largeLeafGrow_partial env s depth
    (fun c st => ∀ ch ∈ c.children, SetMB.WF st.heap ch.prims)
    (by
      intro c st best brecord c1 deleted hinv _ hbr _ hc1
      exact children_WF_step env hT hO st.heap brecord _ _ _ _ best rfl rfl hc1 hinv
        (List.getElem?_mem hbr))
    n c st c1 st1 hinv h

/-- The growth loop of `recurse`, when it ends normally, leaves children
whose sets satisfy the invariant. -/
theorem recurseGrow_WF {T : Sig} (env : Env T) (s : Settings T) (hT : TemporalContract env)
    (hO : ObjectContract env) (depth n : Nat) (c : LocalChildListT T) (st : State T)
    (c1 : LocalChildListT T) (st1 : State T)
    (hinv : ∀ ch ∈ c.children, SetMB.WF st.heap ch.prims)
    (h : recurseGrow env s depth n c st = (.ok c1, st1)) :
    ∀ ch ∈ c1.children, SetMB.WF st1.heap ch.prims :=
  recurseGrow_partial env s depth
    (fun c st => ∀ ch ∈ c.children, SetMB.WF st.heap ch.prims)
    (by
      intro c st best brecord c1 deleted hinv _ hbr _ hc1
      exact children_WF_step env hT hO st.heap brecord _ _ _ _ best rfl rfl hc1 hinv
        (List.getElem?_mem hbr))
    n c st c1 st1 hinv h

/-- Every record partitioned by the growth loop of `createLargeLeaf` has a set
that satisfies the invariant, and at least two primitives when its split is a
fallback split and `maxLeafSize` is at least 1. -/
theorem largeLeafGrowLog_halves {T : Sig} (env : Env T) (s : Settings T)
    (hT : TemporalContract env) (hO : ObjectContract env) (hmax : 1 ≤ s.maxLeafSize)
    (depth : Nat) :
    ∀ (n : Nat) (c : LocalChildListT T) (st : State T),
      (∀ ch ∈ c.children, SetMB.WF st.heap ch.prims) →
      ∀ x ∈ largeLeafGrowLog env s depth n c st,
        SetMB.WF x.1 x.2.prims ∧ (x.2.split.data = SPLIT_FALLBACK → 2 ≤ x.2.prims.size) :=
  largeLeafGrowLog_rule env s depth
    (fun c st => ∀ ch ∈ c.children, SetMB.WF st.heap ch.prims)
    (fun x => SetMB.WF x.1 x.2.prims ∧ (x.2.split.data = SPLIT_FALLBACK → 2 ≤ x.2.prims.size))
    (by
      intro c st best brecord hinv hb hbr
      have hmem := List.getElem?_mem hbr
      refine ⟨⟨hinv _ hmem, ?_⟩, ?_⟩
      · intro hd
        show 2 ≤ brecord.prims.size
        rcases largeLeafBest_some s c.children 0 none 0 best hb with h | ⟨c0, hc0, -, hleaf, -⟩
        · cases h
        · rw [Nat.sub_zero, hbr] at hc0
          cases hc0
          rcases (isLargeLeaf_eq_false s brecord).1 hleaf with h | h
          · omega
          · rw [hd] at h
            exact absurd h (by decide)
      · intro c1 deleted _ hc1
        exact children_WF_step env hT hO st.heap brecord _ _ _ _ best rfl rfl hc1 hinv hmem)

/-- Every record partitioned by the growth loop of `recurse` has a set that
satisfies the invariant, and at least two primitives when `minLeafSize` is at
least 1. -/
theorem recurseGrowLog_halves {T : Sig} (env : Env T) (s : Settings T)
    (hT : TemporalContract env) (hO : ObjectContract env) (hmin : 1 ≤ s.minLeafSize)
    (depth : Nat) :
    ∀ (n : Nat) (c : LocalChildListT T) (st : State T),
      (∀ ch ∈ c.children, SetMB.WF st.heap ch.prims) →
      ∀ x ∈ recurseGrowLog env s depth n c st,
        SetMB.WF x.1 x.2.prims ∧ (x.2.split.data = SPLIT_FALLBACK → 2 ≤ x.2.prims.size) :=
  recurseGrowLog_rule env s depth
    (fun c st => ∀ ch ∈ c.children, SetMB.WF st.heap ch.prims)
    (fun x => SetMB.WF x.1 x.2.prims ∧ (x.2.split.data = SPLIT_FALLBACK → 2 ≤ x.2.prims.size))
    (by
      intro c st best brecord hinv hb hbr
      have hmem := List.getElem?_mem hbr
      refine ⟨⟨hinv _ hmem, ?_⟩, ?_⟩
      · intro _
        show 2 ≤ brecord.prims.size
        rcases recurseBest_some env s c.children 0 none env.neg_inf best hb with
          h | ⟨c0, hc0, -, hsize⟩
        · cases h
        · rw [Nat.sub_zero, hbr] at hc0
          cases hc0
          omega
      · intro c1 deleted _ hc1
        exact children_WF_step env hT hO st.heap brecord _ _ _ _ best rfl rfl hc1 hinv hmem)

/-- Every record partitioned during a call of `createLargeLeaf` on a set that
satisfies the invariant has a set that satisfies the invariant, and at least
two primitives when its split is a fallback split and `maxLeafSize` is at
least 1. -/
theorem createLargeLeafLog_halves {T : Sig} (env : Env T) (s : Settings T)
    (hT : TemporalContract env) (hO : ObjectContract env) (hmax : 1 ≤ s.maxLeafSize) :
    ∀ (fuel : Nat) (current : BuildRecord T) (alloc : Alloc) (st : State T),
      SetMB.WF st.heap current.prims →
      ∀ x ∈ createLargeLeafLog env s fuel current alloc st,
        SetMB.WF x.1 x.2.prims ∧ (x.2.split.data = SPLIT_FALLBACK → 2 ≤ x.2.prims.size) := by
  intro fuel
  induction fuel with
  | zero => intro current alloc st _ x hx; simp [createLargeLeafLog] at hx
  | succ fuel ih =>
    intro current alloc st hwf x hx
    have hnew : ∀ ch ∈ (LocalChildListT.new
        { current with split := findFallback env s st.heap current }).children,
        SetMB.WF st.heap ch.prims := by
      intro ch hch
      simp only [LocalChildListT.new, List.mem_singleton] at hch
      subst hch
      exact hwf
    rw [createLargeLeafLog] at hx
    split at hx
    · simp at hx
    · simp only at hx
      split at hx
      · simp at hx
      · rcases List.mem_append.1 hx with hx | hx
        · exact largeLeafGrowLog_halves env s hT hO hmax _ _ _ st hnew x hx
        · split at hx
          · simp at hx
          · next children st1 hg =>
            have hch := largeLeafGrow_WF env s hT hO _ _ _ _ _ _ hnew hg
            refine visitLog_rule _ _ _ (fun a b : State T => Heap.le a.heap b.heap)
              (fun _ _ _ => Heap.le_trans) (fun _ _ _ => Heap.le_refl _)
              (fun c st => SetMB.WF st.heap c.prims) (fun c st st1 h hle => h.mono hle)
              (fun c st0 _ => (heapLe_driverRel env hT hO).createLargeLeaf
                ⟨fun _ => trivial, fun _ => trivial, fun _ => trivial⟩
                ⟨fun _ _ _ => trivial, fun _ _ _ => trivial⟩ (fun _ _ _ => trivial) s fuel c
                alloc st0)
              _ (fun c st0 hc => ih c alloc st0 hc) _ _ ?_ x hx
            intro ic hic
            refine hch ic.2 ?_
            have := List.mem_map_of_mem Prod.snd hic
            rwa [enum_map_snd] at this

/-- Every record partitioned during a call of `recurse` on a set that
satisfies the invariant has a set that satisfies the invariant, and at least
two primitives when its split is a fallback split and `minLeafSize` and
`maxLeafSize` are at least 1. -/
theorem recurseLog_halves {T : Sig} (env : Env T) (s : Settings T)
    (hT : TemporalContract env) (hO : ObjectContract env) (hmax : 1 ≤ s.maxLeafSize)
    (hmin : 1 ≤ s.minLeafSize) :
    ∀ (fuel : Nat) (current : BuildRecord T) (alloc : Alloc) (toplevel : Bool) (st : State T),
      SetMB.WF st.heap current.prims →
      ∀ x ∈ recurseLog env s fuel current alloc toplevel st,
        SetMB.WF x.1 x.2.prims ∧ (x.2.split.data = SPLIT_FALLBACK → 2 ≤ x.2.prims.size) := by
  intro fuel
  induction fuel with
  | zero => intro current alloc toplevel st _ x hx; simp [recurseLog] at hx
  | succ fuel ih =>
    intro current alloc toplevel st hwf x hx
    have hwf0 : SetMB.WF (recurseEnter s current alloc toplevel st).2.heap current.prims := by
      rw [recurseEnter_heap]
      exact hwf
    have hnew : ∀ ch ∈ (LocalChildListT.new current).children,
        SetMB.WF (recurseEnter s current alloc toplevel st).2.heap ch.prims := by
      intro ch hch
      simp only [LocalChildListT.new, List.mem_singleton] at hch
      subst hch
      exact hwf0
    have hvisit : ∀ (a : Alloc) (t : Bool) (node : T.N) (l : List (Nat × BuildRecord T))
        (st2 : State T), (∀ ic ∈ l, SetMB.WF st2.heap ic.2.prims) →
        ∀ x ∈ visitLog (fun c st => recurse env s fuel c a t st)
          (fun c st => recurseLog env s fuel c a t st) node l st2,
          SetMB.WF x.1 x.2.prims ∧ (x.2.split.data = SPLIT_FALLBACK → 2 ≤ x.2.prims.size) := by
      intro a t node l st2 hl
      exact visitLog_rule _ _ _ (fun a b : State T => Heap.le a.heap b.heap)
        (fun _ _ _ => Heap.le_trans) (fun _ _ _ => Heap.le_refl _)
        (fun c st => SetMB.WF st.heap c.prims) (fun c st st1 h hle => h.mono hle)
        (fun c st0 _ => (heapLe_driverRel env hT hO).recurse (fun _ => trivial) s fuel c a t st0)
        _ (fun c st0 hc => ih c a t st0 hc) l st2 hl
    rw [recurseLog] at hx
    simp only at hx
    split at hx
    · exact createLargeLeafLog_halves env s hT hO hmax fuel current _ _
        (hwf0.mono (deterministic_order_le env _ current.prims)) x hx
    · rcases List.mem_append.1 hx with hx | hx
      · exact recurseGrowLog_halves env s hT hO hmin _ _ _ _ hnew x hx
      · split at hx
        · simp at hx
        · next children st1 hg =>
          have hch := recurseGrow_WF env s hT hO _ _ _ _ _ _ hnew hg
          split at hx
          · refine hvisit _ _ _ _ _ ?_ x hx
            intro ic hic
            refine hch ic.2 ?_
            have := List.mem_map_of_mem Prod.snd hic
            rwa [enum_map_snd] at this
          · refine hvisit _ _ _ _ _ ?_ x hx
            intro ic hic
            refine hch ic.2 ?_
            have := List.mem_map_of_mem Prod.snd hic
            rw [enum_reverse_map_snd] at this
            exact List.mem_reverse.1 this

/-- C21, as stated, fails: `maxLeafSize >= 1` does not keep a fallback split
away from a record of one primitive. With `minLeafSize = 0`, `maxLeafSize = 1`
and a branching factor of 3, over three primitives for which the object
heuristic finds no split, the build returns normally, and the second
partition of the build is a fallback split of a record of one primitive: its
left child is empty and its right child holds the primitive, so the right
child is not smaller than the record. -/
theorem fallback_split_single_counterexample :
    1 ≤ exSettingsZero.maxLeafSize ∧
    (∃ v, (build exFallbackEnv exSettingsZero 10 (exPrims 3) (exSet 3).pinfo).1 = .ok v) ∧
    ∃ x, (buildLog exFallbackEnv exSettingsZero 10 (exPrims 3) (exSet 3).pinfo)[1]? = some x ∧
      x.2.split.data = SPLIT_FALLBACK ∧ x.2.prims.size = 1 ∧
      x.2.prims.object_range = ⟨0, 1⟩ ∧
      (partition exFallbackEnv x.1 x.2).2.1.size = 0 ∧
      (partition exFallbackEnv x.1 x.2).2.1.object_range = ⟨0, 0⟩ ∧
      (partition exFallbackEnv x.1 x.2).2.2.1.size = 1 ∧
      (partition exFallbackEnv x.1 x.2).2.2.1.object_range = ⟨0, 1⟩ :=
  ⟨by decide, ⟨_, rfl⟩, _, rfl, rfl, rfl, rfl, rfl, rfl, rfl, rfl⟩

/-- C21, amended: every fallback split performed during a build with
`maxLeafSize >= 1` and `minLeafSize >= 1` succeeds with two non-empty
children. For partitioners that keep the invariant of the sets and an input
whose count of primitives fits the buffer, every record partitioned during the
build by a fallback split has `n >= 2` primitives in a set that satisfies the
invariant, its left child receives `n / 2` and its right child `(n + 1) / 2` of
them, and both children are non-empty and smaller than the record. -/
theorem fallback_split_halves {T : Sig} (env : Env T) (settings : Settings T)
    (hT : TemporalContract env) (hO : ObjectContract env)
    (hmax : 1 ≤ settings.maxLeafSize) (hmin : 1 ≤ settings.minLeafSize) (fuel : Nat)
    (prims : List (PrimRefMB T)) (pinfo : PrimInfoMB T) (hnum : pinfo.num ≤ prims.length)
    (hsmall : pinfo.num < 9223372036854775808) :
    ∀ x ∈ buildLog env settings fuel prims pinfo, x.2.split.data = SPLIT_FALLBACK →
      SetMB.WF x.1 x.2.prims ∧ 2 ≤ x.2.prims.size ∧
      (partition env x.1 x.2).2.1.size = x.2.prims.size / 2 ∧
      (partition env x.1 x.2).2.2.1.size = (x.2.prims.size + 1) / 2 ∧
      0 < (partition env x.1 x.2).2.1.size ∧
      (partition env x.1 x.2).2.1.size < x.2.prims.size ∧
      0 < (partition env x.1 x.2).2.2.1.size ∧
      (partition env x.1 x.2).2.2.1.size < x.2.prims.size := by
  intro x hx hd
  have hP : SetMB.WF x.1 x.2.prims ∧ (x.2.split.data = SPLIT_FALLBACK → 2 ≤ x.2.prims.size) := by
    unfold buildLog BuilderT.new at hx
    split at hx
    · simp at hx
    · next s hs =>
      split at hs
      · cases hs
      · cases hs
        refine recurseLog_halves env settings hT hO hmax hmin fuel _ none true _ ?_ x hx
        exact ⟨by simp [rootRecord, rootSet, SetMB.size], Nat.zero_le _,
          by simpa [rootRecord, rootSet, State.emits, Heap.read] using hnum, hsmall⟩
  obtain ⟨h1, h2⟩ := partition_fallback_halves env x.1 x.2 hP.1 hd
  have h3 := hP.2 hd
  refine ⟨hP.1, h3, h1, h2, ?_, ?_, ?_, ?_⟩ <;> omega

/-- Witness for C21: three primitives for which the object heuristic finds no
split, with leaves of at most one primitive and a branching factor of 3; the
build performs two fallback splits. -/
theorem fallback_split_halves_witness :
    (buildLog exFallbackEnv exSettingsThree 10 (exPrims 3) (exSet 3).pinfo).length = 2 ∧
    ∀ x ∈ buildLog exFallbackEnv exSettingsThree 10 (exPrims 3) (exSet 3).pinfo,
      x.2.split.data = SPLIT_FALLBACK →
      SetMB.WF x.1 x.2.prims ∧ 2 ≤ x.2.prims.size ∧
      (partition exFallbackEnv x.1 x.2).2.1.size = x.2.prims.size / 2 ∧
      (partition exFallbackEnv x.1 x.2).2.2.1.size = (x.2.prims.size + 1) / 2 ∧
      0 < (partition exFallbackEnv x.1 x.2).2.1.size ∧
      (partition exFallbackEnv x.1 x.2).2.1.size < x.2.prims.size ∧
      0 < (partition exFallbackEnv x.1 x.2).2.2.1.size ∧
      (partition exFallbackEnv x.1 x.2).2.2.1.size < x.2.prims.size :=
  ⟨rfl, fallback_split_halves exFallbackEnv exSettingsThree
    ⟨exEnv_temporalContract.heap, exEnv_temporalContract.left, exEnv_temporalContract.right⟩
    ⟨exEnv_objectContract.heap, exEnv_objectContract.left, exEnv_objectContract.right,
      exEnv_objectContract.count⟩
    (by decide) (by decide) 10 (exPrims 3) (exSet 3).pinfo (by decide) (by decide)⟩

/-! ## The depth limit on the large-leaf path -/

/-- The growth loop of `createLargeLeaf` without `singleLeafTimeSegment`, on a
record of `n` primitives that is larger than `maxLeafSize`, has a fallback
split and a set that satisfies the invariant: the loop ends normally, no
buffer got shorter, every child is one level below the record, its set
satisfies the invariant and holds at most `(n + 1) / 2` primitives; with a
branching factor of at most 2 there are two children, and the second holds
`(n + 1) / 2` primitives. -/
theorem largeLeafGrow_off {T : Sig} (env : Env T) (s : Settings T)
    (hbf : s.branchingFactor ≤ 8) (hflag : s.singleLeafTimeSegment = false)
    (cur : BuildRecord T) (st : State T) (hwf : SetMB.WF st.heap cur.prims)
    (hcur : cur.split.data = SPLIT_FALLBACK) (hw : cur.depth + 1 < 18446744073709551616)
    (hbig : s.maxLeafSize < cur.prims.size) :
    ∃ c st1, largeLeafGrow env s cur.depth (s.branchingFactor + 1) (LocalChildListT.new cur) st
        = (.ok c, st1) ∧
      Heap.le st.heap st1.heap ∧
      (∀ ch ∈ c.children, SetMB.WF st1.heap ch.prims ∧ ch.depth = cur.depth + 1 ∧
        ch.prims.size ≤ (cur.prims.size + 1) / 2) ∧
      (s.branchingFactor ≤ 2 →
        ∃ l r, c.children = [l, r] ∧ r.prims.size = (cur.prims.size + 1) / 2) := by
  have hwd : wrap (cur.depth + 1) = cur.depth + 1 := by
    unfold wrap
    omega
  have hleaf : isLargeLeaf s cur = false := (isLargeLeaf_eq_false s cur).2 (Or.inl hbig)
  have hbest := largeLeafBest_singleton s cur hleaf (by omega)
  obtain ⟨c, st1, hg, ⟨hle, hall, hfresh⟩, -, hsize, hend⟩ := largeLeafGrow_rule env s cur.depth
    (fun c st1 => Heap.le st.heap st1.heap ∧
      (∀ ch ∈ c.children, SetMB.WF st1.heap ch.prims ∧ ch.split.data = SPLIT_FALLBACK) ∧
      (c.children = [cur] ∨
        ((∀ ch ∈ c.children, ch.depth = cur.depth + 1 ∧
            ch.prims.size ≤ (cur.prims.size + 1) / 2) ∧
          2 ≤ c.children.length ∧
          (c.children.length = 2 →
            ∃ l r, c.children = [l, r] ∧ r.prims.size = (cur.prims.size + 1) / 2))))
    hbf
    (by
      intro c st1 best brecord c1 deleted ⟨hle, hall, hfresh⟩ _ _ hb hsplit hc1
      have hmem : brecord ∈ c.children := List.getElem?_mem hb
      obtain ⟨hbwf, hbd⟩ := hall brecord hmem
      have hT : brecord.split.data = SPLIT_TEMPORAL → TemporalContract env := by
        intro h
        rw [hbd] at h
        exact absurd h (by decide)
      have hO : brecord.split.data ≠ SPLIT_FALLBACK → brecord.split.data ≠ SPLIT_TEMPORAL →
          ObjectContract env := fun h _ => absurd hbd h
      obtain ⟨hple, hwl, hwr⟩ := partition_WF env st1.heap brecord hbwf hT hO
      obtain ⟨hsl, hsr⟩ := partition_fallback_halves env st1.heap brecord hbwf hbd
      have hlen : c1.children.length = c.children.length + 1 := by
        rw [hc1]
        simp
      refine ⟨Heap.le_trans hle hple, ?_, ?_⟩
      · exact children_step
          (fun ch : BuildRecord T => SetMB.WF (partition env st1.heap brecord).1 ch.prims ∧
            ch.split.data = SPLIT_FALLBACK)
          _ _ _ _ _ hc1 (fun ch hch => ⟨(hall ch hch).1.mono hple, (hall ch hch).2⟩)
          ⟨hwl, findFallback_off env s hflag _ _⟩ ⟨hwr, findFallback_off env s hflag _ _⟩
      · right
        rcases hfresh with h0 | ⟨hold, hlen2, -⟩
        · have hb0 : best = 0 := by
            have := (LocalChildListT.split_children _ _ _ _ _ _ _ hsplit).2
            rw [h0] at this
            simpa using this
          subst hb0
          rw [h0] at hb
          simp only [List.getElem?_cons_zero, Option.some.injEq] at hb
          subst hb
          have hc2 : c1.children = [largeLeafLeft env s cur.depth st1.heap cur,
              largeLeafRight env s cur.depth st1.heap cur] := by
            rw [hc1, h0]
            rfl
          have hsl1 : (largeLeafLeft env s cur.depth st1.heap cur).prims.size
              = cur.prims.size / 2 := hsl
          have hsr1 : (largeLeafRight env s cur.depth st1.heap cur).prims.size
              = (cur.prims.size + 1) / 2 := hsr
          refine ⟨?_, by rw [hc2]; simp, fun _ => ⟨_, _, hc2, hsr1⟩⟩
          intro ch hch
          rw [hc2] at hch
          simp only [List.mem_cons, List.mem_singleton, List.not_mem_nil, or_false] at hch
          rcases hch with rfl | rfl
          · exact ⟨hwd, by rw [hsl1]; omega⟩
          · exact ⟨hwd, by rw [hsr1]⟩
        · have hbs := (hold brecord hmem).2
          refine ⟨?_, by omega, fun h => by omega⟩
          refine children_step
            (fun ch : BuildRecord T => ch.depth = cur.depth + 1 ∧
              ch.prims.size ≤ (cur.prims.size + 1) / 2)
            _ _ _ _ _ hc1 hold ⟨hwd, ?_⟩ ⟨hwd, ?_⟩
          · show (partition env st1.heap brecord).2.1.size ≤ _
            rw [hsl]
            omega
          · show (partition env st1.heap brecord).2.2.1.size ≤ _
            rw [hsr]
            omega)
    (s.branchingFactor + 1) (LocalChildListT.new cur) st
    ⟨Heap.le_refl _, by
      intro ch hch
      simp only [LocalChildListT.new, List.mem_singleton] at hch
      subst hch
      exact ⟨hwf, hcur⟩, Or.inl rfl⟩
    (InBounds.ofNew cur) (Or.inl rfl)
    (by simp only [LocalChildListT.size, LocalChildListT.new, List.length_singleton]; omega)
  have hgrow : 1 < c.children.length := by
    rcases hend with ⟨hnone, -, -⟩ | hgrow
    · simp only [LocalChildListT.new] at hnone
      rw [hbest] at hnone
      cases hnone
    · simpa [LocalChildListT.size, LocalChildListT.new] using hgrow
  have hnew : (∀ ch ∈ c.children, ch.depth = cur.depth + 1 ∧
        ch.prims.size ≤ (cur.prims.size + 1) / 2) ∧
      2 ≤ c.children.length ∧
      (c.children.length = 2 →
        ∃ l r, c.children = [l, r] ∧ r.prims.size = (cur.prims.size + 1) / 2) := by
    rcases hfresh with h | h
    · rw [h] at hgrow
      simp at hgrow
    · exact h
  refine ⟨c, st1, hg, hle, fun ch hch => ⟨(hall ch hch).1, hnew.1 ch hch⟩, ?_⟩
  intro hb2
  refine hnew.2.2 ?_
  have hm : max 2 s.branchingFactor = 2 := Nat.max_eq_left hb2
  rw [hm] at hsize
  exact Nat.le_antisymm hsize hnew.2.1

/-- A call of `createLargeLeaf` without `singleLeafTimeSegment` shortens no
buffer. -/
theorem createLargeLeaf_heap_le {T : Sig} (env : Env T) (s : Settings T)
    (hbf : s.branchingFactor ≤ 8) (hflag : s.singleLeafTimeSegment = false)
    (fuel : Nat) (current : BuildRecord T) (alloc : Alloc) (st : State T) :
    Heap.le st.heap (createLargeLeaf env s fuel current alloc st).2.heap := by
  refine createLargeLeaf_rule env s hbf (fun a b : State T => Heap.le a.heap b.heap)
    (fun _ => Heap.le_refl _) (fun _ _ _ => Heap.le_trans) (fun _ _ _ => Heap.le_refl _)
    (fun _ _ _ _ => Heap.le_refl _) (fun _ _ => Heap.le_refl _) ?_ fuel current alloc st
  intro cur st ch st1 alloc hcur hg
  have hd : cur.split.data = SPLIT_FALLBACK := by
    rw [hcur]
    exact findFallback_off env s hflag _ _
  exact ( largeLeafGrow_partial env s cur.depth
    (fun c st1 => Heap.le st.heap st1.heap ∧ ∀ ch ∈ c.children, ch.split.data = SPLIT_FALLBACK)
    (by
      intro c st1 best brecord c1 deleted ⟨hle, hall⟩ _ hb _ hc1
      have hbd := hall brecord (List.getElem?_mem hb)
      refine ⟨?_, children_step (fun ch : BuildRecord T => ch.split.data = SPLIT_FALLBACK)
        _ _ _ _ _ hc1 hall (findFallback_off env s hflag _ _) (findFallback_off env s hflag _ _)⟩
      refine Heap.le_trans hle ?_
      show Heap.le st1.heap (partition env st1.heap brecord).1
      rw [partition_fallback_eq env st1.heap brecord hbd]
      exact deterministic_order_le env st1.heap brecord.prims)
    _ (LocalChildListT.new cur) st ch st1
    ⟨Heap.le_refl _, by
      intro c hc
      simp only [LocalChildListT.new, List.mem_singleton] at hc
      subst hc
      exact hd⟩ hg).1

/-- The loop over two children ends with the error `e` when the driver called
on the first child raises no other error and the driver called on the second
child raises `e`. -/
theorem visitChildren_second_error {T : Sig}
    (f : BuildRecord T → State T → Result T × State T) (node : T.N) (i j : Nat)
    (l r : BuildRecord T) (st : State T) (e : Error)
    (h1 : ∀ e1, (f l st).1 = .error e1 → e1 = e)
    (h2 : ∀ v st1, f l st = (.ok v, st1) →
      (f r (st1.emit (.updateNode node i v))).1 = .error e) :
    (visitChildren f node [(i, l), (j, r)] st).1 = .error e := by
  rw [MSMBlur.visitChildren]
  cases hfc : f l st with
  | mk r1 st1 =>
    cases r1 with
    | error e1 =>
      have := h1 e1 (by rw [hfc])
      subst this
      rfl
    | ok v =>
      have h3 := h2 v st1 hfc
      simp only
      rw [MSMBlur.visitChildren]
      cases hfr : f r (st1.emit (.updateNode node i v)) with
      | mk r2 st2 =>
        rw [hfr] at h3
        simp only at h3
        subst h3
        rfl

/-- The step of the bound `maxLeafSize * 2 ^ (maxDepth - depth)` from one
level to the next. -/
theorem depth_bound_step (m maxDepth d : Nat) (h : d < maxDepth) :
    m * 2 ^ (maxDepth - d) = 2 * (m * 2 ^ (maxDepth - (d + 1))) := by
  have : maxDepth - d = (maxDepth - (d + 1)) + 1 := by omega
  rw [this, Nat.pow_succ]
  ring

/-- A call of `createLargeLeaf` without `singleLeafTimeSegment` on a record
within the depth limit whose `n` primitives satisfy
`n <= maxLeafSize * 2 ^ (maxDepth - depth)` returns, unless the fuel of the
embedding does not reach down to `maxDepth`. -/
theorem createLargeLeaf_within_limit {T : Sig} (env : Env T) (s : Settings T)
    (hbf : s.branchingFactor ≤ 8) (hflag : s.singleLeafTimeSegment = false)
    (hmax : s.maxDepth + 1 < 18446744073709551616) :
    ∀ (fuel : Nat) (current : BuildRecord T) (alloc : Alloc) (st : State T),
      SetMB.WF st.heap current.prims → current.depth ≤ s.maxDepth →
      current.prims.size ≤ s.maxLeafSize * 2 ^ (s.maxDepth - current.depth) →
      (∃ v, (createLargeLeaf env s fuel current alloc st).1 = .ok v) ∨
      ∃ e, (createLargeLeaf env s fuel current alloc st).1 = .error e ∧
        (e = .outOfFuel ∧ fuel + current.depth ≤ s.maxDepth) := by
  intro fuel
  induction fuel with
  | zero =>
    intro current alloc st _ hd _
    exact Or.inr ⟨_, rfl, rfl, by omega⟩
  | succ fuel ih =>
    intro current alloc st hwf hd hn
    rw [MSMBlur.createLargeLeaf]
    split
    · omega
    · simp only
      split
      · exact Or.inl ⟨_, rfl⟩
      · rename_i hleaf
        have hdata := findFallback_off env s hflag st.heap current
        have hbig : s.maxLeafSize < current.prims.size := by
          rcases (isLargeLeaf_eq_false s
            { current with split := findFallback env s st.heap current }).1
            (by simpa using hleaf) with h | h
          · exact h
          · rw [hdata] at h
            exact absurd h (by decide)
        have hlt : current.depth < s.maxDepth := by
          rcases Nat.lt_or_ge current.depth s.maxDepth with h | h
          · exact h
          · have h0 : s.maxDepth - current.depth = 0 := by omega
            rw [h0, Nat.pow_zero, Nat.mul_one] at hn
            omega
        have hstep := depth_bound_step s.maxLeafSize s.maxDepth current.depth hlt
        obtain ⟨c, st1, hg, hle, hall, -⟩ := largeLeafGrow_off env s hbf hflag
          { current with split := findFallback env s st.heap current } st hwf hdata
          (by simp only; omega) hbig
        simp only at hg
        rw [hg]
        simp only
        obtain ⟨-, h2⟩ := visitChildren_rule
          (fun c st => MSMBlur.createLargeLeaf env s fuel c alloc st)
          (env.createNode (hasTimeSplits env
            { current with split := findFallback env s st.heap current } c) alloc)
          (fun a b : State T => Heap.le a.heap b.heap)
          (fun _ => Heap.le_refl _) (fun _ _ _ => Heap.le_trans) (fun _ _ => Heap.le_refl _)
          (fun e => e = .outOfFuel ∧ fuel + 1 + current.depth ≤ s.maxDepth)
          (fun ch st0 => SetMB.WF st0.heap ch.prims ∧ ch.depth = current.depth + 1 ∧
            ch.prims.size ≤ s.maxLeafSize * 2 ^ (s.maxDepth - (current.depth + 1)))
          (fun ch st0 st2 hc hr => ⟨hc.1.mono hr, hc.2⟩)
          (fun ch st0 hc => ⟨createLargeLeaf_heap_le env s hbf hflag fuel ch alloc st0, by
            rcases ih ch alloc st0 hc.1 (by rw [hc.2.1]; omega) (by rw [hc.2.1]; exact hc.2.2)
              with h | ⟨e, he, he1, he2⟩
            · exact Or.inl h
            · exact Or.inr ⟨e, he, he1, by rw [hc.2.1] at he2; omega⟩⟩)
          c.children.enum
          (st1.emit (.createNode (hasTimeSplits env
            { current with split := findFallback env s st.heap current } c) alloc
            (env.createNode (hasTimeSplits env
              { current with split := findFallback env s st.heap current } c) alloc)))
          (by
            intro ic hic
            have hmem : ic.2 ∈ c.children := by
              have := List.mem_map_of_mem Prod.snd hic
              rwa [enum_map_snd] at this
            obtain ⟨h1, h2, h3⟩ := hall ic.2 hmem
            refine ⟨h1, h2, ?_⟩
            simp only at h3
            generalize s.maxLeafSize * 2 ^ (s.maxDepth - (current.depth + 1)) = b at hstep ⊢
            generalize s.maxLeafSize * 2 ^ (s.maxDepth - current.depth) = a at hstep hn
            omega)
        rcases h2 with ⟨vs, hvs⟩ | ⟨e, he, hE⟩
        · left
          unfold MSMBlur.finishNode
          rw [hvs]
          exact ⟨_, rfl⟩
        · right
          refine ⟨e, ?_, hE⟩
          rw [finishNode_error]
          exact he

/-- A call of `createLargeLeaf` without `singleLeafTimeSegment` and with a
branching factor of at most 2 on a record within the depth limit whose `n`
primitives satisfy `n > maxLeafSize * 2 ^ (maxDepth - depth)` raises the
depth-limit error. -/
theorem createLargeLeaf_beyond_limit {T : Sig} (env : Env T) (s : Settings T)
    (hbf : s.branchingFactor ≤ 2) (hflag : s.singleLeafTimeSegment = false)
    (hmax : s.maxDepth + 1 < 18446744073709551616) :
    ∀ (fuel : Nat) (current : BuildRecord T) (alloc : Alloc) (st : State T),
      SetMB.WF st.heap current.prims → current.depth ≤ s.maxDepth →
      s.maxDepth + 2 ≤ fuel + current.depth →
      s.maxLeafSize * 2 ^ (s.maxDepth - current.depth) < current.prims.size →
      (createLargeLeaf env s fuel current alloc st).1 = .error .depthLimitReached := by
  have hbf8 : s.branchingFactor ≤ 8 := by omega
  intro fuel
  induction fuel with
  | zero => intro current alloc st _ hd hfuel _; omega
  | succ fuel ih =>
    intro current alloc st hwf hd hfuel hn
    have hdata := findFallback_off env s hflag st.heap current
    have hbig : s.maxLeafSize < current.prims.size := by
      have h1 : 0 < 2 ^ (s.maxDepth - current.depth) := Nat.two_pow_pos _
      have h2 := Nat.le_mul_of_pos_right s.maxLeafSize h1
      omega
    have hleaf : isLargeLeaf s { current with split := findFallback env s st.heap current }
        = false := (isLargeLeaf_eq_false s _).2 (Or.inl hbig)
    obtain ⟨c, st1, hg, hle, hall, hpair⟩ := largeLeafGrow_off env s hbf8 hflag
      { current with split := findFallback env s st.heap current } st hwf hdata
      (by simp only; omega) hbig
    obtain ⟨l, r, hc, hr⟩ := hpair hbf
    simp only at hr
    rw [createLargeLeaf_node_eq env s fuel current alloc st (by omega) (by rw [hleaf]; simp) c
      st1 hg, finishNode_error, hc]
    obtain ⟨hlwf, hld, -⟩ := hall l (by rw [hc]; simp)
    obtain ⟨hrwf, hrd, -⟩ := hall r (by rw [hc]; simp)
    simp only at hld hrd
    refine visitChildren_second_error _ _ 0 1 l r _ _ ?_ ?_
    · intro e1 he1
      rcases (createLargeLeaf_total env s hbf8 hmax (by rw [hflag]; intro h; cases h) fuel l
        alloc _ (by rw [hflag]; intro h; cases h) (by omega) (by omega)).2 with
        ⟨v, hv⟩ | ⟨e, he, hE⟩
      · rw [hv] at he1
        cases he1
      · rw [he] at he1
        cases he1
        exact hE
    · intro v st2 hfl
      have hle2 : Heap.le st1.heap st2.heap := by
        have := createLargeLeaf_heap_le env s hbf8 hflag fuel l alloc
          (st1.emit (.createNode (hasTimeSplits env
            { current with split := findFallback env s st.heap current } c) alloc
            (env.createNode (hasTimeSplits env
              { current with split := findFallback env s st.heap current } c) alloc)))
        rw [hfl] at this
        exact this
      rcases Nat.lt_or_ge current.depth s.maxDepth with hlt | hge
      · refine ih r alloc _ (hrwf.mono hle2) (by omega) (by omega) ?_
        have hstep := depth_bound_step s.maxLeafSize s.maxDepth current.depth hlt
        rw [hrd, hr]
        generalize s.maxLeafSize * 2 ^ (s.maxDepth - (current.depth + 1)) = b at hstep ⊢
        generalize s.maxLeafSize * 2 ^ (s.maxDepth - current.depth) = a at hstep hn
        omega
      · cases fuel with
        | zero => omega
        | succ fuel =>
          rw [MSMBlur.createLargeLeaf, if_pos (by omega)]

/-- C26: the depth-limit error on the large-leaf path with
`singleLeafTimeSegment` off. For a builder with a branching factor of at most
8 and a depth limit below `2^64 - 1`, a record at depth `d <= maxDepth` whose
set of `n` primitives satisfies the invariant, and enough fuel to reach the
depth limit: if `n <= maxLeafSize * 2 ^ (maxDepth - d)` then `createLargeLeaf`
returns normally, and with no amount of fuel it raises the depth-limit error;
with a branching factor of at most 2, if `n > maxLeafSize * 2 ^ (maxDepth - d)`
then `createLargeLeaf` raises the depth-limit error. -/
theorem large_leaf_depth_limit {T : Sig} (env : Env T) (s : Settings T)
    (hbf : s.branchingFactor ≤ 8) (hflag : s.singleLeafTimeSegment = false)
    (hmax : s.maxDepth + 1 < 18446744073709551616) (fuel : Nat) (current : BuildRecord T)
    (alloc : Alloc) (st : State T) (hwf : SetMB.WF st.heap current.prims)
    (hd : current.depth ≤ s.maxDepth) (hfuel : s.maxDepth + 2 ≤ fuel + current.depth) :
    (current.prims.size ≤ s.maxLeafSize * 2 ^ (s.maxDepth - current.depth) →
      (∃ v, (createLargeLeaf env s fuel current alloc st).1 = .ok v) ∧
      ∀ fuel0, (createLargeLeaf env s fuel0 current alloc st).1 ≠ .error .depthLimitReached) ∧
    (s.branchingFactor ≤ 2 →
      s.maxLeafSize * 2 ^ (s.maxDepth - current.depth) < current.prims.size →
      (createLargeLeaf env s fuel current alloc st).1 = .error .depthLimitReached) := by
  refine ⟨fun hn => ⟨?_, ?_⟩, fun hbf2 hn =>
    createLargeLeaf_beyond_limit env s hbf2 hflag hmax fuel current alloc st hwf hd hfuel hn⟩
  · rcases createLargeLeaf_within_limit env s hbf hflag hmax fuel current alloc st hwf hd hn
      with h | ⟨e, -, -, he⟩
    · exact h
    · omega
  · intro fuel0 h
    rcases createLargeLeaf_within_limit env s hbf hflag hmax fuel0 current alloc st hwf hd hn
      with ⟨v, hv⟩ | ⟨e, he, he1, -⟩
    · rw [hv] at h
      cases h
    · rw [he, he1] at h
      cases h

/-- Witness for C26: leaves of at most one primitive and a depth limit of 3;
at depth 1 a record of 4 primitives is built, a record of 5 primitives raises
the depth-limit error. -/
theorem large_leaf_depth_limit_witness :
    (∃ v, (createLargeLeaf exEnv { exSettings with maxDepth := 3, maxLeafSize := 1 } 4
      (exChild 0 0 4 1) (some 0) (exState 4)).1 = .ok v) ∧
    (createLargeLeaf exEnv { exSettings with maxDepth := 3, maxLeafSize := 1 } 4
      (exChild 0 0 5 1) (some 0) (exState 5)).1 = .error .depthLimitReached :=
  ⟨((large_leaf_depth_limit exEnv { exSettings with maxDepth := 3, maxLeafSize := 1 }
      (by decide) rfl (by decide) 4 (exChild 0 0 4 1) (some 0) (exState 4)
      ⟨rfl, by decide, by decide, by decide⟩ (by decide) (by decide)).1 (by decide)).1,
    (large_leaf_depth_limit exEnv { exSettings with maxDepth := 3, maxLeafSize := 1 }
      (by decide) rfl (by decide) 4 (exChild 0 0 5 1) (some 0) (exState 5)
      ⟨rfl, by decide, by decide, by decide⟩ (by decide) (by decide)).2 (by decide)
      (by decide)⟩

/-! ## Subdivision of a Bezier curve -/

/-- The last control point of the left half of `subdivide` is the point of
`eval` at the parameter one half. -/
theorem subdivide_mid_eq_eval (c : BezierCurve3D) :
    c.subdivide.1.v3 = (c.eval (1 / 2)).1 := by
  simp only [BezierCurve3D.subdivide, BezierCurve3D.eval, Vec3fa.add, Vec3fa.mul,
    Vec3fa.mk.injEq]
  refine ⟨?_, ?_, ?_, ?_⟩ <;> ring

/-- C28: `BezierCurve3D::subdivide` is the split of de Casteljau at the
middle of the parameter interval, over exact arithmetic. For every curve the
left half starts at `v0`, the right half ends at `v3`, the left half ends and
the right half starts at the point that `eval` returns for the parameter one
half, the left half keeps `t0`, the right half keeps `t1`, both meet at
`(t0 + t1) / 2`, and both halves have the depth of the curve minus one. -/
theorem subdivide_de_casteljau (c : BezierCurve3D) :
    c.subdivide.1.v0 = c.v0 ∧ c.subdivide.2.v3 = c.v3 ∧
    c.subdivide.1.v3 = (c.eval (1 / 2)).1 ∧ c.subdivide.2.v0 = (c.eval (1 / 2)).1 ∧
    c.subdivide.1.t0 = c.t0 ∧ c.subdivide.2.t1 = c.t1 ∧
    c.subdivide.1.t1 = (c.t0 + c.t1) / 2 ∧ c.subdivide.2.t0 = (c.t0 + c.t1) / 2 ∧
    c.subdivide.1.depth = c.depth - 1 ∧ c.subdivide.2.depth = c.depth - 1 := by
  refine ⟨rfl, rfl, subdivide_mid_eq_eval c, subdivide_mid_eq_eval c, rfl, rfl, ?_, ?_, rfl,
    rfl⟩
  · show (c.t0 + c.t1) * (1 / 2) = (c.t0 + c.t1) / 2
    ring
  · show (c.t0 + c.t1) * (1 / 2) = (c.t0 + c.t1) / 2
    ring

/-! ## A record without a selectable child -/

/-- Partial-correctness rule for the growth loop of `createLargeLeaf` with the
partitions it performs: a property kept by every iteration whose partitioned
record satisfies `P` holds when the loop ends normally and all records it
partitioned satisfy `P`. -/
theorem largeLeafGrow_logged {T : Sig} (env : Env T) (s : Settings T) (depth : Nat)
    (Inv : LocalChildListT T → State T → Prop) (P : Heap T × BuildRecord T → Prop)
    (hstep : ∀ (c : LocalChildListT T) (st : State T) (bestChild : Nat)
      (brecord : BuildRecord T) (c1 : LocalChildListT T) (deleted : List Nat),
      Inv c st → P (st.heap, brecord) →
      largeLeafBest s c.children 0 none 0 = some bestChild →
      c.children[bestChild]? = some brecord →
      c.split bestChild (largeLeafLeft env s depth st.heap brecord)
        (largeLeafRight env s depth st.heap brecord)
        (partition env st.heap brecord).2.2.2 = some (c1, deleted) →
      c1.children = c.children.set bestChild (largeLeafLeft env s depth st.heap brecord)
        ++ [largeLeafRight env s depth st.heap brecord] →
      Inv c1 (({ st with heap := (partition env st.heap brecord).1 } : State T).emits
        (deleted.map Event.delete))) :
    ∀ (n : Nat) (c : LocalChildListT T) (st : State T) (c1 : LocalChildListT T)
      (st1 : State T), Inv c st → (∀ x ∈ largeLeafGrowLog env s depth n c st, P x) →
      largeLeafGrow env s depth n c st = (.ok c1, st1) → Inv c1 st1 := by
  intro n
  induction n with
  | zero =>
    intro c st c1 st1 _ _ h
    simp [MSMBlur.largeLeafGrow] at h
  | succ n ih =>
    intro c st c1 st1 hinv hlog h
    rw [largeLeafGrow_succ] at h
    rw [largeLeafGrowLog] at hlog
    cases hbest : largeLeafBest s c.children 0 none 0 with
    | none =>
      rw [hbest] at h
      simp only [Prod.mk.injEq, Except.ok.injEq] at h
      obtain ⟨rfl, rfl⟩ := h
      exact hinv
    | some bestChild =>
      rw [hbest] at h hlog
      simp only at h hlog
      cases hb : c.children[bestChild]? with
      | none =>
        rw [hb] at h
        simp at h
      | some brecord =>
        rw [hb] at h hlog
        simp only at h hlog
        have hP := hlog _ (List.mem_cons_self _ _)
        cases hsplit : c.split bestChild (largeLeafLeft env s depth st.heap brecord)
            (largeLeafRight env s depth st.heap brecord)
            (partition env st.heap brecord).2.2.2 with
        | none =>
          rw [hsplit] at h
          simp at h
        | some p =>
          obtain ⟨c2, deleted⟩ := p
          rw [hsplit] at h hlog
          simp only at h hlog
          have hinv2 := hstep c st bestChild brecord c2 deleted hinv hP hbest hb hsplit
            (LocalChildListT.split_children _ _ _ _ _ _ _ hsplit).1
          by_cases hlt : c2.size < s.branchingFactor
          · rw [if_pos hlt] at h hlog
            exact ih _ _ _ _ hinv2 (fun x hx => hlog x (List.mem_cons_of_mem _ hx)) h
          · rw [if_neg hlt] at h
            simp only [Prod.mk.injEq, Except.ok.injEq] at h
            obtain ⟨rfl, rfl⟩ := h
            exact hinv2

/-- Partial-correctness rule for the growth loop of `recurse` with the
partitions it performs: a property kept by every iteration whose partitioned
record satisfies `P` holds when the loop ends normally and all records it
partitioned satisfy `P`. -/
theorem recurseGrow_logged {T : Sig} (env : Env T) (s : Settings T) (depth : Nat)
    (Inv : LocalChildListT T → State T → Prop) (P : Heap T × BuildRecord T → Prop)
    (hstep : ∀ (c : LocalChildListT T) (st : State T) (bestChild : Nat)
      (brecord : BuildRecord T) (c1 : LocalChildListT T) (deleted : List Nat),
      Inv c st → P (st.heap, brecord) →
      recurseBest env s c.children 0 none env.neg_inf = some bestChild →
      c.children[bestChild]? = some brecord →
      c.split bestChild (recurseLeft env s depth st.heap brecord)
        (recurseRight env s depth st.heap brecord)
        (partition env st.heap brecord).2.2.2 = some (c1, deleted) →
      c1.children = c.children.set bestChild (recurseLeft env s depth st.heap brecord)
        ++ [recurseRight env s depth st.heap brecord] →
      Inv c1 ((({ st with heap := (partition env st.heap brecord).1 } : State T).emits
        (recurseFinds env s st.heap brecord)).emits (deleted.map Event.delete))) :
    ∀ (n : Nat) (c : LocalChildListT T) (st : State T) (c1 : LocalChildListT T)
      (st1 : State T), Inv c st → (∀ x ∈ recurseGrowLog env s depth n c st, P x) →
      recurseGrow env s depth n c st = (.ok c1, st1) → Inv c1 st1 := by
  intro n
  induction n with
  | zero =>
    intro c st c1 st1 _ _ h
    simp [MSMBlur.recurseGrow] at h
  | succ n ih =>
    intro c st c1 st1 hinv hlog h
    rw [recurseGrow_succ] at h
    rw [recurseGrowLog] at hlog
    cases hbest : recurseBest env s c.children 0 none env.neg_inf with
    | none =>
      rw [hbest] at h
      simp only [Prod.mk.injEq, Except.ok.injEq] at h
      obtain ⟨rfl, rfl⟩ := h
      exact hinv
    | some bestChild =>
      rw [hbest] at h hlog
      simp only at h hlog
      cases hb : c.children[bestChild]? with
      | none =>
        rw [hb] at h
        simp at h
      | some brecord =>
        rw [hb] at h hlog
        simp only at h hlog
        have hP := hlog _ (List.mem_cons_self _ _)
        cases hsplit : c.split bestChild (recurseLeft env s depth st.heap brecord)
            (recurseRight env s depth st.heap brecord)
            (partition env st.heap brecord).2.2.2 with
        | none =>
          rw [hsplit] at h
          simp at h
        | some p =>
          obtain ⟨c2, deleted⟩ := p
          rw [hsplit] at h hlog
          simp only at h hlog
          have hinv2 := hstep c st bestChild brecord c2 deleted hinv hP hbest hb hsplit
            (LocalChildListT.split_children _ _ _ _ _ _ _ hsplit).1
          by_cases hlt : c2.size < s.branchingFactor
          · rw [if_pos hlt] at h hlog
            exact ih _ _ _ _ hinv2 (fun x hx => hlog x (List.mem_cons_of_mem _ hx)) h
          · rw [if_neg hlt] at h
            simp only [Prod.mk.injEq, Except.ok.injEq] at h
            obtain ⟨rfl, rfl⟩ := h
            exact hinv2

/-- Rule for a loop over the children that ends normally, with the partitions
performed: when every call of the driver on a child that satisfies `C` and
whose partitions satisfy `P` keeps the relation `R` and adds the weight of the
child to the measure, the loop keeps `R` and adds the weights of all children,
provided all partitions of the loop satisfy `P`. -/
theorem visitChildren_sum_log {T : Sig} (f : BuildRecord T → State T → Result T × State T)
    (g : BuildRecord T → State T → List (Heap T × BuildRecord T))
    (node : T.N) (R : State T → State T → Prop) (hrefl : ∀ st, R st st)
    (htrans : ∀ a b c, R a b → R b c → R a c) (hemit : ∀ st e, R st (st.emit e))
    (C : BuildRecord T → State T → Prop)
    (hC : ∀ c st st1, C c st → R st st1 → C c st1)
    (μ : State T → Nat) (hμ : ∀ st n i v, μ (st.emit (.updateNode n i v)) = μ st)
    (w : BuildRecord T → Nat) (P : Heap T × BuildRecord T → Prop)
    (hf : ∀ c st v st1, C c st → (∀ x ∈ g c st, P x) → f c st = (.ok v, st1) →
      R st st1 ∧ μ st1 = μ st + w c) :
    ∀ (l : List (Nat × BuildRecord T)) (st : State T) (vs : List (Value T)) (st1 : State T),
      (∀ ic ∈ l, C ic.2 st) → (∀ x ∈ visitLog f g node l st, P x) →
      visitChildren f node l st = (.ok vs, st1) →
      R st st1 ∧ μ st1 = μ st + ((l.map Prod.snd).map w).sum := by
  intro l
  induction l with
  | nil =>
    intro st vs st1 _ _ h
    simp only [MSMBlur.visitChildren, Prod.mk.injEq, Except.ok.injEq] at h
    obtain ⟨-, rfl⟩ := h
    exact ⟨hrefl _, by simp⟩
  | cons ic rest ih =>
    intro st vs st1 hl hlog h
    obtain ⟨i, c⟩ := ic
    rw [MSMBlur.visitChildren] at h
    rw [visitLog] at hlog
    cases hfc : f c st with
    | mk r st2 =>
      rw [hfc] at h hlog
      cases r with
      | error e => simp at h
      | ok v =>
        simp only at h hlog
        obtain ⟨h1, h2⟩ := hf c st v st2 (hl (i, c) (List.mem_cons_self _ _))
          (fun x hx => hlog x (List.mem_append_left _ hx)) hfc
        have h3 : R st (st2.emit (.updateNode node i v)) := htrans _ _ _ h1 (hemit _ _)
        cases hv : MSMBlur.visitChildren f node rest (st2.emit (.updateNode node i v)) with
        | mk r2 st3 =>
          rw [hv] at h
          cases r2 with
          | error e => simp at h
          | ok vs2 =>
            simp only [Prod.mk.injEq, Except.ok.injEq] at h
            obtain ⟨-, rfl⟩ := h
            obtain ⟨h4, h5⟩ := ih _ _ _
              (fun ic hic => hC _ _ _ (hl ic (List.mem_cons_of_mem _ hic)) h3)
              (fun x hx => hlog x (List.mem_append_right _ hx)) hv
            refine ⟨htrans _ _ _ h3 h4, ?_⟩
            rw [h5, hμ, h2]
            simp only [List.map_cons, List.sum_cons]
            omega

/-- The end of a driver that returns a node: the loop over the children ended
normally, the heap is the one it left, and no leaf was added. -/
theorem finishNode_leafTotal {T : Sig} (env : Env T) (current : BuildRecord T)
    (children : LocalChildListT T) (timeSplits : Bool) (node : T.N)
    (r : Except Error (List (Value T)) × State T) (v : Value T) (st9 : State T)
    (h : finishNode env current children timeSplits node r = (.ok v, st9)) :
    (∃ vs, r.1 = .ok vs) ∧ st9.heap = r.2.heap ∧ leafTotal st9.trace = leafTotal r.2.trace := by
  obtain ⟨vs, hvs, -, hheap, -, -⟩ := finishNode_ok env _ _ _ _ _ _ _ h
  have hfin := (leafTotalKept_driverRel env).finishNode growKinds_not_leaf current children
    timeSplits node r
  rw [h] at hfin
  exact ⟨⟨vs, hvs⟩, hheap, hfin⟩

/-- One split that is no temporal split keeps the invariant of the sets of
all children and the sum of their sizes, for an object partitioner that keeps
the invariant and the number of primitives. -/
theorem children_count_step {T : Sig} (env : Env T) (hO : ObjectContract env) (heap : Heap T)
    (brecord l r : BuildRecord T) (cs cs1 : List (BuildRecord T)) (best : Nat)
    (hl : l.prims = (partition env heap brecord).2.1)
    (hr : r.prims = (partition env heap brecord).2.2.1)
    (hc1 : cs1 = cs.set best l ++ [r])
    (hinv : ∀ ch ∈ cs, SetMB.WF heap ch.prims) (hb : cs[best]? = some brecord)
    (hdata : brecord.split.data ≠ SPLIT_TEMPORAL) :
    Heap.le heap (partition env heap brecord).1 ∧
    (∀ ch ∈ cs1, SetMB.WF (partition env heap brecord).1 ch.prims) ∧
    (cs1.map BuildRecord.size).sum = (cs.map BuildRecord.size).sum := by
  have hmem : brecord ∈ cs := List.getElem?_mem hb
  obtain ⟨hple, hwl, hwr, hcount⟩ := partition_count env heap brecord (hinv _ hmem) hdata
    (fun _ => hO)
  refine ⟨hple, ?_, ?_⟩
  · refine children_step
      (fun ch : BuildRecord T => SetMB.WF (partition env heap brecord).1 ch.prims)
      _ _ _ _ _ hc1 (fun ch hch => (hinv ch hch).mono hple) ?_ ?_
    · show SetMB.WF _ l.prims
      rw [hl]
      exact hwl
    · show SetMB.WF _ r.prims
      rw [hr]
      exact hwr
  · have hset := sum_map_set BuildRecord.size cs best brecord l hb
    rw [hc1, List.map_append, List.sum_append]
    simp only [List.map_cons, List.map_nil, List.sum_cons, List.sum_nil, Nat.add_zero]
    have hL : l.size = (partition env heap brecord).2.1.size := by
      show l.prims.size = _
      rw [hl]
    have hR : r.size = (partition env heap brecord).2.2.1.size := by
      show r.prims.size = _
      rw [hr]
    have hB : brecord.size = brecord.prims.size := rfl
    omega

/-- The growth loop of `createLargeLeaf` when it performs no temporal split
and ends normally on a record whose set satisfies the invariant: no buffer got
shorter, the sets of the children satisfy the invariant, and the sizes of the
children add up to the size of the record. -/
theorem largeLeafGrow_count_log {T : Sig} (env : Env T) (s : Settings T)
    (hO : ObjectContract env) (current : BuildRecord T) (st : State T)
    (n : Nat) (c : LocalChildListT T) (st1 : State T)
    (hwf : SetMB.WF st.heap current.prims)
    (hlog : ∀ x ∈ largeLeafGrowLog env s current.depth n (LocalChildListT.new current) st,
      x.2.split.data ≠ SPLIT_TEMPORAL)
    (hg : largeLeafGrow env s current.depth n (LocalChildListT.new current) st = (.ok c, st1)) :
    Heap.le st.heap st1.heap ∧ (∀ ch ∈ c.children, SetMB.WF st1.heap ch.prims) ∧
    (c.children.map BuildRecord.size).sum = current.size :=
  largeLeafGrow_logged env s current.depth
    (fun c st1 => Heap.le st.heap st1.heap ∧ (∀ ch ∈ c.children, SetMB.WF st1.heap ch.prims) ∧
      (c.children.map BuildRecord.size).sum = current.size)
    (fun x => x.2.split.data ≠ SPLIT_TEMPORAL)
    (by
      intro c st1 best brecord c1 deleted ⟨hle, hch, hsum⟩ hP _ hb _ hc1
      obtain ⟨h1, h2, h3⟩ := children_count_step env hO st1.heap brecord _ _ _ _ best rfl rfl
        hc1 hch hb hP
      exact ⟨Heap.le_trans hle h1, h2, by rw [h3]; exact hsum⟩)
    n (LocalChildListT.new current) st c st1
    ⟨Heap.le_refl _, by
      intro ch hch
      simp only [LocalChildListT.new, List.mem_singleton] at hch
      subst hch
      exact hwf, by simp [LocalChildListT.new]⟩ hlog hg

/-- The growth loop of `recurse` when it performs no temporal split and ends
normally on a record whose set satisfies the invariant: no buffer got shorter,
the sets of the children satisfy the invariant, and the sizes of the children
add up to the size of the record. -/
theorem recurseGrow_count_log {T : Sig} (env : Env T) (s : Settings T)
    (hO : ObjectContract env) (current : BuildRecord T) (st : State T)
    (n : Nat) (c : LocalChildListT T) (st1 : State T)
    (hwf : SetMB.WF st.heap current.prims)
    (hlog : ∀ x ∈ recurseGrowLog env s current.depth n (LocalChildListT.new current) st,
      x.2.split.data ≠ SPLIT_TEMPORAL)
    (hg : recurseGrow env s current.depth n (LocalChildListT.new current) st = (.ok c, st1)) :
    Heap.le st.heap st1.heap ∧ (∀ ch ∈ c.children, SetMB.WF st1.heap ch.prims) ∧
    (c.children.map BuildRecord.size).sum = current.size :=
  recurseGrow_logged env s current.depth
    (fun c st1 => Heap.le st.heap st1.heap ∧ (∀ ch ∈ c.children, SetMB.WF st1.heap ch.prims) ∧
      (c.children.map BuildRecord.size).sum = current.size)
    (fun x => x.2.split.data ≠ SPLIT_TEMPORAL)
    (by
      intro c st1 best brecord c1 deleted ⟨hle, hch, hsum⟩ hP _ hb _ hc1
      obtain ⟨h1, h2, h3⟩ := children_count_step env hO st1.heap brecord _ _ _ _ best rfl rfl
        hc1 hch hb hP
      exact ⟨Heap.le_trans hle h1, h2, by rw [h3]; exact hsum⟩)
    n (LocalChildListT.new current) st c st1
    ⟨Heap.le_refl _, by
      intro ch hch
      simp only [LocalChildListT.new, List.mem_singleton] at hch
      subst hch
      exact hwf, by simp [LocalChildListT.new]⟩ hlog hg

/-- The partitions of `createLargeLeaf` on a record that becomes an inner
node: those of the growth loop, then those of the calls on the children. -/
theorem createLargeLeafLog_node_eq {T : Sig} (env : Env T) (s : Settings T) (fuel : Nat)
    (c : BuildRecord T) (alloc : Alloc) (st : State T) (hd : ¬ c.depth > s.maxDepth)
    (hleaf : ¬ isLargeLeaf s { c with split := findFallback env s st.heap c } = true)
    (ch : LocalChildListT T) (st1 : State T)
    (hg : largeLeafGrow env s c.depth (s.branchingFactor + 1)
      (LocalChildListT.new { c with split := findFallback env s st.heap c }) st = (.ok ch, st1)) :
    createLargeLeafLog env s (fuel + 1) c alloc st =
      largeLeafGrowLog env s c.depth (s.branchingFactor + 1)
          (LocalChildListT.new { c with split := findFallback env s st.heap c }) st ++
        visitLog (fun d st0 => createLargeLeaf env s fuel d alloc st0)
          (fun d st0 => createLargeLeafLog env s fuel d alloc st0)
          (env.createNode
            (hasTimeSplits env { c with split := findFallback env s st.heap c } ch) alloc)
          ch.children.enum
          (st1.emit (.createNode
            (hasTimeSplits env { c with split := findFallback env s st.heap c } ch) alloc
            (env.createNode
              (hasTimeSplits env { c with split := findFallback env s st.heap c } ch)
              alloc))) := by
  rw [MSMBlur.createLargeLeafLog, if_neg hd]
  simp only [hleaf, hg]
  rfl

/-- The partitions of the leaf path of `recurse`. -/
theorem recurseLog_leaf_eq {T : Sig} (env : Env T) (s : Settings T) (fuel : Nat)
    (c : BuildRecord T) (alloc0 : Alloc) (toplevel : Bool) (st0 : State T)
    (hcond : recurseLeafCond env s c = true) :
    recurseLog env s (fuel + 1) c alloc0 toplevel st0 =
      createLargeLeafLog env s fuel c (recurseEnter s c alloc0 toplevel st0).1
        { (recurseEnter s c alloc0 toplevel st0).2 with
          heap := deterministic_order env (recurseEnter s c alloc0 toplevel st0).2.heap c.prims } := by
  rw [MSMBlur.recurseLog]
  simp only [hcond, if_true]

/-- The splitting path of `recurse` above `singleThreadThreshold`, after a
growth loop that ended normally. -/
theorem recurse_par_eq {T : Sig} (env : Env T) (s : Settings T) (fuel : Nat)
    (c : BuildRecord T) (alloc0 : Alloc) (toplevel : Bool) (st0 : State T)
    (hcond : ¬ recurseLeafCond env s c = true) (hsize : c.size > s.singleThreadThreshold)
    (ch : LocalChildListT T) (st1 : State T)
    (hg : recurseGrow env s c.depth (s.branchingFactor + 1) (LocalChildListT.new c)
      (recurseEnter s c alloc0 toplevel st0).2 = (.ok ch, st1)) :
    recurse env s (fuel + 1) c alloc0 toplevel st0 =
      finishNode env c ch (hasTimeSplits env c ch)
        (env.createNode (hasTimeSplits env c ch) (recurseEnter s c alloc0 toplevel st0).1)
        (visitChildren (fun d st => recurse env s fuel d none true st)
          (env.createNode (hasTimeSplits env c ch) (recurseEnter s c alloc0 toplevel st0).1)
          ch.children.enum
          (st1.emit (.createNode (hasTimeSplits env c ch)
            (recurseEnter s c alloc0 toplevel st0).1
            (env.createNode (hasTimeSplits env c ch)
              (recurseEnter s c alloc0 toplevel st0).1)))) := by
  rw [MSMBlur.recurse, if_neg hcond]
  unfold recurseSplit
  rw [hg]
  simp only [if_pos hsize]

/-- The splitting path of `recurse` up to `singleThreadThreshold`, after a
growth loop that ended normally. -/
theorem recurse_seq_eq {T : Sig} (env : Env T) (s : Settings T) (fuel : Nat)
    (c : BuildRecord T) (alloc0 : Alloc) (toplevel : Bool) (st0 : State T)
    (hcond : ¬ recurseLeafCond env s c = true) (hsize : ¬ c.size > s.singleThreadThreshold)
    (ch : LocalChildListT T) (st1 : State T)
    (hg : recurseGrow env s c.depth (s.branchingFactor + 1) (LocalChildListT.new c)
      (recurseEnter s c alloc0 toplevel st0).2 = (.ok ch, st1)) :
    recurse env s (fuel + 1) c alloc0 toplevel st0 =
      finishNode env c ch (hasTimeSplits env c ch)
        (env.createNode (hasTimeSplits env c ch) (recurseEnter s c alloc0 toplevel st0).1)
        ((visitChildren
            (fun d st => recurse env s fuel d (recurseEnter s c alloc0 toplevel st0).1 false st)
            (env.createNode (hasTimeSplits env c ch) (recurseEnter s c alloc0 toplevel st0).1)
            ch.children.enum.reverse
            (st1.emit (.createNode (hasTimeSplits env c ch)
              (recurseEnter s c alloc0 toplevel st0).1
              (env.createNode (hasTimeSplits env c ch)
                (recurseEnter s c alloc0 toplevel st0).1)))).1.map List.reverse,
         (visitChildren
            (fun d st => recurse env s fuel d (recurseEnter s c alloc0 toplevel st0).1 false st)
            (env.createNode (hasTimeSplits env c ch) (recurseEnter s c alloc0 toplevel st0).1)
            ch.children.enum.reverse
            (st1.emit (.createNode (hasTimeSplits env c ch)
              (recurseEnter s c alloc0 toplevel st0).1
              (env.createNode (hasTimeSplits env c ch)
                (recurseEnter s c alloc0 toplevel st0).1)))).2) := by
  rw [MSMBlur.recurse, if_neg hcond]
  unfold recurseSplit
  rw [hg]
  simp only [if_neg hsize]

/-- The partitions of the splitting path of `recurse` above
`singleThreadThreshold`, after a growth loop that ended normally. -/
theorem recurseLog_par_eq {T : Sig} (env : Env T) (s : Settings T) (fuel : Nat)
    (c : BuildRecord T) (alloc0 : Alloc) (toplevel : Bool) (st0 : State T)
    (hcond : ¬ recurseLeafCond env s c = true) (hsize : c.size > s.singleThreadThreshold)
    (ch : LocalChildListT T) (st1 : State T)
    (hg : recurseGrow env s c.depth (s.branchingFactor + 1) (LocalChildListT.new c)
      (recurseEnter s c alloc0 toplevel st0).2 = (.ok ch, st1)) :
    recurseLog env s (fuel + 1) c alloc0 toplevel st0 =
      recurseGrowLog env s c.depth (s.branchingFactor + 1) (LocalChildListT.new c)
          (recurseEnter s c alloc0 toplevel st0).2 ++
        visitLog (fun d st => recurse env s fuel d none true st)
          (fun d st => recurseLog env s fuel d none true st)
          (env.createNode (hasTimeSplits env c ch) (recurseEnter s c alloc0 toplevel st0).1)
          ch.children.enum
          (st1.emit (.createNode (hasTimeSplits env c ch)
            (recurseEnter s c alloc0 toplevel st0).1
            (env.createNode (hasTimeSplits env c ch)
              (recurseEnter s c alloc0 toplevel st0).1))) := by
  rw [MSMBlur.recurseLog]
  simp only [hcond, hg, if_pos hsize]
  rfl

/-- The partitions of the splitting path of `recurse` up to
`singleThreadThreshold`, after a growth loop that ended normally. -/
theorem recurseLog_seq_eq {T : Sig} (env : Env T) (s : Settings T) (fuel : Nat)
    (c : BuildRecord T) (alloc0 : Alloc) (toplevel : Bool) (st0 : State T)
    (hcond : ¬ recurseLeafCond env s c = true) (hsize : ¬ c.size > s.singleThreadThreshold)
    (ch : LocalChildListT T) (st1 : State T)
    (hg : recurseGrow env s c.depth (s.branchingFactor + 1) (LocalChildListT.new c)
      (recurseEnter s c alloc0 toplevel st0).2 = (.ok ch, st1)) :
    recurseLog env s (fuel + 1) c alloc0 toplevel st0 =
      recurseGrowLog env s c.depth (s.branchingFactor + 1) (LocalChildListT.new c)
          (recurseEnter s c alloc0 toplevel st0).2 ++
        visitLog
          (fun d st => recurse env s fuel d (recurseEnter s c alloc0 toplevel st0).1 false st)
          (fun d st => recurseLog env s fuel d (recurseEnter s c alloc0 toplevel st0).1 false st)
          (env.createNode (hasTimeSplits env c ch) (recurseEnter s c alloc0 toplevel st0).1)
          ch.children.enum.reverse
          (st1.emit (.createNode (hasTimeSplits env c ch)
            (recurseEnter s c alloc0 toplevel st0).1
            (env.createNode (hasTimeSplits env c ch)
              (recurseEnter s c alloc0 toplevel st0).1))) := by
  rw [MSMBlur.recurseLog]
  simp only [hcond, hg, if_neg hsize]
  rfl

/-- When the growth loop of `recurse` raises an error, so does `recurse` on
the splitting path. -/
theorem recurse_grow_error {T : Sig} (env : Env T) (s : Settings T) (fuel : Nat)
    (c : BuildRecord T) (alloc0 : Alloc) (toplevel : Bool) (st0 : State T)
    (hcond : ¬ recurseLeafCond env s c = true) (e : Error) (st1 : State T)
    (hg : recurseGrow env s c.depth (s.branchingFactor + 1) (LocalChildListT.new c)
      (recurseEnter s c alloc0 toplevel st0).2 = (.error e, st1)) :
    recurse env s (fuel + 1) c alloc0 toplevel st0 = (.error e, st1) := by
  rw [MSMBlur.recurse, if_neg hcond]
  unfold recurseSplit
  rw [hg]

/-- When the growth loop of `createLargeLeaf` raises an error, so does
`createLargeLeaf` on a record that is no leaf. -/
theorem createLargeLeaf_grow_error {T : Sig} (env : Env T) (s : Settings T) (fuel : Nat)
    (c : BuildRecord T) (alloc : Alloc) (st : State T) (hd : ¬ c.depth > s.maxDepth)
    (hleaf : ¬ isLargeLeaf s { c with split := findFallback env s st.heap c } = true)
    (e : Error) (st1 : State T)
    (hg : largeLeafGrow env s c.depth (s.branchingFactor + 1)
      (LocalChildListT.new { c with split := findFallback env s st.heap c }) st
        = (.error e, st1)) :
    createLargeLeaf env s (fuel + 1) c alloc st = (.error e, st1) := by
  rw [MSMBlur.createLargeLeaf, if_neg hd]
  simp only [hleaf, hg]
  rfl

/-- The leaves of `createLargeLeaf` when it performs no temporal split: when a
call on a record whose set satisfies the invariant returns and no record
partitioned during the call carries a temporal split, no buffer got shorter
and the leaves it created hold as many primitives as the record. -/
theorem createLargeLeaf_count_log {T : Sig} (env : Env T) (s : Settings T)
    (hO : ObjectContract env) :
    ∀ (fuel : Nat) (current : BuildRecord T) (alloc : Alloc) (st : State T) (v : Value T)
      (st9 : State T), SetMB.WF st.heap current.prims →
      (∀ x ∈ createLargeLeafLog env s fuel current alloc st,
        x.2.split.data ≠ SPLIT_TEMPORAL) →
      createLargeLeaf env s fuel current alloc st = (.ok v, st9) →
      Heap.le st.heap st9.heap ∧ leafTotal st9.trace = leafTotal st.trace + current.size := by
  have hL := leafTotalKept_driverRel env
  intro fuel
  induction fuel with
  | zero => intro current alloc st v st9 _ _ h; simp [MSMBlur.createLargeLeaf] at h
  | succ fuel ih =>
    intro current alloc st v st9 hwf hlog h
    by_cases hd : current.depth > s.maxDepth
    · rw [MSMBlur.createLargeLeaf, if_pos hd] at h
      simp at h
    · by_cases hleaf : isLargeLeaf s
          { current with split := findFallback env s st.heap current } = true
      · rw [createLargeLeaf_leaf_eq env s fuel current alloc st hd hleaf] at h
        simp only [Prod.mk.injEq, Except.ok.injEq] at h
        obtain ⟨-, rfl⟩ := h
        refine ⟨Heap.le_refl _, ?_⟩
        simp only [State.emit, leafTotal_append]
        simp [leafTotal, leafRecords, BuildRecord.size]
      · cases hgrow : largeLeafGrow env s current.depth (s.branchingFactor + 1)
            (LocalChildListT.new
              { current with split := findFallback env s st.heap current }) st with
        | mk r st1 =>
          cases r with
          | error e =>
            rw [createLargeLeaf_grow_error env s fuel current alloc st hd hleaf e st1 hgrow] at h
            simp at h
          | ok c =>
            have hkeep := hL.largeLeafGrow growKinds_not_leaf s current.depth
              (s.branchingFactor + 1)
              (LocalChildListT.new { current with split := findFallback env s st.heap current })
              st
            rw [hgrow] at hkeep
            simp only at hkeep
            rw [createLargeLeaf_node_eq env s fuel current alloc st hd hleaf c st1 hgrow] at h
            rw [createLargeLeafLog_node_eq env s fuel current alloc st hd hleaf c st1 hgrow]
              at hlog
            obtain ⟨hle, hch, hsum⟩ := largeLeafGrow_count_log env s hO
              { current with split := findFallback env s st.heap current } st _ c st1
              hwf (fun x hx => hlog x (List.mem_append_left _ hx)) hgrow
            obtain ⟨⟨vs, hvs⟩, hheap, hfin⟩ := finishNode_leafTotal env _ _ _ _ _ _ _ h
            cases hv : visitChildren
                (fun d st0 => createLargeLeaf env s fuel d alloc st0)
                (env.createNode (hasTimeSplits env
                  { current with split := findFallback env s st.heap current } c) alloc)
                c.children.enum
                (st1.emit (.createNode (hasTimeSplits env
                  { current with split := findFallback env s st.heap current } c) alloc
                  (env.createNode (hasTimeSplits env
                    { current with split := findFallback env s st.heap current } c)
                    alloc))) with
            | mk r2 st2 =>
              rw [hv] at hvs hheap hfin
              simp only at hvs hheap hfin
              subst hvs
              obtain ⟨h5, h6⟩ := visitChildren_sum_log
                (fun d st0 => createLargeLeaf env s fuel d alloc st0)
                (fun d st0 => createLargeLeafLog env s fuel d alloc st0) _
                (fun a b : State T => Heap.le a.heap b.heap)
                (fun _ => Heap.le_refl _) (fun _ _ _ => Heap.le_trans)
                (fun _ _ => Heap.le_refl _)
                (fun ch st0 => SetMB.WF st0.heap ch.prims)
                (fun ch st0 st2 hc hr => hc.mono hr)
                (fun st0 => leafTotal st0.trace)
                (fun st0 n i v => by
                  simp only [State.emit, leafTotal_append]
                  simp [leafTotal, leafRecords])
                BuildRecord.size
                (fun x => x.2.split.data ≠ SPLIT_TEMPORAL)
                (fun ch st0 v0 st3 hc hp hr => ih ch alloc st0 v0 st3 hc hp hr)
                _ _ _ _
                (by
                  intro ic hic
                  have hmem : ic.2 ∈ c.children := by
                    have := List.mem_map_of_mem Prod.snd hic
                    rwa [enum_map_snd] at this
                  exact hch ic.2 hmem)
                (fun x hx => hlog x (List.mem_append_right _ hx))
                hv
              rw [enum_map_snd, hsum] at h6
              refine ⟨?_, ?_⟩
              · rw [hheap]
                exact Heap.le_trans hle h5
              · rw [hfin, h6]
                simp only [State.emit, leafTotal_append, hkeep]
                simp [leafTotal, leafRecords, BuildRecord.size]

/-- The leaves of `recurse` when it performs no temporal split, for an object
partitioner that keeps the invariant of the sets and the number of
primitives: when a call on a record whose set satisfies the invariant returns
and no record partitioned during the call carries a temporal split, no buffer
got shorter and the leaves it created hold as many primitives as the
record. -/
theorem recurse_count_log {T : Sig} (env : Env T) (s : Settings T) (hO : ObjectContract env) :
    ∀ (fuel : Nat) (current : BuildRecord T) (alloc : Alloc) (toplevel : Bool) (st : State T)
      (v : Value T) (st9 : State T), SetMB.WF st.heap current.prims →
      (∀ x ∈ recurseLog env s fuel current alloc toplevel st,
        x.2.split.data ≠ SPLIT_TEMPORAL) →
      recurse env s fuel current alloc toplevel st = (.ok v, st9) →
      Heap.le st.heap st9.heap ∧ leafTotal st9.trace = leafTotal st.trace + current.size := by
  have hL := leafTotalKept_driverRel env
  intro fuel
  induction fuel with
  | zero => intro current alloc toplevel st v st9 _ _ h; simp [MSMBlur.recurse] at h
  | succ fuel ih =>
    intro current alloc toplevel st v st9 hwf hlog h
    have henter := recurseEnter_heap s current alloc toplevel st
    have hkeep0 := hL.recurseEnter (fun _ _ _ _ h => by cases h) (fun _ _ _ _ h => by cases h)
      s current alloc toplevel st
    simp only at hkeep0
    by_cases hcond : recurseLeafCond env s current = true
    · rw [recurse_leaf_eq env s fuel current alloc toplevel st hcond] at h
      rw [recurseLog_leaf_eq env s fuel current alloc toplevel st hcond] at hlog
      obtain ⟨h1, h2⟩ := createLargeLeaf_count_log env s hO fuel current _ _ v st9
        (by
          simp only
          rw [henter]
          exact hwf.mono (deterministic_order_le env st.heap current.prims)) hlog h
      simp only at h1 h2
      rw [henter] at h1
      exact ⟨Heap.le_trans (deterministic_order_le env st.heap current.prims) h1,
        by rw [h2, hkeep0]⟩
    · cases hgrow : recurseGrow env s current.depth (s.branchingFactor + 1)
          (LocalChildListT.new current) (recurseEnter s current alloc toplevel st).2 with
      | mk r st1 =>
        cases r with
        | error e =>
          rw [recurse_grow_error env s fuel current alloc toplevel st hcond e st1 hgrow] at h
          simp at h
        | ok c =>
          have hkeep := hL.recurseGrow growKinds_not_leaf s current.depth
            (s.branchingFactor + 1) (LocalChildListT.new current)
            (recurseEnter s current alloc toplevel st).2
          rw [hgrow] at hkeep
          simp only at hkeep
          have hnode : leafTotal (st1.emit (.createNode (hasTimeSplits env current c)
              (recurseEnter s current alloc toplevel st).1
              (env.createNode (hasTimeSplits env current c)
                (recurseEnter s current alloc toplevel st).1))).trace = leafTotal st.trace := by
            simp only [State.emit, leafTotal_append, hkeep, hkeep0]
            simp [leafTotal, leafRecords]
          by_cases hsize : current.size > s.singleThreadThreshold
          · rw [recurse_par_eq env s fuel current alloc toplevel st hcond hsize c st1 hgrow] at h
            rw [recurseLog_par_eq env s fuel current alloc toplevel st hcond hsize c st1 hgrow]
              at hlog
            obtain ⟨hle, hch, hsum⟩ := recurseGrow_count_log env s hO current _ _ c st1
              (by rw [henter]; exact hwf)
              (fun x hx => hlog x (List.mem_append_left _ hx)) hgrow
            rw [henter] at hle
            obtain ⟨⟨vs, hvs⟩, hheap, hfin⟩ := finishNode_leafTotal env _ _ _ _ _ _ _ h
            cases hv : visitChildren
                (fun d st0 => recurse env s fuel d none true st0)
                (env.createNode (hasTimeSplits env current c)
                  (recurseEnter s current alloc toplevel st).1)
                c.children.enum
                (st1.emit (.createNode (hasTimeSplits env current c)
                  (recurseEnter s current alloc toplevel st).1
                  (env.createNode (hasTimeSplits env current c)
                    (recurseEnter s current alloc toplevel st).1))) with
            | mk r2 st2 =>
              rw [hv] at hvs hheap hfin
              simp only at hvs hheap hfin
              subst hvs
              obtain ⟨h5, h6⟩ := visitChildren_sum_log
                (fun d st0 => recurse env s fuel d none true st0)
                (fun d st0 => recurseLog env s fuel d none true st0) _
                (fun a b : State T => Heap.le a.heap b.heap)
                (fun _ => Heap.le_refl _) (fun _ _ _ => Heap.le_trans)
                (fun _ _ => Heap.le_refl _)
                (fun ch st0 => SetMB.WF st0.heap ch.prims)
                (fun ch st0 st2 hc hr => hc.mono hr)
                (fun st0 => leafTotal st0.trace)
                (fun st0 n i v => by
                  simp only [State.emit, leafTotal_append]
                  simp [leafTotal, leafRecords])
                BuildRecord.size
                (fun x => x.2.split.data ≠ SPLIT_TEMPORAL)
                (fun ch st0 v0 st3 hc hp hr => ih ch none true st0 v0 st3 hc hp hr)
                _ _ _ _
                (by
                  intro ic hic
                  have hmem : ic.2 ∈ c.children := by
                    have := List.mem_map_of_mem Prod.snd hic
                    rwa [enum_map_snd] at this
                  exact hch ic.2 hmem)
                (fun x hx => hlog x (List.mem_append_right _ hx))
                hv
              rw [enum_map_snd, hsum, hnode] at h6
              exact ⟨by rw [hheap]; exact Heap.le_trans hle h5, by rw [hfin, h6]⟩
          · rw [recurse_seq_eq env s fuel current alloc toplevel st hcond hsize c st1 hgrow] at h
            rw [recurseLog_seq_eq env s fuel current alloc toplevel st hcond hsize c st1 hgrow]
              at hlog
            obtain ⟨hle, hch, hsum⟩ := recurseGrow_count_log env s hO current _ _ c st1
              (by rw [henter]; exact hwf)
              (fun x hx => hlog x (List.mem_append_left _ hx)) hgrow
            rw [henter] at hle
            obtain ⟨⟨vs, hvs⟩, hheap, hfin⟩ := finishNode_leafTotal env _ _ _ _ _ _ _ h
            cases hv : visitChildren
                (fun d st0 => recurse env s fuel d
                  (recurseEnter s current alloc toplevel st).1 false st0)
                (env.createNode (hasTimeSplits env current c)
                  (recurseEnter s current alloc toplevel st).1)
                c.children.enum.reverse
                (st1.emit (.createNode (hasTimeSplits env current c)
                  (recurseEnter s current alloc toplevel st).1
                  (env.createNode (hasTimeSplits env current c)
                    (recurseEnter s current alloc toplevel st).1))) with
            | mk r2 st2 =>
              rw [hv] at hvs hheap hfin
              simp only at hvs hheap hfin
              cases r2 with
              | error e => simp [Except.map] at hvs
              | ok ws =>
                obtain ⟨h5, h6⟩ := visitChildren_sum_log
                  (fun d st0 => recurse env s fuel d
                    (recurseEnter s current alloc toplevel st).1 false st0)
                  (fun d st0 => recurseLog env s fuel d
                    (recurseEnter s current alloc toplevel st).1 false st0) _
                  (fun a b : State T => Heap.le a.heap b.heap)
                  (fun _ => Heap.le_refl _) (fun _ _ _ => Heap.le_trans)
                  (fun _ _ => Heap.le_refl _)
                  (fun ch st0 => SetMB.WF st0.heap ch.prims)
                  (fun ch st0 st2 hc hr => hc.mono hr)
                  (fun st0 => leafTotal st0.trace)
                  (fun st0 n i v => by
                    simp only [State.emit, leafTotal_append]
                    simp [leafTotal, leafRecords])
                  BuildRecord.size
                  (fun x => x.2.split.data ≠ SPLIT_TEMPORAL)
                  (fun ch st0 v0 st3 hc hp hr => ih ch _ false st0 v0 st3 hc hp hr)
                  _ _ _ _
                  (by
                    intro ic hic
                    have hmem : ic.2 ∈ c.children := by
                      have := List.mem_map_of_mem Prod.snd (List.mem_reverse.1 hic)
                      rwa [enum_map_snd] at this
                    exact hch ic.2 hmem)
                  (fun x hx => hlog x (List.mem_append_right _ hx))
                  hv
                rw [List.map_reverse, List.map_reverse, List.sum_reverse, enum_map_snd, hsum,
                  hnode] at h6
                exact ⟨by rw [hheap]; exact Heap.le_trans hle h5, by rw [hfin, h6]⟩

/-- The partitions of a build with an accepted branching factor are those of
the call of `recurse` on the record of all primitives. -/
theorem buildLog_eq {T : Sig} (env : Env T) (s : Settings T) (fuel : Nat)
    (prims : List (PrimRefMB T)) (pinfo : PrimInfoMB T) (hbf : ¬ s.branchingFactor > 8) :
    buildLog env s fuel prims pinfo =
      recurseLog env s fuel
        { BuildRecord.ofDepth env 1 (rootSet env pinfo) with
          split := (find env [prims] (rootSet env pinfo) s.logBlockSize).1 }
        none true
        (({ heap := [prims], trace := [], numAllocs := 0 } : State T).emits
          (find env [prims] (rootSet env pinfo) s.logBlockSize).2) := by
  unfold buildLog BuilderT.new MAX_BRANCHING_FACTOR
  rw [if_neg hbf]
  rfl

/-- C11, amended: for a depth limit below `2^64 - 1`, partitioners that keep
the invariant of the sets, expected half areas that exceed `neg_inf` and an
input whose count `pinfo.size()` lies inside the buffer, `build` terminates
within `maxDepth + 2` levels of recursion: it returns a root, or raises the
configuration error, or raises the depth-limit error. When it returns a root
and no temporal split is performed during the build, that is no record
partitioned during the build carries a temporal split, the total number of
primitives over the leaves equals the input count. -/
theorem build_terminates_and_counts {T : Sig} (env : Env T) (s : Settings T)
    (prims : List (PrimRefMB T)) (pinfo : PrimInfoMB T) (fuel : Nat)
    (hmax : s.maxDepth + 1 < 18446744073709551616)
    (hT : TemporalContract env) (hO : ObjectContract env)
    (harea : ∀ g, env.flt env.neg_inf (env.expectedApproxHalfArea g) = true)
    (hin : pinfo.num ≤ prims.length) (hsmall : pinfo.num < 9223372036854775808)
    (hfuel : s.maxDepth + 2 ≤ fuel) :
    ((∃ v, (build env s fuel prims pinfo).1 = .ok v) ∨
      (build env s fuel prims pinfo).1 = .error .branchingFactorTooLarge ∨
      (build env s fuel prims pinfo).1 = .error .depthLimitReached) ∧
    ((∀ x ∈ buildLog env s fuel prims pinfo, x.2.split.data ≠ SPLIT_TEMPORAL) →
      ∀ v, (build env s fuel prims pinfo).1 = .ok v →
        leafTotal (build env s fuel prims pinfo).2.trace = pinfo.num) := by
  have hwf : SetMB.WF [prims] (rootSet env pinfo) :=
    ⟨rfl, Nat.zero_le _, hin, hsmall⟩
  rw [build_eq]
  by_cases hbf : s.branchingFactor > 8
  · rw [if_pos hbf]
    exact ⟨Or.inr (Or.inl rfl), fun _ v h => by cases h⟩
  · rw [if_neg hbf, buildLog_eq env s fuel prims pinfo hbf]
    unfold BuilderT.run
    constructor
    · obtain ⟨-, h⟩ := recurse_total env s (by omega) hmax hT hO harea fuel
        { BuildRecord.ofDepth env 1 (rootSet env pinfo) with
          split := (find env [prims] (rootSet env pinfo) s.logBlockSize).1 }
        none true
        (({ heap := [prims], trace := [], numAllocs := 0 } : State T).emits
          (find env [prims] (rootSet env pinfo) s.logBlockSize).2)
        hwf (by simp [BuildRecord.ofDepth]) (by omega)
        (by simp only [BuildRecord.ofDepth]; omega)
      rcases h with h | ⟨e, he, rfl⟩
      · exact Or.inl h
      · exact Or.inr (Or.inr he)
    · intro hlog v hv
      cases hr : recurse env s fuel
          { BuildRecord.ofDepth env 1 (rootSet env pinfo) with
            split := (find env [prims] (rootSet env pinfo) s.logBlockSize).1 }
          none true
          (({ heap := [prims], trace := [], numAllocs := 0 } : State T).emits
            (find env [prims] (rootSet env pinfo) s.logBlockSize).2) with
      | mk r st9 =>
        have hv1 : (recurse env s fuel
          { BuildRecord.ofDepth env 1 (rootSet env pinfo) with
            split := (find env [prims] (rootSet env pinfo) s.logBlockSize).1 }
          none true
          (({ heap := [prims], trace := [], numAllocs := 0 } : State T).emits
            (find env [prims] (rootSet env pinfo) s.logBlockSize).2)).1 = .ok v := hv
        rw [hr] at hv1
        simp only at hv1
        subst hv1
        obtain ⟨-, h2⟩ := recurse_count_log env s hO fuel _ none true _ v st9 hwf hlog hr
        have h0 : leafTotal ((({ heap := [prims], trace := [], numAllocs := 0 } : State T).emits
            (find env [prims] (rootSet env pinfo) s.logBlockSize).2).trace) = 0 := by
          apply leafTotal_eq_zero
          intro e he
          simp only [State.emits, List.nil_append] at he
          exact find_kinds env growKinds_not_leaf _ _ _ e he
        rw [h0] at h2
        have hgoal : leafTotal (recurse env s fuel
            { BuildRecord.ofDepth env 1 (rootSet env pinfo) with
              split := (find env [prims] (rootSet env pinfo) s.logBlockSize).1 }
            none true
            (({ heap := [prims], trace := [], numAllocs := 0 } : State T).emits
              (find env [prims] (rootSet env pinfo) s.logBlockSize).2)).2.trace = pinfo.num := by
          rw [hr]
          simp only
          rw [h2]
          simp [BuildRecord.size, BuildRecord.ofDepth, rootSet, SetMB.size]
        exact hgoal

/-- The amended C11 on ten primitives with one time segment each, with
`singleLeafTimeSegment` set and fuel 34: the build partitions one record, by
an object split, and returns a root whose leaves hold ten primitives. -/
theorem build_terminates_and_counts_witness :
    (buildLog exEnv exSettingsSegment 34 (exPrims 10)
      { geom := (), num := 10, max_num_time_segments := 1 }).map (fun x => x.2.split.data)
        = [SPLIT_OBJECT] ∧
    ((∃ v, (build exEnv exSettingsSegment 34 (exPrims 10)
        { geom := (), num := 10, max_num_time_segments := 1 }).1 = .ok v) ∨
      (build exEnv exSettingsSegment 34 (exPrims 10)
        { geom := (), num := 10, max_num_time_segments := 1 }).1
          = .error .branchingFactorTooLarge ∨
      (build exEnv exSettingsSegment 34 (exPrims 10)
        { geom := (), num := 10, max_num_time_segments := 1 }).1
          = .error .depthLimitReached) ∧
    leafTotal (build exEnv exSettingsSegment 34 (exPrims 10)
      { geom := (), num := 10, max_num_time_segments := 1 }).2.trace = 10 :=
  have h := build_terminates_and_counts exEnv exSettingsSegment (exPrims 10)
    { geom := (), num := 10, max_num_time_segments := 1 } 34 (by decide)
    exEnv_temporalContract exEnv_objectContract (fun _ => rfl) (by decide) (by decide)
    (by decide)
  ⟨by decide, h.1, h.2 (by decide) _ rfl⟩

end MSMBlur
